import Mathlib

/-! Gwork control tree (`Gwk::Controls::Base`).

A shallow embedding of `source/gwork/source/Controls/Base.cpp` together with the inline
members of `Controls/Base.h`.

* Controls live in a heap indexed by natural numbers; a `Base*` is an `Option Nat`
  (`none` is `nullptr`).
* The three process-wide references `Gwk::HoveredControl`, `Gwk::KeyboardFocus` and
  `Gwk::MouseFocus` are fields of the `World`.
* The virtual hooks that are empty in `Base` (`Layout`, `PostLayout`, `OnKeyboardFocus`,
  `OnLostKeyboardFocus`) are recorded in a trace, in call order.
* `int` is modelled by `Int`; signed overflow is undefined behaviour in C++ and is outside
  the model.
* Recursion that follows pointers (parent chain, inner-panel chain, child lists) takes a fuel
  argument and returns `none` when the fuel is exhausted.
-/

namespace Gwk

/-! ## Geometry primitives -/

structure Point where
  x : Int := 0
  y : Int := 0
  deriving DecidableEq, Repr

structure Rect where
  x : Int := 0
  y : Int := 0
  w : Int := 0
  h : Int := 0
  deriving DecidableEq, Repr

structure Size where
  width : Int := 0
  height : Int := 0
  deriving DecidableEq, Repr

/-- Margin(left, top, right, bottom); `Padding` is the same type. -/
structure Margin where
  left : Int := 0
  top : Int := 0
  right : Int := 0
  bottom : Int := 0
  deriving DecidableEq, Repr

abbrev Padding := Margin

inductive SizeFlag where
  | Fixed
  | Shrink
  | Expand
  | Elastic
  | Bloat
  deriving DecidableEq, Repr

structure SizeFlags where
  horizontal : SizeFlag := SizeFlag.Expand
  vertical : SizeFlag := SizeFlag.Expand
  deriving DecidableEq, Repr

inductive Dim where
  | X
  | Y
  deriving DecidableEq, Repr

/-! ## Dock positions (bit mask, values of `Docking::Area` in Base.h) -/

namespace Position

def None : Nat := 0
def Left : Nat := 2
def Right : Nat := 4
def Top : Nat := 8
def Bottom : Nat := 16
def CenterV : Nat := 32
def CenterH : Nat := 64
def Fill : Nat := 128

end Position

/-- The test `dock & flag` of the source, as a boolean. -/
def hasFlag (dock flag : Nat) : Bool := (dock &&& flag) != 0

/-! ## Controls and the world -/

/-- Hooks of `Base` whose invocations are traced; `Accelerator n key` is the call of the
handler registered on `n` under `key`. -/
inductive Hook where
  | Layout (n : Nat)
  | PostLayout (n : Nat)
  | OnLostKeyboardFocus (n : Nat)
  | OnKeyboardFocus (n : Nat)
  | Accelerator (n : Nat) (key : String)
  deriving DecidableEq, Repr

/-- The data members of `Controls::Base` with the values `Base::Init` gives them.
`m_layoutItem` stands for the `LayoutItem` owned by the control: the class is declared
outside the given sources and is represented by the preferred size it reports.
`hasAlignment` is the result of `HasAlignment()`, `accelOnlyFocus` of `AccelOnlyFocus()`
and `shouldClip` of `ShouldClip()` (virtual, with the value `Base` returns as default),
`isCanvas`, `FirstTab` and `NextTab` belong to the `Canvas` subclass, `destroyed` records
that the destructor has run. `m_accelerators` holds the keys of the accelerator map. -/
structure Control where
  m_parent : Option Nat := none
  m_actualParent : Option Nat := none
  m_innerPanel : Option Nat := none
  Children : List Nat := []
  m_tooltip : Option Nat := none
  m_name : String := ""
  m_bounds : Rect := { x := 0, y := 0, w := 10, h := 10 }
  m_innerBounds : Rect := {}
  m_renderBounds : Rect := {}
  m_padding : Padding := {}
  m_margin : Margin := {}
  m_dock : Nat := Position.None
  m_sizeFlags : SizeFlags := {}
  m_minimumSize : Size := {}
  m_maximumSize : Size := { width := 2147483647, height := 2147483647 }
  m_preferredSize : Size := {}
  m_layoutItem : Option Size := none
  hasAlignment : Bool := false
  m_bRestrictToParent : Bool := false
  m_bDisabled : Bool := false
  m_bHidden : Bool := false
  m_bMouseInputEnabled : Bool := true
  m_bKeyboardInputEnabled : Bool := false
  m_bDrawBackground : Bool := true
  m_tabable : Bool := false
  m_bNeedsLayout : Bool := true
  m_bCacheTextureDirty : Bool := true
  m_bCacheToTexture : Bool := false
  m_bIncludeInSize : Bool := true
  m_accelerators : List String := []
  accelOnlyFocus : Bool := false
  shouldClip : Bool := true
  isCanvas : Bool := false
  FirstTab : Option Nat := none
  NextTab : Option Nat := none
  destroyed : Bool := false
  deriving DecidableEq, Repr

/-- The heap of controls, the global references and the hook trace. -/
structure World where
  ctrl : Nat → Control
  HoveredControl : Option Nat := none
  KeyboardFocus : Option Nat := none
  MouseFocus : Option Nat := none
  trace : List Hook := []

namespace World

/-- Apply `f` to the control at address `n`. -/
def modify (w : World) (n : Nat) (f : Control → Control) : World :=
  { w with ctrl := Function.update w.ctrl n (f (w.ctrl n)) }

/-- Append a hook invocation to the trace. -/
def emit (w : World) (e : Hook) : World :=
  { w with trace := w.trace ++ [e] }

/-- A world holding the listed controls at addresses `0, 1, ...` and freshly initialised
controls elsewhere. -/
def ofList (cs : List Control) : World :=
  { ctrl := fun i => cs.getD i {} }

end World

/-! ## Dirtying -/

/-- Base::Invalidate (Base.cpp 121-125). -/
def Invalidate (n : Nat) (w : World) : World :=
  w.modify n fun c => { c with m_bNeedsLayout := true, m_bCacheTextureDirty := true }

/-- Base::Redraw (Base.h 337-344): mark the cache dirty here and on every logical
ancestor. `UpdateColours` is an empty hook. -/
def Redraw : Nat → Nat → World → Option World
  | 0, _, _ => none
  | fuel + 1, n, w =>
    let w1 := w.modify n fun c => { c with m_bCacheTextureDirty := true }
    match (w1.ctrl n).m_parent with
    | some p => Redraw fuel p w1
    | none => some w1

/-- Base::InvalidateParent (Base.h 483-487). -/
def InvalidateParent (n : Nat) (w : World) : World :=
  match (w.ctrl n).m_parent with
  | some p => Invalidate p w
  | none => w

/-! ## Bounds -/

/-- Base::UpdateRenderBounds (Base.cpp 1383-1389). -/
def UpdateRenderBounds (n : Nat) (w : World) : World :=
  w.modify n fun c =>
    { c with m_renderBounds := { x := 0, y := 0, w := c.m_bounds.w, h := c.m_bounds.h } }

/-- Base::OnBoundsChanged (Base.cpp 540-553). The parent's `OnChildBoundsChanged` is an
empty hook in `Base`. -/
def OnBoundsChanged (fuel n : Nat) (oldBounds : Rect) (w : World) : Option World :=
  let w1 :=
    if (w.ctrl n).m_bounds.w ≠ oldBounds.w ∨ (w.ctrl n).m_bounds.h ≠ oldBounds.h then
      Invalidate n w
    else w
  (Redraw fuel n w1).map (UpdateRenderBounds n)

/-- Base::SetBounds (Base.cpp 490-499); the boolean is the value returned. -/
def SetBounds (fuel n : Nat) (bounds : Rect) (w : World) : Option (Bool × World) :=
  if (w.ctrl n).m_bounds = bounds then some (false, w)
  else
    let oldBounds := (w.ctrl n).m_bounds
    let w1 := w.modify n fun c => { c with m_bounds := bounds }
    (OnBoundsChanged fuel n oldBounds w1).map fun w2 => (true, w2)

/-- A call `child->SetBounds(x, y, w, h)` whose result is discarded. -/
def SetBoundsXYWH (fuel n : Nat) (x y wd ht : Int) (w : World) : Option World :=
  (SetBounds fuel n { x := x, y := y, w := wd, h := ht } w).map Prod.snd

/-! ## Layout: size calculation -/

/-- Base::ProcessLayout (Base.cpp 887-906): with a layout item the preferred size on the
axis is the item's preferred size plus the padding; the boolean is the value returned. -/
def ProcessLayout (n : Nat) (dim : Dim) (w : World) : Bool × World :=
  match (w.ctrl n).m_layoutItem with
  | some preferredSize =>
    (true, w.modify n fun c =>
      match dim with
      | Dim.X => { c with m_preferredSize :=
          { c.m_preferredSize with
            width := preferredSize.width + c.m_padding.left + c.m_padding.right } }
      | Dim.Y => { c with m_preferredSize :=
          { c.m_preferredSize with
            height := preferredSize.height + c.m_padding.top + c.m_padding.bottom } })
  | none => (false, w)

/-- The three running totals of a `SizeOfChildren` loop: the `width`/`height` maximum, the
additive dock bucket and the additive fill bucket. -/
structure Buckets where
  maxSize : Int := 0
  dockSize : Int := 0
  innerSize : Int := 0
  deriving DecidableEq, Repr

/-- One iteration of the horizontal loop of `SizeOfChildren` (Base.cpp 925-952), after the
child's own `CalculateSize`. -/
def bucketX (parentAlign : Bool) (child : Control) (acc : Buckets) : Buckets :=
  let dock := child.m_dock
  let childWidth := child.m_preferredSize.width + child.m_margin.left + child.m_margin.right
  if hasFlag dock Position.Top || hasFlag dock Position.Bottom then
    if childWidth > acc.maxSize then { acc with maxSize := childWidth } else acc
  else if hasFlag dock Position.Left || hasFlag dock Position.Right then
    { acc with dockSize := acc.dockSize + childWidth }
  else if hasFlag dock Position.Fill then
    { acc with innerSize := acc.innerSize + childWidth }
  else
    let childWidth := if !parentAlign then childWidth + child.m_bounds.x else childWidth
    if childWidth > acc.maxSize then { acc with maxSize := childWidth } else acc

/-- One iteration of the vertical loop of `SizeOfChildren` (Base.cpp 997-1025). -/
def bucketY (parentAlign : Bool) (child : Control) (acc : Buckets) : Buckets :=
  let dock := child.m_dock
  let childHeight := child.m_preferredSize.height + child.m_margin.top + child.m_margin.bottom
  if hasFlag dock Position.Top || hasFlag dock Position.Bottom then
    { acc with dockSize := acc.dockSize + childHeight }
  else if hasFlag dock Position.Left || hasFlag dock Position.Right then
    if childHeight > acc.maxSize then { acc with maxSize := childHeight } else acc
  else if hasFlag dock Position.Fill then
    { acc with innerSize := acc.innerSize + childHeight }
  else
    let childHeight := if !parentAlign then childHeight + child.m_bounds.y else childHeight
    if childHeight > acc.maxSize then { acc with maxSize := childHeight } else acc

/-- The loop body of `SizeOfChildren` on the axis `dim`. -/
def bucket (dim : Dim) (parentAlign : Bool) (child : Control) (acc : Buckets) : Buckets :=
  match dim with
  | Dim.X => bucketX parentAlign child acc
  | Dim.Y => bucketY parentAlign child acc

/-- The child loop of `SizeOfChildren`: hidden children are skipped, every other child
first computes its own size (`calcChild`) and is then added to the buckets. -/
def sizeLoop (calcChild : Nat → World → Option World) (dim : Dim) (parentAlign : Bool) :
    List Nat → Buckets → World → Option (Buckets × World)
  | [], acc, w => some (acc, w)
  | child :: rest, acc, w =>
    if (w.ctrl child).m_bHidden then sizeLoop calcChild dim parentAlign rest acc w
    else
      match calcChild child w with
      | none => none
      | some w1 =>
        sizeLoop calcChild dim parentAlign rest (bucket dim parentAlign (w1.ctrl child) acc) w1

/-- The size-flag policy at the end of `SizeOfChildren` (Base.cpp 958-975 and 1032-1049). -/
def applySizeFlag (flag : SizeFlag) (boundSize computed minimum maximum : Int) : Int :=
  match flag with
  | SizeFlag.Fixed => boundSize
  | SizeFlag.Shrink => min computed maximum
  | SizeFlag.Expand => max computed minimum
  | SizeFlag.Elastic => computed
  | SizeFlag.Bloat => max computed minimum

/-- Base::SizeOfChildren (Base.cpp 908-1053), given the recursive `CalculateSize` of the
children. -/
def SizeOfChildren (calcChild : Nat → World → Option World) (n : Nat) (dim : Dim) (w : World) :
    Option (Size × World) :=
  let preferredSize := (w.ctrl n).m_preferredSize
  match sizeLoop calcChild dim (w.ctrl n).hasAlignment (w.ctrl n).Children {} w with
  | none => none
  | some (acc, w1) =>
    let c := w1.ctrl n
    match dim with
    | Dim.X =>
      let width := max acc.maxSize (acc.dockSize + acc.innerSize)
        + (c.m_padding.left + c.m_padding.right)
      some ({ preferredSize with
        width := applySizeFlag c.m_sizeFlags.horizontal c.m_bounds.w width
          c.m_minimumSize.width c.m_maximumSize.width }, w1)
    | Dim.Y =>
      let height := max acc.maxSize (acc.dockSize + acc.innerSize)
        + (c.m_padding.top + c.m_padding.bottom)
      some ({ preferredSize with
        height := applySizeFlag c.m_sizeFlags.vertical c.m_bounds.h height
          c.m_minimumSize.height c.m_maximumSize.height }, w1)

/-- Base::CalculateSize (Base.cpp 1055-1064). -/
def CalculateSize : Nat → Nat → Dim → World → Option World
  | 0, _, _, _ => none
  | fuel + 1, n, dim, w =>
    match ProcessLayout n dim w with
    | (true, w1) => some w1
    | (false, w1) =>
      match SizeOfChildren (fun child => CalculateSize fuel child dim) n dim w1 with
      | none => none
      | some (size, w2) => some (w2.modify n fun c => { c with m_preferredSize := size })

/-! ## Layout: arrangement -/

/-- One iteration of the dock loop of `ArrangeHorizontal` (Base.cpp 1118-1173) for a child
that is not hidden; `innerBounds` is the remaining inner rectangle. -/
def dockStepX (rf child : Nat) (innerBounds : Rect) (w : World) : Option (Rect × World) :=
  let dock := (w.ctrl child).m_dock
  let margin := (w.ctrl child).m_margin
  let preferred := (w.ctrl child).m_preferredSize
  let bounds := (w.ctrl child).m_bounds
  let sizeFlags := (w.ctrl child).m_sizeFlags
  if hasFlag dock Position.Top then
    if sizeFlags.horizontal = SizeFlag.Fixed then
      (SetBoundsXYWH rf child (innerBounds.x + margin.left) bounds.y bounds.w bounds.h w).map
        fun w1 => (innerBounds, w1)
    else
      (SetBoundsXYWH rf child (innerBounds.x + margin.left) bounds.y
        (innerBounds.w - margin.left - margin.right) bounds.h w).map fun w1 => (innerBounds, w1)
  else if hasFlag dock Position.Left then
    (SetBoundsXYWH rf child (innerBounds.x + margin.left) bounds.y preferred.width bounds.h w).map
      fun w1 =>
        let iWidth := margin.left + margin.right + preferred.width
        ({ innerBounds with x := innerBounds.x + iWidth, w := innerBounds.w - iWidth }, w1)
  else if hasFlag dock Position.Right then
    (SetBoundsXYWH rf child ((innerBounds.x + innerBounds.w) - preferred.width - margin.right)
      bounds.y preferred.width bounds.h w).map
      fun w1 =>
        let iWidth := margin.left + margin.right + preferred.width
        ({ innerBounds with w := innerBounds.w - iWidth }, w1)
  else if hasFlag dock Position.Bottom then
    if sizeFlags.horizontal = SizeFlag.Fixed then
      (SetBoundsXYWH rf child innerBounds.x bounds.y bounds.w bounds.h w).map
        fun w1 => (innerBounds, w1)
    else
      (SetBoundsXYWH rf child innerBounds.x bounds.y
        (innerBounds.w - margin.left - margin.right) bounds.h w).map fun w1 => (innerBounds, w1)
  else if dock = Position.None then
    (SetBoundsXYWH rf child bounds.x bounds.y bounds.w bounds.h w).map
      fun w1 => (innerBounds, w1)
  else some (innerBounds, w)

/-- One iteration of the dock loop of `ArrangeVertical` (Base.cpp 1208-1263) for a child
that is not hidden. -/
def dockStepY (rf child : Nat) (innerBounds : Rect) (w : World) : Option (Rect × World) :=
  let dock := (w.ctrl child).m_dock
  let margin := (w.ctrl child).m_margin
  let preferred := (w.ctrl child).m_preferredSize
  let bounds := (w.ctrl child).m_bounds
  let sizeFlags := (w.ctrl child).m_sizeFlags
  if hasFlag dock Position.Top then
    (SetBoundsXYWH rf child bounds.x (innerBounds.y + margin.top) bounds.w preferred.height w).map
      fun w1 =>
        let iHeight := margin.top + margin.bottom + preferred.height
        ({ innerBounds with y := innerBounds.y + iHeight, h := innerBounds.h - iHeight }, w1)
  else if hasFlag dock Position.Left then
    if sizeFlags.vertical = SizeFlag.Fixed then
      (SetBoundsXYWH rf child bounds.x (innerBounds.y + margin.top) bounds.w bounds.h w).map
        fun w1 => (innerBounds, w1)
    else
      (SetBoundsXYWH rf child bounds.x (innerBounds.y + margin.top) bounds.w
        (innerBounds.h - margin.top - margin.bottom) w).map fun w1 => (innerBounds, w1)
  else if hasFlag dock Position.Right then
    if sizeFlags.vertical = SizeFlag.Fixed then
      (SetBoundsXYWH rf child bounds.x (innerBounds.y + margin.top) bounds.w bounds.h w).map
        fun w1 => (innerBounds, w1)
    else
      (SetBoundsXYWH rf child bounds.x (innerBounds.y + margin.top) bounds.w
        (innerBounds.h - margin.top - margin.bottom) w).map fun w1 => (innerBounds, w1)
  else if hasFlag dock Position.Bottom then
    (SetBoundsXYWH rf child bounds.x
      ((innerBounds.y + innerBounds.h) - preferred.height - margin.bottom)
      bounds.w preferred.height w).map
      fun w1 =>
        ({ innerBounds with
            h := innerBounds.h - (preferred.height + margin.bottom + margin.top) }, w1)
  else if dock = Position.None then
    (SetBoundsXYWH rf child bounds.x bounds.y bounds.w bounds.h w).map
      fun w1 => (innerBounds, w1)
  else some (innerBounds, w)

/-- The dock loop of `ArrangeHorizontal` / `ArrangeVertical`: hidden children are skipped. -/
def dockLoop (step : Nat → Rect → World → Option (Rect × World)) :
    List Nat → Rect → World → Option (Rect × World)
  | [], innerBounds, w => some (innerBounds, w)
  | child :: rest, innerBounds, w =>
    if (w.ctrl child).m_bHidden then dockLoop step rest innerBounds w
    else
      match step child innerBounds w with
      | none => none
      | some (innerBounds1, w1) => dockLoop step rest innerBounds1 w1

/-- One iteration of the fill loop of `ArrangeHorizontal` (Base.cpp 1180-1193). -/
def fillStepX (rf child : Nat) (innerBounds : Rect) (w : World) : Option World :=
  let dock := (w.ctrl child).m_dock
  if !hasFlag dock Position.Fill then some w
  else
    let margin := (w.ctrl child).m_margin
    let bounds := (w.ctrl child).m_bounds
    SetBoundsXYWH rf child (innerBounds.x + margin.left) bounds.y
      (innerBounds.w - margin.left - margin.right) bounds.h w

/-- One iteration of the fill loop of `ArrangeVertical` (Base.cpp 1269-1281). -/
def fillStepY (rf child : Nat) (innerBounds : Rect) (w : World) : Option World :=
  let dock := (w.ctrl child).m_dock
  if !hasFlag dock Position.Fill then some w
  else
    let margin := (w.ctrl child).m_margin
    let bounds := (w.ctrl child).m_bounds
    SetBoundsXYWH rf child bounds.x (innerBounds.y + margin.top)
      bounds.w (innerBounds.h - margin.top - margin.bottom) w

/-- The fill loop: every child, hidden or not. -/
def fillLoop (step : Nat → World → Option World) : List Nat → World → Option World
  | [], w => some w
  | child :: rest, w =>
    match step child w with
    | none => none
    | some w1 => fillLoop step rest w1

/-- Base::ArrangeHorizontal (Base.cpp 1106-1194); `rf` is the fuel of the `Redraw` walks. -/
def ArrangeHorizontal (rf n : Nat) (w : World) : Option World :=
  let c := w.ctrl n
  let innerBounds : Rect :=
    { c.m_bounds with
      x := c.m_padding.left, w := c.m_bounds.w - (c.m_padding.left + c.m_padding.right) }
  match dockLoop (dockStepX rf) c.Children innerBounds w with
  | none => none
  | some (innerBounds1, w1) =>
    let w2 := w1.modify n fun c =>
      { c with m_innerBounds := { c.m_innerBounds with x := innerBounds1.x, w := innerBounds1.w } }
    fillLoop (fun child => fillStepX rf child innerBounds1) (w2.ctrl n).Children w2

/-- Base::ArrangeVertical (Base.cpp 1196-1282). -/
def ArrangeVertical (rf n : Nat) (w : World) : Option World :=
  let c := w.ctrl n
  let innerBounds : Rect :=
    { c.m_bounds with
      y := c.m_padding.top, h := c.m_bounds.h - (c.m_padding.top + c.m_padding.bottom) }
  match dockLoop (dockStepY rf) c.Children innerBounds w with
  | none => none
  | some (innerBounds1, w1) =>
    let w2 := w1.modify n fun c =>
      { c with m_innerBounds := { c.m_innerBounds with y := innerBounds1.y, h := innerBounds1.h } }
    fillLoop (fun child => fillStepY rf child innerBounds1) (w2.ctrl n).Children w2

/-- The loop of `Arrange` over the children (Base.cpp 1095-1101). -/
def arrangeChildren (arrangeChild : Nat → World → Option World) : List Nat → World → Option World
  | [], w => some w
  | child :: rest, w =>
    if (w.ctrl child).m_bHidden then arrangeChildren arrangeChild rest w
    else
      match arrangeChild child w with
      | none => none
      | some w1 => arrangeChildren arrangeChild rest w1

/-- The dispatch on the axis in `Arrange` (Base.cpp 1090-1093). -/
def arrangeAxis (rf n : Nat) (dim : Dim) (w : World) : Option World :=
  match dim with
  | Dim.X => ArrangeHorizontal rf n w
  | Dim.Y => ArrangeVertical rf n w

/-- Base::Arrange (Base.cpp 1066-1104). The `Layout` and `PostLayout` hooks are traced; a
control with a layout item hands the arrangement to the item, which is outside the given
sources. `rf` is the fuel of the `Redraw` walks, the second argument bounds the depth. -/
def Arrange (rf : Nat) : Nat → Nat → Dim → World → Option World
  | 0, _, _, _ => none
  | fuel + 1, n, dim, w =>
    let w1 :=
      if (w.ctrl n).m_bNeedsLayout then
        (w.modify n fun c => { c with m_bNeedsLayout := false }).emit (Hook.Layout n)
      else w
    match (w1.ctrl n).m_layoutItem with
    | some _ => some w1
    | none =>
      match arrangeAxis rf n dim w1 with
      | none => none
      | some w2 =>
        match arrangeChildren (fun child => Arrange rf fuel child dim) (w2.ctrl n).Children w2 with
        | none => none
        | some w3 => some (w3.emit (Hook.PostLayout n))

/-- Base::GetCanvas (Base.cpp 133-141) with the override of the `Canvas` subclass, which
returns the canvas itself. The outer `Option` is the fuel, the inner one the pointer. -/
def GetCanvas : Nat → Nat → World → Option (Option Nat)
  | 0, _, _ => none
  | fuel + 1, n, w =>
    if (w.ctrl n).isCanvas then some (some n)
    else
      match (w.ctrl n).m_parent with
      | none => some none
      | some p => GetCanvas fuel p w

/-- The two assignments `if (!FirstTab) FirstTab = this; if (!NextTab) NextTab = this;` on
the canvas `cv` (Base.cpp 1301-1305). -/
def tabSlots (cv n : Nat) (w : World) : World :=
  let w1 :=
    if (w.ctrl cv).FirstTab = none then w.modify cv fun c => { c with FirstTab := some n }
    else w
  if (w1.ctrl cv).NextTab = none then w1.modify cv fun c => { c with NextTab := some n }
  else w1

/-- The tab-chain bookkeeping at the end of `RecurseLayout` (Base.cpp 1299-1309); a null
canvas is dereferenced there, which yields `none`. -/
def recordTab (fuel n : Nat) (w : World) : Option World :=
  let w1 : Option World :=
    if (w.ctrl n).m_tabable && !(w.ctrl n).m_bDisabled then
      match GetCanvas fuel n w with
      | some (some cv) => some (tabSlots cv n w)
      | _ => none
    else some w
  match w1 with
  | none => none
  | some w2 =>
    if w2.KeyboardFocus = some n then
      match GetCanvas fuel n w2 with
      | some (some cv) => some (w2.modify cv fun c => { c with NextTab := none })
      | _ => none
    else some w2

/-- Base::RecurseLayout (Base.cpp 1284-1310). -/
def RecurseLayout (fuel n : Nat) (w : World) : Option World :=
  if (w.ctrl n).m_bHidden then some w
  else
    match CalculateSize fuel n Dim.X w with
    | none => none
    | some w1 =>
    match Arrange fuel fuel n Dim.X w1 with
    | none => none
    | some w2 =>
    match CalculateSize fuel n Dim.Y w2 with
    | none => none
    | some w3 =>
    match Arrange fuel fuel n Dim.Y w3 with
    | none => none
    | some w4 => recordTab fuel n w4

/-! ## Tree mutation -/

/-- Base::OnChildAdded (Base.cpp 426-429). -/
def OnChildAdded (n : Nat) (_child : Nat) (w : World) : World :=
  Invalidate n w

/-- Base::OnChildRemoved (Base.cpp 431-434). -/
def OnChildRemoved (n : Nat) (_child : Nat) (w : World) : World :=
  Invalidate n w

/-- The body of `AddChild` on a control without inner panel (Base.cpp 362-368): append the
child, run `OnChildAdded`, set the actual parent of the child. -/
def attachChild (n child : Nat) (w : World) : World :=
  let w1 := w.modify n fun c => { c with Children := c.Children ++ [child] }
  let w2 := OnChildAdded n child w1
  w2.modify child fun c => { c with m_actualParent := some n }

/-- Base::AddChild (Base.cpp 354-369). `m_layoutItem->AddControl` acts on the layout item
only, which is outside the given sources. -/
def AddChild : Nat → Nat → Nat → World → Option World
  | 0, _, _, _ => none
  | fuel + 1, n, child, w =>
    match (w.ctrl n).m_innerPanel with
    | some inner => AddChild fuel inner child w
    | none => some (attachChild n child w)

/-- The first statement of `RemoveChild` (Base.cpp 382-383): forget the inner panel if it
is the child removed. -/
def forgetInnerPanel (n child : Nat) (w : World) : World :=
  if (w.ctrl n).m_innerPanel = some child then
    w.modify n fun c => { c with m_innerPanel := none }
  else w

/-- The last statements of `RemoveChild` (Base.cpp 391-392): `Children.remove(child)`, which
erases every occurrence, and `OnChildRemoved`. -/
def eraseChildEntry (n child : Nat) (w : World) : World :=
  OnChildRemoved n child
    (w.modify n fun c => { c with Children := c.Children.filter fun x => x != child })

/-- Base::RemoveChild (Base.cpp 379-393). `m_layoutItem->RemoveControl` acts on the layout
item only, which is outside the given sources. -/
def RemoveChild : Nat → Nat → Nat → World → Option World
  | 0, _, _, _ => none
  | fuel + 1, n, child, w =>
    let w1 := forgetInnerPanel n child w
    let w2 :=
      match (w1.ctrl n).m_innerPanel with
      | some inner => RemoveChild fuel inner child w1
      | none => some w1
    match w2 with
    | none => none
    | some w3 => some (eraseChildEntry n child w3)

/-- The detachment in `SetParent` (Base.cpp 148-149). -/
def detachFromParent (fuel n : Nat) (w : World) : Option World :=
  match (w.ctrl n).m_parent with
  | some old => RemoveChild fuel old n w
  | none => some w

/-- The two assignments of `SetParent` (Base.cpp 151-152). -/
def setParentPointers (n : Nat) (parent : Option Nat) (w : World) : World :=
  w.modify n fun c => { c with m_parent := parent, m_actualParent := none }

/-- Base::SetParent (Base.cpp 143-156). -/
def SetParent (fuel n : Nat) (parent : Option Nat) (w : World) : Option World :=
  if (w.ctrl n).m_parent = parent then some w
  else
    match detachFromParent fuel n w with
    | none => none
    | some w1 =>
      match parent with
      | some p => AddChild fuel p n (setParentPointers n parent w1)
      | none => some (setParentPointers n parent w1)

/-- The control that receives the children added to `n`: follow the inner-panel links up
to a control without inner panel. -/
def innerTarget : Nat → Nat → World → Option Nat
  | 0, _, _ => none
  | fuel + 1, n, w =>
    match (w.ctrl n).m_innerPanel with
    | some inner => innerTarget fuel inner w
    | none => some n

/-- The controls visited by `RemoveChild(child)` called on `n`: the inner-panel chain of `n`
up to a control without inner panel or with inner panel `child`. -/
def removalChain : Nat → Nat → Nat → World → Option (List Nat)
  | 0, _, _, _ => none
  | fuel + 1, n, child, w =>
    match (w.ctrl n).m_innerPanel with
    | some inner =>
      if inner = child then some [n]
      else (removalChain fuel inner child w).map fun l => n :: l
    | none => some [n]

/-- What `RemoveChild(child)` does to a control it visits. -/
def detached (child : Nat) (c : Control) : Control :=
  { c with
    Children := c.Children.filter fun x => x != child
    m_innerPanel := if c.m_innerPanel = some child then none else c.m_innerPanel
    m_bNeedsLayout := true
    m_bCacheTextureDirty := true }

/-- Base::IsChild (Base.cpp 1312-1321). -/
def IsChild (n possiblechild : Nat) (w : World) : Bool :=
  (w.ctrl n).Children.contains possiblechild

/-! ## Coordinate transforms -/

/-- The offset of the parent's inner panel, added when the control is a child of that
panel (Base.cpp 1333-1337 and 1355-1359). -/
def innerPanelOffset (n parent : Nat) (w : World) : Point :=
  match (w.ctrl parent).m_innerPanel with
  | some inner =>
    if IsChild inner n w then
      { x := (w.ctrl inner).m_bounds.x, y := (w.ctrl inner).m_bounds.y }
    else { x := 0, y := 0 }
  | none => { x := 0, y := 0 }

/-- Base::LocalPosToCanvas (Base.cpp 1323-1343). -/
def LocalPosToCanvas : Nat → Nat → Point → World → Option Point
  | 0, _, _, _ => none
  | fuel + 1, n, pnt, w =>
    match (w.ctrl n).m_parent with
    | some parent =>
      let x := pnt.x + (w.ctrl n).m_bounds.x
      let y := pnt.y + (w.ctrl n).m_bounds.y
      let off := innerPanelOffset n parent w
      LocalPosToCanvas fuel parent { x := x + off.x, y := y + off.y } w
    | none => some pnt

/-- Base::CanvasPosToLocal (Base.cpp 1345-1365). -/
def CanvasPosToLocal : Nat → Nat → Point → World → Option Point
  | 0, _, _, _ => none
  | fuel + 1, n, pnt, w =>
    match (w.ctrl n).m_parent with
    | some parent =>
      let x := pnt.x - (w.ctrl n).m_bounds.x
      let y := pnt.y - (w.ctrl n).m_bounds.y
      let off := innerPanelOffset n parent w
      CanvasPosToLocal fuel parent { x := x - off.x, y := y - off.y } w
    | none => some pnt

/-! ## Keyboard focus -/

/-- Base::Focus (Base.cpp 784-795). -/
def Focus (fuel n : Nat) (w : World) : Option World :=
  if w.KeyboardFocus = some n then some w
  else
    let w1 :=
      match w.KeyboardFocus with
      | some q => w.emit (Hook.OnLostKeyboardFocus q)
      | none => w
    let w2 := { w1 with KeyboardFocus := some n }
    let w3 := w2.emit (Hook.OnKeyboardFocus n)
    Redraw fuel n w3

/-- Base::Unfocus (Base.cpp 797-805). -/
def Unfocus (fuel n : Nat) (w : World) : Option World :=
  if w.KeyboardFocus ≠ some n then some w
  else
    let w1 := { w with KeyboardFocus := none }
    let w2 := w1.emit (Hook.OnLostKeyboardFocus n)
    Redraw fuel n w2

/-! ## Destruction -/

/-- The child loop of the destructor (Base.cpp 80-87): while the list is not empty its
front is erased and deleted. -/
def deleteChildren (deleteChild : Nat → World → Option World) : Nat → Nat → World → Option World
  | 0, _, _ => none
  | k + 1, n, w =>
    match (w.ctrl n).Children with
    | [] => some w
    | child :: rest =>
      match deleteChild child (w.modify n fun c => { c with Children := rest }) with
      | none => none
      | some w1 => deleteChildren deleteChild k n w1

/-- The three comparisons of the destructor against the global references
(Base.cpp 99-106). -/
def clearGlobals (n : Nat) (w : World) : World :=
  let w1 := if w.HoveredControl = some n then { w with HoveredControl := none } else w
  let w2 := if w1.KeyboardFocus = some n then { w1 with KeyboardFocus := none } else w1
  if w2.MouseFocus = some n then { w2 with MouseFocus := none } else w2

/-- Base::~Base (Base.cpp 71-119). Inside the destructor `GetCanvas` and `SetParent` are
the `Base` versions; `PreDeleteCanvas`, the drag-and-drop, tooltip and animation
notifications act on subsystems outside the given sources. `rf` is the fuel of the walks
along the parent and inner-panel chains, the second argument bounds the depth of the
subtree and the length of the child loop. -/
def Base_destructor (rf : Nat) : Nat → Nat → World → Option World
  | 0, _, _ => none
  | fuel + 1, n, w =>
    let canvas :=
      match (w.ctrl n).m_parent with
      | none => some none
      | some p => GetCanvas rf p w
    match canvas with
    | none => none
    | some _ =>
      match deleteChildren (Base_destructor rf fuel) (fuel + 1) n w with
      | none => none
      | some w1 =>
        let w2 := w1.modify n fun c => { c with m_accelerators := [] }
        match SetParent rf n none w2 with
        | none => none
        | some w3 =>
          some ((clearGlobals n w3).modify n fun c => { c with destroyed := true })

/-! ## Setters -/

/-- Base::Dock (Base.cpp 158-166). -/
def Dock (n : Nat) (dock : Nat) (w : World) : World :=
  if (w.ctrl n).m_dock = dock then w
  else InvalidateParent n (Invalidate n (w.modify n fun c => { c with m_dock := dock }))

/-- Base::SetSizeFlags (Base.cpp 178-187). -/
def SetSizeFlags (n : Nat) (sizeFlags : SizeFlags) (w : World) : World :=
  if (w.ctrl n).m_sizeFlags.horizontal = sizeFlags.horizontal ∧
      (w.ctrl n).m_sizeFlags.vertical = sizeFlags.vertical then w
  else InvalidateParent n (Invalidate n (w.modify n fun c => { c with m_sizeFlags := sizeFlags }))

/-- Base::SetPadding (Base.cpp 1458-1469). -/
def SetPadding (n : Nat) (padding : Padding) (w : World) : World :=
  if (w.ctrl n).m_padding.left = padding.left ∧ (w.ctrl n).m_padding.top = padding.top ∧
      (w.ctrl n).m_padding.right = padding.right ∧
      (w.ctrl n).m_padding.bottom = padding.bottom then w
  else InvalidateParent n (Invalidate n (w.modify n fun c => { c with m_padding := padding }))

/-- Base::SetMargin (Base.cpp 1471-1482). -/
def SetMargin (n : Nat) (margin : Margin) (w : World) : World :=
  if (w.ctrl n).m_margin.top = margin.top ∧ (w.ctrl n).m_margin.left = margin.left ∧
      (w.ctrl n).m_margin.bottom = margin.bottom ∧
      (w.ctrl n).m_margin.right = margin.right then w
  else InvalidateParent n (Invalidate n (w.modify n fun c => { c with m_margin := margin }))

/-- Base::SetPos (Base.cpp 475-478). -/
def SetPos (fuel n : Nat) (x y : Int) (w : World) : Option World :=
  SetBoundsXYWH fuel n x y (w.ctrl n).m_bounds.w (w.ctrl n).m_bounds.h w

/-- Base::SetSize (Base.cpp 480-483); the boolean is the value returned. -/
def SetSize (fuel n : Nat) (wd ht : Int) (w : World) : Option (Bool × World) :=
  SetBounds fuel n
    { x := (w.ctrl n).m_bounds.x, y := (w.ctrl n).m_bounds.y, w := wd, h := ht } w

/-! ## Sizing to the children -/

/-- Base::Right (Base.h 144-147). -/
def Control.Right (c : Control) : Int := c.m_bounds.x + c.m_bounds.w + c.m_margin.right

/-- Base::Bottom (Base.h 138-141). -/
def Control.Bottom (c : Control) : Int := c.m_bounds.y + c.m_bounds.h + c.m_margin.bottom

/-- The loop body of `ChildrenSize` (Base.cpp 1445-1452). -/
def childrenSizeStep (w : World) (size : Point) (child : Nat) : Point :=
  if (w.ctrl child).m_bHidden then size
  else if !(w.ctrl child).m_bIncludeInSize then size
  else { x := max size.x (w.ctrl child).Right, y := max size.y (w.ctrl child).Bottom }

/-- Base::ChildrenSize (Base.cpp 1439-1456). `Gwk::Point size;` is the default-constructed
point `(0, 0)`. -/
def ChildrenSize (n : Nat) (w : World) : Point :=
  (w.ctrl n).Children.foldl (childrenSizeStep w) {}

/-- Base::SizeToChildren (Base.cpp 1431-1437); the boolean is the value returned. -/
def SizeToChildren (fuel n : Nat) (bw bh : Bool) (w : World) : Option (Bool × World) :=
  let size := ChildrenSize n w
  let size : Point := { size with y := size.y + (w.ctrl n).m_padding.bottom }
  let size : Point := { size with x := size.x + (w.ctrl n).m_padding.right }
  SetSize fuel n (if bw then size.x else (w.ctrl n).m_bounds.w)
    (if bh then size.y else (w.ctrl n).m_bounds.h) w

/-! ## Hit testing -/

/-- The child loop of `GetControlAt` (Base.cpp 840-848) over the child list reversed: each
child is asked at the point in its own coordinates and the first hit is returned. -/
def hitLoop (hitChild : Nat → Int → Int → Option (Option Nat)) (w : World) (x y : Int) :
    List Nat → Option (Option Nat)
  | [] => some none
  | child :: rest =>
    match hitChild child (x - (w.ctrl child).m_bounds.x) (y - (w.ctrl child).m_bounds.y) with
    | none => none
    | some (some found) => some (some found)
    | some none => hitLoop hitChild w x y rest

/-- Base::GetControlAt (Base.cpp 832-854). The outer `Option` is the fuel, the inner one the
pointer returned. -/
def GetControlAt : Nat → Nat → Int → Int → Bool → World → Option (Option Nat)
  | 0, _, _, _, _, _ => none
  | fuel + 1, n, x, y, bOnlyIfMouseEnabled, w =>
    if (w.ctrl n).m_bHidden then some none
    else if x < 0 ∨ y < 0 ∨ x ≥ (w.ctrl n).m_bounds.w ∨ y ≥ (w.ctrl n).m_bounds.h then some none
    else
      match hitLoop (fun child cx cy => GetControlAt fuel child cx cy bOnlyIfMouseEnabled w)
          w x y (w.ctrl n).Children.reverse with
      | none => none
      | some (some found) => some (some found)
      | some none =>
        if bOnlyIfMouseEnabled && !(w.ctrl n).m_bMouseInputEnabled then some none
        else some (some n)

/-! ## Child lookup -/

/-- The loop of `FindChildByName` (Base.cpp 313-325); `findInChild` is the recursive search
of a child. -/
def findLoop (findInChild : Nat → Option (Option Nat)) (w : World) (name : String)
    (bRecursive : Bool) : List Nat → Option (Option Nat)
  | [] => some none
  | child :: rest =>
    if (w.ctrl child).m_name ≠ "" ∧ (w.ctrl child).m_name = name then some (some child)
    else if bRecursive then
      match findInChild child with
      | none => none
      | some (some subChild) => some (some subChild)
      | some none => findLoop findInChild w name bRecursive rest
    else findLoop findInChild w name bRecursive rest

/-- Base::FindChildByName (Base.cpp 311-328). The outer `Option` is the fuel, the inner one
the pointer returned. -/
def FindChildByName : Nat → Nat → String → Bool → World → Option (Option Nat)
  | 0, _, _, _, _ => none
  | fuel + 1, n, name, bRecursive, w =>
    findLoop (fun child => FindChildByName fuel child name true w) w name bRecursive
      (w.ctrl n).Children

/-- Base::NumChildren (Base.cpp 403-407): the list size cast to `unsigned int`. -/
def NumChildren (n : Nat) (w : World) : Nat :=
  (w.ctrl n).Children.length % 2 ^ 32

/-- How a call of `GetChild` ends: at the range check, inside the loop, or at the trailing
`return nullptr` marked "Should never happen". -/
inductive GetChildExit where
  | outOfRange
  | found (child : Nat)
  | shouldNeverHappen
  deriving DecidableEq, Repr

/-- The pointer returned at an exit of `GetChild`. -/
def GetChildExit.value : GetChildExit → Option Nat
  | GetChildExit.outOfRange => none
  | GetChildExit.found child => some child
  | GetChildExit.shouldNeverHappen => none

/-- The loop of `GetChild` (Base.cpp 414-420) with the `unsigned int` counter `i`; `none`
when the loop ends without returning. -/
def getChildLoop : List Nat → Nat → Option Nat
  | [], _ => none
  | child :: rest, i =>
    if i = 0 then some child
    else getChildLoop rest ((i + 2 ^ 32 - 1) % 2 ^ 32)

/-- Base::GetChild (Base.cpp 409-424). -/
def GetChild (n i : Nat) (w : World) : GetChildExit :=
  if i ≥ NumChildren n w then GetChildExit.outOfRange
  else
    match getChildLoop (w.ctrl n).Children i with
    | some child => GetChildExit.found child
    | none => GetChildExit.shouldNeverHappen

/-! ## Moving -/

/-- The clamping of `MoveTo` (Base.cpp 459-469) of the target `(x, y)` for the control `c`
inside `parent`. -/
def restrictToParent (c parent : Control) (x y : Int) : Int × Int :=
  let x := if x - c.m_padding.left < parent.m_margin.left then
      parent.m_margin.left + c.m_padding.left else x
  let y := if y - c.m_padding.top < parent.m_margin.top then
      parent.m_margin.top + c.m_padding.top else y
  let x := if x + c.m_bounds.w + c.m_padding.right > parent.m_bounds.w - parent.m_margin.right then
      parent.m_bounds.w - parent.m_margin.right - c.m_bounds.w - c.m_padding.right else x
  let y := if y + c.m_bounds.h + c.m_padding.bottom >
        parent.m_bounds.h - parent.m_margin.bottom then
      parent.m_bounds.h - parent.m_margin.bottom - c.m_bounds.h - c.m_padding.bottom else y
  (x, y)

/-- Base::MoveTo (Base.cpp 453-473). -/
def MoveTo (fuel n : Nat) (x y : Int) (w : World) : Option World :=
  let c := w.ctrl n
  let target : Int × Int :=
    match (if c.m_bRestrictToParent then c.m_parent else none) with
    | some p => restrictToParent c (w.ctrl p) x y
    | none => (x, y)
  SetBoundsXYWH fuel n target.1 target.2 c.m_bounds.w c.m_bounds.h w

/-! ## Accelerators -/

/-- The loop of `HandleAccelerator` over the children (Base.cpp 1497-1501): the first child
that handles the accelerator ends the search. -/
def acceleratorLoop (handleChild : Nat → World → Option (Bool × World)) :
    List Nat → World → Option (Bool × World)
  | [], w => some (false, w)
  | child :: rest, w =>
    match handleChild child w with
    | none => none
    | some (true, w1) => some (true, w1)
    | some (false, w1) => acceleratorLoop handleChild rest w1

/-- Base::HandleAccelerator (Base.cpp 1484-1504). The call of the handler found in the
accelerator map is traced; the boolean is the value returned. -/
def HandleAccelerator : Nat → Nat → String → World → Option (Bool × World)
  | 0, _, _, _ => none
  | fuel + 1, n, accelerator, w =>
    if (w.KeyboardFocus = some n ∨ !(w.ctrl n).accelOnlyFocus) ∧
        accelerator ∈ (w.ctrl n).m_accelerators then
      some (true, w.emit (Hook.Accelerator n accelerator))
    else
      acceleratorLoop (fun child => HandleAccelerator fuel child accelerator)
        (w.ctrl n).Children w

/-! ## Rendering -/

/-- The hook invocations and drawing calls of a render pass, in call order: the empty
virtual hooks `Think`, `RenderUnder`, `Render` and `RenderOver`, the keyboard highlight
drawn by `RenderFocus` and the three calls into the cache-to-texture facility. -/
inductive Draw where
  | Think (n : Nat)
  | RenderUnder (n : Nat)
  | Render (n : Nat)
  | RenderOver (n : Nat)
  | KeyboardHighlight (n : Nat)
  | SetupCacheTexture (n : Nat)
  | FinishCacheTexture (n : Nat)
  | DrawCachedControlTexture (n : Nat)
  deriving DecidableEq, Repr

/-- The operations of the renderer (`Gwk::Renderer::Base`, declared outside the given
sources) that the render path uses: how `AddRenderOffset` changes the offset, how
`AddClipRegion` changes the clip region (given offset, region and rectangle), the test
`ClipRegionVisible` and whether `GetCTT()` returns a cache-to-texture facility. Every skin
is taken to draw through this one renderer. -/
structure Renderer where
  AddRenderOffset : Point → Rect → Point
  AddClipRegion : Point → Rect → Rect → Rect
  ClipRegionVisible : Rect → Bool
  GetCTT : Bool

/-- The state of the renderer: render offset, clip region, the number of open
`StartClip` scopes and the calls drawn so far. -/
structure RenderState where
  renderOffset : Point := {}
  clipRegion : Rect := {}
  clipDepth : Int := 0
  drawn : List Draw := []
  deriving DecidableEq, Repr

namespace RenderState

/-- Record a hook invocation or drawing call. -/
def draw (st : RenderState) (e : Draw) : RenderState :=
  { st with drawn := st.drawn ++ [e] }

/-- `render->StartClip()`. -/
def StartClip (st : RenderState) : RenderState :=
  { st with clipDepth := st.clipDepth + 1 }

/-- `render->EndClip()`. -/
def EndClip (st : RenderState) : RenderState :=
  { st with clipDepth := st.clipDepth - 1 }

end RenderState

/-- Base::RenderFocus (Base.cpp 1589-1598). -/
def RenderFocus (n : Nat) (w : World) (st : RenderState) : RenderState :=
  if w.KeyboardFocus ≠ some n then st
  else if !(w.ctrl n).m_tabable then st
  else st.draw (Draw.KeyboardHighlight n)

/-- The loop over the children of both render paths (Base.cpp 604-616 and 684-694): every
child that is not hidden is rendered with `DoRender`. -/
def renderChildren (doRender : Nat → World × RenderState → Option (World × RenderState)) :
    List Nat → World × RenderState → Option (World × RenderState)
  | [], s => some s
  | child :: rest, s =>
    if (s.1.ctrl child).m_bHidden then renderChildren doRender rest s
    else
      match doRender child s with
      | none => none
      | some s1 => renderChildren doRender rest s1

/-- The entry of `RenderRecursive` (Base.cpp 660-669): the render offset is advanced by the
clip rectangle, `RenderUnder` runs and, when the control clips, the clip region is narrowed
by the clip rectangle. -/
def renderEnter (ren : Renderer) (n : Nat) (cliprect : Rect) (w : World) (st : RenderState) :
    RenderState :=
  let st := { st with renderOffset := ren.AddRenderOffset st.renderOffset cliprect }
  let st := st.draw (Draw.RenderUnder n)
  if (w.ctrl n).shouldClip then
    { st with clipRegion := ren.AddClipRegion st.renderOffset st.clipRegion cliprect }
  else st

/-- The exit of `RenderRecursive` (Base.cpp 696-707): the clip scope of the children is
closed, the old clip region is put back, `RenderOver` and `RenderFocus` run in a clip scope
of their own and the old render offset is put back. -/
def renderLeave (n : Nat) (w : World) (oldRenderOffset : Point) (rOldRegion : Rect)
    (st : RenderState) : RenderState :=
  let st := st.EndClip
  let st := { st with clipRegion := rOldRegion }
  let st := st.StartClip
  let st := st.draw (Draw.RenderOver n)
  let st := RenderFocus n w st
  let st := st.EndClip
  { st with renderOffset := oldRenderOffset }

/-- The body of `RenderRecursive` (Base.cpp 657-709), given the `DoRender` of the
children. -/
def renderRecursiveBody (ren : Renderer)
    (doRender : Nat → World × RenderState → Option (World × RenderState))
    (n : Nat) (cliprect : Rect) (s : World × RenderState) : Option (World × RenderState) :=
  let oldRenderOffset := s.2.renderOffset
  let rOldRegion := s.2.clipRegion
  let st := renderEnter ren n cliprect s.1 s.2
  if (s.1.ctrl n).shouldClip && !ren.ClipRegionVisible st.clipRegion then
    some (s.1, { st with renderOffset := oldRenderOffset, clipRegion := rOldRegion })
  else
    match renderChildren doRender (s.1.ctrl n).Children
        (s.1, st.StartClip.draw (Draw.Render n)) with
    | none => none
    | some s1 => some (s1.1, renderLeave n s1.1 oldRenderOffset rOldRegion s1.2)

/-- The entry of `DoCacheRender` (Base.cpp 579-591): a control other than the master
advances the render offset and narrows the clip region by its bounds, the master resets the
offset and takes its bounds as clip region. -/
def cacheEnter (ren : Renderer) (n master : Nat) (w : World) (st : RenderState) :
    RenderState :=
  if n ≠ master then
    let st := { st with renderOffset := ren.AddRenderOffset st.renderOffset (w.ctrl n).m_bounds }
    { st with clipRegion := ren.AddClipRegion st.renderOffset st.clipRegion (w.ctrl n).m_bounds }
  else { st with renderOffset := { x := 0, y := 0 }, clipRegion := (w.ctrl n).m_bounds }

/-- The update of the cached texture in `DoCacheRender` (Base.cpp 594-625). -/
def updateCacheTexture
    (doRender : Nat → World × RenderState → Option (World × RenderState))
    (n : Nat) (s : World × RenderState) : Option (World × RenderState) :=
  let st := s.2.StartClip
  let st := if (s.1.ctrl n).m_bCacheToTexture then st.draw (Draw.SetupCacheTexture n) else st
  let st := st.draw (Draw.Render n)
  match renderChildren doRender (s.1.ctrl n).Children (s.1, st) with
  | none => none
  | some s1 =>
    if (s1.1.ctrl n).m_bCacheToTexture then
      some (s1.1.modify n fun c => { c with m_bCacheTextureDirty := false },
        (s1.2.draw (Draw.FinishCacheTexture n)).EndClip)
    else some (s1.1, s1.2.EndClip)

/-- The exit of `DoCacheRender` (Base.cpp 628-634): the old clip region and render offset
are put back and the cached texture is drawn in a clip scope of its own. -/
def cacheLeave (n : Nat) (oldRenderOffset : Point) (rOldRegion : Rect) (st : RenderState) :
    RenderState :=
  let st := { st with clipRegion := rOldRegion }
  let st := st.StartClip
  let st := { st with renderOffset := oldRenderOffset }
  let st := st.draw (Draw.DrawCachedControlTexture n)
  st.EndClip

/-- The body of `DoCacheRender` (Base.cpp 571-635), given the `DoRender` of the children. -/
def doCacheRenderBody (ren : Renderer)
    (doRender : Nat → World × RenderState → Option (World × RenderState))
    (n master : Nat) (s : World × RenderState) : Option (World × RenderState) :=
  if !ren.GetCTT then some s
  else
    let oldRenderOffset := s.2.renderOffset
    let rOldRegion := s.2.clipRegion
    let st := cacheEnter ren n master s.1 s.2
    let updated :=
      if (s.1.ctrl n).m_bCacheTextureDirty && ren.ClipRegionVisible st.clipRegion then
        updateCacheTexture doRender n (s.1, st)
      else some (s.1, st)
    match updated with
    | none => none
    | some s1 => some (s1.1, cacheLeave n oldRenderOffset rOldRegion s1.2)

/-- Base::DoRender (Base.cpp 637-655). -/
def DoRender (ren : Renderer) : Nat → Nat → World × RenderState → Option (World × RenderState)
  | 0, _, _ => none
  | fuel + 1, n, s =>
    let s1 := (s.1, s.2.draw (Draw.Think n))
    if ren.GetCTT && (s.1.ctrl n).m_bCacheToTexture then
      doCacheRenderBody ren (DoRender ren fuel) n n s1
    else renderRecursiveBody ren (DoRender ren fuel) n (s.1.ctrl n).m_bounds s1

/-- Base::RenderRecursive (Base.cpp 657-709). -/
def RenderRecursive (ren : Renderer) :
    Nat → Nat → Rect → World × RenderState → Option (World × RenderState)
  | 0, _, _, _ => none
  | fuel + 1, n, cliprect, s => renderRecursiveBody ren (DoRender ren fuel) n cliprect s

/-- Base::DoCacheRender (Base.cpp 571-635). -/
def DoCacheRender (ren : Renderer) :
    Nat → Nat → Nat → World × RenderState → Option (World × RenderState)
  | 0, _, _, _ => none
  | fuel + 1, n, master, s => doCacheRenderBody ren (DoRender ren fuel) n master s

/-! ## Effective size limits -/

/-- Base::GetMinimumSize (Base.cpp 506-521). -/
def GetMinimumSize (n : Nat) (w : World) : Size :=
  let c := w.ctrl n
  let minimumSize := c.m_minimumSize
  let minimumSize :=
    if c.m_sizeFlags.horizontal = SizeFlag.Fixed then
      { minimumSize with width := c.m_bounds.w }
    else if c.m_sizeFlags.horizontal = SizeFlag.Expand ∨
        c.m_sizeFlags.horizontal = SizeFlag.Bloat then
      { minimumSize with width := max minimumSize.width c.m_preferredSize.width }
    else minimumSize
  if c.m_sizeFlags.vertical = SizeFlag.Fixed then
    { minimumSize with height := c.m_bounds.h }
  else if c.m_sizeFlags.vertical = SizeFlag.Expand ∨ c.m_sizeFlags.vertical = SizeFlag.Bloat then
    { minimumSize with height := max minimumSize.height c.m_preferredSize.height }
  else minimumSize

/-- Base::GetMaximumSize (Base.cpp 523-538). The second test of the height branch reads
the horizontal flag, as the source does (line 534). -/
def GetMaximumSize (n : Nat) (w : World) : Size :=
  let c := w.ctrl n
  let maximumSize := c.m_maximumSize
  let maximumSize :=
    if c.m_sizeFlags.horizontal = SizeFlag.Fixed then
      { maximumSize with width := c.m_bounds.w }
    else if c.m_sizeFlags.horizontal = SizeFlag.Shrink then
      { maximumSize with width := max maximumSize.width c.m_preferredSize.width }
    else maximumSize
  if c.m_sizeFlags.vertical = SizeFlag.Fixed then
    { maximumSize with height := c.m_bounds.h }
  else if c.m_sizeFlags.horizontal = SizeFlag.Shrink then
    { maximumSize with height := max maximumSize.height c.m_preferredSize.height }
  else maximumSize

/-! ## Removing all children -/

/-- Base::RemoveAllChildren (Base.cpp 395-401): while the child list is not empty its
first entry is removed with `RemoveChild`; `rf` is the fuel of the `RemoveChild` calls, the
second argument bounds the number of iterations. -/
def RemoveAllChildren (rf : Nat) : Nat → Nat → World → Option World
  | 0, _, _ => none
  | fuel + 1, n, w =>
    match (w.ctrl n).Children with
    | [] => some w
    | child :: _ =>
      match RemoveChild rf n child w with
      | none => none
      | some w1 => RemoveAllChildren rf fuel n w1

/-! ## Z-order -/

/-- Base::SendToBack (Base.cpp 284-295). `Children.front()` of an empty list is undefined:
the result is `none` there. -/
def SendToBack (n : Nat) (w : World) : Option World :=
  match (w.ctrl n).m_actualParent with
  | none => some w
  | some a =>
    match (w.ctrl a).Children.head? with
    | none => none
    | some front =>
      if front = n then some w
      else
        some (InvalidateParent n
          (w.modify a fun c => { c with Children := n :: c.Children.filter fun x => x != n }))

/-- Base::BringToFront (Base.cpp 297-309). `Children.back()` of an empty list is undefined:
the result is `none` there, as it is when the fuel of the `Redraw` walk runs out. -/
def BringToFront (fuel n : Nat) (w : World) : Option World :=
  match (w.ctrl n).m_actualParent with
  | none => some w
  | some a =>
    match (w.ctrl a).Children.getLast? with
    | none => none
    | some back =>
      if back = n then some w
      else
        Redraw fuel n (InvalidateParent n
          (w.modify a fun c => { c with Children := (c.Children.filter fun x => x != n) ++ [n] }))

/-- Base::IsOnTop (Base.cpp 807-819). `*Children.begin()` of an empty list is undefined:
the result is `none` there. -/
def IsOnTop (n : Nat) (w : World) : Option Bool :=
  match (w.ctrl n).m_parent with
  | none => some false
  | some p =>
    match (w.ctrl p).Children with
    | [] => none
    | child :: _ => some (child == n)

/-! ## Well-formedness of the pointer graph -/

/-- The logical-parent chain is acyclic: `d` decreases along it. -/
def ParentDepth (w : World) (d : Nat → Nat) : Prop :=
  ∀ c p, (w.ctrl c).m_parent = some p → d p < d c

/-- The child lists are acyclic: `r` decreases from a control to its children. -/
def ChildRank (w : World) (r : Nat → Nat) : Prop :=
  ∀ p c, c ∈ (w.ctrl p).Children → r c < r p

/-- The inner-panel chain is acyclic: `r` decreases from a control to its inner panel. -/
def InnerRank (w : World) (r : Nat → Nat) : Prop :=
  ∀ p i, (w.ctrl p).m_innerPanel = some i → r i < r p

/-- The lengths of the child lists are bounded by the rank. -/
def ListBound (w : World) (r : Nat → Nat) : Prop :=
  ∀ m, (w.ctrl m).Children.length ≤ r m

/-- The control `x` lies in the subtree of `n`: it is reached from `n` through child lists. -/
inductive Sub (w : World) : Nat → Nat → Prop where
  | refl (n : Nat) : Sub w n n
  | child {n c x : Nat} : c ∈ (w.ctrl n).Children → Sub w c x → Sub w n x

/-! ## Frames: what an operation may change -/

/-- The global references of two worlds agree. -/
def SameGlobals (w w1 : World) : Prop :=
  w1.HoveredControl = w.HoveredControl ∧ w1.KeyboardFocus = w.KeyboardFocus ∧
    w1.MouseFocus = w.MouseFocus

/-- A control with its cache-dirty flag erased. -/
def eraseDirty (c : Control) : Control :=
  { c with m_bCacheTextureDirty := false }

/-- A control with everything `SetBounds` may write erased. -/
def eraseGeom (c : Control) : Control :=
  { c with m_bounds := {}, m_renderBounds := {}, m_bNeedsLayout := false,
           m_bCacheTextureDirty := false }

/-- A control with its inner bounds and cache-dirty flag erased. -/
def eraseInner (c : Control) : Control :=
  { c with m_innerBounds := {}, m_bCacheTextureDirty := false }

/-- A control with everything an arrangement by its container may write erased. -/
def eraseChild (c : Control) : Control :=
  { c with m_bounds := {}, m_renderBounds := {}, m_innerBounds := {}, m_bNeedsLayout := false,
           m_bCacheTextureDirty := false }

/-- A control with its preferred size erased. -/
def erasePreferred (c : Control) : Control :=
  { c with m_preferredSize := {} }

/-- A control with everything a layout pass may write erased. -/
def eraseLayout (c : Control) : Control :=
  { c with m_bounds := {}, m_renderBounds := {}, m_innerBounds := {}, m_preferredSize := {},
           m_bNeedsLayout := false, m_bCacheTextureDirty := false }

/-- A control with its tab-chain slots erased. -/
def eraseTabs (c : Control) : Control :=
  { c with FirstTab := none, NextTab := none }

/-- Only cache-dirty flags differ between the two worlds, and none of them was cleared. -/
def DirtyFrame (w w1 : World) : Prop :=
  SameGlobals w w1 ∧ w1.trace = w.trace ∧
    ∀ m, eraseDirty (w1.ctrl m) = eraseDirty (w.ctrl m) ∧
      ((w.ctrl m).m_bCacheTextureDirty = true → (w1.ctrl m).m_bCacheTextureDirty = true)

/-- Only geometry, preferred sizes and dirty flags differ between the two worlds. -/
def LayoutFrame (w w1 : World) : Prop :=
  SameGlobals w w1 ∧ ∀ m, eraseLayout (w1.ctrl m) = eraseLayout (w.ctrl m)

/-- The effect of a terminating `SetBounds(bounds)` on the control `n`. -/
structure BoundsSet (n : Nat) (bounds : Rect) (w w1 : World) : Prop where
  globals : SameGlobals w w1
  trace : w1.trace = w.trace
  bounds_eq : (w1.ctrl n).m_bounds = bounds
  self : eraseGeom (w1.ctrl n) = eraseGeom (w.ctrl n)
  others : ∀ m, m ≠ n → eraseDirty (w1.ctrl m) = eraseDirty (w.ctrl m)
  needsLayout : (w1.ctrl n).m_bNeedsLayout =
    ((w.ctrl n).m_bNeedsLayout ||
      decide (bounds.w ≠ (w.ctrl n).m_bounds.w ∨ bounds.h ≠ (w.ctrl n).m_bounds.h))

/-- The frame of an arrangement of the children `S` of one control: the children change in
what `SetBounds` writes, every other control in its inner bounds and dirty flag at most. -/
def ArrangeFrame (S : List Nat) (w w1 : World) : Prop :=
  SameGlobals w w1 ∧ w1.trace = w.trace ∧
    (∀ m, m ∈ S → eraseChild (w1.ctrl m) = eraseChild (w.ctrl m)) ∧
    (∀ m, m ∉ S → eraseInner (w1.ctrl m) = eraseInner (w.ctrl m))

/-- The frame of a size calculation: only preferred sizes differ. -/
def CalcFrame (w w1 : World) : Prop :=
  SameGlobals w w1 ∧ w1.trace = w.trace ∧
    ∀ m, erasePreferred (w1.ctrl m) = erasePreferred (w.ctrl m)

/-- Only the tab-chain slots differ between the two worlds. -/
def TabFrame (w w1 : World) : Prop :=
  SameGlobals w w1 ∧ w1.trace = w.trace ∧ ∀ m, eraseTabs (w1.ctrl m) = eraseTabs (w.ctrl m)

/-- Every control of rank at least `k` keeps its needs-layout flag and the number of its
`Layout` hook invocations. -/
def KeptFrom (r : Nat → Nat) (k : Nat) (w w1 : World) : Prop :=
  ∀ m, k ≤ r m → (w1.ctrl m).m_bNeedsLayout = (w.ctrl m).m_bNeedsLayout ∧
    w1.trace.count (Hook.Layout m) = w.trace.count (Hook.Layout m)

/-- The frame of a detachment of `child`: every control is unchanged or changed as
`RemoveChild(child)` changes the controls it visits. -/
def DetachFrame (child : Nat) (w w1 : World) : Prop :=
  SameGlobals w w1 ∧ w1.trace = w.trace ∧
    ∀ m, w1.ctrl m = w.ctrl m ∨ w1.ctrl m = detached child (w.ctrl m)

/-! ## Dock layouts of Left and Fill children -/

/-- The sum of the preferred widths of the controls of `l` that are docked exactly Left. -/
def leftWidths (w : World) (l : List Nat) : Int :=
  ((l.filter fun c => (w.ctrl c).m_dock == Position.Left).map
    fun c => (w.ctrl c).m_preferredSize.width).sum

/-- The children of a dock layout: each is docked exactly Fill, or docked exactly Left,
shown and without horizontal margin. -/
def LeftOrFill (w : World) (l : List Nat) : Prop :=
  ∀ c, c ∈ l → (w.ctrl c).m_dock = Position.Fill ∨
    ((w.ctrl c).m_dock = Position.Left ∧ (w.ctrl c).m_bHidden = false ∧
      (w.ctrl c).m_margin.left = 0 ∧ (w.ctrl c).m_margin.right = 0)

/-! ## The frame of a destruction -/

/-- A global reference is unchanged, or it pointed into `S` and was cleared. -/
def RefStep (S : Nat → Prop) (g g1 : Option Nat) : Prop :=
  g1 = g ∨ (g1 = none ∧ ∃ x, g = some x ∧ S x)

/-- The frame of a destruction inside the set `S`: child lists shrink, logical parents and
destroyed marks change inside `S` only, inner-panel links and global references are
unchanged or pointed into `S` and were cleared. -/
structure DestroyFrame (S : Nat → Prop) (w w1 : World) : Prop where
  children : ∀ m, (w1.ctrl m).Children.Sublist (w.ctrl m).Children
  inner : ∀ m, RefStep S (w.ctrl m).m_innerPanel (w1.ctrl m).m_innerPanel
  parent : ∀ m, (w1.ctrl m).m_parent = (w.ctrl m).m_parent ∨
    (S m ∧ (w1.ctrl m).m_parent = none)
  destroyed : ∀ m, (w1.ctrl m).destroyed = (w.ctrl m).destroyed ∨
    (S m ∧ (w1.ctrl m).destroyed = true)
  hovered : RefStep S w.HoveredControl w1.HoveredControl
  keyboard : RefStep S w.KeyboardFocus w1.KeyboardFocus
  mouse : RefStep S w.MouseFocus w1.MouseFocus

/-- The control `x` is destroyed and no global reference points at it. -/
def Cleared (w : World) (x : Nat) : Prop :=
  (w.ctrl x).destroyed = true ∧ w.HoveredControl ≠ some x ∧ w.KeyboardFocus ≠ some x ∧
    w.MouseFocus ≠ some x

/-- Every child-list entry of `w` is still listed in `w1`, or the whole subtree it headed
in `w` is cleared in `w1`. -/
def LinksKept (w w1 : World) : Prop :=
  ∀ y z, z ∈ (w.ctrl y).Children → z ∈ (w1.ctrl y).Children ∨ ∀ x, Sub w z x → Cleared w1 x

/-- What the destructor of `n`, started in `w`, has achieved in `w1`. -/
structure Destroyed (n : Nat) (w w1 : World) : Prop where
  frame : DestroyFrame (Sub w n) w w1
  links : LinksKept w w1
  cleared : ∀ x, Sub w n x → Cleared w1 x
  unlisted : ∀ p, (w.ctrl n).m_parent = some p → n ∉ (w1.ctrl p).Children

/-! ## Enclosing size -/

/-- The children of `c` that count for its size: not hidden and included in size. -/
def countedChildren (c : Nat) (w : World) : List Nat :=
  (w.ctrl c).Children.filter fun ch => !(w.ctrl ch).m_bHidden && (w.ctrl ch).m_bIncludeInSize

/-- The maximum of 0 and the numbers of `l`. -/
def maxWithZero (l : List Int) : Int := l.foldr max 0

/-! ## Paths of a hit test -/

/-- A child-list path from `n` down to `x` all of whose controls, both ends included, are
shown (not hidden). -/
inductive ShownPath (w : World) : Nat → Nat → Prop where
  | here {n : Nat} : (w.ctrl n).m_bHidden = false → ShownPath w n n
  | down {n c x : Nat} : (w.ctrl n).m_bHidden = false → c ∈ (w.ctrl n).Children →
      ShownPath w c x → ShownPath w n x

/-- No control is listed by two controls: the child lists form a forest, in which the
child-list path between two controls is unique. -/
def SingleParent (w : World) : Prop :=
  ∀ p q c, c ∈ (w.ctrl p).Children → c ∈ (w.ctrl q).Children → p = q

/-! ## Depth-first order -/

/-- The name test of `FindChildByName`: the name of `c` is not empty and equals `name`. -/
def namedAs (w : World) (name : String) (c : Nat) : Bool :=
  (w.ctrl c).m_name != "" && (w.ctrl c).m_name == name

/-- The listed controls with their descendants in depth-first pre-order: a control, then
its descendants (`sub`), then the rest of the list. -/
def preorderList (sub : Nat → Option (List Nat)) : List Nat → Option (List Nat)
  | [] => some []
  | c :: rest =>
    match sub c, preorderList sub rest with
    | some a, some b => some (c :: a ++ b)
    | _, _ => none

/-- The descendants of `n` (without `n`) in depth-first pre-order over the child lists: a
child comes before its own subtree, and its whole subtree before its next sibling. -/
def preorderDescendants : Nat → Nat → World → Option (List Nat)
  | 0, _, _ => none
  | fuel + 1, n, w => preorderList (fun c => preorderDescendants fuel c w) (w.ctrl n).Children

/-! ## The logical-parent chain -/

/-- The control `a` lies on the logical-parent chain of `n`: it is `n` itself or a logical
ancestor of `n`. -/
inductive OnParentChain (w : World) : Nat → Nat → Prop where
  | self (n : Nat) : OnParentChain w n n
  | up {n p a : Nat} : (w.ctrl n).m_parent = some p → OnParentChain w p a → OnParentChain w n a

/-! ## Size buckets -/

/-- The component of a size on an axis. -/
def Size.along (s : Size) (dim : Dim) : Int :=
  match dim with
  | Dim.X => s.width
  | Dim.Y => s.height

/-- The extent of a rectangle on an axis. -/
def Rect.extent (b : Rect) (dim : Dim) : Int :=
  match dim with
  | Dim.X => b.w
  | Dim.Y => b.h

/-- The origin of a rectangle on an axis. -/
def Rect.origin (b : Rect) (dim : Dim) : Int :=
  match dim with
  | Dim.X => b.x
  | Dim.Y => b.y

/-- The sum of the two margins (or paddings) of an axis. -/
def Margin.along (m : Margin) (dim : Dim) : Int :=
  match dim with
  | Dim.X => m.left + m.right
  | Dim.Y => m.top + m.bottom

/-- The size flag of an axis. -/
def SizeFlags.along (f : SizeFlags) (dim : Dim) : SizeFlag :=
  match dim with
  | Dim.X => f.horizontal
  | Dim.Y => f.vertical

/-- The three buckets a child is counted in. -/
inductive SizeBucket where
  | widest
  | docked
  | inner
  deriving DecidableEq, Repr

/-- The bucket of a child with the dock `dock` on the axis `dim`: on the horizontal axis
Top/Bottom children go to the maximum and Left/Right children to the additive dock bucket,
on the vertical axis the other way round; Fill children go to the inner bucket and children
without any of these flags to the maximum. -/
def sizeBucket (dim : Dim) (dock : Nat) : SizeBucket :=
  if hasFlag dock Position.Top || hasFlag dock Position.Bottom then
    match dim with
    | Dim.X => SizeBucket.widest
    | Dim.Y => SizeBucket.docked
  else if hasFlag dock Position.Left || hasFlag dock Position.Right then
    match dim with
    | Dim.X => SizeBucket.docked
    | Dim.Y => SizeBucket.widest
  else if hasFlag dock Position.Fill then SizeBucket.inner
  else SizeBucket.widest

/-- The child has none of the flags Top, Bottom, Left, Right, Fill. -/
def undocked (dock : Nat) : Bool :=
  !(hasFlag dock Position.Top || hasFlag dock Position.Bottom || hasFlag dock Position.Left ||
    hasFlag dock Position.Right || hasFlag dock Position.Fill)

/-- The size a child counts with on an axis: its preferred size plus its margins, and for
an undocked child in a container without alignment also its position. -/
def childExtent (dim : Dim) (parentAlign : Bool) (c : Control) : Int :=
  c.m_preferredSize.along dim + c.m_margin.along dim +
    (if undocked c.m_dock && !parentAlign then c.m_bounds.origin dim else 0)

/-- The children of `n` that are not hidden. -/
def shownChildren (n : Nat) (w : World) : List Nat :=
  (w.ctrl n).Children.filter fun c => !(w.ctrl c).m_bHidden

/-- The shown children of `n` that fall into the bucket `b` on the axis `dim`. -/
def bucketChildren (b : SizeBucket) (dim : Dim) (n : Nat) (w : World) : List Nat :=
  (shownChildren n w).filter fun c => sizeBucket dim (w.ctrl c).m_dock == b

/-- The maximum bucket: the largest size of a child counted there (0 without any). -/
def widestBucket (dim : Dim) (n : Nat) (w : World) : Int :=
  maxWithZero ((bucketChildren SizeBucket.widest dim n w).map
    fun c => childExtent dim (w.ctrl n).hasAlignment (w.ctrl c))

/-- The additive dock bucket: the sum of the sizes of the children counted there. -/
def dockBucket (dim : Dim) (n : Nat) (w : World) : Int :=
  ((bucketChildren SizeBucket.docked dim n w).map
    fun c => childExtent dim (w.ctrl n).hasAlignment (w.ctrl c)).sum

/-- The inner bucket: the sum of the sizes of the Fill children. -/
def innerBucket (dim : Dim) (n : Nat) (w : World) : Int :=
  ((bucketChildren SizeBucket.inner dim n w).map
    fun c => childExtent dim (w.ctrl n).hasAlignment (w.ctrl c)).sum

/-- The child lists form a forest below ranks `r`: they are acyclic, no control is listed
by two controls and none twice by one. -/
def Forest (w : World) (r : Nat → Nat) : Prop :=
  ChildRank w r ∧ SingleParent w ∧ ∀ m, (w.ctrl m).Children.Nodup

/-- The content size of the three buckets (Base.cpp 954-955 and 1028-1029): the inner bucket
is added to the dock bucket and the sum compared with the maximum bucket. -/
def Buckets.raw (acc : Buckets) : Int :=
  max acc.maxSize (acc.dockSize + acc.innerSize)

/-- The other axis. -/
def Dim.other : Dim → Dim
  | Dim.X => Dim.Y
  | Dim.Y => Dim.X

/-! ## Vertical dock layouts -/

/-- The vertical space a Top or Bottom child takes: its preferred height plus its vertical
margins. -/
def Control.vSpan (c : Control) : Int :=
  c.m_preferredSize.height + c.m_margin.top + c.m_margin.bottom

/-- The sum of the vertical spaces of the shown controls of `l` docked exactly Top. -/
def topHeights (w : World) (l : List Nat) : Int :=
  ((l.filter fun c => !(w.ctrl c).m_bHidden && (w.ctrl c).m_dock == Position.Top).map
    fun c => (w.ctrl c).vSpan).sum

/-- The sum of the vertical spaces of the shown controls of `l` docked exactly Bottom. -/
def bottomHeights (w : World) (l : List Nat) : Int :=
  ((l.filter fun c => !(w.ctrl c).m_bHidden && (w.ctrl c).m_dock == Position.Bottom).map
    fun c => (w.ctrl c).vSpan).sum

/-- The dock values that carry exactly one flag. -/
def singleDockFlags : List Nat :=
  [Position.Left, Position.Right, Position.Top, Position.Bottom, Position.CenterV,
    Position.CenterH, Position.Fill]

/-- Every shown control of `l` carries exactly one dock flag. -/
def SingleDock (w : World) (l : List Nat) : Prop :=
  ∀ c, c ∈ l → (w.ctrl c).m_bHidden = false → (w.ctrl c).m_dock ∈ singleDockFlags

/-- The bounds of a shown child with one dock flag after its turn in the vertical dock
loop, when the remaining inner rectangle starts at `iby` and is `ibh` high: a Top child is
put at the top of it and a Bottom child at the bottom of it with the preferred height, a
Left or Right child at the top of it with its own height if its vertical flag is Fixed and
with the remaining height less its margins otherwise; other children keep their bounds. -/
def dockedBoundsY (c : Control) (iby ibh : Int) : Rect :=
  if c.m_dock = Position.Top then
    Rect.mk c.m_bounds.x (iby + c.m_margin.top) c.m_bounds.w c.m_preferredSize.height
  else if c.m_dock = Position.Bottom then
    Rect.mk c.m_bounds.x ((iby + ibh) - c.m_preferredSize.height - c.m_margin.bottom)
      c.m_bounds.w c.m_preferredSize.height
  else if c.m_dock = Position.Left ∨ c.m_dock = Position.Right then
    Rect.mk c.m_bounds.x (iby + c.m_margin.top) c.m_bounds.w
      (if c.m_sizeFlags.vertical = SizeFlag.Fixed then c.m_bounds.h
        else ibh - c.m_margin.top - c.m_margin.bottom)
  else c.m_bounds

/-! ## Accelerator dispatch -/

/-- The control `c` answers the accelerator: it has `accelerator` registered and holds the
keyboard focus or is not focus-restricted. -/
def answers (w : World) (accelerator : String) (c : Nat) : Bool :=
  decide (accelerator ∈ (w.ctrl c).m_accelerators) &&
    (decide (w.KeyboardFocus = some c) || !(w.ctrl c).accelOnlyFocus)

/-- What `HandleAccelerator` returns and leaves when `found` is the control that answers,
if any: true and the trace extended by the call of its handler, or false and nothing. -/
def accelOutcome (w : World) (accelerator : String) (found : Option Nat) : Bool × World :=
  match found with
  | some c => (true, w.emit (Hook.Accelerator c accelerator))
  | none => (false, w)

/-! ## Render passes -/

/-- Only cache-dirty flags differ between the two worlds; a render pass may clear them. -/
def CacheFrame (w w1 : World) : Prop :=
  SameGlobals w w1 ∧ w1.trace = w.trace ∧ ∀ m, eraseDirty (w1.ctrl m) = eraseDirty (w.ctrl m)

/-- The renderer is back where it was: render offset and clip region have their values of
`st`, and every `StartClip` since `st` was closed by an `EndClip`. -/
def RenderState.Restored (st st1 : RenderState) : Prop :=
  st1.renderOffset = st.renderOffset ∧ st1.clipRegion = st.clipRegion ∧
    st1.clipDepth = st.clipDepth

/-- The outcome of a render call: only cache-dirty flags of the world have changed and the
renderer is restored. -/
def RenderStep (s s1 : World × RenderState) : Prop :=
  CacheFrame s.1 s1.1 ∧ s.2.Restored s1.2

/-- The controls on which the `Render` hook was invoked, in call order. -/
def renderCalls (log : List Draw) : List Nat :=
  log.filterMap fun e =>
    match e with
    | Draw.Render m => some m
    | _ => none

/-- The descendants of `n` that are reached through non-hidden children, in depth-first
pre-order over the child lists. -/
def shownDescendants : Nat → Nat → World → Option (List Nat)
  | 0, _, _ => none
  | fuel + 1, n, w => preorderList (fun c => shownDescendants fuel c w) (shownChildren n w)

/-- The control a hook invocation or drawing call is about. -/
def Draw.target : Draw → Nat
  | Draw.Think n => n
  | Draw.RenderUnder n => n
  | Draw.Render n => n
  | Draw.RenderOver n => n
  | Draw.KeyboardHighlight n => n
  | Draw.SetupCacheTexture n => n
  | Draw.FinishCacheTexture n => n
  | Draw.DrawCachedControlTexture n => n

/-- The calls drawn from `s` to `s1` extend the log and are about controls of rank at most
`k`. -/
def LogStep (r : Nat → Nat) (k : Nat) (s s1 : World × RenderState) : Prop :=
  ∃ log, s1.2.drawn = s.2.drawn ++ log ∧ ∀ e, e ∈ log → r e.target ≤ k

/-! ## Axis frames -/

/-- A control with everything a horizontal arrangement may write erased: the `x` and the
width of the bounds and of the inner bounds, the render bounds (derived from the bounds)
and the two dirty flags. -/
def eraseHorizontal (c : Control) : Control :=
  { c with m_bounds := Rect.mk 0 c.m_bounds.y 0 c.m_bounds.h, m_renderBounds := {},
           m_innerBounds := Rect.mk 0 c.m_innerBounds.y 0 c.m_innerBounds.h,
           m_bNeedsLayout := false, m_bCacheTextureDirty := false }

/-- A control with everything a vertical arrangement may write erased: the `y` and the
height of the bounds and of the inner bounds, the render bounds and the two dirty flags. -/
def eraseVertical (c : Control) : Control :=
  { c with m_bounds := Rect.mk c.m_bounds.x 0 c.m_bounds.w 0, m_renderBounds := {},
           m_innerBounds := Rect.mk c.m_innerBounds.x 0 c.m_innerBounds.w 0,
           m_bNeedsLayout := false, m_bCacheTextureDirty := false }

/-- The frame of an arrangement of the container `n` with children `S` along one axis, `g`
erasing what the pass may write: every control is unchanged up to `g`, inner bounds change
on `n` only and bounds on the controls of `S` only. -/
def AxisFrame (g : Control → Control) (n : Nat) (S : List Nat) (w w1 : World) : Prop :=
  SameGlobals w w1 ∧ w1.trace = w.trace ∧
    ∀ m, g (w1.ctrl m) = g (w.ctrl m) ∧
      (m ≠ n → (w1.ctrl m).m_innerBounds = (w.ctrl m).m_innerBounds) ∧
      (m ∉ S → (w1.ctrl m).m_bounds = (w.ctrl m).m_bounds)

/-! ## Horizontal dock layouts -/

/-- The horizontal space a docked control takes: preferred width plus horizontal margins. -/
def Control.hSpan (c : Control) : Int :=
  c.m_preferredSize.width + c.m_margin.left + c.m_margin.right

/-- The control takes its width from the left edge in the dock loop of `ArrangeHorizontal`:
it is shown and has the Left flag without the Top flag. -/
def takesLeft (c : Control) : Bool :=
  !c.m_bHidden && !hasFlag c.m_dock Position.Top && hasFlag c.m_dock Position.Left

/-- The control takes its width from the right edge in the dock loop of
`ArrangeHorizontal`: it is shown and has the Right flag without the Top and Left flags. -/
def takesRight (c : Control) : Bool :=
  !c.m_bHidden && !hasFlag c.m_dock Position.Top && !hasFlag c.m_dock Position.Left &&
    hasFlag c.m_dock Position.Right

/-- The sum of the horizontal spaces of the controls of `l` that take from the left edge. -/
def leftTaken (w : World) (l : List Nat) : Int :=
  ((l.filter fun c => takesLeft (w.ctrl c)).map fun c => (w.ctrl c).hSpan).sum

/-- The sum of the horizontal spaces of the controls of `l` that take from the right edge. -/
def rightTaken (w : World) (l : List Nat) : Int :=
  ((l.filter fun c => takesRight (w.ctrl c)).map fun c => (w.ctrl c).hSpan).sum

/-- The bounds of a shown child after its turn in the horizontal dock loop, when the
remaining inner rectangle starts at `ibx` and is `ibw` wide. -/
def dockedBoundsX (c : Control) (ibx ibw : Int) : Rect :=
  if hasFlag c.m_dock Position.Top then
    Rect.mk (ibx + c.m_margin.left) c.m_bounds.y
      (if c.m_sizeFlags.horizontal = SizeFlag.Fixed then c.m_bounds.w
        else ibw - c.m_margin.left - c.m_margin.right) c.m_bounds.h
  else if hasFlag c.m_dock Position.Left then
    Rect.mk (ibx + c.m_margin.left) c.m_bounds.y c.m_preferredSize.width c.m_bounds.h
  else if hasFlag c.m_dock Position.Right then
    Rect.mk ((ibx + ibw) - c.m_preferredSize.width - c.m_margin.right) c.m_bounds.y
      c.m_preferredSize.width c.m_bounds.h
  else if hasFlag c.m_dock Position.Bottom then
    Rect.mk ibx c.m_bounds.y
      (if c.m_sizeFlags.horizontal = SizeFlag.Fixed then c.m_bounds.w
        else ibw - c.m_margin.left - c.m_margin.right) c.m_bounds.h
  else c.m_bounds

/-- The control is shown and docked exactly Left or exactly Right. -/
def sideDocked (c : Control) : Bool :=
  !c.m_bHidden && (c.m_dock == Position.Left || c.m_dock == Position.Right)

/-- The sum of the horizontal spaces of the shown controls of `l` docked exactly Left or
exactly Right. -/
def sideSpans (w : World) (l : List Nat) : Int :=
  ((l.filter fun c => sideDocked (w.ctrl c)).map fun c => (w.ctrl c).hSpan).sum

/-- The left end of the margin box of a control. -/
def Control.boxLo (c : Control) : Int := c.m_bounds.x - c.m_margin.left

/-- The right end of the margin box of a control. -/
def Control.boxHi (c : Control) : Int := c.m_bounds.x + c.m_bounds.w + c.m_margin.right

/-- A container (address 0) of fixed horizontal size 200 with three children: a wide
left-docked one, a hidden one and an undocked one that sticks out of the container. -/
def fixedTree : World :=
  World.ofList [
    { Children := [1, 2, 3], m_bounds := { x := 0, y := 0, w := 200, h := 100 },
      m_sizeFlags := { horizontal := SizeFlag.Fixed, vertical := SizeFlag.Expand } },
    { m_parent := some 0, m_actualParent := some 0, m_dock := Position.Left,
      m_minimumSize := { width := 500, height := 0 },
      m_margin := { left := 3, top := 0, right := 4, bottom := 0 } },
    { m_parent := some 0, m_actualParent := some 0, m_bHidden := true },
    { m_parent := some 0, m_actualParent := some 0,
      m_bounds := { x := 150, y := 0, w := 300, h := 10 } }]

/-- A canvas (address 0) that is tabable, holds the keyboard focus and needs layout, with
a left-docked child, a fill-docked child and a hidden child. -/
def canvasTree : World :=
  { World.ofList [
      { Children := [1, 2, 3], m_bounds := { x := 0, y := 0, w := 200, h := 100 },
        isCanvas := true, m_tabable := true, m_bNeedsLayout := true },
      { m_parent := some 0, m_actualParent := some 0, m_dock := Position.Left,
        m_minimumSize := { width := 50, height := 20 } },
      { m_parent := some 0, m_actualParent := some 0, m_dock := Position.Fill },
      { m_parent := some 0, m_actualParent := some 0, m_bHidden := true }] with
    KeyboardFocus := some 0 }

/-- The container of the specification: width 200, no padding, three left-docked children
of preferred widths 10, 20 and 30 and a fill-docked child listed between them. -/
def dockTree : World :=
  World.ofList [
    { Children := [1, 2, 3, 4], m_bounds := { x := 0, y := 0, w := 200, h := 100 } },
    { m_parent := some 0, m_actualParent := some 0, m_dock := Position.Left,
      m_preferredSize := { width := 10, height := 5 } },
    { m_parent := some 0, m_actualParent := some 0, m_dock := Position.Fill },
    { m_parent := some 0, m_actualParent := some 0, m_dock := Position.Left,
      m_preferredSize := { width := 20, height := 5 } },
    { m_parent := some 0, m_actualParent := some 0, m_dock := Position.Left,
      m_preferredSize := { width := 30, height := 5 } }]

/-- The rank of a flat tree: the container at address 0 above everything else. -/
def flatRank (i : Nat) : Nat := if i = 0 then 1 else 0

/-- The depth of a flat tree: everything but address 0 one level down. -/
def flatDepth (i : Nat) : Nat := if i = 0 then 0 else 1

/-- A scroll-control-like tree: a canvas (0) holds the control `A` (1) whose inner panel
`P` (2) holds the control `x` (3); the logical parent of `x` is `A`, its actual parent
`P`. Controls 4 and 5 are two further roots. The keyboard focus is on `P`. -/
def scrollTree : World :=
  { World.ofList [
      { Children := [1], isCanvas := true, m_bounds := { x := 0, y := 0, w := 300, h := 200 } },
      { m_parent := some 0, m_actualParent := some 0, Children := [2], m_innerPanel := some 2,
        m_bounds := { x := 10, y := 20, w := 100, h := 100 }, m_bNeedsLayout := false },
      { m_parent := some 1, m_actualParent := some 1, Children := [3],
        m_bounds := { x := 5, y := 7, w := 90, h := 90 }, m_bNeedsLayout := false },
      { m_parent := some 1, m_actualParent := some 2,
        m_bounds := { x := 3, y := 4, w := 10, h := 10 }, m_bNeedsLayout := false },
      { m_bNeedsLayout := false },
      { m_bNeedsLayout := false }] with
    KeyboardFocus := some 2 }

/-- A depth function for the scroll tree. -/
def scrollDepth (i : Nat) : Nat := if i < 4 then i else 0

/-- A rank function for the scroll tree. -/
def scrollRank (i : Nat) : Nat := 5 - i

/-- Two siblings under a root (address 0), all three cached to texture, laid out and drawn
(no needs-layout and no cache-dirty flag set): the control `q` (1) holds the keyboard focus,
`n` (2) does not. -/
def focusTree : World :=
  { World.ofList [
      { Children := [1, 2], m_bounds := { x := 0, y := 0, w := 100, h := 100 },
        m_bCacheToTexture := true, m_bNeedsLayout := false, m_bCacheTextureDirty := false },
      { m_parent := some 0, m_actualParent := some 0, m_bKeyboardInputEnabled := true,
        m_bCacheToTexture := true, m_bNeedsLayout := false, m_bCacheTextureDirty := false },
      { m_parent := some 0, m_actualParent := some 0, m_bKeyboardInputEnabled := true,
        m_bounds := { x := 20, y := 0, w := 10, h := 10 },
        m_bCacheToTexture := true, m_bNeedsLayout := false, m_bCacheTextureDirty := false }] with
    KeyboardFocus := some 1 }

/-- A container (address 0) of size 200 x 100 whose only child (1) was docked Fill and then
hidden: the child has its initial bounds (0, 0, 10, 10) and, as `SetHidden` leaves them,
both dirty flags set. -/
def hiddenFillTree : World :=
  World.ofList [
    { Children := [1], m_bounds := { x := 0, y := 0, w := 200, h := 100 } },
    { m_parent := some 0, m_actualParent := some 0, m_dock := Position.Fill, m_bHidden := true }]

/-- A tree for hit tests. The root (0) is 100 x 100 with the children 1, 2, 3 in insertion
order: 1 at (10, 10, 50, 50), 2 at (30, 30, 50, 50) over it, 3 hidden and covering the
root. The control 4 is the child of 1, at (20, 0, 200, 200) in the coordinates of 1, so it
sticks out of 1 and of the root; its mouse input is disabled. -/
def hitTree : World :=
  World.ofList [
    { Children := [1, 2, 3], m_bounds := { x := 0, y := 0, w := 100, h := 100 } },
    { m_parent := some 0, m_actualParent := some 0, Children := [4],
      m_bounds := { x := 10, y := 10, w := 50, h := 50 } },
    { m_parent := some 0, m_actualParent := some 0,
      m_bounds := { x := 30, y := 30, w := 50, h := 50 } },
    { m_parent := some 0, m_actualParent := some 0, m_bHidden := true,
      m_bounds := { x := 0, y := 0, w := 100, h := 100 } },
    { m_parent := some 1, m_actualParent := some 1, m_bMouseInputEnabled := false,
      m_bounds := { x := 20, y := 0, w := 200, h := 200 } }]

/-- A rank function for trees of two levels below the root 0, in which 1 is the only child
of the root that has children. -/
def twoLevelRank (i : Nat) : Nat := if i = 0 then 2 else if i = 1 then 1 else 0

/-- A container (address 0) at (7, 9) with padding (1, 2, 3, 4) and three children: one at
(5, 5, 10, 10) without margin, a hidden one and one excluded from the size, both far out. -/
def sizeTree : World :=
  World.ofList [
    { Children := [1, 2, 3], m_bounds := { x := 7, y := 9, w := 100, h := 100 },
      m_padding := { left := 1, top := 2, right := 3, bottom := 4 } },
    { m_parent := some 0, m_actualParent := some 0,
      m_bounds := { x := 5, y := 5, w := 10, h := 10 } },
    { m_parent := some 0, m_actualParent := some 0, m_bHidden := true,
      m_bounds := { x := 50, y := 50, w := 10, h := 10 } },
    { m_parent := some 0, m_actualParent := some 0, m_bIncludeInSize := false,
      m_bounds := { x := 70, y := 70, w := 10, h := 10 } }]

/-- A tree with names. The root (0) lists "panel" (1) and "ok" (2); "panel" lists the
unnamed control 3 and a second "ok" (4). -/
def nameTree : World :=
  World.ofList [
    { Children := [1, 2], m_name := "root" },
    { m_parent := some 0, m_actualParent := some 0, Children := [3, 4], m_name := "panel" },
    { m_parent := some 0, m_actualParent := some 0, m_name := "ok" },
    { m_parent := some 1, m_actualParent := some 1 },
    { m_parent := some 1, m_actualParent := some 1, m_name := "ok" }]

/-- A parent (address 0) of size 100 x 80 with margin 5 on every side and a child (1) of
size 20 x 20 with padding (1, 2, 3, 4) that is restricted to its parent. -/
def moveTree : World :=
  World.ofList [
    { Children := [1], m_bounds := { x := 0, y := 0, w := 100, h := 80 },
      m_margin := { left := 5, top := 5, right := 5, bottom := 5 } },
    { m_parent := some 0, m_actualParent := some 0, m_bRestrictToParent := true,
      m_bounds := { x := 10, y := 10, w := 20, h := 20 },
      m_padding := { left := 1, top := 2, right := 3, bottom := 4 } }]

/-- A container (address 0) with Elastic size flags, padding 1 on every side and four
leaves: a Left-docked one of minimum size 10 x 7, a Fill-docked one of minimum size 20 x 5,
a Top-docked one of minimum size 25 x 4 and a hidden Left-docked one of minimum size
500 x 500. -/
def bucketTree : World :=
  World.ofList [
    { Children := [1, 2, 3, 4], m_bounds := { x := 0, y := 0, w := 200, h := 100 },
      m_sizeFlags := { horizontal := SizeFlag.Elastic, vertical := SizeFlag.Elastic },
      m_padding := { left := 1, top := 1, right := 1, bottom := 1 } },
    { m_parent := some 0, m_actualParent := some 0, m_dock := Position.Left,
      m_minimumSize := { width := 10, height := 7 } },
    { m_parent := some 0, m_actualParent := some 0, m_dock := Position.Fill,
      m_minimumSize := { width := 20, height := 5 } },
    { m_parent := some 0, m_actualParent := some 0, m_dock := Position.Top,
      m_minimumSize := { width := 25, height := 4 } },
    { m_parent := some 0, m_actualParent := some 0, m_dock := Position.Left, m_bHidden := true,
      m_minimumSize := { width := 500, height := 500 } }]

/-- A container (address 0) of size 100 x 200 with padding top 3 and bottom 7 and six
children with one dock flag each, in list order: Top (preferred height 20, margins 1 and
2), Left (vertical flag Expand), Bottom (preferred height 30, margins 4 and 5), Right
(vertical flag Fixed, height 10), Fill (margins 6 and 8) and a hidden Top child. -/
def stackTree : World :=
  World.ofList [
    { Children := [1, 2, 3, 4, 5, 6], m_bounds := { x := 0, y := 0, w := 100, h := 200 },
      m_padding := { left := 0, top := 3, right := 0, bottom := 7 } },
    { m_parent := some 0, m_actualParent := some 0, m_dock := Position.Top,
      m_preferredSize := { width := 0, height := 20 },
      m_margin := { left := 0, top := 1, right := 0, bottom := 2 } },
    { m_parent := some 0, m_actualParent := some 0, m_dock := Position.Left },
    { m_parent := some 0, m_actualParent := some 0, m_dock := Position.Bottom,
      m_preferredSize := { width := 0, height := 30 },
      m_margin := { left := 0, top := 4, right := 0, bottom := 5 } },
    { m_parent := some 0, m_actualParent := some 0, m_dock := Position.Right,
      m_sizeFlags := { horizontal := SizeFlag.Expand, vertical := SizeFlag.Fixed } },
    { m_parent := some 0, m_actualParent := some 0, m_dock := Position.Fill,
      m_margin := { left := 0, top := 6, right := 0, bottom := 8 } },
    { m_parent := some 0, m_actualParent := some 0, m_dock := Position.Top, m_bHidden := true,
      m_preferredSize := { width := 0, height := 50 } }]

/-- The tree of `nameTree` with accelerators: "Ctrl+S" is registered on the root (0), which
is focus-restricted and does not hold the focus, on the control 3, which is
focus-restricted and holds the focus, on the control 4 and on the control 2. -/
def accelTree : World :=
  { World.ofList [
      { Children := [1, 2], m_accelerators := ["Ctrl+S"], accelOnlyFocus := true },
      { m_parent := some 0, m_actualParent := some 0, Children := [3, 4],
        m_accelerators := ["Ctrl+O"] },
      { m_parent := some 0, m_actualParent := some 0, m_accelerators := ["Ctrl+S"] },
      { m_parent := some 1, m_actualParent := some 1, m_accelerators := ["Ctrl+S"],
        accelOnlyFocus := true },
      { m_parent := some 1, m_actualParent := some 1, m_accelerators := ["Ctrl+S"] }] with
    KeyboardFocus := some 3 }

/-- A tree for the render passes: the root `0` is cached to texture, holds the keyboard
focus and lists `1`, `2` and `3`; `1` lists `4` and `5`; the hidden `2` lists `6`. -/
def renderTree : World :=
  { World.ofList
      [{ Children := [1, 2, 3], m_bounds := { x := 0, y := 0, w := 100, h := 80 },
         m_bCacheToTexture := true, m_tabable := true },
       { m_parent := some 0, m_actualParent := some 0, Children := [4, 5],
         m_bounds := { x := 10, y := 10, w := 50, h := 40 } },
       { m_parent := some 0, m_actualParent := some 0, Children := [6], m_bHidden := true,
         m_bounds := { x := 60, y := 10, w := 30, h := 40 } },
       { m_parent := some 0, m_actualParent := some 0,
         m_bounds := { x := 10, y := 55, w := 80, h := 20 } },
       { m_parent := some 1, m_actualParent := some 1,
         m_bounds := { x := 5, y := 5, w := 20, h := 10 } },
       { m_parent := some 1, m_actualParent := some 1,
         m_bounds := { x := 5, y := 20, w := 20, h := 10 } },
       { m_parent := some 2, m_actualParent := some 2,
         m_bounds := { x := 5, y := 5, w := 20, h := 10 } }] with
    KeyboardFocus := some 0 }

/-- A rank for `renderTree`. -/
def renderRank (i : Nat) : Nat := if i = 0 then 2 else if i = 1 ∨ i = 2 then 1 else 0

/-- A renderer with a cache-to-texture facility that moves the offset by the position of
the rectangle, clips to the rectangle at the offset and sees the regions of positive area. -/
def cullingRenderer : Renderer :=
  { AddRenderOffset := fun o r => { x := o.x + r.x, y := o.y + r.y }
    AddClipRegion := fun o _ r => { x := o.x, y := o.y, w := r.w, h := r.h }
    ClipRegionVisible := fun r => decide (0 < r.w ∧ 0 < r.h)
    GetCTT := true }

/-- A renderer without a cache-to-texture facility that sees every clip region. -/
def openRenderer : Renderer :=
  { AddRenderOffset := fun o r => { x := o.x + r.x, y := o.y + r.y }
    AddClipRegion := fun o _ r => { x := o.x, y := o.y, w := r.w, h := r.h }
    ClipRegionVisible := fun _ => true
    GetCTT := false }

/-- The renderer state at the start of a frame on a 100 by 80 canvas. -/
def frameStart : RenderState :=
  { clipRegion := { x := 0, y := 0, w := 100, h := 80 } }

/-- A control with bounds 40 by 30, configured maximum 100 by 50 and preferred size 30 by
80, with the Elastic policy on both axes. -/
def limitTree : World :=
  World.ofList
    [{ m_bounds := { x := 0, y := 0, w := 40, h := 30 },
       m_maximumSize := { width := 100, height := 50 },
       m_preferredSize := { width := 30, height := 80 },
       m_sizeFlags := { horizontal := SizeFlag.Elastic, vertical := SizeFlag.Elastic } }]

/-- A container (padding 3 left, 2 right, bounds 100 by 60) with four children of equal
margins (5 left, 7 right) and equal bounds: `1` docked Top and `2` docked Bottom with the
Expand policy, `3` docked Top and `4` docked Bottom with the Fixed policy. -/
def topBottomTree : World :=
  World.ofList
    [{ Children := [1, 2, 3, 4], m_bounds := { x := 0, y := 0, w := 100, h := 60 },
       m_padding := { left := 3, right := 2 } },
     { m_parent := some 0, m_actualParent := some 0, m_dock := Position.Top,
       m_margin := { left := 5, right := 7 } },
     { m_parent := some 0, m_actualParent := some 0, m_dock := Position.Bottom,
       m_margin := { left := 5, right := 7 } },
     { m_parent := some 0, m_actualParent := some 0, m_dock := Position.Top,
       m_margin := { left := 5, right := 7 },
       m_sizeFlags := { horizontal := SizeFlag.Fixed, vertical := SizeFlag.Fixed } },
     { m_parent := some 0, m_actualParent := some 0, m_dock := Position.Bottom,
       m_margin := { left := 5, right := 7 },
       m_sizeFlags := { horizontal := SizeFlag.Fixed, vertical := SizeFlag.Fixed } }]

/-- A container 100 wide with padding 3 left and 2 right: `1` docked Left (preferred width
20, margins 1 and 2), `2` docked Right (preferred width 30, margins 2 and 1), `3` docked
Fill, `4` docked Left (preferred width 10) and the hidden `5` docked Left. -/
def sideTree : World :=
  World.ofList
    [{ Children := [1, 2, 3, 4, 5], m_bounds := { x := 0, y := 0, w := 100, h := 60 },
       m_padding := { left := 3, right := 2 } },
     { m_parent := some 0, m_actualParent := some 0, m_dock := Position.Left,
       m_preferredSize := { width := 20, height := 5 }, m_margin := { left := 1, right := 2 } },
     { m_parent := some 0, m_actualParent := some 0, m_dock := Position.Right,
       m_preferredSize := { width := 30, height := 5 }, m_margin := { left := 2, right := 1 } },
     { m_parent := some 0, m_actualParent := some 0, m_dock := Position.Fill,
       m_preferredSize := { width := 15, height := 5 }, m_margin := { left := 1, right := 1 } },
     { m_parent := some 0, m_actualParent := some 0, m_dock := Position.Left,
       m_preferredSize := { width := 10, height := 5 } },
     { m_parent := some 0, m_actualParent := some 0, m_dock := Position.Left, m_bHidden := true,
       m_preferredSize := { width := 40, height := 5 } }]

/-- A container 100 wide without padding: `1` carries the Left and the CenterV flag
(preferred width 30), `2` is docked exactly Left (preferred width 20). -/
def mixedDockTree : World :=
  World.ofList
    [{ Children := [1, 2], m_bounds := { x := 0, y := 0, w := 100, h := 60 } },
     { m_parent := some 0, m_actualParent := some 0,
       m_dock := Position.Left ||| Position.CenterV,
       m_preferredSize := { width := 30, height := 5 } },
     { m_parent := some 0, m_actualParent := some 0, m_dock := Position.Left,
       m_preferredSize := { width := 20, height := 5 } }]

/-- A depth function for the hit-test tree: the root 0, its children one level down and
the control 4 two levels down. -/
def hitDepth (i : Nat) : Nat := if i = 0 then 0 else if i = 4 then 2 else 1

/-! # Theorems -/

section Basics

@[simp] theorem modify_ctrl_same (w : World) (n : Nat) (f : Control → Control) :
    (w.modify n f).ctrl n = f (w.ctrl n) := by
  simp [World.modify]

@[simp] theorem modify_ctrl_ne (w : World) {n m : Nat} (f : Control → Control) (h : m ≠ n) :
    (w.modify n f).ctrl m = w.ctrl m := by
  simp [World.modify, Function.update_noteq h]

theorem modify_ctrl (w : World) (n m : Nat) (f : Control → Control) :
    (w.modify n f).ctrl m = if m = n then f (w.ctrl n) else w.ctrl m := by
  by_cases h : m = n
  · subst h; simp
  · simp [h]

@[simp] theorem modify_HoveredControl (w : World) (n : Nat) (f : Control → Control) :
    (w.modify n f).HoveredControl = w.HoveredControl := rfl

@[simp] theorem modify_KeyboardFocus (w : World) (n : Nat) (f : Control → Control) :
    (w.modify n f).KeyboardFocus = w.KeyboardFocus := rfl

@[simp] theorem modify_MouseFocus (w : World) (n : Nat) (f : Control → Control) :
    (w.modify n f).MouseFocus = w.MouseFocus := rfl

@[simp] theorem modify_trace (w : World) (n : Nat) (f : Control → Control) :
    (w.modify n f).trace = w.trace := rfl

@[simp] theorem emit_ctrl (w : World) (e : Hook) : (w.emit e).ctrl = w.ctrl := rfl

@[simp] theorem emit_trace (w : World) (e : Hook) : (w.emit e).trace = w.trace ++ [e] := rfl

@[simp] theorem emit_HoveredControl (w : World) (e : Hook) :
    (w.emit e).HoveredControl = w.HoveredControl := rfl

@[simp] theorem emit_KeyboardFocus (w : World) (e : Hook) :
    (w.emit e).KeyboardFocus = w.KeyboardFocus := rfl

@[simp] theorem emit_MouseFocus (w : World) (e : Hook) :
    (w.emit e).MouseFocus = w.MouseFocus := rfl

end Basics

section InvalidateTheorems

/-- C1: `Invalidate()` on a control `n` sets the needs-layout flag and the cache-dirty flag
of `n` to true and changes nothing else: every other data member of `n`, every other
control (parent, ancestors, children included), the three global references and the hook
trace are as before. -/
theorem Invalidate_sets_two_flags_only (w : World) (n : Nat) :
    ((Invalidate n w).ctrl n).m_bNeedsLayout = true ∧
    ((Invalidate n w).ctrl n).m_bCacheTextureDirty = true ∧
    (Invalidate n w).ctrl n =
      { w.ctrl n with m_bNeedsLayout := true, m_bCacheTextureDirty := true } ∧
    (∀ m, m ≠ n → (Invalidate n w).ctrl m = w.ctrl m) ∧
    (Invalidate n w).HoveredControl = w.HoveredControl ∧
    (Invalidate n w).KeyboardFocus = w.KeyboardFocus ∧
    (Invalidate n w).MouseFocus = w.MouseFocus ∧
    (Invalidate n w).trace = w.trace := by
  refine ⟨?_, ?_, ?_, ?_, rfl, rfl, rfl, rfl⟩
  · simp [Invalidate]
  · simp [Invalidate]
  · simp [Invalidate]
  · intro m hm
    simp [Invalidate, hm]

end InvalidateTheorems

section Frames

theorem SameGlobals_refl (w : World) : SameGlobals w w := ⟨rfl, rfl, rfl⟩

theorem SameGlobals_trans {w w1 w2 : World} (h1 : SameGlobals w w1) (h2 : SameGlobals w1 w2) :
    SameGlobals w w2 :=
  ⟨h2.1.trans h1.1, h2.2.1.trans h1.2.1, h2.2.2.trans h1.2.2⟩

theorem DirtyFrame_refl (w : World) : DirtyFrame w w :=
  ⟨SameGlobals_refl w, rfl, fun _ => ⟨rfl, id⟩⟩

theorem DirtyFrame_trans {w w1 w2 : World} (h1 : DirtyFrame w w1) (h2 : DirtyFrame w1 w2) :
    DirtyFrame w w2 :=
  ⟨SameGlobals_trans h1.1 h2.1, h2.2.1.trans h1.2.1,
    fun m => ⟨(h2.2.2 m).1.trans (h1.2.2 m).1, fun h => (h2.2.2 m).2 ((h1.2.2 m).2 h)⟩⟩

theorem LayoutFrame_refl (w : World) : LayoutFrame w w :=
  ⟨SameGlobals_refl w, fun _ => rfl⟩

theorem LayoutFrame_trans {w w1 w2 : World} (h1 : LayoutFrame w w1) (h2 : LayoutFrame w1 w2) :
    LayoutFrame w w2 :=
  ⟨SameGlobals_trans h1.1 h2.1, fun m => (h2.2 m).trans (h1.2 m)⟩

theorem eraseLayout_of_eraseDirty {c c1 : Control} (h : eraseDirty c1 = eraseDirty c) :
    eraseLayout c1 = eraseLayout c := by
  have := congrArg eraseLayout h
  exact this

theorem eraseLayout_of_eraseGeom {c c1 : Control} (h : eraseGeom c1 = eraseGeom c) :
    eraseLayout c1 = eraseLayout c := by
  have := congrArg eraseLayout h
  exact this

theorem eraseGeom_of_eraseDirty {c c1 : Control} (h : eraseDirty c1 = eraseDirty c) :
    eraseGeom c1 = eraseGeom c := by
  have := congrArg eraseGeom h
  exact this

theorem DirtyFrame.dirtyToLayout {w w1 : World} (h : DirtyFrame w w1) : LayoutFrame w w1 :=
  ⟨h.1, fun m => eraseLayout_of_eraseDirty (h.2.2 m).1⟩

/-- Any data member that `eraseDirty` leaves alone is preserved by a dirty frame. -/
theorem DirtyFrame.dirtyProj {α : Type} {w w1 : World} (h : DirtyFrame w w1) (g : Control → α)
    (hg : ∀ c, g (eraseDirty c) = g c) (m : Nat) : g (w1.ctrl m) = g (w.ctrl m) := by
  rw [← hg (w1.ctrl m), ← hg (w.ctrl m), (h.2.2 m).1]

/-- Any data member that `eraseLayout` leaves alone is preserved by a layout frame. -/
theorem LayoutFrame.layoutProj {α : Type} {w w1 : World} (h : LayoutFrame w w1) (g : Control → α)
    (hg : ∀ c, g (eraseLayout c) = g c) (m : Nat) : g (w1.ctrl m) = g (w.ctrl m) := by
  rw [← hg (w1.ctrl m), ← hg (w.ctrl m), h.2 m]

theorem ParentDepth_of_frame {w w1 : World} {d : Nat → Nat} (h : LayoutFrame w w1)
    (hd : ParentDepth w d) : ParentDepth w1 d := by
  intro c p hp
  rw [h.layoutProj Control.m_parent (fun _ => rfl)] at hp
  exact hd c p hp

theorem ChildRank_of_frame {w w1 : World} {r : Nat → Nat} (h : LayoutFrame w w1)
    (hr : ChildRank w r) : ChildRank w1 r := by
  intro p c hc
  rw [h.layoutProj Control.Children (fun _ => rfl)] at hc
  exact hr p c hc

end Frames

section RedrawTheorems

theorem Redraw_spec (d : Nat → Nat) :
    ∀ (fuel n : Nat) (w : World), ParentDepth w d → d n < fuel →
      ∃ w1, Redraw fuel n w = some w1 ∧ DirtyFrame w w1 ∧
        (w1.ctrl n).m_bCacheTextureDirty = true := by
  intro fuel
  induction fuel with
  | zero => intro n w _ h; omega
  | succ k ih =>
    intro n w hd hn
    have hf : DirtyFrame w (w.modify n fun c => { c with m_bCacheTextureDirty := true }) := by
      refine ⟨SameGlobals_refl _, rfl, fun m => ?_⟩
      by_cases hm : m = n
      · subst hm; simp [eraseDirty]
      · simp [hm]
    have hself : ((w.modify n fun c => { c with m_bCacheTextureDirty := true }).ctrl n).m_bCacheTextureDirty = true := by
      simp
    unfold Redraw
    simp only []
    cases hp : ((w.modify n fun c => { c with m_bCacheTextureDirty := true }).ctrl n).m_parent with
    | none => exact ⟨_, rfl, hf, hself⟩
    | some p =>
      have hp' : (w.ctrl n).m_parent = some p := by simpa using hp
      have hdp : d p < k := by have := hd n p hp'; omega
      obtain ⟨w1, h1, h2, _⟩ := ih p _ (ParentDepth_of_frame hf.dirtyToLayout hd) hdp
      refine ⟨w1, h1, DirtyFrame_trans hf h2, ?_⟩
      exact (h2.2.2 n).2 hself

end RedrawTheorems

section SetBoundsTheorems

theorem SetBounds_spec (d : Nat → Nat) (rf n : Nat) (bounds : Rect) (w : World)
    (hd : ParentDepth w d) (hn : d n < rf) :
    ∃ w1, SetBounds rf n bounds w = some (decide ((w.ctrl n).m_bounds ≠ bounds), w1) ∧
      BoundsSet n bounds w w1 := by
  unfold SetBounds
  by_cases heq : (w.ctrl n).m_bounds = bounds
  · refine ⟨w, by simp [heq], ?_⟩
    refine ⟨SameGlobals_refl _, rfl, heq, rfl, fun _ _ => rfl, ?_⟩
    simp [← heq]
  · simp only [heq, if_false]
    set w1 := w.modify n fun c => { c with m_bounds := bounds } with hw1
    unfold OnBoundsChanged
    simp only []
    set w2 := (if (w1.ctrl n).m_bounds.w ≠ (w.ctrl n).m_bounds.w ∨
        (w1.ctrl n).m_bounds.h ≠ (w.ctrl n).m_bounds.h then Invalidate n w1 else w1) with hw2
    have h2o : ∀ m, m ≠ n → w2.ctrl m = w.ctrl m := by
      intro m hm
      rw [hw2]; split <;> simp [Invalidate, hw1, hm]
    have h2p : ∀ m, (w2.ctrl m).m_parent = (w.ctrl m).m_parent := by
      intro m
      by_cases hm : m = n
      · subst hm; rw [hw2]; split <;> simp [Invalidate, hw1]
      · rw [h2o m hm]
    have hd2 : ParentDepth w2 d := by
      intro c p hp; rw [h2p] at hp; exact hd c p hp
    obtain ⟨w3, h3, hf3, _⟩ := Redraw_spec d rf n w2 hd2 hn
    refine ⟨UpdateRenderBounds n w3, by simp [h3, heq], ?_⟩
    have h3n := (hf3.2.2 n).1
    have hg2 : SameGlobals w w2 := by
      rw [hw2]; split <;> exact SameGlobals_refl _
    have ht2 : w2.trace = w.trace := by
      rw [hw2]; split <;> rfl
    refine ⟨SameGlobals_trans hg2 hf3.1, ?_, ?_, ?_, ?_, ?_⟩
    · simp [UpdateRenderBounds, hf3.2.1, ht2]
    · have := congrArg Control.m_bounds h3n
      simp only [UpdateRenderBounds, modify_ctrl_same]
      have h' : (w3.ctrl n).m_bounds = (w2.ctrl n).m_bounds := this
      rw [h', hw2]; split <;> simp [Invalidate, hw1]
    · have := eraseGeom_of_eraseDirty h3n
      simp only [UpdateRenderBounds, modify_ctrl_same]
      have h' : eraseGeom (w3.ctrl n) = eraseGeom (w.ctrl n) := by
        rw [this, hw2]; split <;> simp [Invalidate, hw1, eraseGeom]
      rw [← h']; rfl
    · intro m hm
      simp only [UpdateRenderBounds, modify_ctrl_ne _ _ hm]
      rw [(hf3.2.2 m).1, h2o m hm]
    · have := congrArg Control.m_bNeedsLayout h3n
      simp only [UpdateRenderBounds, modify_ctrl_same]
      have h' : (w3.ctrl n).m_bNeedsLayout = (w2.ctrl n).m_bNeedsLayout := this
      rw [h', hw2]
      by_cases hsz : bounds.w ≠ (w.ctrl n).m_bounds.w ∨ bounds.h ≠ (w.ctrl n).m_bounds.h
      · simp [hw1, hsz, Invalidate]
      · simp [hw1, hsz]

theorem BoundsSet.boundsToLayout {n : Nat} {bounds : Rect} {w w1 : World}
    (h : BoundsSet n bounds w w1) : LayoutFrame w w1 := by
  refine ⟨h.globals, fun m => ?_⟩
  by_cases hm : m = n
  · subst hm; exact eraseLayout_of_eraseGeom h.self
  · exact eraseLayout_of_eraseDirty (h.others m hm)

theorem SetBoundsXYWH_spec (d : Nat → Nat) (rf n : Nat) (x y wd ht : Int) (w : World)
    (hd : ParentDepth w d) (hn : d n < rf) :
    ∃ w1, SetBoundsXYWH rf n x y wd ht w = some w1 ∧
      BoundsSet n { x := x, y := y, w := wd, h := ht } w w1 := by
  obtain ⟨w1, h1, h2⟩ := SetBounds_spec d rf n { x := x, y := y, w := wd, h := ht } w hd hn
  exact ⟨w1, by simp [SetBoundsXYWH, h1], h2⟩

end SetBoundsTheorems

section LoopTheorems

theorem fillLoop_rel (step : Nat → World → Option World) (P : World → Prop)
    (R : World → World → Prop) (hrefl : ∀ w, R w w)
    (htrans : ∀ a b c, R a b → R b c → R a c) :
    ∀ (l : List Nat),
      (∀ child, child ∈ l → ∀ w, P w → ∃ w1, step child w = some w1 ∧ P w1 ∧ R w w1) →
      ∀ w, P w → ∃ w1, fillLoop step l w = some w1 ∧ P w1 ∧ R w w1 := by
  intro l
  induction l with
  | nil => intro _ w hw; exact ⟨w, rfl, hw, hrefl w⟩
  | cons a l ih =>
    intro hstep w hw
    obtain ⟨w1, h1, hp1, hr1⟩ := hstep a (List.mem_cons_self a l) w hw
    obtain ⟨w2, h2, hp2, hr2⟩ :=
      ih (fun c hc => hstep c (List.mem_cons_of_mem a hc)) w1 hp1
    exact ⟨w2, by simp [fillLoop, h1, h2], hp2, htrans _ _ _ hr1 hr2⟩

theorem arrangeChildren_rel (step : Nat → World → Option World) (P : World → Prop)
    (R : World → World → Prop) (hrefl : ∀ w, R w w)
    (htrans : ∀ a b c, R a b → R b c → R a c) :
    ∀ (l : List Nat),
      (∀ child, child ∈ l → ∀ w, P w → ∃ w1, step child w = some w1 ∧ P w1 ∧ R w w1) →
      ∀ w, P w → ∃ w1, arrangeChildren step l w = some w1 ∧ P w1 ∧ R w w1 := by
  intro l
  induction l with
  | nil => intro _ w hw; exact ⟨w, rfl, hw, hrefl w⟩
  | cons a l ih =>
    intro hstep w hw
    by_cases hh : (w.ctrl a).m_bHidden = true
    · obtain ⟨w2, h2, hp2, hr2⟩ :=
        ih (fun c hc => hstep c (List.mem_cons_of_mem a hc)) w hw
      exact ⟨w2, by simp [arrangeChildren, hh, h2], hp2, hr2⟩
    · obtain ⟨w1, h1, hp1, hr1⟩ := hstep a (List.mem_cons_self a l) w hw
      obtain ⟨w2, h2, hp2, hr2⟩ :=
        ih (fun c hc => hstep c (List.mem_cons_of_mem a hc)) w1 hp1
      exact ⟨w2, by simp [arrangeChildren, hh, h1, h2], hp2, htrans _ _ _ hr1 hr2⟩

theorem dockLoop_rel (step : Nat → Rect → World → Option (Rect × World)) (P : World → Prop)
    (R : World → World → Prop) (hrefl : ∀ w, R w w)
    (htrans : ∀ a b c, R a b → R b c → R a c) :
    ∀ (l : List Nat),
      (∀ child, child ∈ l → ∀ ib w, P w →
        ∃ ib1 w1, step child ib w = some (ib1, w1) ∧ P w1 ∧ R w w1) →
      ∀ ib w, P w → ∃ ib1 w1, dockLoop step l ib w = some (ib1, w1) ∧ P w1 ∧ R w w1 := by
  intro l
  induction l with
  | nil => intro _ ib w hw; exact ⟨ib, w, rfl, hw, hrefl w⟩
  | cons a l ih =>
    intro hstep ib w hw
    by_cases hh : (w.ctrl a).m_bHidden = true
    · obtain ⟨ib2, w2, h2, hp2, hr2⟩ :=
        ih (fun c hc => hstep c (List.mem_cons_of_mem a hc)) ib w hw
      exact ⟨ib2, w2, by simp [dockLoop, hh, h2], hp2, hr2⟩
    · obtain ⟨ib1, w1, h1, hp1, hr1⟩ := hstep a (List.mem_cons_self a l) ib w hw
      obtain ⟨ib2, w2, h2, hp2, hr2⟩ :=
        ih (fun c hc => hstep c (List.mem_cons_of_mem a hc)) ib1 w1 hp1
      exact ⟨ib2, w2, by simp [dockLoop, hh, h1, h2], hp2, htrans _ _ _ hr1 hr2⟩

theorem sizeLoop_rel (step : Nat → World → Option World) (dim : Dim) (al : Bool)
    (P : World → Prop) (R : World → World → Prop) (hrefl : ∀ w, R w w)
    (htrans : ∀ a b c, R a b → R b c → R a c) :
    ∀ (l : List Nat),
      (∀ child, child ∈ l → ∀ w, P w → ∃ w1, step child w = some w1 ∧ P w1 ∧ R w w1) →
      ∀ acc w, P w →
        ∃ acc1 w1, sizeLoop step dim al l acc w = some (acc1, w1) ∧ P w1 ∧ R w w1 := by
  intro l
  induction l with
  | nil => intro _ acc w hw; exact ⟨acc, w, rfl, hw, hrefl w⟩
  | cons a l ih =>
    intro hstep acc w hw
    by_cases hh : (w.ctrl a).m_bHidden = true
    · obtain ⟨acc2, w2, h2, hp2, hr2⟩ :=
        ih (fun c hc => hstep c (List.mem_cons_of_mem a hc)) acc w hw
      exact ⟨acc2, w2, by simp [sizeLoop, hh, h2], hp2, hr2⟩
    · obtain ⟨w1, h1, hp1, hr1⟩ := hstep a (List.mem_cons_self a l) w hw
      obtain ⟨acc2, w2, h2, hp2, hr2⟩ :=
        ih (fun c hc => hstep c (List.mem_cons_of_mem a hc))
          (bucket dim al (w1.ctrl a) acc) w1 hp1
      exact ⟨acc2, w2, by simp [sizeLoop, hh, h1, h2], hp2, htrans _ _ _ hr1 hr2⟩

end LoopTheorems

section ArrangeFrameTheorems

theorem eraseLayout_of_eraseInner {c c1 : Control} (h : eraseInner c1 = eraseInner c) :
    eraseLayout c1 = eraseLayout c := by
  have := congrArg eraseLayout h
  exact this

theorem eraseInner_of_eraseDirty {c c1 : Control} (h : eraseDirty c1 = eraseDirty c) :
    eraseInner c1 = eraseInner c := by
  have := congrArg eraseInner h
  exact this

theorem eraseLayout_of_eraseChild {c c1 : Control} (h : eraseChild c1 = eraseChild c) :
    eraseLayout c1 = eraseLayout c := by
  have := congrArg eraseLayout h
  exact this

theorem eraseChild_of_eraseGeom {c c1 : Control} (h : eraseGeom c1 = eraseGeom c) :
    eraseChild c1 = eraseChild c := by
  have := congrArg eraseChild h
  exact this

theorem eraseChild_of_eraseInner {c c1 : Control} (h : eraseInner c1 = eraseInner c) :
    eraseChild c1 = eraseChild c := by
  have := congrArg eraseChild h
  exact this

theorem ArrangeFrame_refl (S : List Nat) (w : World) : ArrangeFrame S w w :=
  ⟨SameGlobals_refl w, rfl, fun _ _ => rfl, fun _ _ => rfl⟩

theorem ArrangeFrame_trans {S : List Nat} {w w1 w2 : World} (h1 : ArrangeFrame S w w1)
    (h2 : ArrangeFrame S w1 w2) : ArrangeFrame S w w2 :=
  ⟨SameGlobals_trans h1.1 h2.1, h2.2.1.trans h1.2.1,
    fun m hm => (h2.2.2.1 m hm).trans (h1.2.2.1 m hm),
    fun m hm => (h2.2.2.2 m hm).trans (h1.2.2.2 m hm)⟩

theorem ArrangeFrame.arrangeToLayout {S : List Nat} {w w1 : World} (h : ArrangeFrame S w w1) :
    LayoutFrame w w1 := by
  refine ⟨h.1, fun m => ?_⟩
  by_cases hm : m ∈ S
  · exact eraseLayout_of_eraseChild (h.2.2.1 m hm)
  · exact eraseLayout_of_eraseInner (h.2.2.2 m hm)

theorem BoundsSet.toArrange {S : List Nat} {n : Nat} {bounds : Rect} {w w1 : World}
    (h : BoundsSet n bounds w w1) (hn : n ∈ S) : ArrangeFrame S w w1 := by
  refine ⟨h.globals, h.trace, fun m hm => ?_, fun m hm => ?_⟩
  · by_cases hmn : m = n
    · subst hmn; exact eraseChild_of_eraseGeom h.self
    · exact eraseChild_of_eraseGeom (eraseGeom_of_eraseDirty (h.others m hmn))
  · have hmn : m ≠ n := fun e => hm (e ▸ hn)
    exact eraseInner_of_eraseDirty (h.others m hmn)

theorem dockStepX_spec (d : Nat → Nat) (rf : Nat) (S : List Nat) (child : Nat)
    (innerBounds : Rect) (w : World) (hd : ParentDepth w d) (hrf : ∀ x, d x < rf)
    (hc : child ∈ S) :
    ∃ ib1 w1, dockStepX rf child innerBounds w = some (ib1, w1) ∧ ArrangeFrame S w w1 := by
  unfold dockStepX
  simp only []
  split_ifs
  all_goals first
    | exact ⟨_, _, rfl, ArrangeFrame_refl S w⟩
    | (obtain ⟨w1, h1, h2⟩ := SetBoundsXYWH_spec d rf child _ _ _ _ w hd (hrf child)
       exact ⟨_, w1, by rw [h1]; rfl, h2.toArrange hc⟩)

theorem dockStepY_spec (d : Nat → Nat) (rf : Nat) (S : List Nat) (child : Nat)
    (innerBounds : Rect) (w : World) (hd : ParentDepth w d) (hrf : ∀ x, d x < rf)
    (hc : child ∈ S) :
    ∃ ib1 w1, dockStepY rf child innerBounds w = some (ib1, w1) ∧ ArrangeFrame S w w1 := by
  unfold dockStepY
  simp only []
  split_ifs
  all_goals first
    | exact ⟨_, _, rfl, ArrangeFrame_refl S w⟩
    | (obtain ⟨w1, h1, h2⟩ := SetBoundsXYWH_spec d rf child _ _ _ _ w hd (hrf child)
       exact ⟨_, w1, by rw [h1]; rfl, h2.toArrange hc⟩)

theorem fillStepX_spec (d : Nat → Nat) (rf : Nat) (S : List Nat) (child : Nat)
    (innerBounds : Rect) (w : World) (hd : ParentDepth w d) (hrf : ∀ x, d x < rf)
    (hc : child ∈ S) :
    ∃ w1, fillStepX rf child innerBounds w = some w1 ∧ ArrangeFrame S w w1 := by
  unfold fillStepX
  simp only []
  split_ifs
  · exact ⟨_, rfl, ArrangeFrame_refl S w⟩
  · obtain ⟨w1, h1, h2⟩ := SetBoundsXYWH_spec d rf child _ _ _ _ w hd (hrf child)
    exact ⟨w1, h1, h2.toArrange hc⟩

theorem fillStepY_spec (d : Nat → Nat) (rf : Nat) (S : List Nat) (child : Nat)
    (innerBounds : Rect) (w : World) (hd : ParentDepth w d) (hrf : ∀ x, d x < rf)
    (hc : child ∈ S) :
    ∃ w1, fillStepY rf child innerBounds w = some w1 ∧ ArrangeFrame S w w1 := by
  unfold fillStepY
  simp only []
  split_ifs
  · exact ⟨_, rfl, ArrangeFrame_refl S w⟩
  · obtain ⟨w1, h1, h2⟩ := SetBoundsXYWH_spec d rf child _ _ _ _ w hd (hrf child)
    exact ⟨w1, h1, h2.toArrange hc⟩

/-- The two loops of an axis arrangement, for any pair of loop bodies that respect the
arrangement frame. -/
theorem arrangeAxis_spec (d : Nat → Nat) (n : Nat) (w : World)
    (dstep : Nat → Rect → World → Option (Rect × World))
    (fstep : Rect → Nat → World → Option World)
    (setInner : Rect → Control → Control)
    (hset : ∀ ib c, eraseInner (setInner ib c) = eraseInner c)
    (hdstep : ∀ child, child ∈ (w.ctrl n).Children → ∀ ib w0, ParentDepth w0 d →
      ∃ ib1 w1, dstep child ib w0 = some (ib1, w1) ∧ ArrangeFrame (w.ctrl n).Children w0 w1)
    (hfstep : ∀ ib0 child, child ∈ (w.ctrl n).Children → ∀ w0, ParentDepth w0 d →
      ∃ w1, fstep ib0 child w0 = some w1 ∧ ArrangeFrame (w.ctrl n).Children w0 w1)
    (hd : ParentDepth w d) (hself : n ∉ (w.ctrl n).Children) (ib : Rect) :
    ∃ w3, (match dockLoop dstep (w.ctrl n).Children ib w with
      | none => none
      | some (ib1, w1) =>
        fillLoop (fstep ib1) ((w1.modify n (setInner ib1)).ctrl n).Children
          (w1.modify n (setInner ib1))) = some w3 ∧
      ArrangeFrame (w.ctrl n).Children w w3 := by
  obtain ⟨ib1, w1, h1, hp1, hr1⟩ :=
    dockLoop_rel dstep (fun w0 => ParentDepth w0 d) (ArrangeFrame (w.ctrl n).Children)
      (ArrangeFrame_refl _) (fun _ _ _ => ArrangeFrame_trans) (w.ctrl n).Children
      (fun child hc ib0 w0 hw0 => by
        obtain ⟨ib1, w1, h1, h2⟩ := hdstep child hc ib0 w0 hw0
        exact ⟨ib1, w1, h1, ParentDepth_of_frame h2.arrangeToLayout hw0, h2⟩) ib w hd
  have hr2 : ArrangeFrame (w.ctrl n).Children w1 (w1.modify n (setInner ib1)) := by
    refine ⟨SameGlobals_refl _, rfl, fun m hm => ?_, fun m _ => ?_⟩
    · have hmn : m ≠ n := fun e => hself (e ▸ hm)
      simp [hmn]
    · by_cases hmn : m = n
      · subst hmn; simp [hset]
      · simp [hmn]
  have hr12 := ArrangeFrame_trans hr1 hr2
  have hch : ((w1.modify n (setInner ib1)).ctrl n).Children = (w.ctrl n).Children :=
    hr12.arrangeToLayout.layoutProj Control.Children (fun _ => rfl) n
  obtain ⟨w3, h3, _, hr3⟩ :=
    fillLoop_rel (fstep ib1) (fun w0 => ParentDepth w0 d) (ArrangeFrame (w.ctrl n).Children)
      (ArrangeFrame_refl _) (fun _ _ _ => ArrangeFrame_trans) (w.ctrl n).Children
      (fun child hc w0 hw0 => by
        obtain ⟨w1, h1, h2⟩ := hfstep ib1 child hc w0 hw0
        exact ⟨w1, h1, ParentDepth_of_frame h2.arrangeToLayout hw0, h2⟩)
      (w1.modify n (setInner ib1)) (ParentDepth_of_frame hr12.arrangeToLayout hd)
  refine ⟨w3, ?_, ArrangeFrame_trans hr12 hr3⟩
  rw [h1]
  simp only []
  rw [hch, h3]

theorem ArrangeHorizontal_spec (d : Nat → Nat) (rf n : Nat) (w : World)
    (hd : ParentDepth w d) (hrf : ∀ x, d x < rf) (hself : n ∉ (w.ctrl n).Children) :
    ∃ w1, ArrangeHorizontal rf n w = some w1 ∧ ArrangeFrame (w.ctrl n).Children w w1 := by
  exact arrangeAxis_spec d n w (dockStepX rf) (fun ib child => fillStepX rf child ib)
    (fun ib c => { c with m_innerBounds := { c.m_innerBounds with x := ib.x, w := ib.w } })
    (fun _ _ => rfl)
    (fun child hc ib w0 hw0 => dockStepX_spec d rf _ child ib w0 hw0 hrf hc)
    (fun ib child hc w0 hw0 => fillStepX_spec d rf _ child ib w0 hw0 hrf hc)
    hd hself _

theorem ArrangeVertical_spec (d : Nat → Nat) (rf n : Nat) (w : World)
    (hd : ParentDepth w d) (hrf : ∀ x, d x < rf) (hself : n ∉ (w.ctrl n).Children) :
    ∃ w1, ArrangeVertical rf n w = some w1 ∧ ArrangeFrame (w.ctrl n).Children w w1 := by
  exact arrangeAxis_spec d n w (dockStepY rf) (fun ib child => fillStepY rf child ib)
    (fun ib c => { c with m_innerBounds := { c.m_innerBounds with y := ib.y, h := ib.h } })
    (fun _ _ => rfl)
    (fun child hc ib w0 hw0 => dockStepY_spec d rf _ child ib w0 hw0 hrf hc)
    (fun ib child hc w0 hw0 => fillStepY_spec d rf _ child ib w0 hw0 hrf hc)
    hd hself _

end ArrangeFrameTheorems

section CalculateSizeTheorems

theorem CalcFrame_refl (w : World) : CalcFrame w w :=
  ⟨SameGlobals_refl w, rfl, fun _ => rfl⟩

theorem CalcFrame_trans {w w1 w2 : World} (h1 : CalcFrame w w1) (h2 : CalcFrame w1 w2) :
    CalcFrame w w2 :=
  ⟨SameGlobals_trans h1.1 h2.1, h2.2.1.trans h1.2.1, fun m => (h2.2.2 m).trans (h1.2.2 m)⟩

theorem CalcFrame.calcToLayout {w w1 : World} (h : CalcFrame w w1) : LayoutFrame w w1 := by
  refine ⟨h.1, fun m => ?_⟩
  have := congrArg eraseLayout (h.2.2 m)
  exact this

/-- Any data member that `erasePreferred` leaves alone is preserved by a size calculation. -/
theorem CalcFrame.calcProj {α : Type} {w w1 : World} (h : CalcFrame w w1) (g : Control → α)
    (hg : ∀ c, g (erasePreferred c) = g c) (m : Nat) : g (w1.ctrl m) = g (w.ctrl m) := by
  rw [← hg (w1.ctrl m), ← hg (w.ctrl m), h.2.2 m]

theorem CalcFrame_modify (w : World) (n : Nat) (size : Control → Size) :
    CalcFrame w (w.modify n fun c => { c with m_preferredSize := size c }) := by
  refine ⟨SameGlobals_refl _, rfl, fun m => ?_⟩
  by_cases hm : m = n
  · subst hm; simp [erasePreferred]
  · simp [hm]

theorem ProcessLayout_frame (n : Nat) (dim : Dim) (w : World) :
    CalcFrame w (ProcessLayout n dim w).2 := by
  unfold ProcessLayout
  cases h : (w.ctrl n).m_layoutItem with
  | none => exact CalcFrame_refl w
  | some p =>
    refine ⟨SameGlobals_refl _, rfl, fun m => ?_⟩
    by_cases hm : m = n
    · subst hm; cases dim <;> simp [erasePreferred]
    · simp [hm]

theorem ProcessLayout_fst (n : Nat) (dim : Dim) (w : World) :
    (ProcessLayout n dim w).1 = (w.ctrl n).m_layoutItem.isSome := by
  unfold ProcessLayout
  cases h : (w.ctrl n).m_layoutItem <;> rfl

theorem ProcessLayout_none (n : Nat) (dim : Dim) (w : World)
    (h : (w.ctrl n).m_layoutItem = none) : ProcessLayout n dim w = (false, w) := by
  unfold ProcessLayout
  rw [h]

theorem CalculateSize_spec (r : Nat → Nat) :
    ∀ (fuel n : Nat) (dim : Dim) (w : World), ChildRank w r → r n < fuel →
      ∃ w1, CalculateSize fuel n dim w = some w1 ∧ CalcFrame w w1 := by
  intro fuel
  induction fuel with
  | zero => intro n _ _ _ h; omega
  | succ k ih =>
    intro n dim w hr hn
    unfold CalculateSize
    cases hli : (w.ctrl n).m_layoutItem with
    | some p =>
      have h1 : (ProcessLayout n dim w).1 = true := by rw [ProcessLayout_fst, hli]; rfl
      have hf := ProcessLayout_frame n dim w
      rcases hpl : ProcessLayout n dim w with ⟨b, w1⟩
      rw [hpl] at h1 hf
      simp only at h1
      subst h1
      exact ⟨w1, rfl, hf⟩
    | none =>
      rw [ProcessLayout_none n dim w hli]
      simp only []
      obtain ⟨acc, w1, h1, _, hf1⟩ :=
        sizeLoop_rel (fun child => CalculateSize k child dim) dim (w.ctrl n).hasAlignment
          (fun w0 => ChildRank w0 r) CalcFrame CalcFrame_refl (fun _ _ _ => CalcFrame_trans)
          (w.ctrl n).Children
          (fun child hc w0 hw0 => by
            have hlt : r child < k := by have := hr n child hc; omega
            obtain ⟨w1, h1, h2⟩ := ih child dim w0 hw0 hlt
            exact ⟨w1, h1, ChildRank_of_frame h2.calcToLayout hw0, h2⟩) {} w hr
      unfold SizeOfChildren
      simp only [h1]
      cases dim with
      | X => exact ⟨_, rfl, CalcFrame_trans hf1 (CalcFrame_modify w1 n _)⟩
      | Y => exact ⟨_, rfl, CalcFrame_trans hf1 (CalcFrame_modify w1 n _)⟩

end CalculateSizeTheorems

section SampleTrees

/-- A property of all controls of a listed world follows from its instances at the listed
addresses and at a freshly initialised control. -/
theorem ofList_forall (cs : List Control) (Q : Nat → Control → Prop)
    (hdef : ∀ i, Q i {}) (h : ∀ i, i < cs.length → Q i (cs.getD i {})) :
    ∀ i, Q i ((World.ofList cs).ctrl i) := by
  intro i
  by_cases hi : i < cs.length
  · exact h i hi
  · have : cs.getD i {} = ({} : Control) := by
      rw [List.getD_eq_getElem?_getD, List.getElem?_eq_none (by omega)]
      rfl
    show Q i (cs.getD i {})
    rw [this]
    exact hdef i

theorem ChildRank_ofList (cs : List Control) (r : Nat → Nat)
    (h : ∀ i, i < cs.length → ∀ c, c ∈ (cs.getD i {}).Children → r c < r i) :
    ChildRank (World.ofList cs) r := by
  intro p
  exact ofList_forall cs (fun p c => ∀ x, x ∈ c.Children → r x < r p)
    (fun _ x hx => by simp at hx) h p

theorem ParentDepth_ofList (cs : List Control) (d : Nat → Nat)
    (h : ∀ i, i < cs.length → ∀ p, (cs.getD i {}).m_parent = some p → d p < d i) :
    ParentDepth (World.ofList cs) d := by
  intro c
  exact ofList_forall cs (fun c k => ∀ p, k.m_parent = some p → d p < d c)
    (fun _ p hp => by simp at hp) h c

theorem InnerRank_ofList (cs : List Control) (r : Nat → Nat)
    (h : ∀ i, i < cs.length → ∀ p, (cs.getD i {}).m_innerPanel = some p → r p < r i) :
    InnerRank (World.ofList cs) r := by
  intro c
  exact ofList_forall cs (fun c k => ∀ p, k.m_innerPanel = some p → r p < r c)
    (fun _ p hp => by simp at hp) h c

end SampleTrees

section FixedWidth

/-- The result of `CalculateSize` on a control without layout item: the child loop runs to
the end within the size-calculation frame and the preferred size is written last. -/
theorem CalculateSize_unfold (r : Nat → Nat) (k n : Nat) (dim : Dim) (w : World)
    (hr : ChildRank w r) (hn : r n < k + 1) (hli : (w.ctrl n).m_layoutItem = none) :
    ∃ acc w1 size,
      sizeLoop (fun child => CalculateSize k child dim) dim (w.ctrl n).hasAlignment
        (w.ctrl n).Children {} w = some (acc, w1) ∧
      CalcFrame w w1 ∧
      SizeOfChildren (fun child => CalculateSize k child dim) n dim w = some (size, w1) ∧
      CalculateSize (k + 1) n dim w =
        some (w1.modify n fun c => { c with m_preferredSize := size }) := by
  obtain ⟨acc, w1, h1, _, hf1⟩ :=
    sizeLoop_rel (fun child => CalculateSize k child dim) dim (w.ctrl n).hasAlignment
      (fun w0 => ChildRank w0 r) CalcFrame CalcFrame_refl (fun _ _ _ => CalcFrame_trans)
      (w.ctrl n).Children
      (fun child hc w0 hw0 => by
        have hlt : r child < k := by have := hr n child hc; omega
        obtain ⟨w1, h1, h2⟩ := CalculateSize_spec r k child dim w0 hw0 hlt
        exact ⟨w1, h1, ChildRank_of_frame h2.calcToLayout hw0, h2⟩) {} w hr
  have hS : ∃ size, SizeOfChildren (fun child => CalculateSize k child dim) n dim w
      = some (size, w1) := by
    unfold SizeOfChildren
    simp only [h1]
    cases dim <;> exact ⟨_, rfl⟩
  obtain ⟨size, hS⟩ := hS
  refine ⟨acc, w1, size, h1, hf1, hS, ?_⟩
  unfold CalculateSize
  rw [ProcessLayout_none n dim w hli]
  simp only [hS]

/-- C3: for every container without a layout item whose horizontal size flag is Fixed, in
any acyclic tree (children with any docks, sizes, margins, hidden or not),
`CalculateSize(Dim::X)` returns, leaves the bounds of the container (its width in
particular) unchanged and sets its preferred width exactly to that bound width. -/
theorem CalculateSize_fixed_keeps_width (r : Nat → Nat) (fuel n : Nat) (w : World)
    (hr : ChildRank w r) (hfuel : r n < fuel)
    (hli : (w.ctrl n).m_layoutItem = none)
    (hfix : (w.ctrl n).m_sizeFlags.horizontal = SizeFlag.Fixed) :
    ∃ w1, CalculateSize fuel n Dim.X w = some w1 ∧
      (w1.ctrl n).m_bounds = (w.ctrl n).m_bounds ∧
      (w1.ctrl n).m_bounds.w = (w.ctrl n).m_bounds.w ∧
      (w1.ctrl n).m_preferredSize.width = (w.ctrl n).m_bounds.w := by
  obtain ⟨k, rfl⟩ : ∃ k, fuel = k + 1 := ⟨fuel - 1, by omega⟩
  obtain ⟨acc, w1, size, h1, hf1, hS, hC⟩ := CalculateSize_unfold r k n Dim.X w hr hfuel hli
  have hb : (w1.ctrl n).m_bounds = (w.ctrl n).m_bounds :=
    hf1.calcProj Control.m_bounds (fun _ => rfl) n
  have hflag : (w1.ctrl n).m_sizeFlags = (w.ctrl n).m_sizeFlags :=
    hf1.calcProj Control.m_sizeFlags (fun _ => rfl) n
  have hsize : size.width = (w.ctrl n).m_bounds.w := by
    unfold SizeOfChildren at hS
    simp only [h1] at hS
    injection hS with hS
    injection hS with hS _
    rw [← hS]
    simp [hflag, hfix, applySizeFlag, hb]
  refine ⟨_, hC, ?_, ?_, ?_⟩
  · simp [hb]
  · simp [hb]
  · simp [hsize]

/-- C3 witness: the sample container of fixed width 200 keeps width 200 and gets
preferred width 200, although its children ask for more. -/
theorem CalculateSize_fixed_keeps_width_witness :
    ∃ w1, CalculateSize 2 0 Dim.X fixedTree = some w1 ∧
      (w1.ctrl 0).m_bounds = (fixedTree.ctrl 0).m_bounds ∧
      (w1.ctrl 0).m_bounds.w = (fixedTree.ctrl 0).m_bounds.w ∧
      (w1.ctrl 0).m_preferredSize.width = (fixedTree.ctrl 0).m_bounds.w :=
  CalculateSize_fixed_keeps_width flatRank 2 0 fixedTree
    (ChildRank_ofList _ _ (by decide)) (by decide) rfl rfl

end FixedWidth

section ArrangeTheorems

theorem KeptFrom_refl (r : Nat → Nat) (k : Nat) (w : World) : KeptFrom r k w w :=
  fun _ _ => ⟨rfl, rfl⟩

theorem KeptFrom_trans {r : Nat → Nat} {k : Nat} {w w1 w2 : World}
    (h1 : KeptFrom r k w w1) (h2 : KeptFrom r k w1 w2) : KeptFrom r k w w2 :=
  fun m hm => ⟨(h2 m hm).1.trans (h1 m hm).1, (h2 m hm).2.trans (h1 m hm).2⟩

theorem KeptFrom_mono {r : Nat → Nat} {k j : Nat} {w w1 : World}
    (h : KeptFrom r k w w1) (hkj : k ≤ j) : KeptFrom r j w w1 :=
  fun m hm => h m (le_trans hkj hm)

/-- A frame that writes neither needs-layout flags nor the trace keeps every control. -/
theorem KeptFrom_of_eq {r : Nat → Nat} {k : Nat} {w w1 : World}
    (hflag : ∀ m, k ≤ r m → (w1.ctrl m).m_bNeedsLayout = (w.ctrl m).m_bNeedsLayout)
    (htrace : w1.trace = w.trace) : KeptFrom r k w w1 :=
  fun m hm => ⟨hflag m hm, by rw [htrace]⟩

theorem ArrangeFrame.arrangeKept {S : List Nat} {w w1 : World} {r : Nat → Nat} {k : Nat}
    (h : ArrangeFrame S w w1) (hS : ∀ c, c ∈ S → r c < k) : KeptFrom r k w w1 := by
  refine KeptFrom_of_eq (fun m hm => ?_) h.2.1
  have hm' : m ∉ S := fun hin => by have := hS m hin; omega
  have := congrArg Control.m_bNeedsLayout (h.2.2.2 m hm')
  exact this

theorem CalcFrame.calcKept {w w1 : World} (r : Nat → Nat) (k : Nat) (h : CalcFrame w w1) :
    KeptFrom r k w w1 :=
  KeptFrom_of_eq (fun m _ => h.calcProj Control.m_bNeedsLayout (fun _ => rfl) m) h.2.1

/-- `Arrange` returns on every control of an acyclic tree, stays within the layout frame,
leaves the flag and the `Layout` count of every control of higher rank alone, clears the
flag of the control itself and runs its `Layout` hook once if the flag was set. -/
theorem Arrange_spec (r d : Nat → Nat) (rf : Nat) (hrf : ∀ x, d x < rf) :
    ∀ (fuel n : Nat) (dim : Dim) (w : World), ChildRank w r → ParentDepth w d → r n < fuel →
      ∃ w1, Arrange rf fuel n dim w = some w1 ∧ LayoutFrame w w1 ∧
        KeptFrom r (r n + 1) w w1 ∧
        (w1.ctrl n).m_bNeedsLayout = false ∧
        w1.trace.count (Hook.Layout n) =
          w.trace.count (Hook.Layout n) + (if (w.ctrl n).m_bNeedsLayout then 1 else 0) := by
  intro fuel
  induction fuel with
  | zero => intro n _ _ _ _ h; omega
  | succ k ih =>
    intro n dim w hr hd hn
    -- the Layout hook
    obtain ⟨w1, hw1, hf1, hk1, hflag1, hcount1⟩ :
        ∃ w1, w1 = (if (w.ctrl n).m_bNeedsLayout then
            (w.modify n fun c => { c with m_bNeedsLayout := false }).emit (Hook.Layout n)
          else w) ∧ LayoutFrame w w1 ∧ KeptFrom r (r n + 1) w w1 ∧
          (w1.ctrl n).m_bNeedsLayout = false ∧
          w1.trace.count (Hook.Layout n) =
            w.trace.count (Hook.Layout n) + (if (w.ctrl n).m_bNeedsLayout then 1 else 0) := by
      refine ⟨_, rfl, ?_⟩
      by_cases hnl : (w.ctrl n).m_bNeedsLayout = true
      · simp only [hnl, if_true]
        refine ⟨⟨⟨rfl, rfl, rfl⟩, fun m => ?_⟩, fun m hm => ?_, by simp, by simp⟩
        · by_cases hmn : m = n
          · subst hmn; simp [eraseLayout]
          · simp [hmn]
        · have hmn : m ≠ n := fun e => by subst e; omega
          have hne : Hook.Layout n ≠ Hook.Layout m := fun e => hmn (Hook.Layout.inj e).symm
          simp [hmn, List.count_append, hne]
      · have hnl' : (w.ctrl n).m_bNeedsLayout = false := by simpa using hnl
        simp only [hnl', Bool.false_eq_true, if_false]
        refine ⟨LayoutFrame_refl w, KeptFrom_refl _ _ _, ?_, ?_⟩ <;> simp [hnl']
    have hr1 := ChildRank_of_frame hf1 hr
    have hd1 := ParentDepth_of_frame hf1 hd
    unfold Arrange
    simp only [← hw1]
    cases hli : (w1.ctrl n).m_layoutItem with
    | some p => exact ⟨w1, rfl, hf1, hk1, hflag1, hcount1⟩
    | none =>
      simp only []
      have hself : n ∉ (w1.ctrl n).Children := fun h => lt_irrefl _ (hr1 n n h)
      obtain ⟨w2, h2, hf2⟩ : ∃ w2, arrangeAxis rf n dim w1 = some w2 ∧
          ArrangeFrame (w1.ctrl n).Children w1 w2 := by
        cases dim
        · exact ArrangeHorizontal_spec d rf n w1 hd1 hrf hself
        · exact ArrangeVertical_spec d rf n w1 hd1 hrf hself
      have hk2 : KeptFrom r (r n) w1 w2 := hf2.arrangeKept (fun c hc => hr1 n c hc)
      have hr2 := ChildRank_of_frame hf2.arrangeToLayout hr1
      have hd2 := ParentDepth_of_frame hf2.arrangeToLayout hd1
      have hch2 : (w2.ctrl n).Children = (w1.ctrl n).Children :=
        hf2.arrangeToLayout.layoutProj Control.Children (fun _ => rfl) n
      obtain ⟨w3, h3, _, hf3, hk3⟩ :=
        arrangeChildren_rel (fun child => Arrange rf k child dim)
          (fun w0 => ChildRank w0 r ∧ ParentDepth w0 d)
          (fun a b => LayoutFrame a b ∧ KeptFrom r (r n) a b)
          (fun a => ⟨LayoutFrame_refl a, KeptFrom_refl _ _ a⟩)
          (fun _ _ _ hab hbc => ⟨LayoutFrame_trans hab.1 hbc.1, KeptFrom_trans hab.2 hbc.2⟩)
          (w2.ctrl n).Children
          (fun child hc w0 hw0 => by
            have hlt : r child < r n := hr2 n child hc
            obtain ⟨w1, h1, hfa, hka, _⟩ := ih child dim w0 hw0.1 hw0.2 (by omega)
            exact ⟨w1, h1, ⟨ChildRank_of_frame hfa hw0.1, ParentDepth_of_frame hfa hw0.2⟩,
              hfa, KeptFrom_mono hka (by omega)⟩) w2 ⟨hr2, hd2⟩
      rw [h2]
      simp only [h3]
      have hk23 := KeptFrom_trans hk2 hk3
      refine ⟨_, rfl, ?_, ?_, ?_, ?_⟩
      · exact LayoutFrame_trans hf1 (LayoutFrame_trans hf2.arrangeToLayout
          (LayoutFrame_trans hf3 ⟨SameGlobals_refl _, fun _ => rfl⟩))
      · refine KeptFrom_trans hk1 (KeptFrom_mono (KeptFrom_trans hk23 ?_) (Nat.le_succ _))
        intro m _
        exact ⟨rfl, by simp [List.count_append]⟩
      · show (w3.ctrl n).m_bNeedsLayout = false
        rw [(hk23 n (le_refl _)).1, hflag1]
      · show (w3.trace ++ [Hook.PostLayout n]).count (Hook.Layout n) = _
        rw [List.count_append, (hk23 n (le_refl _)).2, hcount1]
        simp

end ArrangeTheorems

section RecurseLayoutTheorems

theorem GetCanvas_congr (w w1 : World)
    (hp : ∀ m, (w1.ctrl m).m_parent = (w.ctrl m).m_parent)
    (hc : ∀ m, (w1.ctrl m).isCanvas = (w.ctrl m).isCanvas) :
    ∀ (fuel n : Nat), GetCanvas fuel n w1 = GetCanvas fuel n w := by
  intro fuel
  induction fuel with
  | zero => intro n; rfl
  | succ k ih =>
    intro n
    unfold GetCanvas
    rw [hp n, hc n]
    cases (w.ctrl n).m_parent with
    | none => rfl
    | some p => simp only [ih p]

theorem GetCanvas_of_frame {w w1 : World} (h : LayoutFrame w w1) (fuel n : Nat) :
    GetCanvas fuel n w1 = GetCanvas fuel n w :=
  GetCanvas_congr w w1 (h.layoutProj Control.m_parent (fun _ => rfl))
    (h.layoutProj Control.isCanvas (fun _ => rfl)) fuel n

theorem TabFrame_refl (w : World) : TabFrame w w :=
  ⟨SameGlobals_refl w, rfl, fun _ => rfl⟩

theorem TabFrame_trans {w w1 w2 : World} (h1 : TabFrame w w1) (h2 : TabFrame w1 w2) :
    TabFrame w w2 :=
  ⟨SameGlobals_trans h1.1 h2.1, h2.2.1.trans h1.2.1, fun m => (h2.2.2 m).trans (h1.2.2 m)⟩

/-- Any data member that `eraseTabs` leaves alone is preserved by a tab frame. -/
theorem TabFrame.tabProj {α : Type} {w w1 : World} (h : TabFrame w w1) (g : Control → α)
    (hg : ∀ c, g (eraseTabs c) = g c) (m : Nat) : g (w1.ctrl m) = g (w.ctrl m) := by
  rw [← hg (w1.ctrl m), ← hg (w.ctrl m), h.2.2 m]

theorem TabFrame_modify (w : World) (cv : Nat) (f : Control → Control)
    (hf : ∀ c, eraseTabs (f c) = eraseTabs c) : TabFrame w (w.modify cv f) := by
  refine ⟨SameGlobals_refl _, rfl, fun m => ?_⟩
  by_cases hm : m = cv
  · subst hm; simp [hf]
  · simp [hm]

theorem tabSlots_frame (cv n : Nat) (w : World) : TabFrame w (tabSlots cv n w) := by
  unfold tabSlots
  simp only []
  have h1 : TabFrame w (if (w.ctrl cv).FirstTab = none then
      w.modify cv fun c => { c with FirstTab := some n } else w) := by
    split_ifs
    · exact TabFrame_modify w cv _ (fun _ => rfl)
    · exact TabFrame_refl w
  generalize (if (w.ctrl cv).FirstTab = none then
      w.modify cv fun c => { c with FirstTab := some n } else w) = w1 at h1 ⊢
  split_ifs
  · exact TabFrame_trans h1 (TabFrame_modify _ cv _ (fun _ => rfl))
  · exact h1

theorem GetCanvas_of_tabFrame {w w1 : World} (h : TabFrame w w1) (fuel n : Nat) :
    GetCanvas fuel n w1 = GetCanvas fuel n w :=
  GetCanvas_congr w w1 (h.tabProj Control.m_parent (fun _ => rfl))
    (h.tabProj Control.isCanvas (fun _ => rfl)) fuel n

/-- The tab bookkeeping writes `FirstTab` and `NextTab` of the canvas only. -/
theorem recordTab_spec (fuel n : Nat) (w : World)
    (hcv : ((w.ctrl n).m_tabable = true ∧ (w.ctrl n).m_bDisabled = false) ∨
      w.KeyboardFocus = some n → ∃ cv, GetCanvas fuel n w = some (some cv)) :
    ∃ w1, recordTab fuel n w = some w1 ∧ TabFrame w w1 := by
  obtain ⟨w2, h2, hf2⟩ : ∃ w2,
      (if (w.ctrl n).m_tabable && !(w.ctrl n).m_bDisabled then
        match GetCanvas fuel n w with
        | some (some cv) => some (tabSlots cv n w)
        | _ => none
      else some w) = some w2 ∧ TabFrame w w2 := by
    by_cases ht : ((w.ctrl n).m_tabable && !(w.ctrl n).m_bDisabled) = true
    · have ht' : (w.ctrl n).m_tabable = true ∧ (w.ctrl n).m_bDisabled = false := by
        simpa using ht
      obtain ⟨cv, hcv'⟩ := hcv (Or.inl ht')
      simp only [ht, if_true, hcv']
      exact ⟨_, rfl, tabSlots_frame cv n w⟩
    · simp only [ht]
      exact ⟨w, rfl, TabFrame_refl w⟩
  unfold recordTab
  simp only []
  rw [h2]
  simp only []
  by_cases hfoc : w2.KeyboardFocus = some n
  · have hfoc' : w.KeyboardFocus = some n := by rw [← hf2.1.2.1]; exact hfoc
    obtain ⟨cv, hcv'⟩ := hcv (Or.inr hfoc')
    simp only [hfoc, if_true, GetCanvas_of_tabFrame hf2, hcv']
    exact ⟨_, rfl, TabFrame_trans hf2 (TabFrame_modify _ cv _ (fun _ => rfl))⟩
  · simp only [hfoc, if_false]
    exact ⟨w2, rfl, hf2⟩

/-- C2: for every non-hidden control `n` without layout item in an acyclic tree, one
`RecurseLayout(n)` (CalculateSize X, Arrange X, CalculateSize Y, Arrange Y, default hooks)
returns; the `Layout` hook of `n` runs exactly once if the needs-layout flag of `n` was set
on entry and not at all if it was clear; it runs in the horizontal `Arrange` and never
after it; the needs-layout flag of `n` is false at the end. -/
theorem RecurseLayout_runs_Layout_once (r d : Nat → Nat) (fuel n : Nat) (w : World)
    (hr : ChildRank w r) (hd : ParentDepth w d) (hfr : r n < fuel) (hfd : ∀ x, d x < fuel)
    (hvis : (w.ctrl n).m_bHidden = false) (_hli : (w.ctrl n).m_layoutItem = none)
    (hcv : ((w.ctrl n).m_tabable = true ∧ (w.ctrl n).m_bDisabled = false) ∨
      w.KeyboardFocus = some n → ∃ cv, GetCanvas fuel n w = some (some cv)) :
    ∃ w1 w2 w3 w4 w5,
      CalculateSize fuel n Dim.X w = some w1 ∧
      Arrange fuel fuel n Dim.X w1 = some w2 ∧
      CalculateSize fuel n Dim.Y w2 = some w3 ∧
      Arrange fuel fuel n Dim.Y w3 = some w4 ∧
      RecurseLayout fuel n w = some w5 ∧
      w1.trace.count (Hook.Layout n) = w.trace.count (Hook.Layout n) ∧
      w2.trace.count (Hook.Layout n) =
        w.trace.count (Hook.Layout n) + (if (w.ctrl n).m_bNeedsLayout then 1 else 0) ∧
      w3.trace.count (Hook.Layout n) = w2.trace.count (Hook.Layout n) ∧
      w4.trace.count (Hook.Layout n) = w2.trace.count (Hook.Layout n) ∧
      w5.trace.count (Hook.Layout n) = w2.trace.count (Hook.Layout n) ∧
      (w2.ctrl n).m_bNeedsLayout = false ∧
      (w5.ctrl n).m_bNeedsLayout = false := by
  obtain ⟨w1, h1, hf1⟩ := CalculateSize_spec r fuel n Dim.X w hr hfr
  have hr1 := ChildRank_of_frame hf1.calcToLayout hr
  have hd1 := ParentDepth_of_frame hf1.calcToLayout hd
  obtain ⟨w2, h2, hf2, _, hflag2, hcount2⟩ :=
    Arrange_spec r d fuel hfd fuel n Dim.X w1 hr1 hd1 hfr
  have hr2 := ChildRank_of_frame hf2 hr1
  have hd2 := ParentDepth_of_frame hf2 hd1
  obtain ⟨w3, h3, hf3⟩ := CalculateSize_spec r fuel n Dim.Y w2 hr2 hfr
  have hr3 := ChildRank_of_frame hf3.calcToLayout hr2
  have hd3 := ParentDepth_of_frame hf3.calcToLayout hd2
  obtain ⟨w4, h4, hf4, _, hflag4, hcount4⟩ :=
    Arrange_spec r d fuel hfd fuel n Dim.Y w3 hr3 hd3 hfr
  have hf04 : LayoutFrame w w4 :=
    LayoutFrame_trans hf1.calcToLayout (LayoutFrame_trans hf2 (LayoutFrame_trans hf3.calcToLayout hf4))
  have hflag1 : (w1.ctrl n).m_bNeedsLayout = (w.ctrl n).m_bNeedsLayout :=
    hf1.calcProj Control.m_bNeedsLayout (fun _ => rfl) n
  have hflag3 : (w3.ctrl n).m_bNeedsLayout = false := by
    rw [hf3.calcProj Control.m_bNeedsLayout (fun _ => rfl) n, hflag2]
  obtain ⟨w5, h5, hf5⟩ := recordTab_spec fuel n w4 (by
    intro hc
    rw [GetCanvas_of_frame hf04]
    apply hcv
    rcases hc with hc | hc
    · left
      rw [hf04.layoutProj Control.m_tabable (fun _ => rfl) n,
        hf04.layoutProj Control.m_bDisabled (fun _ => rfl) n] at hc
      exact hc
    · right
      rw [← hf04.1.2.1]; exact hc)
  refine ⟨w1, w2, w3, w4, w5, h1, h2, h3, h4, ?_, ?_, ?_, ?_, ?_, ?_, hflag2, ?_⟩
  · unfold RecurseLayout
    simp [hvis, h1, h2, h3, h4, h5]
  · rw [hf1.2.1]
  · rw [hcount2, hf1.2.1, hflag1]
  · rw [hf3.2.1]
  · rw [hcount4, hf3.2.1, hflag3]; simp
  · rw [hf5.2.1, hcount4, hf3.2.1, hflag3]; simp
  · rw [hf5.tabProj Control.m_bNeedsLayout (fun _ => rfl) n, hflag4]

/-- C2 witness: on the sample canvas, whose needs-layout flag is set, `RecurseLayout` runs
the `Layout` hook of the canvas once, in the horizontal `Arrange`. -/
theorem RecurseLayout_runs_Layout_once_witness :
    ∃ w1 w2 w3 w4 w5,
      CalculateSize 2 0 Dim.X canvasTree = some w1 ∧
      Arrange 2 2 0 Dim.X w1 = some w2 ∧
      CalculateSize 2 0 Dim.Y w2 = some w3 ∧
      Arrange 2 2 0 Dim.Y w3 = some w4 ∧
      RecurseLayout 2 0 canvasTree = some w5 ∧
      w1.trace.count (Hook.Layout 0) = canvasTree.trace.count (Hook.Layout 0) ∧
      w2.trace.count (Hook.Layout 0) =
        canvasTree.trace.count (Hook.Layout 0) +
          (if (canvasTree.ctrl 0).m_bNeedsLayout then 1 else 0) ∧
      w3.trace.count (Hook.Layout 0) = w2.trace.count (Hook.Layout 0) ∧
      w4.trace.count (Hook.Layout 0) = w2.trace.count (Hook.Layout 0) ∧
      w5.trace.count (Hook.Layout 0) = w2.trace.count (Hook.Layout 0) ∧
      (w2.ctrl 0).m_bNeedsLayout = false ∧
      (w5.ctrl 0).m_bNeedsLayout = false :=
  RecurseLayout_runs_Layout_once flatRank flatDepth 2 0 canvasTree
    (ChildRank_ofList _ _ (by decide)) (ParentDepth_ofList _ _ (by decide)) (by decide)
    (fun x => by unfold flatDepth; split <;> omega) rfl rfl (fun _ => ⟨0, rfl⟩)

end RecurseLayoutTheorems

section DockLeftFill

@[simp] theorem hasFlag_Fill_Top : hasFlag Position.Fill Position.Top = false := by decide

@[simp] theorem hasFlag_Fill_Left : hasFlag Position.Fill Position.Left = false := by decide

@[simp] theorem hasFlag_Fill_Right : hasFlag Position.Fill Position.Right = false := by decide

@[simp] theorem hasFlag_Fill_Bottom : hasFlag Position.Fill Position.Bottom = false := by decide

@[simp] theorem hasFlag_Fill_Fill : hasFlag Position.Fill Position.Fill = true := by decide

@[simp] theorem hasFlag_Left_Top : hasFlag Position.Left Position.Top = false := by decide

@[simp] theorem hasFlag_Left_Left : hasFlag Position.Left Position.Left = true := by decide

@[simp] theorem hasFlag_Left_Fill : hasFlag Position.Left Position.Fill = false := by decide

/-- Any data member that both `eraseGeom` and `eraseInner` leave alone is preserved by an
arrangement. -/
theorem ArrangeFrame.arrangeProj {α : Type} {S : List Nat} {w w1 : World} (h : ArrangeFrame S w w1)
    (g : Control → α) (hg : ∀ c, g (eraseChild c) = g c) (hi : ∀ c, g (eraseInner c) = g c)
    (m : Nat) : g (w1.ctrl m) = g (w.ctrl m) := by
  by_cases hm : m ∈ S
  · rw [← hg (w1.ctrl m), ← hg (w.ctrl m), h.2.2.1 m hm]
  · rw [← hi (w1.ctrl m), ← hi (w.ctrl m), h.2.2.2 m hm]

theorem ArrangeFrame.bounds_notin {S : List Nat} {w w1 : World} (h : ArrangeFrame S w w1)
    {m : Nat} (hm : m ∉ S) : (w1.ctrl m).m_bounds = (w.ctrl m).m_bounds := by
  have := congrArg Control.m_bounds (h.2.2.2 m hm)
  exact this

theorem ArrangeFrame_mono {S T : List Nat} {w w1 : World} (h : ArrangeFrame S w w1)
    (hST : ∀ m, m ∈ S → m ∈ T) : ArrangeFrame T w w1 := by
  refine ⟨h.1, h.2.1, fun m _ => ?_, fun m hm => h.2.2.2 m (fun hS => hm (hST m hS))⟩
  by_cases hS : m ∈ S
  · exact h.2.2.1 m hS
  · exact eraseChild_of_eraseInner (h.2.2.2 m hS)

theorem leftWidths_congr (w w1 : World) (l : List Nat)
    (hdock : ∀ m, (w1.ctrl m).m_dock = (w.ctrl m).m_dock)
    (hpref : ∀ m, (w1.ctrl m).m_preferredSize = (w.ctrl m).m_preferredSize) :
    leftWidths w1 l = leftWidths w l := by
  unfold leftWidths
  simp only [hdock, hpref]

theorem leftWidths_nil (w : World) : leftWidths w [] = 0 := by
  simp [leftWidths]

theorem leftWidths_cons_left (w : World) (a : Nat) (l : List Nat)
    (h : (w.ctrl a).m_dock = Position.Left) :
    leftWidths w (a :: l) = (w.ctrl a).m_preferredSize.width + leftWidths w l := by
  simp [leftWidths, List.filter_cons, h]

theorem leftWidths_cons_fill (w : World) (a : Nat) (l : List Nat)
    (h : (w.ctrl a).m_dock = Position.Fill) : leftWidths w (a :: l) = leftWidths w l := by
  simp [leftWidths, List.filter_cons, h, Position.Fill, Position.Left]

theorem LeftOrFill_congr {w w1 : World} {l : List Nat} (h : LeftOrFill w l)
    (hdock : ∀ m, (w1.ctrl m).m_dock = (w.ctrl m).m_dock)
    (hhid : ∀ m, (w1.ctrl m).m_bHidden = (w.ctrl m).m_bHidden)
    (hmar : ∀ m, (w1.ctrl m).m_margin = (w.ctrl m).m_margin) : LeftOrFill w1 l := by
  intro c hc
  rw [hdock, hhid, hmar]
  exact h c hc

/-- The dock loop of `ArrangeHorizontal` over Left and Fill children: every Left child is
placed at the running left edge with its preferred width, the remaining rectangle loses
the Left widths. -/
theorem dockLoop_left_fill (d : Nat → Nat) (rf : Nat) (hrf : ∀ x, d x < rf) :
    ∀ (l : List Nat) (ib : Rect) (w : World), ParentDepth w d → l.Nodup → LeftOrFill w l →
      ∃ ib1 w1, dockLoop (dockStepX rf) l ib w = some (ib1, w1) ∧
        ArrangeFrame l w w1 ∧
        ib1.x = ib.x + leftWidths w l ∧ ib1.w = ib.w - leftWidths w l ∧
        ∀ pre c post, l = pre ++ c :: post → (w.ctrl c).m_dock = Position.Left →
          (w1.ctrl c).m_bounds.x = ib.x + leftWidths w pre ∧
          (w1.ctrl c).m_bounds.w = (w.ctrl c).m_preferredSize.width := by
  intro l
  induction l with
  | nil =>
    intro ib w _ _ _
    refine ⟨ib, w, rfl, ArrangeFrame_refl _ _, by simp [leftWidths_nil], by simp [leftWidths_nil], ?_⟩
    intro pre c post h
    simp at h
  | cons a l ih =>
    intro ib w hd hnd hlf
    have hal : a ∉ l := (List.nodup_cons.mp hnd).1
    have hndl : l.Nodup := (List.nodup_cons.mp hnd).2
    have hlfl : LeftOrFill w l := fun c hc => hlf c (List.mem_cons_of_mem a hc)
    -- the step on `a`
    obtain ⟨iba, wa, hstep, hfa, hxa, hwa, hba⟩ : ∃ iba wa,
        dockLoop (dockStepX rf) (a :: l) ib w = dockLoop (dockStepX rf) l iba wa ∧
        ArrangeFrame [a] w wa ∧
        iba.x = ib.x + leftWidths w [a] ∧ iba.w = ib.w - leftWidths w [a] ∧
        ((w.ctrl a).m_dock = Position.Left →
          (wa.ctrl a).m_bounds.x = ib.x ∧
          (wa.ctrl a).m_bounds.w = (w.ctrl a).m_preferredSize.width) := by
      rcases hlf a (List.mem_cons_self a l) with hfill | ⟨hleft, hvis, hml, hmr⟩
      · refine ⟨ib, w, ?_, ArrangeFrame_refl _ _, ?_, ?_, ?_⟩
        · by_cases hh : (w.ctrl a).m_bHidden = true
          · simp [dockLoop, hh]
          · simp [dockLoop, hh, dockStepX, hfill, Position.None]
            simp [Position.Fill]
        · rw [leftWidths_cons_fill w a [] hfill, leftWidths_nil]; simp
        · rw [leftWidths_cons_fill w a [] hfill, leftWidths_nil]; simp
        · intro h; rw [hfill] at h; simp [Position.Fill, Position.Left] at h
      · obtain ⟨w1, h1, hb1⟩ := SetBoundsXYWH_spec d rf a (ib.x + (w.ctrl a).m_margin.left)
          (w.ctrl a).m_bounds.y (w.ctrl a).m_preferredSize.width (w.ctrl a).m_bounds.h
          w hd (hrf a)
        refine ⟨Rect.mk
            (ib.x + ((w.ctrl a).m_margin.left + (w.ctrl a).m_margin.right +
              (w.ctrl a).m_preferredSize.width)) ib.y
            (ib.w - ((w.ctrl a).m_margin.left + (w.ctrl a).m_margin.right +
              (w.ctrl a).m_preferredSize.width)) ib.h, w1, ?_,
          hb1.toArrange (List.mem_singleton_self a), ?_, ?_, ?_⟩
        · simp [dockLoop, hvis, dockStepX, hleft, h1]
        · rw [leftWidths_cons_left w a [] hleft, leftWidths_nil]; simp [hml, hmr]
        · rw [leftWidths_cons_left w a [] hleft, leftWidths_nil]; simp [hml, hmr]
        · intro _
          rw [hb1.bounds_eq]
          simp [hml]
    have hdock : ∀ m, (wa.ctrl m).m_dock = (w.ctrl m).m_dock :=
      hfa.arrangeProj Control.m_dock (fun _ => rfl) (fun _ => rfl)
    have hpref : ∀ m, (wa.ctrl m).m_preferredSize = (w.ctrl m).m_preferredSize :=
      hfa.arrangeProj Control.m_preferredSize (fun _ => rfl) (fun _ => rfl)
    have hlfa : LeftOrFill wa l :=
      LeftOrFill_congr hlfl hdock (hfa.arrangeProj Control.m_bHidden (fun _ => rfl) (fun _ => rfl))
        (hfa.arrangeProj Control.m_margin (fun _ => rfl) (fun _ => rfl))
    obtain ⟨ib1, w1, h1, hf1, hx1, hw1, hb1⟩ :=
      ih iba wa (ParentDepth_of_frame hfa.arrangeToLayout hd) hndl hlfa
    rw [leftWidths_congr w wa l hdock hpref] at hx1 hw1
    have hsplit : leftWidths w (a :: l) = leftWidths w [a] + leftWidths w l := by
      rcases hlf a (List.mem_cons_self a l) with hfill | ⟨hleft, _⟩
      · rw [leftWidths_cons_fill w a _ hfill, leftWidths_cons_fill w a [] hfill, leftWidths_nil]; simp
      · rw [leftWidths_cons_left w a _ hleft, leftWidths_cons_left w a [] hleft, leftWidths_nil]; simp
    have hfa' : ArrangeFrame (a :: l) w wa :=
      ArrangeFrame_mono hfa (fun m hm => by simp at hm; simp [hm])
    have hf1' : ArrangeFrame (a :: l) wa w1 :=
      ArrangeFrame_mono hf1 (fun m hm => List.mem_cons_of_mem a hm)
    refine ⟨ib1, w1, by rw [hstep, h1], ArrangeFrame_trans hfa' hf1', ?_, ?_, ?_⟩
    · rw [hx1, hxa, hsplit]; ring
    · rw [hw1, hwa, hsplit]; ring
    · intro pre c post hl hc
      cases pre with
      | nil =>
        simp at hl
        obtain ⟨rfl, rfl⟩ := hl
        rw [hf1.bounds_notin hal]
        have := hba hc
        simp [leftWidths_nil, this.1, this.2]
      | cons b pre =>
        simp at hl
        obtain ⟨rfl, rfl⟩ := hl
        have := hb1 pre c post rfl (by rw [hdock]; exact hc)
        rw [this.1, this.2, hpref, hxa, leftWidths_congr w wa pre hdock hpref]
        constructor
        · have hs : leftWidths w (a :: pre) = leftWidths w [a] + leftWidths w pre := by
            rcases hlf a (List.mem_cons_self a _) with hfill | ⟨hleft, _⟩
            · rw [leftWidths_cons_fill w a _ hfill, leftWidths_cons_fill w a [] hfill,
                leftWidths_nil]; simp
            · rw [leftWidths_cons_left w a _ hleft, leftWidths_cons_left w a [] hleft,
                leftWidths_nil]; simp
          rw [hs]; ring
        · rfl

end DockLeftFill

section FillLeftFill

/-- The fill loop of `ArrangeHorizontal` over Left and Fill children: Left children keep
their bounds, every Fill child is stretched over the remaining rectangle. -/
theorem fillLoop_left_fill (d : Nat → Nat) (rf : Nat) (hrf : ∀ x, d x < rf) (ib : Rect) :
    ∀ (l : List Nat) (w : World), ParentDepth w d → l.Nodup →
      (∀ c, c ∈ l → (w.ctrl c).m_dock = Position.Fill ∨ (w.ctrl c).m_dock = Position.Left) →
      ∃ w1, fillLoop (fun child => fillStepX rf child ib) l w = some w1 ∧
        ArrangeFrame l w w1 ∧
        (∀ c, c ∈ l → (w.ctrl c).m_dock = Position.Left →
          (w1.ctrl c).m_bounds = (w.ctrl c).m_bounds) ∧
        (∀ c, c ∈ l → (w.ctrl c).m_dock = Position.Fill →
          (w1.ctrl c).m_bounds.x = ib.x + (w.ctrl c).m_margin.left ∧
          (w1.ctrl c).m_bounds.w =
            ib.w - (w.ctrl c).m_margin.left - (w.ctrl c).m_margin.right) := by
  intro l
  induction l with
  | nil =>
    intro w _ _ _
    exact ⟨w, rfl, ArrangeFrame_refl _ _, fun c hc => by simp at hc, fun c hc => by simp at hc⟩
  | cons a l ih =>
    intro w hd hnd hlf
    have hal : a ∉ l := (List.nodup_cons.mp hnd).1
    have hndl : l.Nodup := (List.nodup_cons.mp hnd).2
    obtain ⟨wa, hstep, hfa, hleft, hfill⟩ : ∃ wa,
        fillStepX rf a ib w = some wa ∧ ArrangeFrame [a] w wa ∧
        ((w.ctrl a).m_dock = Position.Left → (wa.ctrl a).m_bounds = (w.ctrl a).m_bounds) ∧
        ((w.ctrl a).m_dock = Position.Fill →
          (wa.ctrl a).m_bounds.x = ib.x + (w.ctrl a).m_margin.left ∧
          (wa.ctrl a).m_bounds.w =
            ib.w - (w.ctrl a).m_margin.left - (w.ctrl a).m_margin.right) := by
      rcases hlf a (List.mem_cons_self a l) with hf | hl
      · obtain ⟨w1, h1, hb1⟩ := SetBoundsXYWH_spec d rf a (ib.x + (w.ctrl a).m_margin.left)
          (w.ctrl a).m_bounds.y (ib.w - (w.ctrl a).m_margin.left - (w.ctrl a).m_margin.right)
          (w.ctrl a).m_bounds.h w hd (hrf a)
        refine ⟨w1, ?_, hb1.toArrange (List.mem_singleton_self a), ?_, ?_⟩
        · simp [fillStepX, hf, h1]
        · intro h; rw [hf] at h; simp [Position.Fill, Position.Left] at h
        · intro _; rw [hb1.bounds_eq]; simp
      · refine ⟨w, ?_, ArrangeFrame_refl _ _, fun _ => rfl, ?_⟩
        · simp [fillStepX, hl]
        · intro h; rw [hl] at h; simp [Position.Fill, Position.Left] at h
    have hdock : ∀ m, (wa.ctrl m).m_dock = (w.ctrl m).m_dock :=
      hfa.arrangeProj Control.m_dock (fun _ => rfl) (fun _ => rfl)
    have hmar : ∀ m, (wa.ctrl m).m_margin = (w.ctrl m).m_margin :=
      hfa.arrangeProj Control.m_margin (fun _ => rfl) (fun _ => rfl)
    obtain ⟨w1, h1, hf1, hl1, hfl1⟩ := ih wa (ParentDepth_of_frame hfa.arrangeToLayout hd) hndl
      (fun c hc => by rw [hdock]; exact hlf c (List.mem_cons_of_mem a hc))
    have hfa' : ArrangeFrame (a :: l) w wa :=
      ArrangeFrame_mono hfa (fun m hm => by simp at hm; simp [hm])
    have hf1' : ArrangeFrame (a :: l) wa w1 :=
      ArrangeFrame_mono hf1 (fun m hm => List.mem_cons_of_mem a hm)
    refine ⟨w1, by simp [fillLoop, hstep, h1], ArrangeFrame_trans hfa' hf1', ?_, ?_⟩
    · intro c hc hcl
      rcases List.mem_cons.mp hc with rfl | hcl'
      · rw [hf1.bounds_notin hal, hleft hcl]
      · have hca : c ∉ [a] := by
          simp; intro e; subst e; exact hal hcl'
        rw [hl1 c hcl' (by rw [hdock]; exact hcl), hfa.bounds_notin hca]
    · intro c hc hcf
      rcases List.mem_cons.mp hc with rfl | hcl'
      · rw [hf1.bounds_notin hal]
        exact hfill hcf
      · have := hfl1 c hcl' (by rw [hdock]; exact hcf)
        rw [hmar] at this
        exact this

/-- C4: for every container `n` of width `W` with zero horizontal padding whose children
(distinct, in any list order) are shown Left-docked children with zero horizontal margins
and one Fill-docked child `f` with zero horizontal margin, `ArrangeHorizontal` returns and
afterwards the Fill child has `x` equal to the sum of the preferred widths of the
Left-docked children and width `W` minus that sum, and every Left-docked child has `x`
equal to the sum of the preferred widths of the Left-docked children before it in the
list and width equal to its preferred width. -/
theorem ArrangeHorizontal_left_docks_then_fill (d : Nat → Nat) (rf n f : Nat) (w : World)
    (hd : ParentDepth w d) (hrf : ∀ x, d x < rf)
    (hnd : (w.ctrl n).Children.Nodup) (hself : n ∉ (w.ctrl n).Children)
    (hpad : (w.ctrl n).m_padding.left = 0 ∧ (w.ctrl n).m_padding.right = 0)
    (hf : f ∈ (w.ctrl n).Children) (hfd : (w.ctrl f).m_dock = Position.Fill)
    (hfm : (w.ctrl f).m_margin.left = 0 ∧ (w.ctrl f).m_margin.right = 0)
    (hleft : ∀ c, c ∈ (w.ctrl n).Children → c ≠ f →
      (w.ctrl c).m_dock = Position.Left ∧ (w.ctrl c).m_bHidden = false ∧
      (w.ctrl c).m_margin.left = 0 ∧ (w.ctrl c).m_margin.right = 0) :
    ∃ w1, ArrangeHorizontal rf n w = some w1 ∧
      (w1.ctrl f).m_bounds.x = leftWidths w (w.ctrl n).Children ∧
      (w1.ctrl f).m_bounds.w = (w.ctrl n).m_bounds.w - leftWidths w (w.ctrl n).Children ∧
      ∀ pre c post, (w.ctrl n).Children = pre ++ c :: post → c ≠ f →
        (w1.ctrl c).m_bounds.x = leftWidths w pre ∧
        (w1.ctrl c).m_bounds.w = (w.ctrl c).m_preferredSize.width := by
  have hlf : LeftOrFill w (w.ctrl n).Children := by
    intro c hc
    by_cases hcf : c = f
    · left; rw [hcf]; exact hfd
    · right; exact hleft c hc hcf
  obtain ⟨ib1, w1, h1, hf1, hx1, hw1, hb1⟩ :=
    dockLoop_left_fill d rf hrf (w.ctrl n).Children
      { (w.ctrl n).m_bounds with
        x := (w.ctrl n).m_padding.left,
        w := (w.ctrl n).m_bounds.w - ((w.ctrl n).m_padding.left + (w.ctrl n).m_padding.right) }
      w hd hnd hlf
  simp only [hpad.1, hpad.2, zero_add, add_zero, sub_zero] at hx1 hw1 hb1
  -- the write of the inner bounds
  have hf2 : ArrangeFrame (w.ctrl n).Children w1 (w1.modify n fun c =>
      { c with m_innerBounds := { c.m_innerBounds with x := ib1.x, w := ib1.w } }) := by
    refine ⟨SameGlobals_refl _, rfl, fun m hm => ?_, fun m _ => ?_⟩
    · have hmn : m ≠ n := fun e => hself (e ▸ hm)
      simp [hmn]
    · by_cases hmn : m = n
      · subst hmn; simp [eraseInner]
      · simp [hmn]
  have hf12 := ArrangeFrame_trans hf1 hf2
  have hdock : ∀ m, ((w1.modify n fun c =>
      { c with m_innerBounds := { c.m_innerBounds with x := ib1.x, w := ib1.w } }).ctrl m).m_dock
      = (w.ctrl m).m_dock := hf12.arrangeProj Control.m_dock (fun _ => rfl) (fun _ => rfl)
  have hmar : ∀ m, ((w1.modify n fun c =>
      { c with m_innerBounds := { c.m_innerBounds with x := ib1.x, w := ib1.w } }).ctrl m).m_margin
      = (w.ctrl m).m_margin := hf12.arrangeProj Control.m_margin (fun _ => rfl) (fun _ => rfl)
  have hch : ((w1.modify n fun c =>
      { c with m_innerBounds := { c.m_innerBounds with x := ib1.x, w := ib1.w } }).ctrl n).Children
      = (w.ctrl n).Children := hf12.arrangeProj Control.Children (fun _ => rfl) (fun _ => rfl) n
  have hbnd : ∀ m, m ∈ (w.ctrl n).Children → ((w1.modify n fun c =>
      { c with m_innerBounds := { c.m_innerBounds with x := ib1.x, w := ib1.w } }).ctrl m).m_bounds
      = (w1.ctrl m).m_bounds := by
    intro m hm
    have hmn : m ≠ n := fun e => hself (e ▸ hm)
    simp [hmn]
  obtain ⟨w3, h3, _, hl3, hfl3⟩ :=
    fillLoop_left_fill d rf hrf ib1 (w.ctrl n).Children _
      (ParentDepth_of_frame hf12.arrangeToLayout hd) hnd
      (fun c hc => by
        rw [hdock]
        rcases hlf c hc with h | h
        · exact Or.inl h
        · exact Or.inr h.1)
  refine ⟨w3, ?_, ?_, ?_, ?_⟩
  · unfold ArrangeHorizontal
    simp only [h1]
    rw [hch, h3]
  · rw [(hfl3 f hf (by rw [hdock]; exact hfd)).1, hmar, hfm.1, hx1]; simp
  · rw [(hfl3 f hf (by rw [hdock]; exact hfd)).2, hmar, hfm.1, hfm.2, hw1]; simp
  · intro pre c post hl hcf
    have hc : c ∈ (w.ctrl n).Children := by rw [hl]; simp
    have hcl := (hleft c hc hcf).1
    rw [hl3 c hc (by rw [hdock]; exact hcl), hbnd c hc]
    exact hb1 pre c post hl hcl

/-- C4 witness: in the container of width 200 with Left children of preferred widths 10,
20, 30 and a Fill child listed second, the Fill child ends at x = 60 with width 140 and
the Left children at x = 0, 10, 30 with widths 10, 20, 30. -/
theorem ArrangeHorizontal_left_docks_then_fill_witness :
    ∃ w1, ArrangeHorizontal 2 0 dockTree = some w1 ∧
      (w1.ctrl 2).m_bounds.x = 60 ∧ (w1.ctrl 2).m_bounds.w = 200 - 60 ∧
      ((w1.ctrl 1).m_bounds.x = 0 ∧ (w1.ctrl 1).m_bounds.w = 10) ∧
      ((w1.ctrl 3).m_bounds.x = 10 ∧ (w1.ctrl 3).m_bounds.w = 20) ∧
      ((w1.ctrl 4).m_bounds.x = 30 ∧ (w1.ctrl 4).m_bounds.w = 30) := by
  obtain ⟨w1, h1, hx, hw, hc⟩ :=
    ArrangeHorizontal_left_docks_then_fill flatDepth 2 0 2 dockTree
      (ParentDepth_ofList _ _ (by decide)) (fun x => by unfold flatDepth; split <;> omega)
      (by decide) (by decide) (by decide) (by decide) (by decide) (by decide)
      (by decide)
  refine ⟨w1, h1, ?_, ?_, ?_, ?_, ?_⟩
  · rw [hx]; decide
  · rw [hw]; decide
  · have := hc [] 1 [2, 3, 4] rfl (by decide)
    rw [this.1, this.2]; decide
  · have := hc [1, 2] 3 [4] rfl (by decide)
    rw [this.1, this.2]; decide
  · have := hc [1, 2, 3] 4 [] rfl (by decide)
    rw [this.1, this.2]; decide

end FillLeftFill

section CoordinateTheorems

/-- Both transforms of a control apply the same offset, with opposite signs. -/
theorem transforms_offset (d : Nat → Nat) (w : World) (hd : ParentDepth w d) :
    ∀ (fuel n : Nat), d n < fuel →
      ∃ off : Point, ∀ p : Point,
        LocalPosToCanvas fuel n p w = some { x := p.x + off.x, y := p.y + off.y } ∧
        CanvasPosToLocal fuel n p w = some { x := p.x - off.x, y := p.y - off.y } := by
  intro fuel
  induction fuel with
  | zero => intro n h; omega
  | succ k ih =>
    intro n hn
    cases hp : (w.ctrl n).m_parent with
    | none =>
      refine ⟨{ x := 0, y := 0 }, fun p => ?_⟩
      simp [LocalPosToCanvas, CanvasPosToLocal, hp]
    | some parent =>
      have hlt : d parent < k := by have := hd n parent hp; omega
      obtain ⟨off, hoff⟩ := ih parent hlt
      refine ⟨{ x := (w.ctrl n).m_bounds.x + (innerPanelOffset n parent w).x + off.x,
                y := (w.ctrl n).m_bounds.y + (innerPanelOffset n parent w).y + off.y },
        fun p => ?_⟩
      constructor
      · simp only [LocalPosToCanvas, hp]
        rw [(hoff _).1]
        simp only [Option.some.injEq, Point.mk.injEq]
        constructor <;> ring
      · simp only [CanvasPosToLocal, hp]
        rw [(hoff _).2]
        simp only [Option.some.injEq, Point.mk.injEq]
        constructor <;> ring

/-- C8: for every control `n` of a finite acyclic logical-parent chain (ancestors with or
without inner-panel redirection) and every integer point `p`, both transforms return,
`CanvasPosToLocal(LocalPosToCanvas(p)) = p` and `LocalPosToCanvas(CanvasPosToLocal(p)) = p`. -/
theorem LocalPosToCanvas_CanvasPosToLocal_roundtrip (d : Nat → Nat) (fuel n : Nat)
    (p : Point) (w : World) (hd : ParentDepth w d) (hfuel : d n < fuel) :
    (∃ q, LocalPosToCanvas fuel n p w = some q ∧ CanvasPosToLocal fuel n q w = some p) ∧
    (∃ q, CanvasPosToLocal fuel n p w = some q ∧ LocalPosToCanvas fuel n q w = some p) := by
  obtain ⟨off, hoff⟩ := transforms_offset d w hd fuel n hfuel
  refine ⟨⟨_, (hoff p).1, ?_⟩, ⟨_, (hoff p).2, ?_⟩⟩
  · rw [(hoff _).2]
    cases p
    simp
  · rw [(hoff _).1]
    cases p
    simp

/-- C8 witness: the control `x` of the scroll tree, whose logical parent redirects into an
inner panel, maps the point (1, 1) to the canvas and back, and the other way round. -/
theorem LocalPosToCanvas_CanvasPosToLocal_roundtrip_witness :
    (∃ q, LocalPosToCanvas 4 3 { x := 1, y := 1 } scrollTree = some q ∧
      CanvasPosToLocal 4 3 q scrollTree = some { x := 1, y := 1 }) ∧
    (∃ q, CanvasPosToLocal 4 3 { x := 1, y := 1 } scrollTree = some q ∧
      LocalPosToCanvas 4 3 q scrollTree = some { x := 1, y := 1 }) :=
  LocalPosToCanvas_CanvasPosToLocal_roundtrip id 4 3 { x := 1, y := 1 } scrollTree
    (ParentDepth_ofList _ _ (by decide)) (by decide)

end CoordinateTheorems

section FocusTheorems

/-- C10: if `n` already holds the keyboard focus, `n.Focus()` returns the world unchanged
(no hook runs). Otherwise it returns with the keyboard focus on `n` and the trace extended
by exactly the lost-focus hook of the previous holder `q` (if there is one, and then first)
followed by the gained-focus hook of `n`; without a previous holder no lost-focus hook runs. -/
theorem Focus_hooks_in_order (d : Nat → Nat) (fuel n : Nat) (w : World)
    (hd : ParentDepth w d) (hfuel : d n < fuel) :
    (w.KeyboardFocus = some n → Focus fuel n w = some w) ∧
    (w.KeyboardFocus ≠ some n →
      ∃ w1, Focus fuel n w = some w1 ∧ w1.KeyboardFocus = some n ∧
        (∀ q, w.KeyboardFocus = some q →
          w1.trace = w.trace ++ [Hook.OnLostKeyboardFocus q, Hook.OnKeyboardFocus n]) ∧
        (w.KeyboardFocus = none → w1.trace = w.trace ++ [Hook.OnKeyboardFocus n])) := by
  constructor
  · intro h
    simp [Focus, h]
  · intro h
    unfold Focus
    simp only [h, if_false]
    cases hq : w.KeyboardFocus with
    | none =>
      obtain ⟨w1, h1, hf1, _⟩ := Redraw_spec d fuel n
        ({ w with KeyboardFocus := some n }.emit (Hook.OnKeyboardFocus n)) hd hfuel
      refine ⟨w1, h1, ?_, ?_, ?_⟩
      · rw [hf1.1.2.1]; rfl
      · intro q hq'; simp at hq'
      · intro _; rw [hf1.2.1]; rfl
    | some q =>
      obtain ⟨w1, h1, hf1, _⟩ := Redraw_spec d fuel n
        ({ w.emit (Hook.OnLostKeyboardFocus q) with KeyboardFocus := some n }.emit
          (Hook.OnKeyboardFocus n)) hd hfuel
      refine ⟨w1, h1, ?_, ?_, ?_⟩
      · rw [hf1.1.2.1]; rfl
      · intro q' hq'
        simp only [Option.some.injEq] at hq'
        subst hq'
        rw [hf1.2.1]
        simp [World.emit]
      · intro h'; simp at h'

/-- C10 witness: in the scroll tree the inner panel `P` (2) holds the focus; `x.Focus()`
runs the lost-focus hook of `P` and then the gained-focus hook of `x` (3). -/
theorem Focus_hooks_in_order_witness :
    (scrollTree.KeyboardFocus = some 3 → Focus 4 3 scrollTree = some scrollTree) ∧
    (scrollTree.KeyboardFocus ≠ some 3 →
      ∃ w1, Focus 4 3 scrollTree = some w1 ∧ w1.KeyboardFocus = some 3 ∧
        (∀ q, scrollTree.KeyboardFocus = some q →
          w1.trace = scrollTree.trace ++ [Hook.OnLostKeyboardFocus q, Hook.OnKeyboardFocus 3]) ∧
        (scrollTree.KeyboardFocus = none →
          w1.trace = scrollTree.trace ++ [Hook.OnKeyboardFocus 3])) :=
  Focus_hooks_in_order id 4 3 scrollTree (ParentDepth_ofList _ _ (by decide)) (by decide)

end FocusTheorems

section TreeMutationTheorems

theorem innerTarget_congr (w w1 : World)
    (h : ∀ m, (w1.ctrl m).m_innerPanel = (w.ctrl m).m_innerPanel) :
    ∀ (fuel n : Nat), innerTarget fuel n w1 = innerTarget fuel n w := by
  intro fuel
  induction fuel with
  | zero => intro n; rfl
  | succ k ih =>
    intro n
    unfold innerTarget
    rw [h n]
    cases (w.ctrl n).m_innerPanel with
    | none => rfl
    | some i => exact ih i

theorem removalChain_congr (w w1 : World) (child : Nat)
    (h : ∀ m, (w1.ctrl m).m_innerPanel = (w.ctrl m).m_innerPanel) :
    ∀ (fuel n : Nat), removalChain fuel n child w1 = removalChain fuel n child w := by
  intro fuel
  induction fuel with
  | zero => intro n; rfl
  | succ k ih =>
    intro n
    unfold removalChain
    rw [h n]
    cases (w.ctrl n).m_innerPanel with
    | none => rfl
    | some i => simp only [ih i]

/-- `AddChild` returns on an acyclic inner-panel chain and attaches the child to the
control at the end of the chain. -/
theorem AddChild_spec (r : Nat → Nat) :
    ∀ (fuel n child : Nat) (w : World), InnerRank w r → r n < fuel →
      ∃ t, innerTarget fuel n w = some t ∧ (w.ctrl t).m_innerPanel = none ∧ r t ≤ r n ∧
        ((w.ctrl n).m_innerPanel ≠ none → t ≠ n) ∧
        AddChild fuel n child w = some (attachChild t child w) := by
  intro fuel
  induction fuel with
  | zero => intro n _ _ _ h; omega
  | succ k ih =>
    intro n child w hr hn
    cases hi : (w.ctrl n).m_innerPanel with
    | none =>
      exact ⟨n, by simp [innerTarget, hi], hi, le_refl _, fun h => absurd rfl h,
        by simp [AddChild, hi]⟩
    | some i =>
      have hlt : r i < r n := hr n i hi
      obtain ⟨t, h1, h2, h3, _, h5⟩ := ih i child w hr (by omega)
      refine ⟨t, by simp [innerTarget, hi, h1], h2, by omega, fun _ e => ?_,
        by simp [AddChild, hi, h5]⟩
      subst e; omega

/-- `RemoveChild` returns on an acyclic inner-panel chain; it changes exactly the controls
of the removal chain, each as described by `detached`. -/
theorem RemoveChild_spec (r : Nat → Nat) :
    ∀ (fuel n child : Nat) (w : World), InnerRank w r → r n < fuel →
      ∃ chain w1, removalChain fuel n child w = some chain ∧
        RemoveChild fuel n child w = some w1 ∧
        n ∈ chain ∧ (∀ m, m ∈ chain → r m ≤ r n) ∧
        SameGlobals w w1 ∧ w1.trace = w.trace ∧
        ∀ m, w1.ctrl m = if m ∈ chain then detached child (w.ctrl m) else w.ctrl m := by
  intro fuel
  induction fuel with
  | zero => intro n _ _ _ h; omega
  | succ k ih =>
    intro n child w hr hn
    cases hi : (w.ctrl n).m_innerPanel with
    | none =>
      refine ⟨[n], eraseChildEntry n child w, by simp [removalChain, hi], ?_,
        by simp, by simp, SameGlobals_refl _, rfl, fun m => ?_⟩
      · simp [RemoveChild, forgetInnerPanel, hi]
      · by_cases hm : m = n
        · subst hm
          simp [eraseChildEntry, OnChildRemoved, Invalidate, detached, hi]
        · simp [eraseChildEntry, OnChildRemoved, Invalidate, hm]
    | some i =>
      by_cases hic : i = child
      · subst hic
        refine ⟨[n], eraseChildEntry n i (w.modify n fun c => { c with m_innerPanel := none }),
          by simp [removalChain, hi], ?_, by simp, by simp, SameGlobals_refl _, rfl,
          fun m => ?_⟩
        · simp [RemoveChild, forgetInnerPanel, hi]
        · by_cases hm : m = n
          · subst hm
            simp [eraseChildEntry, OnChildRemoved, Invalidate, detached, hi]
          · simp [eraseChildEntry, OnChildRemoved, Invalidate, hm]
      · have hlt : r i < r n := hr n i hi
        obtain ⟨chain, w1, h1, h2, _, h4, h5, h6, h7⟩ := ih i child w hr (by omega)
        have hn' : n ∉ chain := fun h => by have := h4 n h; omega
        refine ⟨n :: chain, eraseChildEntry n child w1, by simp [removalChain, hi, hic, h1],
          ?_, by simp, ?_, h5, h6, fun m => ?_⟩
        · have hic' : ¬ (some i = some child) := fun e => hic (Option.some.inj e)
          simp [RemoveChild, forgetInnerPanel, hi, hic', h2]
        · intro m hm
          rcases List.mem_cons.mp hm with rfl | hm
          · exact le_refl _
          · have := h4 m hm; omega
        · by_cases hm : m = n
          · subst hm
            have hic' : ¬ (some i = some child) := fun e => hic (Option.some.inj e)
            simp [eraseChildEntry, OnChildRemoved, Invalidate, detached, hi, h7, hn', hic']
          · simp [eraseChildEntry, OnChildRemoved, Invalidate, hm, h7]

end TreeMutationTheorems

section SetParentTheorems

theorem DetachFrame_refl (child : Nat) (w : World) : DetachFrame child w w :=
  ⟨SameGlobals_refl w, rfl, fun _ => Or.inl rfl⟩

theorem DetachFrame_innerRank {child : Nat} {w w1 : World} {r : Nat → Nat}
    (h : DetachFrame child w w1) (hr : InnerRank w r) : InnerRank w1 r := by
  intro p i hi
  rcases h.2.2 p with e | e
  · rw [e] at hi; exact hr p i hi
  · rw [e] at hi
    simp only [detached] at hi
    split at hi
    · simp at hi
    · exact hr p i hi

theorem DetachFrame_links {child : Nat} {w w1 : World} (h : DetachFrame child w w1)
    (hno : ∀ y, (w.ctrl y).m_innerPanel ≠ some child) (m : Nat) :
    (w1.ctrl m).m_innerPanel = (w.ctrl m).m_innerPanel := by
  rcases h.2.2 m with e | e
  · rw [e]
  · rw [e]; simp [detached, hno m]

theorem DetachFrame_parent {child : Nat} {w w1 : World} (h : DetachFrame child w w1) (m : Nat) :
    (w1.ctrl m).m_parent = (w.ctrl m).m_parent := by
  rcases h.2.2 m with e | e
  · rw [e]
  · rw [e]; rfl

theorem DetachFrame_needsLayout {child : Nat} {w w1 : World} (h : DetachFrame child w w1)
    (m : Nat) (hm : (w.ctrl m).m_bNeedsLayout = true) : (w1.ctrl m).m_bNeedsLayout = true := by
  rcases h.2.2 m with e | e <;> rw [e]
  · exact hm
  · rfl

theorem DetachFrame_children {child : Nat} {w w1 : World} (h : DetachFrame child w w1)
    (m : Nat) : (w1.ctrl m).Children = (w.ctrl m).Children ∨
      (w1.ctrl m).Children = (w.ctrl m).Children.filter fun x => x != child := by
  rcases h.2.2 m with e | e <;> rw [e]
  · exact Or.inl rfl
  · exact Or.inr rfl

theorem RemoveChild_frame (r : Nat → Nat) (fuel n child : Nat) (w : World)
    (hr : InnerRank w r) (hn : r n < fuel) :
    ∃ w1, RemoveChild fuel n child w = some w1 ∧ DetachFrame child w w1 := by
  obtain ⟨chain, w1, _, h2, _, _, h5, h6, h7⟩ := RemoveChild_spec r fuel n child w hr hn
  refine ⟨w1, h2, h5, h6, fun m => ?_⟩
  rw [h7 m]
  by_cases hm : m ∈ chain
  · right; simp [hm]
  · left; simp [hm]

theorem detachFromParent_frame (r : Nat → Nat) (fuel n : Nat) (w : World)
    (hr : InnerRank w r) (hfuel : ∀ x, r x < fuel) :
    ∃ w1, detachFromParent fuel n w = some w1 ∧ DetachFrame n w w1 := by
  unfold detachFromParent
  cases hp : (w.ctrl n).m_parent with
  | none => exact ⟨w, rfl, DetachFrame_refl n w⟩
  | some old => exact RemoveChild_frame r fuel old n w hr (hfuel old)

theorem setParentPointers_ctrl (n : Nat) (parent : Option Nat) (w : World) (m : Nat) :
    (setParentPointers n parent w).ctrl m =
      if m = n then { w.ctrl n with m_parent := parent, m_actualParent := none }
      else w.ctrl m := by
  unfold setParentPointers
  rw [modify_ctrl]

theorem setParentPointers_inner (n : Nat) (parent : Option Nat) (w : World) (m : Nat) :
    ((setParentPointers n parent w).ctrl m).m_innerPanel = (w.ctrl m).m_innerPanel := by
  rw [setParentPointers_ctrl]
  split
  · next h => subst h; rfl
  · rfl

theorem setParentPointers_children (n : Nat) (parent : Option Nat) (w : World) (m : Nat) :
    ((setParentPointers n parent w).ctrl m).Children = (w.ctrl m).Children := by
  rw [setParentPointers_ctrl]
  split
  · next h => subst h; rfl
  · rfl

theorem setParentPointers_needsLayout (n : Nat) (parent : Option Nat) (w : World) (m : Nat) :
    ((setParentPointers n parent w).ctrl m).m_bNeedsLayout = (w.ctrl m).m_bNeedsLayout := by
  rw [setParentPointers_ctrl]
  split
  · next h => subst h; rfl
  · rfl

theorem attachChild_inner (t child : Nat) (w : World) (m : Nat) :
    ((attachChild t child w).ctrl m).m_innerPanel = (w.ctrl m).m_innerPanel := by
  unfold attachChild OnChildAdded Invalidate
  simp only [modify_ctrl]
  split_ifs <;> simp_all

theorem attachChild_parent (t child : Nat) (w : World) (m : Nat) :
    ((attachChild t child w).ctrl m).m_parent = (w.ctrl m).m_parent := by
  unfold attachChild OnChildAdded Invalidate
  simp only [modify_ctrl]
  split_ifs <;> simp_all

theorem attachChild_children (t child : Nat) (w : World) (m : Nat) :
    ((attachChild t child w).ctrl m).Children =
      if m = t then (w.ctrl t).Children ++ [child] else (w.ctrl m).Children := by
  unfold attachChild OnChildAdded Invalidate
  simp only [modify_ctrl]
  split_ifs <;> simp_all

theorem attachChild_actualParent (t child : Nat) (w : World) :
    ((attachChild t child w).ctrl child).m_actualParent = some t := by
  unfold attachChild OnChildAdded Invalidate
  simp

theorem attachChild_needsLayout (t child : Nat) (w : World) (m : Nat) :
    ((attachChild t child w).ctrl m).m_bNeedsLayout =
      if m = t then true else (w.ctrl m).m_bNeedsLayout := by
  unfold attachChild OnChildAdded Invalidate
  simp only [modify_ctrl]
  split_ifs <;> simp_all

theorem InnerRank_congr {w w1 : World} {r : Nat → Nat}
    (h : ∀ m, (w1.ctrl m).m_innerPanel = (w.ctrl m).m_innerPanel) (hr : InnerRank w r) :
    InnerRank w1 r := by
  intro p i hi
  rw [h] at hi
  exact hr p i hi

/-- C7: for every control `n` and every control `p` different from the current parent of
`n`, on acyclic inner-panel chains `n.SetParent(p)` returns and afterwards the logical
parent of `n` is `p`, the actual parent of `n` is the control `t` reached from `p` along the
inner-panel links up to a control without inner panel, `n` is the last element of the
child list of `t` (the list `t` had before the attachment with `n` appended), the
needs-layout flag of `t` is set, and when `p` has an inner panel the attachment leaves the
own child list of `p` unchanged. If `n` is the inner panel of no control, `t` is also the
end of the chain of `p` before the call. -/
theorem SetParent_attaches_at_inner_target (r : Nat → Nat) (fuel n p : Nat) (w : World)
    (hr : InnerRank w r) (hfuel : ∀ x, r x < fuel) (hne : (w.ctrl n).m_parent ≠ some p) :
    ∃ w1 w2 t,
      detachFromParent fuel n w = some w1 ∧
      AddChild fuel p n (setParentPointers n (some p) w1) = some w2 ∧
      SetParent fuel n (some p) w = some w2 ∧
      (w2.ctrl n).m_parent = some p ∧
      innerTarget fuel p w2 = some t ∧ (w2.ctrl t).m_innerPanel = none ∧
      (w2.ctrl n).m_actualParent = some t ∧
      (w2.ctrl t).Children = ((setParentPointers n (some p) w1).ctrl t).Children ++ [n] ∧
      (w2.ctrl t).Children.getLast? = some n ∧
      (w2.ctrl t).m_bNeedsLayout = true ∧
      (((setParentPointers n (some p) w1).ctrl p).m_innerPanel ≠ none →
        (w2.ctrl p).Children = ((setParentPointers n (some p) w1).ctrl p).Children) ∧
      ((∀ y, (w.ctrl y).m_innerPanel ≠ some n) → innerTarget fuel p w = some t) := by
  obtain ⟨w1, h1, hf1⟩ := detachFromParent_frame r fuel n w hr hfuel
  have hr1 : InnerRank w1 r := DetachFrame_innerRank hf1 hr
  have hr2 : InnerRank (setParentPointers n (some p) w1) r :=
    InnerRank_congr (setParentPointers_inner n (some p) w1) hr1
  obtain ⟨t, ht, htn, _, htp, hadd⟩ :=
    AddChild_spec r fuel p n (setParentPointers n (some p) w1) hr2 (hfuel p)
  refine ⟨w1, _, t, h1, hadd, ?_, ?_, ?_, ?_, ?_, ?_, ?_, ?_, ?_, ?_⟩
  · unfold SetParent
    simp only [hne, if_false, h1, hadd]
  · rw [attachChild_parent, setParentPointers_ctrl]; simp
  · rw [innerTarget_congr _ _ (attachChild_inner t n _)]; exact ht
  · rw [attachChild_inner]; exact htn
  · exact attachChild_actualParent t n _
  · rw [attachChild_children]; simp
  · rw [attachChild_children]; simp
  · rw [attachChild_needsLayout]; simp
  · intro hp
    rw [attachChild_children]
    have := htp hp
    simp [this.symm]
  · intro hno
    rw [← ht, innerTarget_congr _ _ (setParentPointers_inner n (some p) w1),
      innerTarget_congr _ _ (DetachFrame_links hf1 hno)]

/-- C7 witness: in the scroll tree the root control 5 is moved under `A` (1), whose inner
panel is `P` (2); it becomes the last child of `P`. -/
theorem SetParent_attaches_at_inner_target_witness :
    ∃ w1 w2 t,
      detachFromParent 6 5 scrollTree = some w1 ∧
      AddChild 6 1 5 (setParentPointers 5 (some 1) w1) = some w2 ∧
      SetParent 6 5 (some 1) scrollTree = some w2 ∧
      (w2.ctrl 5).m_parent = some 1 ∧
      innerTarget 6 1 w2 = some t ∧ (w2.ctrl t).m_innerPanel = none ∧
      (w2.ctrl 5).m_actualParent = some t ∧
      (w2.ctrl t).Children = ((setParentPointers 5 (some 1) w1).ctrl t).Children ++ [5] ∧
      (w2.ctrl t).Children.getLast? = some 5 ∧
      (w2.ctrl t).m_bNeedsLayout = true ∧
      (((setParentPointers 5 (some 1) w1).ctrl 1).m_innerPanel ≠ none →
        (w2.ctrl 1).Children = ((setParentPointers 5 (some 1) w1).ctrl 1).Children) ∧
      ((∀ y, (scrollTree.ctrl y).m_innerPanel ≠ some 5) → innerTarget 6 1 scrollTree = some t) :=
  SetParent_attaches_at_inner_target (fun i => 5 - i) 6 5 1 scrollTree
    (InnerRank_ofList _ _ (by decide)) (fun x => by show 5 - x < 6; omega) (by decide)

end SetParentTheorems

section ReparentTwice

/-- If no control has `child` as inner panel, the removal chain of `p` runs to the end of
the inner-panel chain of `p`. -/
theorem innerTarget_mem_removalChain (w : World) (child : Nat)
    (hno : ∀ y, (w.ctrl y).m_innerPanel ≠ some child) :
    ∀ (fuel p t : Nat) (chain : List Nat), innerTarget fuel p w = some t →
      removalChain fuel p child w = some chain → t ∈ chain := by
  intro fuel
  induction fuel with
  | zero => intro p t chain h; simp [innerTarget] at h
  | succ k ih =>
    intro p t chain ht hc
    unfold innerTarget at ht
    unfold removalChain at hc
    cases hi : (w.ctrl p).m_innerPanel with
    | none =>
      simp only [hi] at ht hc
      simp only [Option.some.injEq] at ht hc
      subst ht; subst hc; simp
    | some i =>
      simp only [hi] at ht hc
      have hic : i ≠ child := fun e => hno p (by rw [hi, e])
      simp only [hic, if_false] at hc
      cases hrc : removalChain k i child w with
      | none => rw [hrc] at hc; simp at hc
      | some l =>
        rw [hrc] at hc
        simp only [Option.map_some', Option.some.injEq] at hc
        subst hc
        exact List.mem_cons_of_mem _ (ih i t l ht hrc)

/-- What one `SetParent` to a new parent does when the control is listed only along the
removal chain of its old parent and is the inner panel of no control outside it: the
control ends up listed exactly once, in the target of the new parent. -/
theorem SetParent_relist (r : Nat → Nat) (fuel n old new : Nat) (w : World)
    (hr : InnerRank w r) (hfuel : ∀ x, r x < fuel)
    (hpar : (w.ctrl n).m_parent = some old) (hne : old ≠ new)
    (chain : List Nat) (hchain : removalChain fuel old n w = some chain)
    (hocc : ∀ t, n ∈ (w.ctrl t).Children → t ∈ chain)
    (hinner : ∀ y, (w.ctrl y).m_innerPanel = some n → y ∈ chain) :
    ∃ w1 t, SetParent fuel n (some new) w = some w1 ∧ InnerRank w1 r ∧
      (w1.ctrl n).m_parent = some new ∧ innerTarget fuel new w1 = some t ∧
      (w1.ctrl n).m_actualParent = some t ∧
      (w1.ctrl t).Children.count n = 1 ∧ (∀ c, c ≠ t → n ∉ (w1.ctrl c).Children) ∧
      (∀ y, (w1.ctrl y).m_innerPanel ≠ some n) ∧
      (w1.ctrl old).m_bNeedsLayout = true ∧
      (∀ m, (w.ctrl m).m_bNeedsLayout = true → (w1.ctrl m).m_bNeedsLayout = true) := by
  obtain ⟨chain', wa, hc', hrem, hmem, _, hg, htr, hctrl⟩ :=
    RemoveChild_spec r fuel old n w hr (hfuel old)
  rw [hchain] at hc'
  simp only [Option.some.injEq] at hc'
  subst hc'
  have hfa : DetachFrame n w wa := by
    refine ⟨hg, htr, fun m => ?_⟩
    rw [hctrl m]
    by_cases hm : m ∈ chain
    · right; simp [hm]
    · left; simp [hm]
  have ha1 : ∀ t, n ∉ (wa.ctrl t).Children := by
    intro t
    rw [hctrl t]
    by_cases ht : t ∈ chain
    · simp [ht, detached]
    · simp only [ht, if_false]
      exact fun h => ht (hocc t h)
  have ha2 : ∀ y, (wa.ctrl y).m_innerPanel ≠ some n := by
    intro y
    rw [hctrl y]
    by_cases hy : y ∈ chain
    · simp only [hy, if_true, detached]
      split
      · simp
      · assumption
    · simp only [hy, if_false]
      exact fun h => hy (hinner y h)
  have ha3 : (wa.ctrl old).m_bNeedsLayout = true := by
    rw [hctrl old]; simp [hmem, detached]
  have hra : InnerRank wa r := DetachFrame_innerRank hfa hr
  have hrb : InnerRank (setParentPointers n (some new) wa) r :=
    InnerRank_congr (setParentPointers_inner n (some new) wa) hra
  obtain ⟨t, ht, _, _, _, hadd⟩ :=
    AddChild_spec r fuel new n (setParentPointers n (some new) wa) hrb (hfuel new)
  have hdet : detachFromParent fuel n w = some wa := by
    unfold detachFromParent; rw [hpar]; exact hrem
  have hne' : (w.ctrl n).m_parent ≠ some new := by
    rw [hpar]; exact fun e => hne (Option.some.inj e)
  refine ⟨attachChild t n (setParentPointers n (some new) wa), t,
    ?_, ?_, ?_, ?_, ?_, ?_, ?_, ?_, ?_, ?_⟩
  · unfold SetParent
    simp only [hne', if_false, hdet, hadd]
  · exact InnerRank_congr (attachChild_inner t n _) hrb
  · rw [attachChild_parent, setParentPointers_ctrl]; simp
  · rw [innerTarget_congr _ _ (attachChild_inner t n _)]; exact ht
  · exact attachChild_actualParent t n _
  · rw [attachChild_children, setParentPointers_children]
    simp only [if_true, List.count_append]
    rw [List.count_eq_zero_of_not_mem (ha1 t)]
    simp
  · intro c hc
    rw [attachChild_children]
    simp only [hc, if_false, setParentPointers_children]
    exact ha1 c
  · intro y
    rw [attachChild_inner, setParentPointers_inner]
    exact ha2 y
  · rw [attachChild_needsLayout, setParentPointers_needsLayout]
    split
    · rfl
    · exact ha3
  · intro m hm
    rw [attachChild_needsLayout, setParentPointers_needsLayout]
    split
    · rfl
    · exact DetachFrame_needsLayout hfa m hm

end ReparentTwice

section ReparentBack

/-- C5 (amended): let `n` have the logical parent `A`, be listed only along the removal
chain of `A` and be the inner panel of no control but `A`, and let `B` be another control;
on acyclic inner-panel chains `n.SetParent(B)` followed by `n.SetParent(A)` returns and
leaves the logical parent of `n` equal to `A`, `n` listed exactly once in the child list
of the control `t` that holds the children of `A` (`A` itself or the end of its
inner-panel chain) and in no other child list, in particular not in that of `B` unless
`B` is `t`, and the needs-layout flag of `A` set. -/
theorem SetParent_away_and_back (r : Nat → Nat) (fuel n A B : Nat) (w : World)
    (hr : InnerRank w r) (hfuel : ∀ x, r x < fuel)
    (hpar : (w.ctrl n).m_parent = some A) (hAB : A ≠ B)
    (chain : List Nat) (hchain : removalChain fuel A n w = some chain)
    (hocc : ∀ t, n ∈ (w.ctrl t).Children → t ∈ chain)
    (hinner : ∀ y, (w.ctrl y).m_innerPanel = some n → y = A) :
    ∃ w1 w2 t, SetParent fuel n (some B) w = some w1 ∧
      SetParent fuel n (some A) w1 = some w2 ∧
      (w2.ctrl n).m_parent = some A ∧
      innerTarget fuel A w2 = some t ∧ (w2.ctrl n).m_actualParent = some t ∧
      (w2.ctrl t).Children.count n = 1 ∧
      (∀ c, c ≠ t → n ∉ (w2.ctrl c).Children) ∧
      (B ≠ t → n ∉ (w2.ctrl B).Children) ∧
      (w2.ctrl A).m_bNeedsLayout = true := by
  have hA : A ∈ chain := by
    obtain ⟨chain', _, hc', _, hmem, _⟩ := RemoveChild_spec r fuel A n w hr (hfuel A)
    rw [hchain] at hc'
    simp only [Option.some.injEq] at hc'
    subst hc'
    exact hmem
  obtain ⟨w1, tB, h1, hr1, hp1, ht1, _, hcount1, hother1, hno1, hflag1, _⟩ :=
    SetParent_relist r fuel n A B w hr hfuel hpar hAB chain hchain hocc
      (fun y hy => by rw [hinner y hy]; exact hA)
  obtain ⟨chain2, _, hc2, _, _, _⟩ := RemoveChild_spec r fuel B n w1 hr1 (hfuel B)
  have htB : tB ∈ chain2 := innerTarget_mem_removalChain w1 n hno1 fuel B tB chain2 ht1 hc2
  obtain ⟨w2, t, h2, _, hp2, ht2, ha2, hcount2, hother2, _, _, hmono2⟩ :=
    SetParent_relist r fuel n B A w1 hr1 hfuel hp1 (Ne.symm hAB) chain2 hc2
      (fun c hc => by
        by_cases hct : c = tB
        · rw [hct]; exact htB
        · exact absurd hc (hother1 c hct))
      (fun y hy => absurd hy (hno1 y))
  exact ⟨w1, w2, t, h1, h2, hp2, ht2, ha2, hcount2, hother2, hother2 B, hmono2 A hflag1⟩

/-- C5 witness: in the scroll tree the control `x` (3), whose parent `A` (1) redirects
into the inner panel `P` (2), is moved to the root control 5 and back. -/
theorem SetParent_away_and_back_witness :
    ∃ w1 w2 t, SetParent 6 3 (some 5) scrollTree = some w1 ∧
      SetParent 6 3 (some 1) w1 = some w2 ∧
      (w2.ctrl 3).m_parent = some 1 ∧
      innerTarget 6 1 w2 = some t ∧ (w2.ctrl 3).m_actualParent = some t ∧
      (w2.ctrl t).Children.count 3 = 1 ∧
      (∀ c, c ≠ t → 3 ∉ (w2.ctrl c).Children) ∧
      (5 ≠ t → 3 ∉ (w2.ctrl 5).Children) ∧
      (w2.ctrl 1).m_bNeedsLayout = true :=
  SetParent_away_and_back (fun i => 5 - i) 6 3 1 5 scrollTree
    (InnerRank_ofList _ _ (by decide)) (fun x => by show 5 - x < 6; omega) rfl (by decide)
    [1, 2] rfl
    (fun t => ofList_forall _ (fun t c => 3 ∈ c.Children → t ∈ [1, 2])
      (fun _ h => by simp at h) (by decide) t)
    (fun y => ofList_forall _ (fun y c => c.m_innerPanel = some 3 → y = 1)
      (fun _ h => by simp at h) (by decide) y)

/-- C5 counterexample: in the scroll tree `x` (3) has the parent `A` (1); with `B` the
inner panel `P` (2) of `A`, `x.SetParent(B)` followed by `x.SetParent(A)` leaves `x` in the
child list of `B`. -/
theorem SetParent_away_and_back_counterexample :
    (scrollTree.ctrl 3).m_parent = some 1 ∧ (1 : Nat) ≠ 2 ∧
    ((SetParent 6 3 (some 2) scrollTree).bind (SetParent 6 3 (some 1))).map
      (fun w => ((w.ctrl 3).m_parent, decide (3 ∈ (w.ctrl 2).Children))) =
      some (some 1, true) := by
  refine ⟨rfl, by decide, ?_⟩
  decide

/-- C6 (failing input): in the scroll tree every control is listed at most once. After
the inner panel `P` (2) of `A` (1) is moved to the root 4 and the control `x` (3), whose
logical parent is still `A`, is moved to the root 5, `x` is listed both under `P` and
under 5. -/
theorem SetParent_lists_under_two_parents :
    (∀ i, i < 6 → (scrollTree.ctrl i).Children.Nodup) ∧
    (∀ i, i < 6 → ∀ j, j < 6 →
      ∀ c, c ∈ (scrollTree.ctrl i).Children → c ∈ (scrollTree.ctrl j).Children → i = j) ∧
    ((SetParent 6 2 (some 4) scrollTree).bind (SetParent 6 3 (some 5))).map
      (fun w => (decide (3 ∈ (w.ctrl 2).Children), decide (3 ∈ (w.ctrl 5).Children))) =
      some (true, true) := by
  refine ⟨by decide, by decide, ?_⟩
  decide

end ReparentBack

section SubtreeTheorems

theorem Sub_trans {w : World} {a b c : Nat} (h1 : Sub w a b) (h2 : Sub w b c) : Sub w a c := by
  induction h1 with
  | refl => exact h2
  | child hc _ ih => exact Sub.child hc (ih h2)

theorem Sub_mono {w w1 : World} (h : ∀ m x, x ∈ (w1.ctrl m).Children → x ∈ (w.ctrl m).Children)
    {a b : Nat} (hs : Sub w1 a b) : Sub w a b := by
  induction hs with
  | refl => exact Sub.refl _
  | child hc _ ih => exact Sub.child (h _ _ hc) ih

theorem Sub_rank {w : World} {r : Nat → Nat} (hr : ChildRank w r) {a b : Nat}
    (hs : Sub w a b) : r b ≤ r a := by
  induction hs with
  | refl => exact le_refl _
  | child hc _ ih => have := hr _ _ hc; omega

theorem RefStep_refl (S : Nat → Prop) (g : Option Nat) : RefStep S g g := Or.inl rfl

theorem RefStep_trans {S : Nat → Prop} {a b c : Option Nat} (h1 : RefStep S a b)
    (h2 : RefStep S b c) : RefStep S a c := by
  rcases h1 with h1 | ⟨h1, x, hx, hS⟩
  · rw [← h1]; exact h2
  · rcases h2 with h2 | ⟨h2, y, hy, _⟩
    · exact Or.inr ⟨by rw [h2, h1], x, hx, hS⟩
    · rw [h1] at hy; simp at hy

theorem RefStep_mono {S T : Nat → Prop} (hST : ∀ x, S x → T x) {a b : Option Nat}
    (h : RefStep S a b) : RefStep T a b := by
  rcases h with h | ⟨h, x, hx, hS⟩
  · exact Or.inl h
  · exact Or.inr ⟨h, x, hx, hST x hS⟩

theorem RefStep_ne {S : Nat → Prop} {a b : Option Nat} (h : RefStep S a b) {x : Nat}
    (hx : a ≠ some x) : b ≠ some x := by
  rcases h with h | ⟨h, _⟩
  · rw [h]; exact hx
  · rw [h]; simp

theorem DestroyFrame_refl (S : Nat → Prop) (w : World) : DestroyFrame S w w :=
  ⟨fun _ => List.Sublist.refl _, fun _ => RefStep_refl _ _, fun _ => Or.inl rfl,
    fun _ => Or.inl rfl, RefStep_refl _ _, RefStep_refl _ _, RefStep_refl _ _⟩

theorem DestroyFrame_trans {S : Nat → Prop} {w w1 w2 : World} (h1 : DestroyFrame S w w1)
    (h2 : DestroyFrame S w1 w2) : DestroyFrame S w w2 := by
  refine ⟨fun m => (h2.children m).trans (h1.children m),
    fun m => RefStep_trans (h1.inner m) (h2.inner m), fun m => ?_, fun m => ?_,
    RefStep_trans h1.hovered h2.hovered, RefStep_trans h1.keyboard h2.keyboard,
    RefStep_trans h1.mouse h2.mouse⟩
  · rcases h2.parent m with e2 | ⟨hS, e2⟩
    · rcases h1.parent m with e1 | ⟨hS, e1⟩
      · exact Or.inl (e2.trans e1)
      · exact Or.inr ⟨hS, e2.trans e1⟩
    · exact Or.inr ⟨hS, e2⟩
  · rcases h2.destroyed m with e2 | ⟨hS, e2⟩
    · rcases h1.destroyed m with e1 | ⟨hS, e1⟩
      · exact Or.inl (e2.trans e1)
      · exact Or.inr ⟨hS, e2.trans e1⟩
    · exact Or.inr ⟨hS, e2⟩

theorem DestroyFrame_mono {S T : Nat → Prop} (hST : ∀ x, S x → T x) {w w1 : World}
    (h : DestroyFrame S w w1) : DestroyFrame T w w1 := by
  refine ⟨h.children, fun m => RefStep_mono hST (h.inner m), fun m => ?_, fun m => ?_,
    RefStep_mono hST h.hovered,
    RefStep_mono hST h.keyboard, RefStep_mono hST h.mouse⟩
  · rcases h.parent m with e | ⟨hS, e⟩
    · exact Or.inl e
    · exact Or.inr ⟨hST m hS, e⟩
  · rcases h.destroyed m with e | ⟨hS, e⟩
    · exact Or.inl e
    · exact Or.inr ⟨hST m hS, e⟩

theorem DestroyFrame_mem {S : Nat → Prop} {w w1 : World} (h : DestroyFrame S w w1)
    (m x : Nat) (hx : x ∈ (w1.ctrl m).Children) : x ∈ (w.ctrl m).Children :=
  (h.children m).subset hx

theorem DestroyFrame_childRank {S : Nat → Prop} {w w1 : World} {r : Nat → Nat}
    (h : DestroyFrame S w w1) (hr : ChildRank w r) : ChildRank w1 r :=
  fun p c hc => hr p c (DestroyFrame_mem h p c hc)

theorem DestroyFrame_listBound {S : Nat → Prop} {w w1 : World} {r : Nat → Nat}
    (h : DestroyFrame S w w1) (hr : ListBound w r) : ListBound w1 r :=
  fun m => le_trans (h.children m).length_le (hr m)

theorem DestroyFrame_innerRank {S : Nat → Prop} {w w1 : World} {r : Nat → Nat}
    (h : DestroyFrame S w w1) (hr : InnerRank w r) : InnerRank w1 r :=
  fun p i hi => by
    rcases h.inner p with e | ⟨e, _⟩
    · rw [e] at hi; exact hr p i hi
    · rw [e] at hi; simp at hi

theorem DestroyFrame_parentDepth {S : Nat → Prop} {w w1 : World} {d : Nat → Nat}
    (h : DestroyFrame S w w1) (hd : ParentDepth w d) : ParentDepth w1 d := by
  intro c p hp
  rcases h.parent c with e | ⟨_, e⟩
  · rw [e] at hp; exact hd c p hp
  · rw [e] at hp; simp at hp

theorem DestroyFrame_sub {S : Nat → Prop} {w w1 : World} (h : DestroyFrame S w w1)
    {a b : Nat} (hs : Sub w1 a b) : Sub w a b :=
  Sub_mono (DestroyFrame_mem h) hs

theorem Cleared_stable {S : Nat → Prop} {w w1 : World} (h : DestroyFrame S w w1) {x : Nat}
    (hx : Cleared w x) : Cleared w1 x := by
  refine ⟨?_, RefStep_ne h.hovered hx.2.1, RefStep_ne h.keyboard hx.2.2.1,
    RefStep_ne h.mouse hx.2.2.2⟩
  rcases h.destroyed x with e | ⟨_, e⟩
  · rw [e]; exact hx.1
  · exact e

/-- If along the subtree of `z` every entry of `w` is still listed in `a` or heads a
subtree where `Q` holds, then `Q` on the subtree of `z` in `a` gives `Q` on the subtree
of `z` in `w`. -/
theorem Sub_lift {w a : World} {Q : Nat → Prop} {z x : Nat} (hx : Sub w z x) :
    (∀ u v, Sub w z u → v ∈ (w.ctrl u).Children →
      v ∈ (a.ctrl u).Children ∨ ∀ y, Sub w v y → Q y) →
    (∀ y, Sub a z y → Q y) → Q x := by
  induction hx with
  | refl n => intro _ hz; exact hz n (Sub.refl n)
  | child hc hs ih =>
    rename_i n c x
    intro hlinks hz
    rcases hlinks n c (Sub.refl n) hc with hin | hall
    · exact ih (fun u v hu hv => hlinks u v (Sub.child hc hu) hv)
        (fun y hy => hz y (Sub.child hin hy))
    · exact hall x hs

end SubtreeTheorems

section DestructorSteps

theorem GetCanvas_some (d : Nat → Nat) (w : World) (hd : ParentDepth w d) :
    ∀ (fuel n : Nat), d n < fuel → ∃ res, GetCanvas fuel n w = some res := by
  intro fuel
  induction fuel with
  | zero => intro n h; omega
  | succ k ih =>
    intro n hn
    unfold GetCanvas
    by_cases hc : (w.ctrl n).isCanvas = true
    · exact ⟨some n, by simp [hc]⟩
    · cases hp : (w.ctrl n).m_parent with
      | none => exact ⟨none, by simp [hc]⟩
      | some p =>
        have hlt : d p < k := by have := hd n p hp; omega
        obtain ⟨res, hres⟩ := ih p hlt
        exact ⟨res, by simp [hc, hres]⟩

/-- A write to one control that shortens its child list and leaves its pointers and its
destroyed mark alone is within every destruction frame. -/
theorem DestroyFrame_modify (S : Nat → Prop) (w : World) (n : Nat) (f : Control → Control)
    (hch : (f (w.ctrl n)).Children.Sublist (w.ctrl n).Children)
    (hin : (f (w.ctrl n)).m_innerPanel = (w.ctrl n).m_innerPanel)
    (hpa : (f (w.ctrl n)).m_parent = (w.ctrl n).m_parent)
    (hde : (f (w.ctrl n)).destroyed = (w.ctrl n).destroyed) :
    DestroyFrame S w (w.modify n f) := by
  refine ⟨fun m => ?_, fun m => Or.inl ?_, fun m => Or.inl ?_, fun m => Or.inl ?_,
    RefStep_refl _ _, RefStep_refl _ _, RefStep_refl _ _⟩
  · by_cases hm : m = n
    · subst hm; simpa using hch
    · simp [hm]
  · by_cases hm : m = n
    · subst hm; simpa using hin
    · simp [hm]
  · by_cases hm : m = n
    · subst hm; simpa using hpa
    · simp [hm]
  · by_cases hm : m = n
    · subst hm; simpa using hde
    · simp [hm]

theorem DetachFrame_destroyFrame (S : Nat → Prop) {child : Nat} {w w1 : World}
    (h : DetachFrame child w w1) (hS : S child) : DestroyFrame S w w1 := by
  refine ⟨fun m => ?_, fun m => ?_, fun m => Or.inl (DetachFrame_parent h m),
    fun m => Or.inl ?_, ?_, ?_, ?_⟩
  · rcases DetachFrame_children h m with e | e <;> rw [e]
    exact List.filter_sublist _
  · rcases h.2.2 m with e | e
    · rw [e]; exact RefStep_refl _ _
    · rw [e]
      simp only [detached]
      split
      · next hc => exact Or.inr ⟨rfl, child, hc, hS⟩
      · exact RefStep_refl _ _
  · rcases h.2.2 m with e | e <;> rw [e]
    rfl
  · exact Or.inl h.1.1
  · exact Or.inl h.1.2.1
  · exact Or.inl h.1.2.2

/-- `SetParent(nullptr)`: the control is taken out of the child list of its logical parent,
only entries equal to the control leave child lists, only its own parent pointer changes. -/
theorem SetParent_none_spec (ri : Nat → Nat) (rf n : Nat) (w : World)
    (hri : InnerRank w ri) (hrf : ∀ x, ri x < rf) :
    ∃ w1, SetParent rf n none w = some w1 ∧ DestroyFrame (fun x => x = n) w w1 ∧
      (∀ p, (w.ctrl n).m_parent = some p → n ∉ (w1.ctrl p).Children) ∧
      (∀ m z, z ∈ (w.ctrl m).Children → z ≠ n → z ∈ (w1.ctrl m).Children) ∧
      (∀ p chain, (w.ctrl n).m_parent = some p → removalChain rf p n w = some chain →
        ∀ t, t ∈ chain → n ∉ (w1.ctrl t).Children) := by
  unfold SetParent
  cases hp : (w.ctrl n).m_parent with
  | none =>
    refine ⟨w, by simp, DestroyFrame_refl _ _, fun p h => by simp at h, fun m z hz _ => hz,
      fun p chain h => by simp at h⟩
  | some p =>
    obtain ⟨chain, wa, hchain, hrem, hmem, _, hg, htr, hctrl⟩ :=
      RemoveChild_spec ri rf p n w hri (hrf p)
    have hfa : DetachFrame n w wa := by
      refine ⟨hg, htr, fun m => ?_⟩
      rw [hctrl m]
      by_cases hm : m ∈ chain
      · right; simp [hm]
      · left; simp [hm]
    refine ⟨setParentPointers n none wa, ?_, ?_, ?_, ?_, ?_⟩
    · simp [detachFromParent, hp, hrem]
    · refine DestroyFrame_trans (DetachFrame_destroyFrame _ hfa rfl) ?_
      refine ⟨fun m => ?_, fun m => Or.inl ?_, fun m => ?_, fun m => Or.inl ?_,
        RefStep_refl _ _, RefStep_refl _ _, RefStep_refl _ _⟩
      · rw [setParentPointers_children]
      · rw [setParentPointers_inner]
      · rw [setParentPointers_ctrl]
        by_cases hm : m = n
        · right; subst hm; simp
        · left; simp [hm]
      · rw [setParentPointers_ctrl]
        by_cases hm : m = n
        · subst hm; simp
        · simp [hm]
    · intro p' hp'
      simp only [Option.some.injEq] at hp'
      subst hp'
      rw [setParentPointers_children, hctrl p]
      simp [hmem, detached]
    · intro m z hz hzn
      rw [setParentPointers_children]
      rcases DetachFrame_children hfa m with e | e <;> rw [e]
      · exact hz
      · simp [hz, hzn]
    · intro p' chain' hp' hc' t ht
      simp only [Option.some.injEq] at hp'
      subst hp'
      rw [hchain] at hc'
      simp only [Option.some.injEq] at hc'
      subst hc'
      rw [setParentPointers_children, hctrl t]
      simp [ht, detached]

/-- The end of the destructor: the global references at `n` are cleared and `n` is marked. -/
theorem clearGlobals_spec (n : Nat) (w : World) :
    DestroyFrame (fun x => x = n) w
      ((clearGlobals n w).modify n fun c => { c with destroyed := true }) ∧
    Cleared ((clearGlobals n w).modify n fun c => { c with destroyed := true }) n ∧
    ∀ m, (((clearGlobals n w).modify n fun c => { c with destroyed := true }).ctrl m).Children
      = (w.ctrl m).Children := by
  have hctrl : (clearGlobals n w).ctrl = w.ctrl := by
    unfold clearGlobals
    simp only []
    split_ifs <;> rfl
  have hH : (clearGlobals n w).HoveredControl =
      if w.HoveredControl = some n then none else w.HoveredControl := by
    unfold clearGlobals
    simp only []
    split_ifs <;> simp_all
  have hK : (clearGlobals n w).KeyboardFocus =
      if w.KeyboardFocus = some n then none else w.KeyboardFocus := by
    unfold clearGlobals
    simp only []
    split_ifs <;> simp_all
  have hM : (clearGlobals n w).MouseFocus =
      if w.MouseFocus = some n then none else w.MouseFocus := by
    unfold clearGlobals
    simp only []
    split_ifs <;> simp_all
  have href : ∀ g : Option Nat,
      RefStep (fun x => x = n) g (if g = some n then none else g) := by
    intro g
    by_cases hg : g = some n
    · simp only [hg, if_true]; exact Or.inr ⟨rfl, n, rfl, rfl⟩
    · simp only [hg, if_false]; exact Or.inl rfl
  refine ⟨⟨fun m => ?_, fun m => Or.inl ?_, fun m => Or.inl ?_, fun m => ?_, ?_, ?_, ?_⟩,
    ⟨by simp, ?_, ?_, ?_⟩, fun m => ?_⟩
  · rw [modify_ctrl, hctrl]; split <;> simp_all
  · rw [modify_ctrl, hctrl]; split <;> simp_all
  · rw [modify_ctrl, hctrl]; split <;> simp_all
  · rw [modify_ctrl, hctrl]
    by_cases hm : m = n
    · right; subst hm; simp
    · left; simp [hm]
  · rw [modify_HoveredControl, hH]; exact href _
  · rw [modify_KeyboardFocus, hK]; exact href _
  · rw [modify_MouseFocus, hM]; exact href _
  · rw [modify_HoveredControl, hH]; split <;> simp_all
  · rw [modify_KeyboardFocus, hK]; split <;> simp_all
  · rw [modify_MouseFocus, hM]; split <;> simp_all
  · rw [modify_ctrl, hctrl]; split <;> simp_all

end DestructorSteps

section DestructorTheorems

/-- The child loop of the destructor of `n`: it empties the child list of `n` within the
frame of the strict subtree of `n` and keeps the link invariant. `hrec` is the
specification of the destructor on the children. -/
theorem deleteChildren_spec (r : Nat → Nat) (del : Nat → World → Option World)
    (n : Nat) (w : World) (hr : ChildRank w r)
    (hrec : ∀ c wi, c ∈ (w.ctrl n).Children →
      DestroyFrame (fun x => ∃ c, c ∈ (w.ctrl n).Children ∧ Sub w c x) w wi →
      ∃ wn, del c wi = some wn ∧ Destroyed c wi wn) :
    ∀ (j : Nat) (wi : World),
      DestroyFrame (fun x => ∃ c, c ∈ (w.ctrl n).Children ∧ Sub w c x) w wi →
      LinksKept w wi → (wi.ctrl n).Children.length < j →
      ∃ we, deleteChildren del j n wi = some we ∧
        DestroyFrame (fun x => ∃ c, c ∈ (w.ctrl n).Children ∧ Sub w c x) w we ∧
        LinksKept w we ∧ (we.ctrl n).Children = [] := by
  intro j
  induction j with
  | zero => intro wi _ _ h; omega
  | succ j ih =>
    intro wi hframe hlinks hlen
    unfold deleteChildren
    cases hl : (wi.ctrl n).Children with
    | nil => exact ⟨wi, rfl, hframe, hlinks, hl⟩
    | cons c rest =>
      simp only []
      have hcwi : c ∈ (wi.ctrl n).Children := by rw [hl]; simp
      have hcw : c ∈ (w.ctrl n).Children := DestroyFrame_mem hframe n c hcwi
      have hrc : r c < r n := hr n c hcw
      -- the front of the list is erased
      have hpop : DestroyFrame (fun x => ∃ c, c ∈ (w.ctrl n).Children ∧ Sub w c x) wi
          (wi.modify n fun k => { k with Children := rest }) :=
        DestroyFrame_modify _ wi n _ (by rw [hl]; exact List.sublist_cons_self c rest)
          rfl rfl rfl
      have hframe' := DestroyFrame_trans hframe hpop
      have hch' : ∀ u, u ≠ n →
          ((wi.modify n fun k => { k with Children := rest }).ctrl u).Children
            = (wi.ctrl u).Children := by
        intro u hu; simp [hu]
      have hchn : ((wi.modify n fun k => { k with Children := rest }).ctrl n).Children
          = rest := by simp
      -- the child is deleted
      obtain ⟨wn, hdel, hD⟩ := hrec c _ hcw hframe'
      have hsubc : ∀ x, Sub (wi.modify n fun k => { k with Children := rest }) c x →
          ∃ c, c ∈ (w.ctrl n).Children ∧ Sub w c x :=
        fun x hx => ⟨c, hcw, DestroyFrame_sub hframe' hx⟩
      have hfc : DestroyFrame (fun x => ∃ c, c ∈ (w.ctrl n).Children ∧ Sub w c x)
          (wi.modify n fun k => { k with Children := rest }) wn :=
        DestroyFrame_mono hsubc hD.frame
      have hframen := DestroyFrame_trans hframe' hfc
      have hstab : ∀ x, Cleared wi x → Cleared wn x :=
        fun x hx => Cleared_stable hfc (Cleared_stable hpop hx)
      -- the whole subtree the child headed in `w` is cleared
      have hliftc : ∀ x, Sub w c x → Cleared wn x := by
        intro x hx
        refine Sub_lift (a := wi.modify n fun k => { k with Children := rest }) hx ?_
          hD.cleared
        intro u v hu hv
        have hun : u ≠ n := fun e => by
          have := Sub_rank hr hu; rw [e] at this; omega
        rcases hlinks u v hv with h | h
        · left; rw [hch' u hun]; exact h
        · right; exact fun y hy => hstab y (h y hy)
      have hH1 : ∀ u v, v ∈ (w.ctrl u).Children →
          v ∈ ((wi.modify n fun k => { k with Children := rest }).ctrl u).Children ∨
          ∀ y, Sub w v y → Cleared wn y := by
        intro u v hv
        rcases hlinks u v hv with h | h
        · by_cases hun : u = n
          · subst hun
            rw [hl] at h
            rcases List.mem_cons.mp h with e | e
            · right; rw [e]; exact hliftc
            · left; rw [hchn]; exact e
          · left; rw [hch' u hun]; exact h
        · right; exact fun y hy => hstab y (h y hy)
      have hlinksn : LinksKept w wn := by
        intro y z hz
        rcases hH1 y z hz with h | h
        · rcases hD.links y z h with h' | h'
          · exact Or.inl h'
          · right
            intro x hx
            exact Sub_lift (a := wi.modify n fun k => { k with Children := rest }) hx
              (fun u v _ hv => hH1 u v hv) h'
        · exact Or.inr h
      have hlenn : (wn.ctrl n).Children.length < j := by
        have h1 := (hfc.children n).length_le
        rw [hchn] at h1
        rw [hl] at hlen
        simp only [List.length_cons] at hlen
        omega
      obtain ⟨we, hwe, h1, h2, h3⟩ := ih wn hframen hlinksn hlenn
      exact ⟨we, by rw [hdel]; exact hwe, h1, h2, h3⟩

/-- The removal chain is closed under inner-panel links other than the link to `child`. -/
theorem removalChain_closed (w : World) (child : Nat) :
    ∀ (fuel p : Nat) (chain : List Nat), removalChain fuel p child w = some chain →
      ∀ t v, t ∈ chain → (w.ctrl t).m_innerPanel = some v → v ≠ child → v ∈ chain := by
  intro fuel
  induction fuel with
  | zero => intro p chain h; simp [removalChain] at h
  | succ k ih =>
    intro p chain hc t v ht hv hvc
    unfold removalChain at hc
    cases hi : (w.ctrl p).m_innerPanel with
    | none =>
      simp only [hi, Option.some.injEq] at hc
      subst hc
      simp only [List.mem_singleton] at ht
      subst ht
      rw [hi] at hv; simp at hv
    | some i =>
      simp only [hi] at hc
      by_cases hic : i = child
      · simp only [hic, if_true, Option.some.injEq] at hc
        subst hc
        simp only [List.mem_singleton] at ht
        subst ht
        rw [hi] at hv
        simp only [Option.some.injEq] at hv
        exact absurd (hv ▸ hic) hvc
      · simp only [hic, if_false] at hc
        cases hrc : removalChain k i child w with
        | none => rw [hrc] at hc; simp at hc
        | some l =>
          rw [hrc] at hc
          simp only [Option.map_some', Option.some.injEq] at hc
          subst hc
          have hil : i ∈ l := by
            cases k with
            | zero => simp [removalChain] at hrc
            | succ k' =>
              unfold removalChain at hrc
              cases hii : (w.ctrl i).m_innerPanel with
              | none => simp only [hii, Option.some.injEq] at hrc; subst hrc; simp
              | some i' =>
                simp only [hii] at hrc
                split at hrc
                · simp only [Option.some.injEq] at hrc; subst hrc; simp
                · cases hr' : removalChain k' i' child w with
                  | none => rw [hr'] at hrc; simp at hrc
                  | some l' =>
                    rw [hr'] at hrc
                    simp only [Option.map_some', Option.some.injEq] at hrc
                    subst hrc; simp
          rcases List.mem_cons.mp ht with e | ht'
          · subst e
            rw [hi] at hv
            simp only [Option.some.injEq] at hv
            subst hv
            exact List.mem_cons_of_mem _ hil
          · exact List.mem_cons_of_mem _ (ih i l hrc t v ht' hv hvc)

/-- The removal chain depends on the inner-panel links of its own controls only. -/
theorem removalChain_congr_on (w w1 : World) (child : Nat) :
    ∀ (fuel p : Nat) (chain : List Nat), removalChain fuel p child w = some chain →
      (∀ t, t ∈ chain → (w1.ctrl t).m_innerPanel = (w.ctrl t).m_innerPanel) →
      removalChain fuel p child w1 = some chain := by
  intro fuel
  induction fuel with
  | zero => intro p chain h; simp [removalChain] at h
  | succ k ih =>
    intro p chain hc hsame
    unfold removalChain at hc ⊢
    cases hi : (w.ctrl p).m_innerPanel with
    | none =>
      simp only [hi, Option.some.injEq] at hc
      subst hc
      rw [hsame p (by simp), hi]
    | some i =>
      simp only [hi] at hc
      by_cases hic : i = child
      · simp only [hic, if_true, Option.some.injEq] at hc
        subst hc
        rw [hsame p (by simp), hi]
        simp [hic]
      · simp only [hic, if_false] at hc
        cases hrc : removalChain k i child w with
        | none => rw [hrc] at hc; simp at hc
        | some l =>
          rw [hrc] at hc
          simp only [Option.map_some', Option.some.injEq] at hc
          subst hc
          rw [hsame p (by simp), hi]
          simp only [hic, if_false]
          rw [ih i l hrc (fun t ht => hsame t (List.mem_cons_of_mem _ ht))]
          rfl

/-- The destructor returns on every control of a finite acyclic tree and achieves
`Destroyed`; it also takes the control out of every child list along the removal chain of
its logical parent, provided no control of that chain lies strictly below the control. -/
theorem Base_destructor_spec (r d ri : Nat → Nat) (rf : Nat)
    (hrf : ∀ x, d x < rf ∧ ri x < rf) :
    ∀ (fuel n : Nat) (w : World), ChildRank w r → ListBound w r → ParentDepth w d →
      InnerRank w ri → r n < fuel →
      ∃ w1, Base_destructor rf fuel n w = some w1 ∧ Destroyed n w w1 ∧
        ∀ p chain, (w.ctrl n).m_parent = some p → removalChain rf p n w = some chain →
          (∀ t, t ∈ chain → ¬ ∃ c, c ∈ (w.ctrl n).Children ∧ Sub w c t) →
          ∀ t, t ∈ chain → n ∉ (w1.ctrl t).Children := by
  intro fuel
  induction fuel with
  | zero => intro n _ _ _ _ _ h; omega
  | succ k ih =>
    intro n w hr hlb hd hri hn
    -- GetCanvas
    obtain ⟨cv, hcv⟩ : ∃ cv, (match (w.ctrl n).m_parent with
        | none => some none
        | some p => GetCanvas rf p w) = some cv := by
      cases hp : (w.ctrl n).m_parent with
      | none => exact ⟨none, rfl⟩
      | some p => exact GetCanvas_some d w hd rf p (hrf p).1
    -- the child loop
    obtain ⟨we, hwe, hfe, hle, hempty⟩ :=
      deleteChildren_spec r (Base_destructor rf k) n w hr
        (fun c wi hc hfi => by
          obtain ⟨wn, h1, h2, _⟩ :=
            ih c wi (DestroyFrame_childRank hfi hr) (DestroyFrame_listBound hfi hlb)
              (DestroyFrame_parentDepth hfi hd) (DestroyFrame_innerRank hfi hri)
              (by have := hr n c hc; omega)
          exact ⟨wn, h1, h2⟩)
        (k + 1) w (DestroyFrame_refl _ _) (fun y z hz => Or.inl hz)
        (by have := hlb n; omega)
    have hnotsl : ¬ ∃ c, c ∈ (w.ctrl n).Children ∧ Sub w c n := by
      rintro ⟨c, hc, hs⟩
      have h1 := Sub_rank hr hs
      have h2 := hr n c hc
      omega
    have hparent : (we.ctrl n).m_parent = (w.ctrl n).m_parent := by
      rcases hfe.parent n with e | ⟨hS, _⟩
      · exact e
      · exact absurd hS hnotsl
    have hdesc : ∀ c, c ∈ (w.ctrl n).Children → ∀ x, Sub w c x → Cleared we x := by
      intro c hc
      rcases hle n c hc with h | h
      · rw [hempty] at h; simp at h
      · exact h
    have hsl : ∀ x, (∃ c, c ∈ (w.ctrl n).Children ∧ Sub w c x) → Sub w n x :=
      fun x ⟨c, hc, hs⟩ => Sub.child hc hs
    have hself : ∀ x, x = n → Sub w n x := fun x e => by rw [e]; exact Sub.refl n
    have hfe' : DestroyFrame (Sub w n) w we := DestroyFrame_mono hsl hfe
    -- the accelerators
    have hf2 : DestroyFrame (Sub w n) we (we.modify n fun c => { c with m_accelerators := [] }) :=
      DestroyFrame_modify _ we n _ (List.Sublist.refl _) rfl rfl rfl
    have hf02 := DestroyFrame_trans hfe' hf2
    -- SetParent(nullptr)
    obtain ⟨w3, h3, hf3, hunl3, hkeep3, hchain3⟩ :=
      SetParent_none_spec ri rf n (we.modify n fun c => { c with m_accelerators := [] })
        (DestroyFrame_innerRank hf02 hri) (fun x => (hrf x).2)
    have hf03 := DestroyFrame_trans hf02 (DestroyFrame_mono hself hf3)
    -- the global references and the mark
    obtain ⟨hf4, hcl4, hch4⟩ := clearGlobals_spec n w3
    have hf04 := DestroyFrame_trans hf03 (DestroyFrame_mono hself hf4)
    have hfe4 : DestroyFrame (Sub w n) we
        ((clearGlobals n w3).modify n fun c => { c with destroyed := true }) :=
      DestroyFrame_trans hf2 (DestroyFrame_trans (DestroyFrame_mono hself hf3)
        (DestroyFrame_mono hself hf4))
    have hcleared : ∀ x, Sub w n x →
        Cleared ((clearGlobals n w3).modify n fun c => { c with destroyed := true }) x := by
      intro x hx
      cases hx with
      | refl => exact hcl4
      | child hc hs => exact Cleared_stable hfe4 (hdesc _ hc x hs)
    refine ⟨(clearGlobals n w3).modify n fun c => { c with destroyed := true }, ?_,
      ⟨hf04, ?_, hcleared, ?_⟩, ?_⟩
    · unfold Base_destructor
      simp only [hcv, hwe, h3]
    · intro y z hz
      rcases hle y z hz with h | h
      · by_cases hzn : z = n
        · right; rw [hzn]; exact hcleared
        · left
          rw [hch4]
          apply hkeep3 y z _ hzn
          by_cases hy : y = n
          · subst hy; simpa using h
          · simpa [hy] using h
      · exact Or.inr (fun x hx => Cleared_stable hfe4 (h x hx))
    · intro p hp
      rw [hch4]
      apply hunl3
      rw [← hp, ← hparent]
      simp
    · intro p chain hp hchain hout t ht
      rw [hch4]
      have hfsl : DestroyFrame (fun x => ∃ c, c ∈ (w.ctrl n).Children ∧ Sub w c x) w
          (we.modify n fun c => { c with m_accelerators := [] }) :=
        DestroyFrame_trans hfe (DestroyFrame_modify _ we n _ (List.Sublist.refl _) rfl rfl rfl)
      have hsame : ∀ u, u ∈ chain →
          ((we.modify n fun c => { c with m_accelerators := [] }).ctrl u).m_innerPanel
            = (w.ctrl u).m_innerPanel := by
        intro u hu
        rcases hfsl.inner u with e | ⟨_, v, hv, hS⟩
        · exact e
        · exfalso
          by_cases hvn : v = n
          · exact hnotsl (hvn ▸ hS)
          · exact hout v (removalChain_closed w n rf p chain hchain u v hu hv hvn) hS
      refine hchain3 p chain ?_ (removalChain_congr_on w _ n rf p chain hchain hsame) t ht
      rw [← hp, ← hparent]
      simp

end DestructorTheorems

section DestructorClaim

theorem RefStep_cleared {S : Nat → Prop} {g g1 : Option Nat} (h : RefStep S g g1) {x : Nat}
    (hg : g = some x) (hne : g1 ≠ some x) : g1 = none := by
  rcases h with h | ⟨h, _⟩
  · rw [h] at hne; exact absurd hg hne
  · exact h

theorem RefStep_outside {S : Nat → Prop} {g g1 : Option Nat} (h : RefStep S g g1)
    (hout : ∀ x, g = some x → ¬ S x) : g1 = g := by
  rcases h with h | ⟨_, x, hx, hS⟩
  · exact h
  · exact absurd hS (hout x hx)

/-- C9: in a finite acyclic tree the destructor of a control `n` returns; afterwards every
control of the subtree of `n` (everything reached from `n` through child lists) is
destroyed and none of the three global references (hovered, keyboard focus, mouse focus)
points at it, each reference that pointed into the subtree is none, `n` does not occur in
the child list of its former logical parent, nor in any child list along the inner-panel
chain of that parent (provided the chain does not run through the strict subtree of `n`),
every reference that pointed outside the subtree or was none is unchanged, and no control
outside the subtree is destroyed. -/
theorem Base_destructor_clears_subtree (r d ri : Nat → Nat) (rf fuel n : Nat) (w : World)
    (hr : ChildRank w r) (hlb : ListBound w r) (hd : ParentDepth w d) (hri : InnerRank w ri)
    (hrf : ∀ x, d x < rf ∧ ri x < rf) (hfuel : r n < fuel) :
    ∃ w1, Base_destructor rf fuel n w = some w1 ∧
      (∀ x, Sub w n x →
        (w1.ctrl x).destroyed = true ∧ w1.HoveredControl ≠ some x ∧
        w1.KeyboardFocus ≠ some x ∧ w1.MouseFocus ≠ some x) ∧
      (∀ x, Sub w n x →
        (w.HoveredControl = some x → w1.HoveredControl = none) ∧
        (w.KeyboardFocus = some x → w1.KeyboardFocus = none) ∧
        (w.MouseFocus = some x → w1.MouseFocus = none)) ∧
      (∀ p, (w.ctrl n).m_parent = some p → n ∉ (w1.ctrl p).Children) ∧
      (∀ p chain, (w.ctrl n).m_parent = some p → removalChain rf p n w = some chain →
        (∀ t, t ∈ chain → ¬ ∃ c, c ∈ (w.ctrl n).Children ∧ Sub w c t) →
        ∀ t, t ∈ chain → n ∉ (w1.ctrl t).Children) ∧
      ((∀ x, w.HoveredControl = some x → ¬ Sub w n x) →
        w1.HoveredControl = w.HoveredControl) ∧
      ((∀ x, w.KeyboardFocus = some x → ¬ Sub w n x) →
        w1.KeyboardFocus = w.KeyboardFocus) ∧
      ((∀ x, w.MouseFocus = some x → ¬ Sub w n x) → w1.MouseFocus = w.MouseFocus) ∧
      (∀ x, ¬ Sub w n x → (w1.ctrl x).destroyed = (w.ctrl x).destroyed) := by
  obtain ⟨w1, h1, hD, hchain⟩ :=
    Base_destructor_spec r d ri rf hrf fuel n w hr hlb hd hri hfuel
  refine ⟨w1, h1, hD.cleared, fun x hx => ⟨fun hg => ?_, fun hg => ?_, fun hg => ?_⟩,
    hD.unlisted, hchain, RefStep_outside hD.frame.hovered, RefStep_outside hD.frame.keyboard,
    RefStep_outside hD.frame.mouse, fun x hx => ?_⟩
  · exact RefStep_cleared hD.frame.hovered hg (hD.cleared x hx).2.1
  · exact RefStep_cleared hD.frame.keyboard hg (hD.cleared x hx).2.2.1
  · exact RefStep_cleared hD.frame.mouse hg (hD.cleared x hx).2.2.2
  · rcases hD.frame.destroyed x with e | ⟨hS, _⟩
    · exact e
    · exact absurd hS hx

/-- C9 witness: in the scroll tree the control `A` (1) is destroyed; its inner panel `P`
(2), which held the keyboard focus, and the control `x` (3) are destroyed with it, the
keyboard focus is none and `A` has left the child list of the canvas (0). -/
theorem Base_destructor_clears_subtree_witness :
    ∃ w1, Base_destructor 6 6 1 scrollTree = some w1 ∧
      (w1.ctrl 1).destroyed = true ∧ (w1.ctrl 2).destroyed = true ∧
      (w1.ctrl 3).destroyed = true ∧ w1.KeyboardFocus = none ∧
      1 ∉ (w1.ctrl 0).Children ∧ w1.HoveredControl = scrollTree.HoveredControl ∧
      w1.MouseFocus = scrollTree.MouseFocus := by
  obtain ⟨w1, h1, hcl, hnone, hunl, _, hH, _, hM, _⟩ :=
    Base_destructor_clears_subtree scrollRank scrollDepth scrollRank 6 6 1 scrollTree
      (ChildRank_ofList _ _ (by decide))
      (fun m => ofList_forall _ (fun m c => c.Children.length ≤ scrollRank m)
        (fun _ => by simp) (by decide) m)
      (ParentDepth_ofList _ _ (by decide))
      (InnerRank_ofList _ _ (by decide))
      (fun x => ⟨by unfold scrollDepth; split <;> omega, by unfold scrollRank; omega⟩)
      (by decide)
  have h12 : 2 ∈ (scrollTree.ctrl 1).Children := by decide
  have h23 : 3 ∈ (scrollTree.ctrl 2).Children := by decide
  have s2 : Sub scrollTree 1 2 := Sub.child h12 (Sub.refl 2)
  have s3 : Sub scrollTree 1 3 := Sub.child h12 (Sub.child h23 (Sub.refl 3))
  exact ⟨w1, h1, (hcl 1 (Sub.refl 1)).1, (hcl 2 s2).1, (hcl 3 s3).1, (hnone 2 s2).2.1 rfl,
    hunl 0 rfl, hH (fun x hx => by simp [scrollTree, World.ofList] at hx),
    hM (fun x hx => by simp [scrollTree, World.ofList] at hx)⟩

end DestructorClaim

section FocusRedraw

/-- C11: in `focusTree` the control `q` (1) holds the keyboard focus and is drawn (its
cache-dirty flag is false). After `n.Focus()` on its sibling `n` (2) the focus is on `n`,
the cache-dirty flag of `n` is true and the cache-dirty flag of `q` is still false: `Focus`
calls `Redraw` on the new holder only. `q.Unfocus()` in the same state does set the
cache-dirty flag of `q`. -/
theorem Focus_leaves_previous_holder_undrawn :
    focusTree.KeyboardFocus = some 1 ∧
    (focusTree.ctrl 1).m_bCacheTextureDirty = false ∧
    (Focus 2 2 focusTree).map (fun w1 =>
        (w1.KeyboardFocus, (w1.ctrl 2).m_bCacheTextureDirty, (w1.ctrl 1).m_bCacheTextureDirty))
      = some (some 2, true, false) ∧
    (Unfocus 2 1 focusTree).map (fun w1 => (w1.KeyboardFocus, (w1.ctrl 1).m_bCacheTextureDirty))
      = some (none, true) := by
  decide

end FocusRedraw

section HiddenFill

/-- C16: in `hiddenFillTree` the only child (1) of the container (0) is hidden and docked
Fill, with bounds (0, 0, 10, 10). `ArrangeHorizontal` on the container gives the child the
bounds (0, 0, 200, 10), `ArrangeVertical` the bounds (0, 0, 10, 100), and so does `Arrange`
on either axis; after a whole layout pass (`RecurseLayout`) the hidden child has the bounds
(0, 0, 200, 100) of the container: the fill loop has no test for hidden children. With any
of the docks None, Left, Right, Top or Bottom in place of Fill the hidden child is left as
it is. -/
theorem Arrange_resizes_hidden_fill_child :
    (hiddenFillTree.ctrl 1).m_bHidden = true ∧
    (hiddenFillTree.ctrl 1).m_dock = Position.Fill ∧
    (hiddenFillTree.ctrl 1).m_bounds = { x := 0, y := 0, w := 10, h := 10 } ∧
    (ArrangeHorizontal 2 0 hiddenFillTree).map (fun w1 => (w1.ctrl 1).m_bounds)
      = some { x := 0, y := 0, w := 200, h := 10 } ∧
    (ArrangeVertical 2 0 hiddenFillTree).map (fun w1 => (w1.ctrl 1).m_bounds)
      = some { x := 0, y := 0, w := 10, h := 100 } ∧
    (Arrange 2 2 0 Dim.X hiddenFillTree).map (fun w1 => (w1.ctrl 1).m_bounds)
      = some { x := 0, y := 0, w := 200, h := 10 } ∧
    (Arrange 2 2 0 Dim.Y hiddenFillTree).map (fun w1 => (w1.ctrl 1).m_bounds)
      = some { x := 0, y := 0, w := 10, h := 100 } ∧
    (RecurseLayout 2 0 hiddenFillTree).map (fun w1 => (w1.ctrl 1).m_bounds)
      = some { x := 0, y := 0, w := 200, h := 100 } ∧
    (∀ dock, dock ∈ [Position.None, Position.Left, Position.Right, Position.Top,
        Position.Bottom] →
      (ArrangeHorizontal 2 0 (hiddenFillTree.modify 1 fun c => { c with m_dock := dock })).map
          (fun w1 => w1.ctrl 1)
        = some { hiddenFillTree.ctrl 1 with m_dock := dock } ∧
      (ArrangeVertical 2 0 (hiddenFillTree.modify 1 fun c => { c with m_dock := dock })).map
          (fun w1 => w1.ctrl 1)
        = some { hiddenFillTree.ctrl 1 with m_dock := dock }) := by
  refine ⟨by decide, by decide, by decide, by decide, by decide, by decide, by decide,
    by decide, ?_⟩
  decide

end HiddenFill

section SetterTheorems

/-- C19: `SetParent` with the current parent, `SetBounds` with the current bounds,
`SetPadding` with the current padding, `SetMargin` with the current margin, `Dock` with
the current dock and `SetSizeFlags` with the current flags each return the world they were
given (every control, global reference and the trace are unchanged), and this `SetBounds`
returns false. -/
theorem setters_with_current_value_change_nothing (fuel n : Nat) (w : World) :
    SetParent fuel n (w.ctrl n).m_parent w = some w ∧
    SetBounds fuel n (w.ctrl n).m_bounds w = some (false, w) ∧
    SetPadding n (w.ctrl n).m_padding w = w ∧
    SetMargin n (w.ctrl n).m_margin w = w ∧
    Dock n (w.ctrl n).m_dock w = w ∧
    SetSizeFlags n (w.ctrl n).m_sizeFlags w = w := by
  refine ⟨?_, ?_, ?_, ?_, ?_, ?_⟩
  · simp [SetParent]
  · simp [SetBounds]
  · simp [SetPadding]
  · simp [SetMargin]
  · simp [Dock]
  · simp [SetSizeFlags]

theorem Rect_ne_iff (a b : Rect) :
    a ≠ b ↔ a.x ≠ b.x ∨ a.y ≠ b.y ∨ a.w ≠ b.w ∨ a.h ≠ b.h := by
  cases a; cases b
  simp only [ne_eq, Rect.mk.injEq]
  tauto

/-- C20: on an acyclic parent chain `SetBounds(b)` returns, afterwards the bounds of `n`
are `b`, and the value returned is true exactly when `b` differs from the previous bounds
in at least one of x, y, w, h. `SetPos(x, y)` leaves the bounds with the position `(x, y)`
and the previous width and height, `SetSize(wd, ht)` leaves them with the previous position
and the size `(wd, ht)`, and its value returned is true exactly when the size changed. -/
theorem SetBounds_installs_bounds (d : Nat → Nat) (fuel n : Nat) (w : World)
    (hd : ParentDepth w d) (hfuel : d n < fuel) :
    (∀ b : Rect, ∃ r w1, SetBounds fuel n b w = some (r, w1) ∧ (w1.ctrl n).m_bounds = b ∧
      (r = true ↔ (b.x ≠ (w.ctrl n).m_bounds.x ∨ b.y ≠ (w.ctrl n).m_bounds.y ∨
        b.w ≠ (w.ctrl n).m_bounds.w ∨ b.h ≠ (w.ctrl n).m_bounds.h))) ∧
    (∀ x y : Int, ∃ w1, SetPos fuel n x y w = some w1 ∧
      (w1.ctrl n).m_bounds =
        { x := x, y := y, w := (w.ctrl n).m_bounds.w, h := (w.ctrl n).m_bounds.h }) ∧
    (∀ wd ht : Int, ∃ r w1, SetSize fuel n wd ht w = some (r, w1) ∧
      (w1.ctrl n).m_bounds =
        { x := (w.ctrl n).m_bounds.x, y := (w.ctrl n).m_bounds.y, w := wd, h := ht } ∧
      (r = true ↔ (wd ≠ (w.ctrl n).m_bounds.w ∨ ht ≠ (w.ctrl n).m_bounds.h))) := by
  refine ⟨fun b => ?_, fun x y => ?_, fun wd ht => ?_⟩
  · obtain ⟨w1, h1, h2⟩ := SetBounds_spec d fuel n b w hd hfuel
    refine ⟨_, w1, h1, h2.bounds_eq, ?_⟩
    rw [decide_eq_true_iff, Rect_ne_iff]
    constructor <;> intro h <;> rcases h with h | h | h | h <;> simp [Ne.symm h]
  · obtain ⟨w1, h1, h2⟩ := SetBoundsXYWH_spec d fuel n x y (w.ctrl n).m_bounds.w
      (w.ctrl n).m_bounds.h w hd hfuel
    exact ⟨w1, h1, h2.bounds_eq⟩
  · obtain ⟨w1, h1, h2⟩ := SetBounds_spec d fuel n
      { x := (w.ctrl n).m_bounds.x, y := (w.ctrl n).m_bounds.y, w := wd, h := ht } w hd hfuel
    refine ⟨_, w1, h1, h2.bounds_eq, ?_⟩
    rw [decide_eq_true_iff, Rect_ne_iff]
    simp only [ne_eq, not_true_eq_false, false_or]
    constructor <;> intro h <;> rcases h with h | h <;> simp [Ne.symm h]

/-- C20 witness: in the scroll tree the control `x` (3) has the bounds (3, 4, 10, 10);
`SetBounds`, `SetPos` and `SetSize` on it return with the bounds stated. -/
theorem SetBounds_installs_bounds_witness :
    (∀ b : Rect, ∃ r w1, SetBounds 4 3 b scrollTree = some (r, w1) ∧ (w1.ctrl 3).m_bounds = b ∧
      (r = true ↔ (b.x ≠ (scrollTree.ctrl 3).m_bounds.x ∨ b.y ≠ (scrollTree.ctrl 3).m_bounds.y ∨
        b.w ≠ (scrollTree.ctrl 3).m_bounds.w ∨ b.h ≠ (scrollTree.ctrl 3).m_bounds.h))) ∧
    (∀ x y : Int, ∃ w1, SetPos 4 3 x y scrollTree = some w1 ∧
      (w1.ctrl 3).m_bounds =
        { x := x, y := y, w := (scrollTree.ctrl 3).m_bounds.w,
          h := (scrollTree.ctrl 3).m_bounds.h }) ∧
    (∀ wd ht : Int, ∃ r w1, SetSize 4 3 wd ht scrollTree = some (r, w1) ∧
      (w1.ctrl 3).m_bounds =
        { x := (scrollTree.ctrl 3).m_bounds.x, y := (scrollTree.ctrl 3).m_bounds.y,
          w := wd, h := ht } ∧
      (r = true ↔ (wd ≠ (scrollTree.ctrl 3).m_bounds.w ∨ ht ≠ (scrollTree.ctrl 3).m_bounds.h))) :=
  SetBounds_installs_bounds scrollDepth 4 3 scrollTree (ParentDepth_ofList _ _ (by decide))
    (by decide)

end SetterTheorems

section GetChildTheorems

theorem getChildLoop_spec : ∀ (l : List Nat) (i : Nat), i < l.length → i < 2 ^ 32 →
    getChildLoop l i = l[i]? := by
  intro l
  induction l with
  | nil => intro i h; simp at h
  | cons a l ih =>
    intro i h hi
    unfold getChildLoop
    by_cases h0 : i = 0
    · subst h0; simp
    · obtain ⟨j, rfl⟩ := Nat.exists_eq_succ_of_ne_zero h0
      have hj : (j + 1 + 2 ^ 32 - 1) % 2 ^ 32 = j := by
        have : j + 1 + 2 ^ 32 - 1 = j + 2 ^ 32 := by omega
        rw [this, Nat.add_mod_right, Nat.mod_eq_of_lt (by omega)]
      simp only [h0, if_false, hj]
      rw [ih j (by simpa using h) (by omega)]
      simp

theorem NumChildren_le (n : Nat) (w : World) :
    NumChildren n w ≤ (w.ctrl n).Children.length ∧ NumChildren n w < 2 ^ 32 :=
  ⟨Nat.mod_le _ _, Nat.mod_lt _ (by norm_num)⟩

/-- C18: `GetChild(i)` returns null exactly when `i >= NumChildren()`; for a smaller `i` it
returns, from inside the loop, the `i`-th element (0-based) of the child list; the trailing
return marked "Should never happen" is not reached for any `i`. -/
theorem GetChild_returns_ith_child (n i : Nat) (w : World) :
    ((GetChild n i w).value = none ↔ i ≥ NumChildren n w) ∧
    (i < NumChildren n w → ∃ child, (w.ctrl n).Children[i]? = some child ∧
      GetChild n i w = GetChildExit.found child) ∧
    GetChild n i w ≠ GetChildExit.shouldNeverHappen := by
  obtain ⟨hle, hlt⟩ := NumChildren_le n w
  by_cases h : i ≥ NumChildren n w
  · have : GetChild n i w = GetChildExit.outOfRange := by simp [GetChild, h]
    refine ⟨by simp [this, GetChildExit.value, h], fun h1 => absurd h (by omega), by simp [this]⟩
  · have hi : i < (w.ctrl n).Children.length := by omega
    have hloop := getChildLoop_spec (w.ctrl n).Children i hi (by omega)
    have hget : (w.ctrl n).Children[i]? = some ((w.ctrl n).Children[i]) :=
      List.getElem?_eq_getElem hi
    have : GetChild n i w = GetChildExit.found ((w.ctrl n).Children[i]) := by
      simp [GetChild, h, hloop, hget]
    refine ⟨by simp [this, GetChildExit.value, h], fun _ => ⟨_, hget, this⟩, by simp [this]⟩

end GetChildTheorems

section HitTestTheorems

/-- C14: `GetControlAt(x, y, f)` on a control that is hidden, or with a point left of,
above, right of or below the control's own rectangle `[0, width) x [0, height)`, returns
null, whatever the child lists hold. -/
theorem GetControlAt_none_outside_bounds (fuel n : Nat) (x y : Int) (f : Bool) (w : World)
    (h : (w.ctrl n).m_bHidden = true ∨ x < 0 ∨ y < 0 ∨ x ≥ (w.ctrl n).m_bounds.w ∨
      y ≥ (w.ctrl n).m_bounds.h) :
    GetControlAt (fuel + 1) n x y f w = some none := by
  unfold GetControlAt
  by_cases hh : (w.ctrl n).m_bHidden = true
  · simp [hh]
  · rcases h with h | h
    · exact absurd h hh
    · simp [h]

/-- C14 witness: in the hit-test tree the point (60, 10) in the coordinates of the control
1 lies right of its rectangle (width 50) and inside its child 4, which spans 20..220
there; the hit test on 1 returns null. -/
theorem GetControlAt_none_outside_bounds_witness :
    (60 : Int) ≥ (hitTree.ctrl 1).m_bounds.w ∧
    (0 : Int) ≤ 60 - (hitTree.ctrl 4).m_bounds.x ∧
    (60 : Int) - (hitTree.ctrl 4).m_bounds.x < (hitTree.ctrl 4).m_bounds.w ∧
    GetControlAt (1 + 1) 1 60 10 false hitTree = some none :=
  ⟨by decide, by decide, by decide,
    GetControlAt_none_outside_bounds 1 1 60 10 false hitTree (by decide)⟩

end HitTestTheorems

section SizeToChildrenTheorems

theorem maxWithZero_nonneg (l : List Int) : 0 ≤ maxWithZero l := by
  induction l with
  | nil => simp [maxWithZero]
  | cons a l ih =>
    have : maxWithZero (a :: l) = max a (maxWithZero l) := rfl
    rw [this]
    exact le_max_of_le_right ih

theorem maxWithZero_ge (l : List Int) : ∀ v, v ∈ l → v ≤ maxWithZero l := by
  induction l with
  | nil => intro v hv; simp at hv
  | cons a l ih =>
    intro v hv
    have : maxWithZero (a :: l) = max a (maxWithZero l) := rfl
    rw [this]
    rcases List.mem_cons.mp hv with rfl | hv
    · exact le_max_left _ _
    · exact le_max_of_le_right (ih v hv)

theorem maxWithZero_attained (l : List Int) : maxWithZero l = 0 ∨ maxWithZero l ∈ l := by
  induction l with
  | nil => left; rfl
  | cons a l ih =>
    have : maxWithZero (a :: l) = max a (maxWithZero l) := rfl
    rw [this]
    rcases max_choice a (maxWithZero l) with h | h
    · right; rw [h]; exact List.mem_cons_self _ _
    · rw [h]
      rcases ih with ih | ih
      · left; exact ih
      · right; exact List.mem_cons_of_mem _ ih

/-- The loop of `ChildrenSize` from any starting point. -/
theorem childrenSize_foldl (w : World) : ∀ (l : List Nat) (size : Point),
    0 ≤ size.x → 0 ≤ size.y →
    l.foldl (childrenSizeStep w) size =
      { x := max size.x (maxWithZero
          ((l.filter fun ch => !(w.ctrl ch).m_bHidden && (w.ctrl ch).m_bIncludeInSize).map
            fun ch => (w.ctrl ch).Right)),
        y := max size.y (maxWithZero
          ((l.filter fun ch => !(w.ctrl ch).m_bHidden && (w.ctrl ch).m_bIncludeInSize).map
            fun ch => (w.ctrl ch).Bottom)) } := by
  intro l
  induction l with
  | nil =>
    intro size hx hy
    simp [maxWithZero, hx, hy]
  | cons a l ih =>
    intro size hx hy
    rw [List.foldl_cons]
    by_cases hh : (w.ctrl a).m_bHidden = true
    · have hs : childrenSizeStep w size a = size := by simp [childrenSizeStep, hh]
      rw [hs, ih size hx hy]
      simp [List.filter_cons, hh]
    · by_cases hi : (w.ctrl a).m_bIncludeInSize = true
      · have hs : childrenSizeStep w size a =
            { x := max size.x (w.ctrl a).Right, y := max size.y (w.ctrl a).Bottom } := by
          simp [childrenSizeStep, hh, hi]
        rw [hs, ih _ (le_max_of_le_left hx) (le_max_of_le_left hy)]
        have hf : (a :: l).filter (fun ch => !(w.ctrl ch).m_bHidden && (w.ctrl ch).m_bIncludeInSize)
            = a :: l.filter (fun ch => !(w.ctrl ch).m_bHidden && (w.ctrl ch).m_bIncludeInSize) := by
          simp [List.filter_cons, hh, hi]
        rw [hf]
        simp only [List.map_cons]
        have e1 : ∀ (v : Int) (t : List Int), maxWithZero (v :: t) = max v (maxWithZero t) :=
          fun _ _ => rfl
        rw [e1, e1, max_assoc, max_assoc]
      · have hs : childrenSizeStep w size a = size := by simp [childrenSizeStep, hh, hi]
        rw [hs, ih size hx hy]
        simp [List.filter_cons, hh, hi]

theorem ChildrenSize_eq (n : Nat) (w : World) :
    ChildrenSize n w =
      { x := maxWithZero ((countedChildren n w).map fun ch => (w.ctrl ch).Right),
        y := maxWithZero ((countedChildren n w).map fun ch => (w.ctrl ch).Bottom) } := by
  unfold ChildrenSize
  rw [childrenSize_foldl w _ {} (le_refl _) (le_refl _)]
  simp only [countedChildren]
  congr 1
  · exact max_eq_right (maxWithZero_nonneg _)
  · exact max_eq_right (maxWithZero_nonneg _)

/-- C12: on an acyclic parent chain `SizeToChildren(true, true)` on a container `c` returns
and leaves the bounds of `c` with the previous position, the width
`max(0, max of child.x + child.w + child.margin.right) + c.padding.right` and the height
`max(0, max of child.y + child.h + child.margin.bottom) + c.padding.bottom`, both maxima
over the children that are not hidden and are included in size; the left and top padding
do not enter. Each of these children ends inside the new size less the trailing padding,
and that size is 0 or is reached by one of them. -/
theorem SizeToChildren_encloses_counted_children (d : Nat → Nat) (fuel c : Nat) (w : World)
    (hd : ParentDepth w d) (hfuel : d c < fuel) :
    ∃ r w1, SizeToChildren fuel c true true w = some (r, w1) ∧
      (w1.ctrl c).m_bounds =
        { x := (w.ctrl c).m_bounds.x, y := (w.ctrl c).m_bounds.y,
          w := maxWithZero ((countedChildren c w).map fun ch => (w.ctrl ch).m_bounds.x +
              (w.ctrl ch).m_bounds.w + (w.ctrl ch).m_margin.right) + (w.ctrl c).m_padding.right,
          h := maxWithZero ((countedChildren c w).map fun ch => (w.ctrl ch).m_bounds.y +
              (w.ctrl ch).m_bounds.h + (w.ctrl ch).m_margin.bottom) +
              (w.ctrl c).m_padding.bottom } ∧
      (∀ ch, ch ∈ (w.ctrl c).Children → (w.ctrl ch).m_bHidden = false →
        (w.ctrl ch).m_bIncludeInSize = true →
        (w.ctrl ch).m_bounds.x + (w.ctrl ch).m_bounds.w + (w.ctrl ch).m_margin.right
            ≤ (w1.ctrl c).m_bounds.w - (w.ctrl c).m_padding.right ∧
        (w.ctrl ch).m_bounds.y + (w.ctrl ch).m_bounds.h + (w.ctrl ch).m_margin.bottom
            ≤ (w1.ctrl c).m_bounds.h - (w.ctrl c).m_padding.bottom) ∧
      ((w1.ctrl c).m_bounds.w - (w.ctrl c).m_padding.right = 0 ∨
        ∃ ch, ch ∈ (w.ctrl c).Children ∧ (w.ctrl ch).m_bHidden = false ∧
          (w.ctrl ch).m_bIncludeInSize = true ∧
          (w1.ctrl c).m_bounds.w - (w.ctrl c).m_padding.right =
            (w.ctrl ch).m_bounds.x + (w.ctrl ch).m_bounds.w + (w.ctrl ch).m_margin.right) ∧
      ((w1.ctrl c).m_bounds.h - (w.ctrl c).m_padding.bottom = 0 ∨
        ∃ ch, ch ∈ (w.ctrl c).Children ∧ (w.ctrl ch).m_bHidden = false ∧
          (w.ctrl ch).m_bIncludeInSize = true ∧
          (w1.ctrl c).m_bounds.h - (w.ctrl c).m_padding.bottom =
            (w.ctrl ch).m_bounds.y + (w.ctrl ch).m_bounds.h + (w.ctrl ch).m_margin.bottom) := by
  obtain ⟨w1, h1, h2⟩ := SetBounds_spec d fuel c
    { x := (w.ctrl c).m_bounds.x, y := (w.ctrl c).m_bounds.y,
      w := (ChildrenSize c w).x + (w.ctrl c).m_padding.right,
      h := (ChildrenSize c w).y + (w.ctrl c).m_padding.bottom } w hd hfuel
  have hb := h2.bounds_eq
  rw [ChildrenSize_eq] at hb
  simp only [Control.Right, Control.Bottom] at hb
  have hmem : ∀ ch, ch ∈ countedChildren c w ↔ ch ∈ (w.ctrl c).Children ∧
      (w.ctrl ch).m_bHidden = false ∧ (w.ctrl ch).m_bIncludeInSize = true := by
    intro ch
    simp [countedChildren]
  refine ⟨_, w1, by simpa [SizeToChildren, SetSize] using h1, hb, ?_, ?_, ?_⟩
  · intro ch hch hh hi
    rw [hb]
    constructor
    · have := maxWithZero_ge ((countedChildren c w).map fun ch => (w.ctrl ch).Right)
        (w.ctrl ch).Right (List.mem_map.mpr ⟨ch, (hmem ch).mpr ⟨hch, hh, hi⟩, rfl⟩)
      simp only [Control.Right] at this
      simp only []
      linarith
    · have := maxWithZero_ge ((countedChildren c w).map fun ch => (w.ctrl ch).Bottom)
        (w.ctrl ch).Bottom (List.mem_map.mpr ⟨ch, (hmem ch).mpr ⟨hch, hh, hi⟩, rfl⟩)
      simp only [Control.Bottom] at this
      simp only []
      linarith
  · rw [hb]
    rcases maxWithZero_attained ((countedChildren c w).map fun ch => (w.ctrl ch).Right)
      with h | h
    · left
      simp only [Control.Right] at h
      simp only []
      linarith
    · right
      obtain ⟨ch, hch, he⟩ := List.mem_map.mp h
      obtain ⟨hc1, hc2, hc3⟩ := (hmem ch).mp hch
      refine ⟨ch, hc1, hc2, hc3, ?_⟩
      simp only [Control.Right] at he
      simp only []
      linarith
  · rw [hb]
    rcases maxWithZero_attained ((countedChildren c w).map fun ch => (w.ctrl ch).Bottom)
      with h | h
    · left
      simp only [Control.Bottom] at h
      simp only []
      linarith
    · right
      obtain ⟨ch, hch, he⟩ := List.mem_map.mp h
      obtain ⟨hc1, hc2, hc3⟩ := (hmem ch).mp hch
      refine ⟨ch, hc1, hc2, hc3, ?_⟩
      simp only [Control.Bottom] at he
      simp only []
      linarith

/-- C12 witness: the container of `sizeTree` sits at (7, 9) with padding right 3 and bottom
4; its only counted child spans (5, 5, 10, 10) without margin, the hidden child and the
child excluded from the size lie further out. `SizeToChildren(true, true)` gives the
container the bounds (7, 9, 15 + 3, 15 + 4). -/
theorem SizeToChildren_encloses_counted_children_witness :
    ∃ r w1, SizeToChildren 1 0 true true sizeTree = some (r, w1) ∧
      (w1.ctrl 0).m_bounds = { x := 7, y := 9, w := 15 + 3, h := 15 + 4 } := by
  obtain ⟨r, w1, h1, hb, _⟩ := SizeToChildren_encloses_counted_children flatDepth 1 0 sizeTree
    (ParentDepth_ofList _ _ (by decide)) (by decide)
  exact ⟨r, w1, h1, by rw [hb]; decide⟩

end SizeToChildrenTheorems

section HitLoopTheorems

/-- The child loop returns what a larger-fuel child query returns. -/
theorem hitLoop_mono (h1 h2 : Nat → Int → Int → Option (Option Nat)) (w : World) (x y : Int)
    (hle : ∀ child cx cy res, h1 child cx cy = some res → h2 child cx cy = some res) :
    ∀ (l : List Nat) (res : Option Nat), hitLoop h1 w x y l = some res →
      hitLoop h2 w x y l = some res := by
  intro l
  induction l with
  | nil => intro res h; simpa [hitLoop] using h
  | cons a l ih =>
    intro res h
    unfold hitLoop at h ⊢
    cases ha : h1 a (x - (w.ctrl a).m_bounds.x) (y - (w.ctrl a).m_bounds.y) with
    | none => simp [ha] at h
    | some ra =>
      rw [hle _ _ _ _ ha]
      rw [ha] at h
      cases ra with
      | none => exact ih res h
      | some found => exact h

theorem GetControlAt_mono (f : Bool) (w : World) :
    ∀ (fuel n : Nat) (x y : Int) (res : Option Nat),
      GetControlAt fuel n x y f w = some res → GetControlAt (fuel + 1) n x y f w = some res := by
  intro fuel
  induction fuel with
  | zero => intro n x y res h; simp [GetControlAt] at h
  | succ k ih =>
    intro n x y res h
    unfold GetControlAt at h ⊢
    by_cases hh : (w.ctrl n).m_bHidden = true
    · simpa [hh] using h
    · by_cases hb : x < 0 ∨ y < 0 ∨ x ≥ (w.ctrl n).m_bounds.w ∨ y ≥ (w.ctrl n).m_bounds.h
      · simpa [hh, hb] using h
      · simp only [hh, hb, if_false] at h ⊢
        cases hl : hitLoop (fun child cx cy => GetControlAt k child cx cy f w) w x y
            (w.ctrl n).Children.reverse with
        | none => simp [hl] at h
        | some rl =>
          rw [hitLoop_mono _ (fun child cx cy => GetControlAt (k + 1) child cx cy f w) w x y
            (fun child cx cy res hc => ih child cx cy res hc) _ rl hl]
          rw [hl] at h
          exact h

theorem GetControlAt_mono_le (f : Bool) (w : World) (n : Nat) (x y : Int) (res : Option Nat) :
    ∀ (fuel fuel1 : Nat), fuel ≤ fuel1 → GetControlAt fuel n x y f w = some res →
      GetControlAt fuel1 n x y f w = some res := by
  intro fuel fuel1 hle h
  induction hle with
  | refl => exact h
  | step _ ih => exact GetControlAt_mono f w _ n x y res ih

/-- The outcome of the child loop when every child query returns: the first hit in loop
order, or no hit when no child yields one. -/
theorem hitLoop_spec (h : Nat → Int → Int → Option (Option Nat)) (w : World) (x y : Int) :
    ∀ (l : List Nat),
      (∀ e, e ∈ l → ∃ res, h e (x - (w.ctrl e).m_bounds.x) (y - (w.ctrl e).m_bounds.y) = some res) →
      (∃ a ch b found, l = a ++ ch :: b ∧
        (∀ e, e ∈ a → h e (x - (w.ctrl e).m_bounds.x) (y - (w.ctrl e).m_bounds.y) = some none) ∧
        h ch (x - (w.ctrl ch).m_bounds.x) (y - (w.ctrl ch).m_bounds.y) = some (some found) ∧
        hitLoop h w x y l = some (some found)) ∨
      ((∀ e, e ∈ l → h e (x - (w.ctrl e).m_bounds.x) (y - (w.ctrl e).m_bounds.y) = some none) ∧
        hitLoop h w x y l = some none) := by
  intro l
  induction l with
  | nil =>
    intro _
    right
    exact ⟨fun e he => by simp at he, rfl⟩
  | cons a l ih =>
    intro htot
    obtain ⟨ra, hra⟩ := htot a (List.mem_cons_self _ _)
    cases ra with
    | some found =>
      left
      refine ⟨[], a, l, found, rfl, fun e he => by simp at he, hra, ?_⟩
      unfold hitLoop
      rw [hra]
    | none =>
      have hstep : hitLoop h w x y (a :: l) = hitLoop h w x y l := by
        conv_lhs => unfold hitLoop
        rw [hra]
      rcases ih (fun e he => htot e (List.mem_cons_of_mem _ he)) with
        ⟨p, ch, b, found, hl, hp, hch, hres⟩ | ⟨hall, hres⟩
      · left
        refine ⟨a :: p, ch, b, found, by rw [hl]; rfl, ?_, hch, by rw [hstep, hres]⟩
        intro e he
        rcases List.mem_cons.mp he with rfl | he
        · exact hra
        · exact hp e he
      · right
        refine ⟨?_, by rw [hstep, hres]⟩
        intro e he
        rcases List.mem_cons.mp he with rfl | he
        · exact hra
        · exact hall e he

/-- On acyclic child lists the hit test returns. -/
theorem GetControlAt_total (r : Nat → Nat) (f : Bool) (w : World) (hr : ChildRank w r) :
    ∀ (fuel n : Nat) (x y : Int), r n < fuel → ∃ res, GetControlAt fuel n x y f w = some res := by
  intro fuel
  induction fuel with
  | zero => intro n x y h; omega
  | succ k ih =>
    intro n x y hn
    unfold GetControlAt
    by_cases hh : (w.ctrl n).m_bHidden = true
    · exact ⟨none, by simp [hh]⟩
    · by_cases hb : x < 0 ∨ y < 0 ∨ x ≥ (w.ctrl n).m_bounds.w ∨ y ≥ (w.ctrl n).m_bounds.h
      · exact ⟨none, by simp [hh, hb]⟩
      · simp only [hh, hb, if_false]
        have htot : ∀ e, e ∈ (w.ctrl n).Children.reverse →
            ∃ res, (fun child cx cy => GetControlAt k child cx cy f w) e
              (x - (w.ctrl e).m_bounds.x) (y - (w.ctrl e).m_bounds.y) = some res := by
          intro e he
          have := hr n e (List.mem_reverse.mp he)
          exact ih e _ _ (by omega)
        rcases hitLoop_spec (fun child cx cy => GetControlAt k child cx cy f w) w x y
          (w.ctrl n).Children.reverse htot with ⟨_, _, _, found, _, _, _, hres⟩ | ⟨_, hres⟩
        · exact ⟨some found, by rw [hres]; simp⟩
        · rw [hres]
          by_cases hm : (f && !(w.ctrl n).m_bMouseInputEnabled) = true
          · exact ⟨none, by simp [hm]⟩
          · exact ⟨some n, by simp [hm]⟩

end HitLoopTheorems

section HitTestOrder

/-- Inside the rectangle of a shown control the hit test is the child loop followed by the
test of the control itself. -/
theorem GetControlAt_inside (k n : Nat) (x y : Int) (f : Bool) (w : World)
    (hshown : (w.ctrl n).m_bHidden = false) (hx0 : 0 ≤ x) (hy0 : 0 ≤ y)
    (hx1 : x < (w.ctrl n).m_bounds.w) (hy1 : y < (w.ctrl n).m_bounds.h) :
    GetControlAt (k + 1) n x y f w =
      match hitLoop (fun child cx cy => GetControlAt k child cx cy f w) w x y
          (w.ctrl n).Children.reverse with
      | none => none
      | some (some found) => some (some found)
      | some none =>
        if f && !(w.ctrl n).m_bMouseInputEnabled then some none else some (some n) := by
  conv_lhs => unfold GetControlAt
  have hb : ¬ (x < 0 ∨ y < 0 ∨ x ≥ (w.ctrl n).m_bounds.w ∨ y ≥ (w.ctrl n).m_bounds.h) := by
    omega
  simp only [hshown, hb, if_false]
  simp

/-- With enough fuel for the parent, a child query does not depend on the fuel. -/
theorem GetControlAt_child_fuel (r : Nat → Nat) (f : Bool) (w : World) (hr : ChildRank w r)
    (k n e : Nat) (hn : r n < k + 1) (he : e ∈ (w.ctrl n).Children) (cx cy : Int) :
    GetControlAt (k + 1) e cx cy f w = GetControlAt k e cx cy f w := by
  have := hr n e he
  obtain ⟨res, hres⟩ := GetControlAt_total r f w hr k e cx cy (by omega)
  rw [hres, GetControlAt_mono f w k e cx cy res hres]

/-- C13: on acyclic child lists, for a shown control `c` and a point inside the rectangle
of `c`, `GetControlAt(x, y, f)` returns. Either the child list splits as
`pre ++ child :: post` where the query of `child` at `(x - child.x, y - child.y)` yields the
hit `found`, every query of a control of `post` (the later, topmost siblings) yields null,
and the result is `found`; or every child query yields null and the result is `c` itself
(null when `f` is set and the mouse input of `c` is disabled). -/
theorem GetControlAt_returns_topmost_hit (r : Nat → Nat) (fuel c : Nat) (x y : Int) (f : Bool)
    (w : World) (hr : ChildRank w r) (hfuel : r c < fuel)
    (hshown : (w.ctrl c).m_bHidden = false) (hx0 : 0 ≤ x) (hy0 : 0 ≤ y)
    (hx1 : x < (w.ctrl c).m_bounds.w) (hy1 : y < (w.ctrl c).m_bounds.h) :
    (∃ pre child post found, (w.ctrl c).Children = pre ++ child :: post ∧
      GetControlAt fuel child (x - (w.ctrl child).m_bounds.x) (y - (w.ctrl child).m_bounds.y) f w
        = some (some found) ∧
      (∀ later, later ∈ post →
        GetControlAt fuel later (x - (w.ctrl later).m_bounds.x) (y - (w.ctrl later).m_bounds.y)
          f w = some none) ∧
      GetControlAt fuel c x y f w = some (some found)) ∨
    ((∀ child, child ∈ (w.ctrl c).Children →
        GetControlAt fuel child (x - (w.ctrl child).m_bounds.x) (y - (w.ctrl child).m_bounds.y)
          f w = some none) ∧
      GetControlAt fuel c x y f w =
        some (if f && !(w.ctrl c).m_bMouseInputEnabled then none else some c)) := by
  obtain ⟨k, rfl⟩ := Nat.exists_eq_succ_of_ne_zero (show fuel ≠ 0 by omega)
  have hfu := GetControlAt_child_fuel r f w hr k c
  rw [GetControlAt_inside k c x y f w hshown hx0 hy0 hx1 hy1]
  have htot : ∀ e, e ∈ (w.ctrl c).Children.reverse →
      ∃ res, (fun child cx cy => GetControlAt k child cx cy f w) e
        (x - (w.ctrl e).m_bounds.x) (y - (w.ctrl e).m_bounds.y) = some res := by
    intro e he
    have := hr c e (List.mem_reverse.mp he)
    exact GetControlAt_total r f w hr k e _ _ (by omega)
  rcases hitLoop_spec (fun child cx cy => GetControlAt k child cx cy f w) w x y
      (w.ctrl c).Children.reverse htot with ⟨a, ch, b, found, hl, ha, hch, hres⟩ | ⟨hall, hres⟩
  · left
    have hsplit : (w.ctrl c).Children = b.reverse ++ ch :: a.reverse := by
      have := congrArg List.reverse hl
      simpa using this
    have hmem : ch ∈ (w.ctrl c).Children := by rw [hsplit]; simp
    refine ⟨b.reverse, ch, a.reverse, found, hsplit, ?_, ?_, by rw [hres]⟩
    · rw [hfu ch hfuel hmem]; exact hch
    · intro later hlater
      have hm : later ∈ (w.ctrl c).Children := by
        rw [hsplit]; simp [hlater]
      rw [hfu later hfuel hm]
      exact ha later (List.mem_reverse.mp hlater)
  · right
    refine ⟨?_, ?_⟩
    · intro child hchild
      rw [hfu child hfuel hchild]
      exact hall child (List.mem_reverse.mpr hchild)
    · rw [hres]
      by_cases hm : (f && !(w.ctrl c).m_bMouseInputEnabled) = true
      · simp [hm]
      · simp [hm]

/-- C13 witness: in the hit-test tree the point (40, 40) of the root lies in the children
1 and 2 and in the hidden child 3; the result is 2, the last child in the list that yields
a hit. At (20, 20) only the child 1 yields a hit and the result is 1. -/
theorem GetControlAt_returns_topmost_hit_witness :
    GetControlAt 3 0 40 40 true hitTree = some (some 2) ∧
    GetControlAt 3 0 20 20 true hitTree = some (some 1) ∧
    ((∃ pre child post found, (hitTree.ctrl 0).Children = pre ++ child :: post ∧
      GetControlAt 3 child (40 - (hitTree.ctrl child).m_bounds.x)
        (40 - (hitTree.ctrl child).m_bounds.y) true hitTree = some (some found) ∧
      (∀ later, later ∈ post →
        GetControlAt 3 later (40 - (hitTree.ctrl later).m_bounds.x)
          (40 - (hitTree.ctrl later).m_bounds.y) true hitTree = some none) ∧
      GetControlAt 3 0 40 40 true hitTree = some (some found)) ∨
    ((∀ child, child ∈ (hitTree.ctrl 0).Children →
        GetControlAt 3 child (40 - (hitTree.ctrl child).m_bounds.x)
          (40 - (hitTree.ctrl child).m_bounds.y) true hitTree = some none) ∧
      GetControlAt 3 0 40 40 true hitTree =
        some (if true && !(hitTree.ctrl 0).m_bMouseInputEnabled then none else some 0))) :=
  ⟨by decide, by decide,
    GetControlAt_returns_topmost_hit twoLevelRank 3 0 40 40 true hitTree
      (ChildRank_ofList _ _ (by decide)) (by decide) (by decide) (by decide) (by decide)
      (by decide) (by decide)⟩

end HitTestOrder

section HitPathTheorems

theorem ShownPath_sub {w : World} {n x : Nat} (h : ShownPath w n x) : Sub w n x := by
  induction h with
  | here _ => exact Sub.refl _
  | down _ hc _ ih => exact Sub.child hc ih

/-- A subtree walk ends with a step out of some control of the subtree. -/
theorem Sub_last {w : World} {b e : Nat} (h : Sub w b e) :
    b = e ∨ ∃ p, Sub w b p ∧ e ∈ (w.ctrl p).Children := by
  induction h with
  | refl => left; rfl
  | child hc _ ih =>
    right
    rcases ih with rfl | ⟨p, hp, he⟩
    · exact ⟨_, Sub.refl _, hc⟩
    · exact ⟨p, Sub.child hc hp, he⟩

theorem Sub_antisymm {w : World} {r : Nat → Nat} (hr : ChildRank w r) {a b : Nat}
    (h1 : Sub w a b) (h2 : Sub w b a) : a = b := by
  cases h1 with
  | refl => rfl
  | child hc hs =>
    have h3 := hr _ _ hc
    have h4 := Sub_rank hr hs
    have h5 := Sub_rank hr h2
    omega

/-- In a forest the controls above a given control are linearly ordered. -/
theorem Sub_comparable {w : World} (hs : SingleParent w) {a x : Nat} (h : Sub w a x) :
    ∀ b, Sub w b x → Sub w a b ∨ Sub w b a := by
  induction h with
  | refl => intro b hb; right; exact hb
  | child hc _ ih =>
    intro b hb
    rcases ih b hb with h1 | h1
    · left; exact Sub.child hc h1
    · rcases Sub_last h1 with rfl | ⟨p, hp, he⟩
      · left; exact Sub.child hc (Sub.refl _)
      · have := hs _ _ _ he hc
        subst this
        right; exact hp

/-- In an acyclic forest two children of one control whose subtrees meet are equal. -/
theorem siblings_disjoint {w : World} {r : Nat → Nat} (hr : ChildRank w r)
    (hs : SingleParent w) {n c c1 x : Nat} (hc : c ∈ (w.ctrl n).Children)
    (hc1 : c1 ∈ (w.ctrl n).Children) (hx : Sub w c x) (hx1 : Sub w c1 x) : c = c1 := by
  have key : ∀ u v, u ∈ (w.ctrl n).Children → v ∈ (w.ctrl n).Children → Sub w u v → u = v := by
    intro u v hu hv huv
    rcases Sub_last huv with h | ⟨p, hp, he⟩
    · exact h
    · have := hs _ _ _ he hv
      subst this
      have h1 := Sub_rank hr hp
      have h2 := hr _ _ hu
      omega
  rcases Sub_comparable hs hx c1 hx1 with h | h
  · exact key c c1 hc hc1 h
  · exact (key c1 c hc1 hc h).symm

/-- In an acyclic forest every control between the two ends of a shown path is shown. -/
theorem ShownPath_between {w : World} {r : Nat → Nat} (hr : ChildRank w r)
    (hs : SingleParent w) {n x : Nat} (h : ShownPath w n x) :
    ∀ a, Sub w n a → Sub w a x → (w.ctrl a).m_bHidden = false := by
  induction h with
  | here hn =>
    intro a h1 h2
    have := Sub_antisymm hr h1 h2
    subst this
    exact hn
  | down hn hc hp ih =>
    intro a h1 h2
    cases h1 with
    | refl => exact hn
    | child hc1 hs1 =>
      have := siblings_disjoint hr hs hc hc1 (ShownPath_sub hp) (Sub_trans hs1 h2)
      subst this
      exact ih a hs1 h2

theorem hitLoop_found (h : Nat → Int → Int → Option (Option Nat)) (w : World) (x y : Int) :
    ∀ (l : List Nat) (found : Nat), hitLoop h w x y l = some (some found) →
      ∃ ch, ch ∈ l ∧
        h ch (x - (w.ctrl ch).m_bounds.x) (y - (w.ctrl ch).m_bounds.y) = some (some found) := by
  intro l
  induction l with
  | nil => intro found hf; simp [hitLoop] at hf
  | cons a l ih =>
    intro found hf
    unfold hitLoop at hf
    cases ha : h a (x - (w.ctrl a).m_bounds.x) (y - (w.ctrl a).m_bounds.y) with
    | none => simp [ha] at hf
    | some ra =>
      rw [ha] at hf
      cases ra with
      | none =>
        obtain ⟨ch, hch, hres⟩ := ih found hf
        exact ⟨ch, List.mem_cons_of_mem _ hch, hres⟩
      | some fa =>
        simp only [Option.some.injEq] at hf
        subst hf
        exact ⟨a, List.mem_cons_self _ _, ha⟩

/-- A control returned by the hit test is reached from the queried control through shown
controls and, when mouse input is required, has its mouse input enabled. -/
theorem GetControlAt_found (f : Bool) (w : World) :
    ∀ (fuel n : Nat) (x y : Int) (found : Nat),
      GetControlAt fuel n x y f w = some (some found) →
      ShownPath w n found ∧ (f = true → (w.ctrl found).m_bMouseInputEnabled = true) := by
  intro fuel
  induction fuel with
  | zero => intro n x y found h; simp [GetControlAt] at h
  | succ k ih =>
    intro n x y found h
    by_cases hh : (w.ctrl n).m_bHidden = true
    · simp [GetControlAt, hh] at h
    · by_cases hb : x < 0 ∨ y < 0 ∨ x ≥ (w.ctrl n).m_bounds.w ∨ y ≥ (w.ctrl n).m_bounds.h
      · simp [GetControlAt, hh, hb] at h
      · have hshown : (w.ctrl n).m_bHidden = false := by simpa using hh
        rw [GetControlAt_inside k n x y f w hshown (by omega) (by omega) (by omega) (by omega)] at h
        cases hl : hitLoop (fun child cx cy => GetControlAt k child cx cy f w) w x y
            (w.ctrl n).Children.reverse with
        | none => simp [hl] at h
        | some rl =>
          rw [hl] at h
          cases rl with
          | some fa =>
            simp only [Option.some.injEq] at h
            subst h
            obtain ⟨ch, hch, hres⟩ := hitLoop_found _ w x y _ _ hl
            obtain ⟨hp, hm⟩ := ih ch _ _ _ hres
            exact ⟨ShownPath.down hshown (List.mem_reverse.mp hch) hp, hm⟩
          | none =>
            by_cases hm : (f && !(w.ctrl n).m_bMouseInputEnabled) = true
            · simp [hm] at h
            · simp only [hm] at h
              simp only [Bool.false_eq_true, if_false, Option.some.injEq] at h
              subst h
              refine ⟨ShownPath.here hshown, fun hf => ?_⟩
              subst hf
              simpa using hm

/-- Without the mouse-input filter a shown control returns a hit for every point inside
its rectangle. -/
theorem GetControlAt_unfiltered_hit (r : Nat → Nat) (w : World) (hr : ChildRank w r)
    (fuel n : Nat) (x y : Int) (hfuel : r n < fuel) (hshown : (w.ctrl n).m_bHidden = false)
    (hx0 : 0 ≤ x) (hy0 : 0 ≤ y) (hx1 : x < (w.ctrl n).m_bounds.w)
    (hy1 : y < (w.ctrl n).m_bounds.h) :
    ∃ found, GetControlAt fuel n x y false w = some (some found) := by
  obtain ⟨k, rfl⟩ := Nat.exists_eq_succ_of_ne_zero (show fuel ≠ 0 by omega)
  rw [GetControlAt_inside k n x y false w hshown hx0 hy0 hx1 hy1]
  have htot : ∀ e, e ∈ (w.ctrl n).Children.reverse →
      ∃ res, (fun child cx cy => GetControlAt k child cx cy false w) e
        (x - (w.ctrl e).m_bounds.x) (y - (w.ctrl e).m_bounds.y) = some res := by
    intro e he
    have := hr n e (List.mem_reverse.mp he)
    exact GetControlAt_total r false w hr k e _ _ (by omega)
  rcases hitLoop_spec (fun child cx cy => GetControlAt k child cx cy false w) w x y
      (w.ctrl n).Children.reverse htot with ⟨_, _, _, found, _, _, _, hres⟩ | ⟨_, hres⟩
  · exact ⟨found, by rw [hres]⟩
  · exact ⟨n, by rw [hres]; simp⟩

/-- C15: on acyclic child lists `GetControlAt(x, y, true)` returns, and a control `found`
it returns has its mouse input enabled and is reached from the queried control through a
child-list path all of whose controls, `found` and the queried control included, are not
hidden; in a forest, where that path is the only one, every control between the queried
control and `found` is not hidden. `GetControlAt(x, y, false)` on a shown control with the
point inside its rectangle returns some control, never null. -/
theorem GetControlAt_hit_is_shown (r : Nat → Nat) (fuel n : Nat) (x y : Int) (w : World)
    (hr : ChildRank w r) (hfuel : r n < fuel) :
    (∃ res, GetControlAt fuel n x y true w = some res) ∧
    (∀ found, GetControlAt fuel n x y true w = some (some found) →
      (w.ctrl found).m_bMouseInputEnabled = true ∧ ShownPath w n found ∧
      (SingleParent w → ∀ a, Sub w n a → Sub w a found → (w.ctrl a).m_bHidden = false)) ∧
    ((w.ctrl n).m_bHidden = false → 0 ≤ x → 0 ≤ y → x < (w.ctrl n).m_bounds.w →
      y < (w.ctrl n).m_bounds.h → ∃ found, GetControlAt fuel n x y false w = some (some found)) := by
  refine ⟨GetControlAt_total r true w hr fuel n x y hfuel, ?_, ?_⟩
  · intro found h
    obtain ⟨hp, hm⟩ := GetControlAt_found true w fuel n x y found h
    exact ⟨hm rfl, hp, fun hs => ShownPath_between hr hs hp⟩
  · intro hshown hx0 hy0 hx1 hy1
    exact GetControlAt_unfiltered_hit r w hr fuel n x y hfuel hshown hx0 hy0 hx1 hy1

/-- C15 witness: in the hit-test tree the point (50, 20) of the root lies in the child 1 and
in its child 4, whose mouse input is disabled, and outside the child 2. With mouse input
required the result is 1, without it 4. -/
theorem GetControlAt_hit_is_shown_witness :
    GetControlAt 3 0 50 20 true hitTree = some (some 1) ∧
    GetControlAt 3 0 50 20 false hitTree = some (some 4) ∧
    (hitTree.ctrl 4).m_bMouseInputEnabled = false ∧
    ((∃ res, GetControlAt 3 0 50 20 true hitTree = some res) ∧
    (∀ found, GetControlAt 3 0 50 20 true hitTree = some (some found) →
      (hitTree.ctrl found).m_bMouseInputEnabled = true ∧ ShownPath hitTree 0 found ∧
      (SingleParent hitTree → ∀ a, Sub hitTree 0 a → Sub hitTree a found →
        (hitTree.ctrl a).m_bHidden = false)) ∧
    ((hitTree.ctrl 0).m_bHidden = false → (0 : Int) ≤ 50 → (0 : Int) ≤ 20 →
      50 < (hitTree.ctrl 0).m_bounds.w → 20 < (hitTree.ctrl 0).m_bounds.h →
      ∃ found, GetControlAt 3 0 50 20 false hitTree = some (some found))) :=
  ⟨by decide, by decide, by decide,
    GetControlAt_hit_is_shown twoLevelRank 3 0 50 20 hitTree (ChildRank_ofList _ _ (by decide))
      (by decide)⟩

end HitPathTheorems

section FindChildTheorems

theorem namedAs_iff (w : World) (name : String) (c : Nat) :
    namedAs w name c = true ↔ (w.ctrl c).m_name ≠ "" ∧ (w.ctrl c).m_name = name := by
  simp [namedAs]

theorem namedAs_empty (w : World) (c : Nat) : namedAs w "" c = false := by
  by_contra h
  have h1 : namedAs w "" c = true := by simpa using h
  obtain ⟨h2, h3⟩ := (namedAs_iff w "" c).mp h1
  exact h2 h3

/-- The loop without recursion returns the first listed control with the name. -/
theorem findLoop_flat (g : Nat → Option (Option Nat)) (w : World) (name : String) :
    ∀ l : List Nat, findLoop g w name false l = some (l.find? (namedAs w name)) := by
  intro l
  induction l with
  | nil => rfl
  | cons a l ih =>
    unfold findLoop
    by_cases h : (w.ctrl a).m_name ≠ "" ∧ (w.ctrl a).m_name = name
    · have hn : namedAs w name a = true := (namedAs_iff w name a).mpr h
      rw [if_pos h]
      simp [List.find?_cons, hn]
    · have hn : namedAs w name a = false := by
        cases hb : namedAs w name a with
        | false => rfl
        | true => exact absurd ((namedAs_iff w name a).mp hb) h
      simp only [List.find?_cons, hn]
      rw [if_neg h]
      simpa using ih

/-- The recursive loop returns the first control with the name in the pre-order of the
list, when each child search returns the first one in the pre-order of the child. -/
theorem findLoop_preorder (g : Nat → Option (Option Nat)) (sub : Nat → Option (List Nat))
    (w : World) (name : String) :
    ∀ l : List Nat,
      (∀ e, e ∈ l → ∃ le, sub e = some le ∧ g e = some (le.find? (namedAs w name))) →
      ∃ L, preorderList sub l = some L ∧
        findLoop g w name true l = some (L.find? (namedAs w name)) := by
  intro l
  induction l with
  | nil => intro _; exact ⟨[], rfl, rfl⟩
  | cons a l ih =>
    intro hall
    obtain ⟨la, hsa, hga⟩ := hall a (List.mem_cons_self _ _)
    obtain ⟨L, hL, hfL⟩ := ih (fun e he => hall e (List.mem_cons_of_mem _ he))
    refine ⟨a :: la ++ L, by simp [preorderList, hsa, hL], ?_⟩
    unfold findLoop
    by_cases h : (w.ctrl a).m_name ≠ "" ∧ (w.ctrl a).m_name = name
    · have hn : namedAs w name a = true := (namedAs_iff w name a).mpr h
      rw [if_pos h]
      simp [List.find?_cons, hn]
    · have hn : namedAs w name a = false := by
        cases hb : namedAs w name a with
        | false => rfl
        | true => exact absurd ((namedAs_iff w name a).mp hb) h
      rw [if_neg h]
      simp only [if_true, hga]
      have hcons : (a :: la ++ L).find? (namedAs w name) =
          ((la.find? (namedAs w name)).or (L.find? (namedAs w name))) := by
        rw [List.cons_append, List.find?_cons, hn, List.find?_append]
      rw [hcons]
      cases hf : la.find? (namedAs w name) with
      | some x => simp
      | none => simpa using hfL

theorem preorderList_mem (sub : Nat → Option (List Nat)) :
    ∀ (l L : List Nat), preorderList sub l = some L →
      ∀ x, x ∈ L ↔ ∃ c, c ∈ l ∧ (x = c ∨ ∃ lc, sub c = some lc ∧ x ∈ lc) := by
  intro l
  induction l with
  | nil =>
    intro L h x
    simp [preorderList] at h
    subst h
    simp
  | cons a l ih =>
    intro L h x
    unfold preorderList at h
    cases hsa : sub a with
    | none => simp [hsa] at h
    | some la =>
      cases hl : preorderList sub l with
      | none => simp [hsa, hl] at h
      | some Lr =>
        simp only [hsa, hl, Option.some.injEq] at h
        subst h
        have := ih Lr hl x
        simp only [List.cons_append, List.mem_cons, List.mem_append, this]
        constructor
        · rintro (h1 | h1 | ⟨c, hc, h1⟩)
          · exact ⟨a, Or.inl rfl, Or.inl h1⟩
          · exact ⟨a, Or.inl rfl, Or.inr ⟨la, hsa, h1⟩⟩
          · exact ⟨c, Or.inr hc, h1⟩
        · rintro ⟨c, hc | hc, h1⟩
          · subst hc
            rcases h1 with h1 | ⟨lc, hlc, h1⟩
            · exact Or.inl h1
            · rw [hsa] at hlc
              simp only [Option.some.injEq] at hlc
              subst hlc
              exact Or.inr (Or.inl h1)
          · exact Or.inr (Or.inr ⟨c, hc, h1⟩)

theorem preorderList_sub (sub : Nat → Option (List Nat)) :
    ∀ (l L : List Nat), preorderList sub l = some L → ∀ c, c ∈ l → ∃ lc, sub c = some lc := by
  intro l
  induction l with
  | nil => intro L _ c hc; simp at hc
  | cons a l ih =>
    intro L h c hc
    unfold preorderList at h
    cases hsa : sub a with
    | none => simp [hsa] at h
    | some la =>
      cases hl : preorderList sub l with
      | none => simp [hsa, hl] at h
      | some Lr =>
        rcases List.mem_cons.mp hc with rfl | hc
        · exact ⟨la, hsa⟩
        · exact ih Lr hl c hc

theorem Sub_cases {w : World} {c x : Nat} :
    Sub w c x ↔ x = c ∨ ∃ ch, ch ∈ (w.ctrl c).Children ∧ Sub w ch x := by
  constructor
  · intro h
    cases h with
    | refl => left; rfl
    | child hc hs => right; exact ⟨_, hc, hs⟩
  · rintro (rfl | ⟨ch, hc, hs⟩)
    · exact Sub.refl _
    · exact Sub.child hc hs

/-- The pre-order list holds exactly the controls below `n`. -/
theorem preorderDescendants_mem (w : World) :
    ∀ (fuel n : Nat) (l : List Nat), preorderDescendants fuel n w = some l →
      ∀ x, x ∈ l ↔ ∃ ch, ch ∈ (w.ctrl n).Children ∧ Sub w ch x := by
  intro fuel
  induction fuel with
  | zero => intro n l h; simp [preorderDescendants] at h
  | succ k ih =>
    intro n l h x
    unfold preorderDescendants at h
    rw [preorderList_mem _ _ _ h x]
    constructor
    · rintro ⟨c, hc, h1 | ⟨lc, hlc, h1⟩⟩
      · exact ⟨c, hc, by rw [h1]; exact Sub.refl _⟩
      · obtain ⟨ch, hch, hs⟩ := (ih c lc hlc x).mp h1
        exact ⟨c, hc, Sub.child hch hs⟩
    · rintro ⟨ch, hch, hs⟩
      refine ⟨ch, hch, ?_⟩
      rcases Sub_cases.mp hs with h1 | ⟨c2, hc2, hs2⟩
      · exact Or.inl h1
      · right
        obtain ⟨lc, hlc⟩ := preorderList_sub _ _ _ h ch hch
        exact ⟨lc, hlc, (ih ch lc hlc x).mpr ⟨c2, hc2, hs2⟩⟩

/-- On acyclic child lists the recursive search returns the first control with the name in
the pre-order of the descendants. -/
theorem FindChildByName_preorder (r : Nat → Nat) (w : World) (hr : ChildRank w r)
    (name : String) :
    ∀ (fuel n : Nat), r n < fuel →
      ∃ l, preorderDescendants fuel n w = some l ∧
        FindChildByName fuel n name true w = some (l.find? (namedAs w name)) := by
  intro fuel
  induction fuel with
  | zero => intro n h; omega
  | succ k ih =>
    intro n hn
    unfold preorderDescendants FindChildByName
    apply findLoop_preorder
    intro e he
    have := hr n e he
    exact ih e (by omega)


/-- C17: on acyclic child lists `FindChildByName(s, true)` on a control `c` returns, and
its result is the first control of the depth-first pre-order over the child lists below `c`
(`c` excluded; a child before its own subtree, its whole subtree before its next sibling)
whose name is not empty and equals `s`; that list holds exactly the descendants of `c`, so
the result is null exactly when no descendant has the name. `FindChildByName(s, false)`
returns the first control of the child list of `c` with the name. For the empty name the
result is null. -/
theorem FindChildByName_first_in_preorder (r : Nat → Nat) (fuel c : Nat) (s : String)
    (w : World) (hr : ChildRank w r) (hfuel : r c < fuel) :
    ∃ l, preorderDescendants fuel c w = some l ∧
      (∀ x, x ∈ l ↔ ∃ ch, ch ∈ (w.ctrl c).Children ∧ Sub w ch x) ∧
      FindChildByName fuel c s true w = some (l.find? (namedAs w s)) ∧
      (FindChildByName fuel c s true w = some none ↔
        ∀ x, (∃ ch, ch ∈ (w.ctrl c).Children ∧ Sub w ch x) →
          ¬ ((w.ctrl x).m_name ≠ "" ∧ (w.ctrl x).m_name = s)) ∧
      FindChildByName fuel c s false w = some ((w.ctrl c).Children.find? (namedAs w s)) ∧
      (∀ b, FindChildByName fuel c "" b w = some none) := by
  obtain ⟨l, hl, hf⟩ := FindChildByName_preorder r w hr s fuel c hfuel
  have hmem := preorderDescendants_mem w fuel c l hl
  obtain ⟨k, rfl⟩ := Nat.exists_eq_succ_of_ne_zero (show fuel ≠ 0 by omega)
  have hflat : ∀ name, FindChildByName (k + 1) c name false w =
      some ((w.ctrl c).Children.find? (namedAs w name)) := by
    intro name
    unfold FindChildByName
    exact findLoop_flat _ w name _
  have hnone : ∀ l1 : List Nat, l1.find? (namedAs w "") = none := by
    intro l1
    rw [List.find?_eq_none]
    intro x _
    simp [namedAs_empty]
  refine ⟨l, hl, hmem, hf, ?_, hflat s, ?_⟩
  · rw [hf]
    simp only [Option.some.injEq, List.find?_eq_none]
    constructor
    · intro h x hx hname
      exact h x ((hmem x).mpr hx) ((namedAs_iff w s x).mpr hname)
    · intro h x hx hname
      exact h x ((hmem x).mp hx) ((namedAs_iff w s x).mp hname)
  · intro b
    cases b with
    | false => rw [hflat, hnone]
    | true =>
      obtain ⟨l1, _, hf1⟩ := FindChildByName_preorder r w hr "" (k + 1) c hfuel
      rw [hf1, hnone]

/-- C17 witness: in `nameTree` the pre-order below the root is 1, 3, 4, 2; the recursive
search for "ok" returns 4, inside the subtree of the first child, the search without
recursion returns the direct child 2, and the search for the empty name returns null
although the control 3 has the empty name. -/
theorem FindChildByName_first_in_preorder_witness :
    preorderDescendants 3 0 nameTree = some [1, 3, 4, 2] ∧
    FindChildByName 3 0 "ok" true nameTree = some (some 4) ∧
    FindChildByName 3 0 "ok" false nameTree = some (some 2) ∧
    FindChildByName 3 0 "" true nameTree = some none ∧
    ∃ l, preorderDescendants 3 0 nameTree = some l ∧
      (∀ x, x ∈ l ↔ ∃ ch, ch ∈ (nameTree.ctrl 0).Children ∧ Sub nameTree ch x) ∧
      FindChildByName 3 0 "ok" true nameTree = some (l.find? (namedAs nameTree "ok")) ∧
      (FindChildByName 3 0 "ok" true nameTree = some none ↔
        ∀ x, (∃ ch, ch ∈ (nameTree.ctrl 0).Children ∧ Sub nameTree ch x) →
          ¬ ((nameTree.ctrl x).m_name ≠ "" ∧ (nameTree.ctrl x).m_name = "ok")) ∧
      FindChildByName 3 0 "ok" false nameTree =
        some ((nameTree.ctrl 0).Children.find? (namedAs nameTree "ok")) ∧
      (∀ b, FindChildByName 3 0 "" b nameTree = some none) :=
  ⟨by decide, by decide, by decide, by decide,
    FindChildByName_first_in_preorder twoLevelRank 3 0 "ok" nameTree
      (ChildRank_ofList _ _ (by decide)) (by decide)⟩

end FindChildTheorems

section RedrawChain

theorem OnParentChain_congr {w w1 : World}
    (h : ∀ m, (w1.ctrl m).m_parent = (w.ctrl m).m_parent) {n a : Nat}
    (hc : OnParentChain w n a) : OnParentChain w1 n a := by
  induction hc with
  | self n => exact OnParentChain.self n
  | up hp _ ih => exact OnParentChain.up (by rw [h]; exact hp) ih

theorem OnParentChain_depth {w : World} {d : Nat → Nat} (hd : ParentDepth w d) {n a : Nat}
    (hc : OnParentChain w n a) : d a ≤ d n := by
  induction hc with
  | self n => exact le_refl _
  | up hp _ ih => have := hd _ _ hp; omega

theorem OnParentChain_trans {w : World} {n a b : Nat} (h1 : OnParentChain w n a)
    (h2 : OnParentChain w a b) : OnParentChain w n b := by
  induction h1 with
  | self n => exact h2
  | up hp _ ih => exact OnParentChain.up hp (ih h2)

/-- On an acyclic parent chain the walk from `n` reaches a control without parent. -/
theorem OnParentChain_root (d : Nat → Nat) (w : World) (hd : ParentDepth w d) :
    ∀ (k n : Nat), d n ≤ k → ∃ root, OnParentChain w n root ∧ (w.ctrl root).m_parent = none := by
  intro k
  induction k with
  | zero =>
    intro n hn
    cases hp : (w.ctrl n).m_parent with
    | none => exact ⟨n, OnParentChain.self n, hp⟩
    | some p => have := hd n p hp; omega
  | succ k ih =>
    intro n hn
    cases hp : (w.ctrl n).m_parent with
    | none => exact ⟨n, OnParentChain.self n, hp⟩
    | some p =>
      have := hd n p hp
      obtain ⟨root, h1, h2⟩ := ih p (by omega)
      exact ⟨root, OnParentChain.up hp h1, h2⟩

/-- What a terminating `Redraw` does: the cache-dirty flag is set along the parent chain
and nothing else is written. -/
theorem Redraw_chain (d : Nat → Nat) :
    ∀ (fuel n : Nat) (w : World), ParentDepth w d → d n < fuel →
      ∃ w1, Redraw fuel n w = some w1 ∧ SameGlobals w w1 ∧ w1.trace = w.trace ∧
        (∀ a, OnParentChain w n a →
          w1.ctrl a = { w.ctrl a with m_bCacheTextureDirty := true }) ∧
        (∀ m, ¬ OnParentChain w n m → w1.ctrl m = w.ctrl m) := by
  intro fuel
  induction fuel with
  | zero => intro n w _ h; omega
  | succ k ih =>
    intro n w hd hn
    set w0 := w.modify n fun c => { c with m_bCacheTextureDirty := true } with hw0
    have hpar : ∀ m, (w0.ctrl m).m_parent = (w.ctrl m).m_parent := by
      intro m
      by_cases hm : m = n
      · subst hm; simp [hw0]
      · simp [hw0, hm]
    have hredo : ∀ a, ({ w0.ctrl a with m_bCacheTextureDirty := true } : Control) =
        { w.ctrl a with m_bCacheTextureDirty := true } := by
      intro a
      by_cases ha : a = n
      · subst ha; simp [hw0]
      · simp [hw0, ha]
    unfold Redraw
    simp only []
    cases hp : (w0.ctrl n).m_parent with
    | none =>
      have hp0 : (w.ctrl n).m_parent = none := by rw [← hpar]; exact hp
      have honly : ∀ a, OnParentChain w n a → a = n := by
        intro a ha
        cases ha with
        | self => rfl
        | up hq _ => rw [hp0] at hq; cases hq
      refine ⟨w0, rfl, SameGlobals_refl _, rfl, ?_, ?_⟩
      · intro a ha
        rw [honly a ha]
        simp [hw0]
      · intro m hm
        have : m ≠ n := fun e => hm (by rw [e]; exact OnParentChain.self n)
        simp [hw0, this]
    | some p =>
      have hp0 : (w.ctrl n).m_parent = some p := by rw [← hpar]; exact hp
      have hd0 : ParentDepth w0 d := by
        intro c q hq; rw [hpar] at hq; exact hd c q hq
      have hdp : d p < k := by have := hd n p hp0; omega
      obtain ⟨w1, h1, hg, ht, hon, hoff⟩ := ih p w0 hd0 hdp
      refine ⟨w1, h1, hg, ht, ?_, ?_⟩
      · intro a ha
        by_cases hpa : OnParentChain w0 p a
        · rw [hon a hpa, hredo]
        · have han : a = n := by
            cases ha with
            | self => rfl
            | up hq hr =>
              rw [hp0] at hq
              cases hq
              exact absurd (OnParentChain_congr (fun m => hpar m) hr) hpa
          rw [hoff a hpa, han]
          simp [hw0]
      · intro m hm
        have hmn : m ≠ n := fun e => hm (by rw [e]; exact OnParentChain.self n)
        have hpm : ¬ OnParentChain w0 p m := by
          intro hc
          exact hm (OnParentChain.up hp0 (OnParentChain_congr (fun x => (hpar x).symm) hc))
        rw [hoff m hpm]
        simp [hw0, hmn]

/-- C21: on an acyclic parent chain `n.Redraw()` returns; afterwards the cache-dirty flag
is true on every control of the logical-parent chain of `n` (on `n`, on each ancestor and
on the root, which the walk reaches), each of these controls is otherwise as before, no
needs-layout flag has changed, every control off the chain is as before, and so are the
global references and the hook trace. -/
theorem Redraw_marks_parent_chain (d : Nat → Nat) (fuel n : Nat) (w : World)
    (hd : ParentDepth w d) (hfuel : d n < fuel) :
    ∃ w1, Redraw fuel n w = some w1 ∧
      (∀ a, OnParentChain w n a → (w1.ctrl a).m_bCacheTextureDirty = true ∧
        w1.ctrl a = { w.ctrl a with m_bCacheTextureDirty := true }) ∧
      (∃ root, OnParentChain w n root ∧ (w.ctrl root).m_parent = none) ∧
      (∀ m, (w1.ctrl m).m_bNeedsLayout = (w.ctrl m).m_bNeedsLayout) ∧
      (∀ m, ¬ OnParentChain w n m → w1.ctrl m = w.ctrl m) ∧
      SameGlobals w w1 ∧ w1.trace = w.trace := by
  obtain ⟨w1, h1, hg, ht, hon, hoff⟩ := Redraw_chain d fuel n w hd hfuel
  refine ⟨w1, h1, ?_, OnParentChain_root d w hd (d n) n (le_refl _), ?_, hoff, hg, ht⟩
  · intro a ha
    exact ⟨by rw [hon a ha], hon a ha⟩
  · intro m
    by_cases hm : OnParentChain w n m
    · rw [hon m hm]
    · rw [hoff m hm]

/-- C21 witness: in the scroll tree the parent chain of `x` (3) is 3, 1, 0; after
`x.Redraw()` on the tree with all cache-dirty flags cleared the flag is set on 3, 1 and 0
and not on the inner panel 2, which is not a logical ancestor of `x`. -/
theorem Redraw_marks_parent_chain_witness :
    (Redraw 4 3 { scrollTree with
        ctrl := fun i => { scrollTree.ctrl i with m_bCacheTextureDirty := false } }).map
      (fun w1 => [0, 1, 2, 3].map fun i => (w1.ctrl i).m_bCacheTextureDirty)
      = some [true, true, false, true] ∧
    ∃ w1, Redraw 4 3 scrollTree = some w1 ∧
      (∀ a, OnParentChain scrollTree 3 a → (w1.ctrl a).m_bCacheTextureDirty = true ∧
        w1.ctrl a = { scrollTree.ctrl a with m_bCacheTextureDirty := true }) ∧
      (∃ root, OnParentChain scrollTree 3 root ∧ (scrollTree.ctrl root).m_parent = none) ∧
      (∀ m, (w1.ctrl m).m_bNeedsLayout = (scrollTree.ctrl m).m_bNeedsLayout) ∧
      (∀ m, ¬ OnParentChain scrollTree 3 m → w1.ctrl m = scrollTree.ctrl m) ∧
      SameGlobals scrollTree w1 ∧ w1.trace = scrollTree.trace :=
  ⟨by decide,
    Redraw_marks_parent_chain scrollDepth 4 3 scrollTree (ParentDepth_ofList _ _ (by decide))
      (by decide)⟩

end RedrawChain

section SetBoundsEffects

/-- C30: on an acyclic parent chain, for a rectangle `b` different from the bounds of `n`,
`SetBounds(b)` returns true; afterwards the render bounds of `n` are `(0, 0, b.w, b.h)`,
the cache-dirty flag is true on `n` and on every logical ancestor of `n`, the needs-layout
flag of `n` is true if the width or the height changed and has its previous value if only
the position changed, and the needs-layout flag of every other control, the parent of `n`
included, is unchanged. -/
theorem SetBounds_refreshes_and_redraws (d : Nat → Nat) (fuel n : Nat) (b : Rect) (w : World)
    (hd : ParentDepth w d) (hfuel : d n < fuel) (hne : (w.ctrl n).m_bounds ≠ b) :
    ∃ w1, SetBounds fuel n b w = some (true, w1) ∧
      (w1.ctrl n).m_renderBounds = { x := 0, y := 0, w := b.w, h := b.h } ∧
      (∀ a, OnParentChain w n a → (w1.ctrl a).m_bCacheTextureDirty = true) ∧
      ((b.w ≠ (w.ctrl n).m_bounds.w ∨ b.h ≠ (w.ctrl n).m_bounds.h) →
        (w1.ctrl n).m_bNeedsLayout = true) ∧
      (b.w = (w.ctrl n).m_bounds.w → b.h = (w.ctrl n).m_bounds.h →
        (w1.ctrl n).m_bNeedsLayout = (w.ctrl n).m_bNeedsLayout) ∧
      (∀ p, (w.ctrl n).m_parent = some p →
        (w1.ctrl p).m_bNeedsLayout = (w.ctrl p).m_bNeedsLayout) ∧
      (∀ m, m ≠ n → (w1.ctrl m).m_bNeedsLayout = (w.ctrl m).m_bNeedsLayout) := by
  set w0 := w.modify n fun c => { c with m_bounds := b } with hw0
  set w2 := (if (w0.ctrl n).m_bounds.w ≠ (w.ctrl n).m_bounds.w ∨
      (w0.ctrl n).m_bounds.h ≠ (w.ctrl n).m_bounds.h then Invalidate n w0 else w0) with hw2
  have h2o : ∀ m, m ≠ n → w2.ctrl m = w.ctrl m := by
    intro m hm
    rw [hw2]; split <;> simp [Invalidate, hw0, hm]
  have h2p : ∀ m, (w2.ctrl m).m_parent = (w.ctrl m).m_parent := by
    intro m
    by_cases hm : m = n
    · subst hm; rw [hw2]; split <;> simp [Invalidate, hw0]
    · rw [h2o m hm]
  have h2b : (w2.ctrl n).m_bounds = b := by
    rw [hw2]; split <;> simp [Invalidate, hw0]
  have h2n : (w2.ctrl n).m_bNeedsLayout = ((w.ctrl n).m_bNeedsLayout ||
      decide (b.w ≠ (w.ctrl n).m_bounds.w ∨ b.h ≠ (w.ctrl n).m_bounds.h)) := by
    rw [hw2]
    by_cases hsz : b.w ≠ (w.ctrl n).m_bounds.w ∨ b.h ≠ (w.ctrl n).m_bounds.h
    · simp [hw0, hsz, Invalidate]
    · simp [hw0, hsz]
  have hd2 : ParentDepth w2 d := by
    intro c p hp; rw [h2p] at hp; exact hd c p hp
  obtain ⟨w3, h3, _, _, hon, hoff⟩ := Redraw_chain d fuel n w2 hd2 hfuel
  have hchain : ∀ a, OnParentChain w n a → OnParentChain w2 n a :=
    fun a ha => OnParentChain_congr h2p ha
  have h3n : (w3.ctrl n) = { w2.ctrl n with m_bCacheTextureDirty := true } :=
    hon n (OnParentChain.self n)
  have h3l : ∀ m, (w3.ctrl m).m_bNeedsLayout = (w2.ctrl m).m_bNeedsLayout := by
    intro m
    by_cases hm : OnParentChain w2 n m
    · rw [hon m hm]
    · rw [hoff m hm]
  have hret : SetBounds fuel n b w = some (true, UpdateRenderBounds n w3) := by
    unfold SetBounds
    rw [if_neg hne]
    simp only []
    unfold OnBoundsChanged
    simp only []
    rw [← hw0, ← hw2, h3]
    rfl
  have hneed : ((UpdateRenderBounds n w3).ctrl n).m_bNeedsLayout =
      ((w.ctrl n).m_bNeedsLayout ||
        decide (b.w ≠ (w.ctrl n).m_bounds.w ∨ b.h ≠ (w.ctrl n).m_bounds.h)) := by
    simp only [UpdateRenderBounds, modify_ctrl_same]
    rw [← h2n, ← h3l n]
  have hother : ∀ m, m ≠ n →
      ((UpdateRenderBounds n w3).ctrl m).m_bNeedsLayout = (w.ctrl m).m_bNeedsLayout := by
    intro m hm
    simp only [UpdateRenderBounds, modify_ctrl_ne _ _ hm]
    rw [h3l m, h2o m hm]
  refine ⟨UpdateRenderBounds n w3, hret, ?_, ?_, ?_, ?_, ?_, hother⟩
  · simp only [UpdateRenderBounds, modify_ctrl_same]
    rw [h3n]
    simp [h2b]
  · intro a ha
    by_cases han : a = n
    · subst han
      simp only [UpdateRenderBounds, modify_ctrl_same]
      rw [h3n]
    · simp only [UpdateRenderBounds, modify_ctrl_ne _ _ han]
      rw [hon a (hchain a ha)]
  · intro hsz
    rw [hneed]
    simp [hsz]
  · intro hw hh
    rw [hneed]
    simp [hw, hh]
  · intro p hp
    have hpn : p ≠ n := by
      intro e
      have := hd n p hp
      rw [e] at this
      omega
    exact hother p hpn

/-- C30 witness: in the scroll tree `x` (3) has the bounds (3, 4, 10, 10) and its needs-layout
flag is false. Moving it to (8, 9) keeps the flag false, resizing it to 20 x 10 sets it; in
both cases the render bounds follow the new size. -/
theorem SetBounds_refreshes_and_redraws_witness :
    (SetBounds 4 3 { x := 8, y := 9, w := 10, h := 10 } scrollTree).map
        (fun p => (p.1, (p.2.ctrl 3).m_bNeedsLayout, (p.2.ctrl 3).m_renderBounds))
      = some (true, false, { x := 0, y := 0, w := 10, h := 10 }) ∧
    ∃ w1, SetBounds 4 3 { x := 3, y := 4, w := 20, h := 10 } scrollTree = some (true, w1) ∧
      (w1.ctrl 3).m_renderBounds = { x := 0, y := 0, w := 20, h := 10 } ∧
      (w1.ctrl 3).m_bNeedsLayout = true ∧
      (w1.ctrl 1).m_bNeedsLayout = false := by
  obtain ⟨w1, h1, h2, _, h4, _, h6, _⟩ := SetBounds_refreshes_and_redraws scrollDepth 4 3
    { x := 3, y := 4, w := 20, h := 10 } scrollTree (ParentDepth_ofList _ _ (by decide))
    (by decide) (by decide)
  refine ⟨by decide, w1, h1, h2, h4 (by decide), ?_⟩
  rw [h6 1 (by decide)]
  decide

end SetBoundsEffects

section MoveToTheorems

/-- The clamped target stays inside the margin interior of the parent when the padded box
of the control fits there, and equals the target when the target is inside already. -/
theorem restrictToParent_spec (c parent : Control) (x y : Int) :
    ((c.m_bounds.w + c.m_padding.left + c.m_padding.right ≤
        parent.m_bounds.w - parent.m_margin.left - parent.m_margin.right) →
      (restrictToParent c parent x y).1 - c.m_padding.left ≥ parent.m_margin.left ∧
      (restrictToParent c parent x y).1 + c.m_bounds.w + c.m_padding.right ≤
        parent.m_bounds.w - parent.m_margin.right) ∧
    ((c.m_bounds.h + c.m_padding.top + c.m_padding.bottom ≤
        parent.m_bounds.h - parent.m_margin.top - parent.m_margin.bottom) →
      (restrictToParent c parent x y).2 - c.m_padding.top ≥ parent.m_margin.top ∧
      (restrictToParent c parent x y).2 + c.m_bounds.h + c.m_padding.bottom ≤
        parent.m_bounds.h - parent.m_margin.bottom) ∧
    (x - c.m_padding.left ≥ parent.m_margin.left →
      x + c.m_bounds.w + c.m_padding.right ≤ parent.m_bounds.w - parent.m_margin.right →
      (restrictToParent c parent x y).1 = x) ∧
    (y - c.m_padding.top ≥ parent.m_margin.top →
      y + c.m_bounds.h + c.m_padding.bottom ≤ parent.m_bounds.h - parent.m_margin.bottom →
      (restrictToParent c parent x y).2 = y) := by
  unfold restrictToParent
  simp only []
  refine ⟨?_, ?_, ?_, ?_⟩
  · intro hfit
    split_ifs <;> constructor <;> omega
  · intro hfit
    split_ifs <;> constructor <;> omega
  · intro h1 h2
    split_ifs <;> omega
  · intro h1 h2
    split_ifs <;> omega

/-- C22: on an acyclic parent chain `MoveTo(x, y)` returns and keeps the size of `n`. With
restrict-to-parent enabled and a parent `P`: on each axis on which the padded box of `n`
fits inside the margin interior of `P`, the new position keeps the padded box inside that
interior, and a target that is inside already is taken as it is. With restrict-to-parent
disabled or without parent `MoveTo(x, y)` is `SetPos(x, y)`. -/
theorem MoveTo_keeps_inside_parent (d : Nat → Nat) (fuel n : Nat) (x y : Int) (w : World)
    (hd : ParentDepth w d) (hfuel : d n < fuel) :
    ∃ w1, MoveTo fuel n x y w = some w1 ∧
      (w1.ctrl n).m_bounds.w = (w.ctrl n).m_bounds.w ∧
      (w1.ctrl n).m_bounds.h = (w.ctrl n).m_bounds.h ∧
      (∀ p, (w.ctrl n).m_bRestrictToParent = true → (w.ctrl n).m_parent = some p →
        ((w.ctrl n).m_bounds.w + (w.ctrl n).m_padding.left + (w.ctrl n).m_padding.right ≤
            (w.ctrl p).m_bounds.w - (w.ctrl p).m_margin.left - (w.ctrl p).m_margin.right →
          (w1.ctrl n).m_bounds.x - (w.ctrl n).m_padding.left ≥ (w.ctrl p).m_margin.left ∧
          (w1.ctrl n).m_bounds.x + (w.ctrl n).m_bounds.w + (w.ctrl n).m_padding.right ≤
            (w.ctrl p).m_bounds.w - (w.ctrl p).m_margin.right) ∧
        ((w.ctrl n).m_bounds.h + (w.ctrl n).m_padding.top + (w.ctrl n).m_padding.bottom ≤
            (w.ctrl p).m_bounds.h - (w.ctrl p).m_margin.top - (w.ctrl p).m_margin.bottom →
          (w1.ctrl n).m_bounds.y - (w.ctrl n).m_padding.top ≥ (w.ctrl p).m_margin.top ∧
          (w1.ctrl n).m_bounds.y + (w.ctrl n).m_bounds.h + (w.ctrl n).m_padding.bottom ≤
            (w.ctrl p).m_bounds.h - (w.ctrl p).m_margin.bottom) ∧
        (x - (w.ctrl n).m_padding.left ≥ (w.ctrl p).m_margin.left →
          x + (w.ctrl n).m_bounds.w + (w.ctrl n).m_padding.right ≤
            (w.ctrl p).m_bounds.w - (w.ctrl p).m_margin.right →
          (w1.ctrl n).m_bounds.x = x) ∧
        (y - (w.ctrl n).m_padding.top ≥ (w.ctrl p).m_margin.top →
          y + (w.ctrl n).m_bounds.h + (w.ctrl n).m_padding.bottom ≤
            (w.ctrl p).m_bounds.h - (w.ctrl p).m_margin.bottom →
          (w1.ctrl n).m_bounds.y = y) ∧
        (w1.ctrl p).m_bounds = (w.ctrl p).m_bounds ∧
        (w1.ctrl p).m_margin = (w.ctrl p).m_margin ∧
        (w1.ctrl n).m_padding = (w.ctrl n).m_padding) ∧
      (((w.ctrl n).m_bRestrictToParent = false ∨ (w.ctrl n).m_parent = none) →
        MoveTo fuel n x y w = SetPos fuel n x y w) := by
  unfold MoveTo
  simp only []
  generalize htarget : (match (if (w.ctrl n).m_bRestrictToParent then (w.ctrl n).m_parent
      else none) with
    | some p => restrictToParent (w.ctrl n) (w.ctrl p) x y
    | none => (x, y)) = target
  obtain ⟨w1, h1, h2⟩ := SetBoundsXYWH_spec d fuel n target.1 target.2 (w.ctrl n).m_bounds.w
    (w.ctrl n).m_bounds.h w hd hfuel
  have hb := h2.bounds_eq
  refine ⟨w1, h1, by rw [hb], by rw [hb], ?_, ?_⟩
  · intro p hres hp
    simp only [hres, hp, if_true] at htarget
    obtain ⟨s1, s2, s3, s4⟩ := restrictToParent_spec (w.ctrl n) (w.ctrl p) x y
    rw [htarget] at s1 s2 s3 s4
    have hpn : p ≠ n := by
      intro e
      have := hd n p hp
      rw [e] at this
      omega
    have hpe := h2.others p hpn
    refine ⟨?_, ?_, ?_, ?_, ?_, ?_, ?_⟩
    · intro hfit; rw [hb]; exact s1 hfit
    · intro hfit; rw [hb]; exact s2 hfit
    · intro a b; rw [hb]; exact s3 a b
    · intro a b; rw [hb]; exact s4 a b
    · have := congrArg Control.m_bounds hpe
      exact this
    · have := congrArg Control.m_margin hpe
      exact this
    · have := congrArg Control.m_padding h2.self
      exact this
  · intro hor
    have : target = (x, y) := by
      rcases hor with h | h
      · simp [h] at htarget; exact htarget.symm
      · rw [h] at htarget
        simp at htarget
        exact htarget.symm
    rw [this]
    rfl

/-- C22 witness: in `moveTree` the child (20 x 20, padding 1, 2, 3, 4) is restricted to its
parent (100 x 80, margin 5). `MoveTo(-50, 200)` puts it at (6, 51): the left edge of the
padded box on the left margin, its bottom edge on the bottom margin. -/
theorem MoveTo_keeps_inside_parent_witness :
    ∃ w1, MoveTo 2 1 (-50) 200 moveTree = some w1 ∧
      (w1.ctrl 1).m_bounds = { x := 6, y := 51, w := 20, h := 20 } := by
  obtain ⟨w1, h1, _⟩ := MoveTo_keeps_inside_parent flatDepth 2 1 (-50) 200 moveTree
    (ParentDepth_ofList _ _ (by decide)) (by decide)
  refine ⟨w1, h1, ?_⟩
  have h2 : (MoveTo 2 1 (-50) 200 moveTree).map (fun v => (v.ctrl 1).m_bounds) =
      some { x := 6, y := 51, w := 20, h := 20 } := by decide
  rw [h1] at h2
  simpa using h2

end MoveToTheorems

section BucketTheorems

/-- The loop body of `SizeOfChildren` adds the child to the bucket of its dock. -/
theorem bucket_eq (dim : Dim) (al : Bool) (c : Control) (acc : Buckets) :
    bucket dim al c acc =
      match sizeBucket dim c.m_dock with
      | SizeBucket.widest => { acc with maxSize := max acc.maxSize (childExtent dim al c) }
      | SizeBucket.docked => { acc with dockSize := acc.dockSize + childExtent dim al c }
      | SizeBucket.inner => { acc with innerSize := acc.innerSize + childExtent dim al c } := by
  have hmax : ∀ (v : Int), (if v > acc.maxSize then { acc with maxSize := v } else acc) =
      { acc with maxSize := max acc.maxSize v } := by
    intro v
    by_cases h : v > acc.maxSize
    · rw [if_pos h, max_eq_right (le_of_lt h)]
    · rw [if_neg h, max_eq_left (by omega)]
  cases dim <;>
  cases h1 : hasFlag c.m_dock Position.Top <;> cases h2 : hasFlag c.m_dock Position.Bottom <;>
  cases h3 : hasFlag c.m_dock Position.Left <;> cases h4 : hasFlag c.m_dock Position.Right <;>
  cases h5 : hasFlag c.m_dock Position.Fill <;> cases al <;>
  simp [bucket, bucketX, bucketY, sizeBucket, childExtent, undocked, h1, h2, h3, h4, h5, hmax,
    Size.along, Margin.along, Rect.origin, add_assoc]

end BucketTheorems
section SizeFlagPolicy

/-- The loop of `SizeOfChildren` over a child list equals the loop over its shown members
when the steps keep the hidden flags. -/
theorem sizeLoop_shown (step : Nat → World → Option World) (dim : Dim) (al : Bool)
    (w : World) (P : World → Prop)
    (hP : ∀ wa, P wa → ∀ m, (wa.ctrl m).m_bHidden = (w.ctrl m).m_bHidden) :
    ∀ (l : List Nat),
      (∀ child, child ∈ l → ∀ wa, P wa → ∃ w1, step child wa = some w1 ∧ P w1) →
      ∀ acc wa, P wa →
        sizeLoop step dim al (l.filter fun c => !(w.ctrl c).m_bHidden) acc wa =
          sizeLoop step dim al l acc wa := by
  intro l
  induction l with
  | nil => intro _ acc wa _; rfl
  | cons a l ih =>
    intro hstep acc wa hwa
    have ih1 := ih (fun c hc => hstep c (List.mem_cons_of_mem a hc))
    by_cases hh : (w.ctrl a).m_bHidden = true
    · have hha : (wa.ctrl a).m_bHidden = true := by rw [hP wa hwa]; exact hh
      rw [List.filter_cons_of_neg (by simp [hh])]
      conv_rhs => unfold sizeLoop
      simp only [hha, if_true]
      exact ih1 acc wa hwa
    · have hha : ¬ (wa.ctrl a).m_bHidden = true := by rw [hP wa hwa]; exact hh
      rw [List.filter_cons_of_pos (by simpa using hh)]
      obtain ⟨w1, h1, hp1⟩ := hstep a (List.mem_cons_self _ _) wa hwa
      conv_lhs => unfold sizeLoop
      conv_rhs => unfold sizeLoop
      simp only [hha, if_false, h1]
      exact ih1 _ w1 hp1

/-- The result of `CalculateSize` on a container without layout item: the world after the
child loop with the preferred size of the container replaced, on the axis by the size-flag
policy applied to the content size of the loop plus the padding. -/
theorem CalculateSize_result (r : Nat → Nat) (k n : Nat) (dim : Dim) (w : World)
    (hr : ChildRank w r) (hfuel : r n < k + 1) (hli : (w.ctrl n).m_layoutItem = none) :
    ∃ acc w0 sz,
      sizeLoop (fun child => CalculateSize k child dim) dim (w.ctrl n).hasAlignment
        (w.ctrl n).Children {} w = some (acc, w0) ∧
      CalcFrame w w0 ∧
      CalculateSize (k + 1) n dim w =
        some (w0.modify n fun c => { c with m_preferredSize := sz }) ∧
      sz.along dim = applySizeFlag ((w.ctrl n).m_sizeFlags.along dim)
        ((w.ctrl n).m_bounds.extent dim) (acc.raw + (w.ctrl n).m_padding.along dim)
        ((w.ctrl n).m_minimumSize.along dim) ((w.ctrl n).m_maximumSize.along dim) ∧
      sz.along dim.other = (w.ctrl n).m_preferredSize.along dim.other := by
  have hstep : ∀ child, child ∈ (w.ctrl n).Children → ∀ w0, CalcFrame w w0 →
      ∃ w1, CalculateSize k child dim w0 = some w1 ∧ CalcFrame w w1 ∧ CalcFrame w0 w1 := by
    intro child hc w0 hw0
    have hlt : r child < k := by have := hr n child hc; omega
    obtain ⟨w1, h1, h2⟩ := CalculateSize_spec r k child dim w0
      (ChildRank_of_frame hw0.calcToLayout hr) hlt
    exact ⟨w1, h1, CalcFrame_trans hw0 h2, h2⟩
  obtain ⟨acc, w0, h0, hf0, _⟩ :=
    sizeLoop_rel (fun child => CalculateSize k child dim) dim (w.ctrl n).hasAlignment
      (fun w0 => CalcFrame w w0) CalcFrame CalcFrame_refl (fun _ _ _ => CalcFrame_trans)
      (w.ctrl n).Children hstep {} w (CalcFrame_refl w)
  have hcalc : CalculateSize (k + 1) n dim w =
      (SizeOfChildren (fun child => CalculateSize k child dim) n dim w).map
        fun p => p.2.modify n fun c => { c with m_preferredSize := p.1 } := by
    conv_lhs => unfold CalculateSize
    rw [ProcessLayout_none n dim w hli]
    simp only []
    cases SizeOfChildren (fun child => CalculateSize k child dim) n dim w <;> rfl
  have hflags := hf0.calcProj Control.m_sizeFlags (fun _ => rfl) n
  have hbounds := hf0.calcProj Control.m_bounds (fun _ => rfl) n
  have hpad := hf0.calcProj Control.m_padding (fun _ => rfl) n
  have hmin := hf0.calcProj Control.m_minimumSize (fun _ => rfl) n
  have hmaxi := hf0.calcProj Control.m_maximumSize (fun _ => rfl) n
  have hsz : ∃ sz, SizeOfChildren (fun child => CalculateSize k child dim) n dim w =
        some (sz, w0) ∧
      sz.along dim = applySizeFlag ((w.ctrl n).m_sizeFlags.along dim)
        ((w.ctrl n).m_bounds.extent dim) (acc.raw + (w.ctrl n).m_padding.along dim)
        ((w.ctrl n).m_minimumSize.along dim) ((w.ctrl n).m_maximumSize.along dim) ∧
      sz.along dim.other = (w.ctrl n).m_preferredSize.along dim.other := by
    unfold SizeOfChildren
    simp only [h0]
    cases dim with
    | X =>
      refine ⟨_, rfl, ?_, ?_⟩
      · simp only [Size.along, SizeFlags.along, Rect.extent, Margin.along, Buckets.raw, hflags,
          hbounds, hpad, hmin, hmaxi]
      · simp [Size.along, Dim.other]
    | Y =>
      refine ⟨_, rfl, ?_, ?_⟩
      · simp only [Size.along, SizeFlags.along, Rect.extent, Margin.along, Buckets.raw, hflags,
          hbounds, hpad, hmin, hmaxi]
      · simp [Size.along, Dim.other]
  obtain ⟨sz, hsz1, hsz2, hsz3⟩ := hsz
  exact ⟨acc, w0, sz, h0, hf0, by rw [hcalc, hsz1]; rfl, hsz2, hsz3⟩

/-- C23: on acyclic child lists `CalculateSize` on a container `n` without layout item
returns. With `acc` the bucket totals of the child loop and
`raw = max(acc.max, acc.dock + acc.inner) + padding` on the axis, the preferred size stored
on the axis is the current bound size for Fixed, `min(raw, maximum)` for Shrink,
`max(raw, minimum)` for Expand, `raw` for Elastic and `max(raw, minimum)` for Bloat, the
bound size, the padding, the minimum and the maximum being those of `n` at the call; the
preferred size on the other axis is unchanged. The loop over the shown children alone gives
the same totals: hidden children do not contribute. -/
theorem CalculateSize_applies_size_flag (r : Nat → Nat) (fuel n : Nat) (dim : Dim) (w : World)
    (hr : ChildRank w r) (hfuel : r n < fuel) (hli : (w.ctrl n).m_layoutItem = none) :
    ∃ acc w0 w1,
      sizeLoop (fun child => CalculateSize (fuel - 1) child dim) dim (w.ctrl n).hasAlignment
        (w.ctrl n).Children {} w = some (acc, w0) ∧
      sizeLoop (fun child => CalculateSize (fuel - 1) child dim) dim (w.ctrl n).hasAlignment
        (shownChildren n w) {} w = some (acc, w0) ∧
      CalculateSize fuel n dim w = some w1 ∧
      (w1.ctrl n).m_preferredSize.along dim =
        (match (w.ctrl n).m_sizeFlags.along dim with
        | SizeFlag.Fixed => (w.ctrl n).m_bounds.extent dim
        | SizeFlag.Shrink =>
          min (acc.raw + (w.ctrl n).m_padding.along dim) ((w.ctrl n).m_maximumSize.along dim)
        | SizeFlag.Expand =>
          max (acc.raw + (w.ctrl n).m_padding.along dim) ((w.ctrl n).m_minimumSize.along dim)
        | SizeFlag.Elastic => acc.raw + (w.ctrl n).m_padding.along dim
        | SizeFlag.Bloat =>
          max (acc.raw + (w.ctrl n).m_padding.along dim) ((w.ctrl n).m_minimumSize.along dim)) ∧
      (w1.ctrl n).m_preferredSize.along dim.other = (w.ctrl n).m_preferredSize.along dim.other := by
  obtain ⟨k, rfl⟩ := Nat.exists_eq_succ_of_ne_zero (show fuel ≠ 0 by omega)
  simp only [Nat.add_one_sub_one]
  obtain ⟨acc, w0, sz, h0, _, hcalc, hsz2, hsz3⟩ := CalculateSize_result r k n dim w hr hfuel hli
  have hshown := sizeLoop_shown (fun child => CalculateSize k child dim) dim
    (w.ctrl n).hasAlignment w (fun w0 => ChildRank w0 r ∧ CalcFrame w w0)
    (fun wa hwa m => hwa.2.calcProj Control.m_bHidden (fun _ => rfl) m)
    (w.ctrl n).Children
    (fun child hc wa hwa => by
      have hlt : r child < k := by have := hr n child hc; omega
      obtain ⟨w1, h1, h2⟩ := CalculateSize_spec r k child dim wa hwa.1 hlt
      exact ⟨w1, h1, ChildRank_of_frame h2.calcToLayout hwa.1, CalcFrame_trans hwa.2 h2⟩)
    {} w ⟨hr, CalcFrame_refl w⟩
  refine ⟨acc, w0, _, h0, by rw [← h0]; exact hshown, hcalc, ?_, by simpa using hsz3⟩
  simp only [modify_ctrl_same]
  rw [hsz2]
  cases (w.ctrl n).m_sizeFlags.along dim <;> simp [applySizeFlag]

/-- C23 witness: the container of `bucketTree` is Elastic on both axes with padding 1; its
shown children give the content width 30, so the preferred width stored is 32, and the
hidden child of minimum width 500 does not count. -/
theorem CalculateSize_applies_size_flag_witness :
    ∃ w1, CalculateSize 2 0 Dim.X bucketTree = some w1 ∧
      (w1.ctrl 0).m_preferredSize.width = 32 := by
  obtain ⟨_, _, w1, _, _, h1, _⟩ := CalculateSize_applies_size_flag flatRank 2 0 Dim.X
    bucketTree (ChildRank_ofList _ _ (by decide)) (by decide) (by decide)
  refine ⟨w1, h1, ?_⟩
  have h2 : (CalculateSize 2 0 Dim.X bucketTree).map
      (fun v => (v.ctrl 0).m_preferredSize.width) = some 32 := by decide
  rw [h1] at h2
  simpa using h2

end SizeFlagPolicy
section BucketTotals

/-- The totals of the loop body folded over a list of children. -/
theorem bucket_foldl (dim : Dim) (al : Bool) :
    ∀ (cs : List Control) (acc : Buckets), 0 ≤ acc.maxSize →
      (cs.foldl (fun a c => bucket dim al c a) acc).maxSize =
        max acc.maxSize (maxWithZero
          ((cs.filter fun c => sizeBucket dim c.m_dock == SizeBucket.widest).map
            (childExtent dim al))) ∧
      (cs.foldl (fun a c => bucket dim al c a) acc).dockSize =
        acc.dockSize + ((cs.filter fun c => sizeBucket dim c.m_dock == SizeBucket.docked).map
          (childExtent dim al)).sum ∧
      (cs.foldl (fun a c => bucket dim al c a) acc).innerSize =
        acc.innerSize + ((cs.filter fun c => sizeBucket dim c.m_dock == SizeBucket.inner).map
          (childExtent dim al)).sum := by
  intro cs
  induction cs with
  | nil =>
    intro acc h
    simp [maxWithZero, h]
  | cons c cs ih =>
    intro acc h
    rw [List.foldl_cons, bucket_eq]
    have e1 : ∀ (v : Int) (t : List Int), maxWithZero (v :: t) = max v (maxWithZero t) :=
      fun _ _ => rfl
    cases hk : sizeBucket dim c.m_dock with
    | widest =>
      obtain ⟨i1, i2, i3⟩ := ih { acc with maxSize := max acc.maxSize (childExtent dim al c) }
        (le_max_of_le_left h)
      simp only [] at i1 i2 i3 ⊢
      rw [i1, i2, i3]
      simp [List.filter_cons, hk, e1, max_assoc]
    | docked =>
      obtain ⟨i1, i2, i3⟩ := ih { acc with dockSize := acc.dockSize + childExtent dim al c } h
      simp only [] at i1 i2 i3 ⊢
      rw [i1, i2, i3]
      simp [List.filter_cons, hk, add_assoc]
    | inner =>
      obtain ⟨i1, i2, i3⟩ := ih { acc with innerSize := acc.innerSize + childExtent dim al c } h
      simp only [] at i1 i2 i3 ⊢
      rw [i1, i2, i3]
      simp [List.filter_cons, hk, add_assoc]

/-- A size calculation writes inside the subtree of the control only. -/
theorem CalculateSize_local (r : Nat → Nat) :
    ∀ (fuel n : Nat) (dim : Dim) (w : World), ChildRank w r → r n < fuel →
      ∃ w1, CalculateSize fuel n dim w = some w1 ∧ CalcFrame w w1 ∧
        ∀ m, ¬ Sub w n m → w1.ctrl m = w.ctrl m := by
  intro fuel
  induction fuel with
  | zero => intro n _ _ _ h; omega
  | succ k ih =>
    intro n dim w hr hn
    unfold CalculateSize
    cases hli : (w.ctrl n).m_layoutItem with
    | some p =>
      have hpl : ProcessLayout n dim w = (true, (ProcessLayout n dim w).2) := by
        have h1 : (ProcessLayout n dim w).1 = true := by rw [ProcessLayout_fst, hli]; rfl
        rw [← h1]
      have hf := ProcessLayout_frame n dim w
      rw [hpl]
      refine ⟨_, rfl, hf, ?_⟩
      intro m hm
      have hmn : m ≠ n := fun e => hm (by rw [e]; exact Sub.refl n)
      unfold ProcessLayout
      rw [hli]
      simp [hmn]
    | none =>
      rw [ProcessLayout_none n dim w hli]
      simp only []
      obtain ⟨acc, w1, h1, hf1, hloc⟩ :=
        sizeLoop_rel (fun child => CalculateSize k child dim) dim (w.ctrl n).hasAlignment
          (fun w0 => CalcFrame w w0)
          (fun a b => ∀ m, ¬ Sub w n m → b.ctrl m = a.ctrl m)
          (fun _ _ _ => rfl) (fun a b c h1 h2 m hm => (h2 m hm).trans (h1 m hm))
          (w.ctrl n).Children
          (fun child hc w0 hw0 => by
            have hlt : r child < k := by have := hr n child hc; omega
            obtain ⟨w1, h1, h2, h3⟩ := ih child dim w0
              (ChildRank_of_frame hw0.calcToLayout hr) hlt
            refine ⟨w1, h1, CalcFrame_trans hw0 h2, ?_⟩
            intro m hm
            apply h3
            intro hs
            apply hm
            refine Sub.child hc (Sub_mono (fun x y hy => ?_) hs)
            rw [hw0.calcProj Control.Children (fun _ => rfl)] at hy
            exact hy) {} w (CalcFrame_refl w)
      unfold SizeOfChildren
      simp only [h1]
      have hfin : ∀ sz : Size, CalcFrame w (w1.modify n fun c => { c with m_preferredSize := sz }) ∧
          ∀ m, ¬ Sub w n m →
            (w1.modify n fun c => { c with m_preferredSize := sz }).ctrl m = w.ctrl m := by
        intro sz
        refine ⟨CalcFrame_trans hf1 (CalcFrame_modify w1 n _), ?_⟩
        intro m hm
        have hmn : m ≠ n := fun e => hm (by rw [e]; exact Sub.refl n)
        rw [modify_ctrl_ne _ _ hmn]
        exact hloc m hm
      cases dim with
      | X => exact ⟨_, rfl, hfin _⟩
      | Y => exact ⟨_, rfl, hfin _⟩

end BucketTotals
section RawContentSize

/-- In a forest the totals of the child loop are those of the loop body folded over the
shown children as they are after the loop. -/
theorem sizeLoop_final (r : Nat → Nat) (k : Nat) (dim : Dim) (al : Bool) (w : World)
    (hr : ChildRank w r) :
    ∀ (l : List Nat), l.Nodup → (∀ a, a ∈ l → r a < k) →
      (∀ a, a ∈ l → ∀ c, c ∈ l → Sub w c a → c = a) →
      ∀ acc wa, CalcFrame w wa →
        ∃ acc1 wb,
          sizeLoop (fun child => CalculateSize k child dim) dim al l acc wa = some (acc1, wb) ∧
          CalcFrame w wb ∧
          (∀ m, (∀ c, c ∈ l → ¬ Sub w c m) → wb.ctrl m = wa.ctrl m) ∧
          acc1 = ((l.filter fun c => !(w.ctrl c).m_bHidden).map wb.ctrl).foldl
            (fun a c => bucket dim al c a) acc := by
  intro l
  induction l with
  | nil =>
    intro _ _ _ acc wa hwa
    exact ⟨acc, wa, rfl, hwa, fun _ _ => rfl, rfl⟩
  | cons a l ih =>
    intro hnd hrk hdis acc wa hwa
    have hal : a ∉ l := (List.nodup_cons.mp hnd).1
    have ih1 := ih (List.nodup_cons.mp hnd).2 (fun x hx => hrk x (List.mem_cons_of_mem _ hx))
      (fun x hx c hc => hdis x (List.mem_cons_of_mem _ hx) c (List.mem_cons_of_mem _ hc))
    have hhid : (wa.ctrl a).m_bHidden = (w.ctrl a).m_bHidden :=
      hwa.calcProj Control.m_bHidden (fun _ => rfl) a
    by_cases hh : (w.ctrl a).m_bHidden = true
    · obtain ⟨acc1, wb, h1, h2, h3, h4⟩ := ih1 acc wa hwa
      refine ⟨acc1, wb, ?_, h2, ?_, ?_⟩
      · conv_lhs => unfold sizeLoop
        simp only [hhid, hh, if_true]
        exact h1
      · intro m hm
        exact h3 m (fun c hc => hm c (List.mem_cons_of_mem _ hc))
      · rw [List.filter_cons_of_neg (by simp [hh])]
        exact h4
    · obtain ⟨w1, hc1, hf1, hloc1⟩ := CalculateSize_local r k a dim wa
        (ChildRank_of_frame hwa.calcToLayout hr) (hrk a (List.mem_cons_self _ _))
      obtain ⟨acc1, wb, h1, h2, h3, h4⟩ := ih1 (bucket dim al (w1.ctrl a) acc) w1
        (CalcFrame_trans hwa hf1)
      have hsub : ∀ m, Sub wa a m → Sub w a m := by
        intro m hs
        refine Sub_mono (fun x y hy => ?_) hs
        rw [hwa.calcProj Control.Children (fun _ => rfl)] at hy
        exact hy
      have hba : wb.ctrl a = w1.ctrl a := by
        apply h3
        intro c hc hs
        have := hdis a (List.mem_cons_self _ _) c (List.mem_cons_of_mem _ hc) hs
        exact hal (this ▸ hc)
      refine ⟨acc1, wb, ?_, h2, ?_, ?_⟩
      · conv_lhs => unfold sizeLoop
        simp only [hhid, hh, if_false, hc1]
        exact h1
      · intro m hm
        rw [h3 m (fun c hc => hm c (List.mem_cons_of_mem _ hc))]
        exact hloc1 m (fun hs => hm a (List.mem_cons_self _ _) (hsub m hs))
      · rw [List.filter_cons_of_pos (by simpa using hh), List.map_cons, List.foldl_cons, hba]
        exact h4

/-- C24: in a forest `CalculateSize` on a container `n` without layout item returns, and
the content size it computes on the axis (before padding and size-flag policy) is
`max(widest, docked + inner)`: `widest` is the largest size among the shown children in
the maximum bucket (on the horizontal axis the Top/Bottom-docked and the undocked ones, on
the vertical axis the Left/Right-docked and the undocked ones), `docked` the sum over the
shown children of the additive dock bucket (Left/Right horizontally, Top/Bottom
vertically) and `inner` the sum over the shown Fill children; a child counts with its
preferred size after its own calculation plus its margins. The inner bucket is added to the
dock bucket, and the preferred size stored is the size-flag policy applied to that content
size plus the padding. -/
theorem CalculateSize_raw_from_buckets (r : Nat → Nat) (fuel n : Nat) (dim : Dim) (w : World)
    (hf : Forest w r) (hfuel : r n < fuel) (hli : (w.ctrl n).m_layoutItem = none) :
    ∃ acc w0 w1,
      sizeLoop (fun child => CalculateSize (fuel - 1) child dim) dim (w.ctrl n).hasAlignment
        (w.ctrl n).Children {} w = some (acc, w0) ∧
      CalculateSize fuel n dim w = some w1 ∧
      acc.maxSize = widestBucket dim n w1 ∧
      acc.dockSize = dockBucket dim n w1 ∧
      acc.innerSize = innerBucket dim n w1 ∧
      acc.raw = max (widestBucket dim n w1) (dockBucket dim n w1 + innerBucket dim n w1) ∧
      (w1.ctrl n).m_preferredSize.along dim =
        applySizeFlag ((w.ctrl n).m_sizeFlags.along dim) ((w.ctrl n).m_bounds.extent dim)
          (max (widestBucket dim n w1) (dockBucket dim n w1 + innerBucket dim n w1) +
            (w.ctrl n).m_padding.along dim)
          ((w.ctrl n).m_minimumSize.along dim) ((w.ctrl n).m_maximumSize.along dim) := by
  obtain ⟨hr, hs, hnd⟩ := hf
  obtain ⟨k, rfl⟩ := Nat.exists_eq_succ_of_ne_zero (show fuel ≠ 0 by omega)
  simp only [Nat.add_one_sub_one]
  obtain ⟨acc, w0, sz, h0, hf0, hcalc, hsz2, _⟩ := CalculateSize_result r k n dim w hr hfuel hli
  obtain ⟨acc1, wb, h1, _, _, h4⟩ := sizeLoop_final r k dim (w.ctrl n).hasAlignment w hr
    (w.ctrl n).Children (hnd n) (fun a ha => by have := hr n a ha; omega)
    (fun a ha c hc hsub => siblings_disjoint hr hs hc ha hsub (Sub.refl a)) {} w
    (CalcFrame_refl w)
  rw [h0] at h1
  simp only [Option.some.injEq, Prod.mk.injEq] at h1
  obtain ⟨hacc, hwb⟩ := h1
  subst hwb
  subst hacc
  set w1 := w0.modify n fun c => { c with m_preferredSize := sz } with hw1
  have hnc : ∀ c, c ∈ (w.ctrl n).Children → w1.ctrl c = w0.ctrl c := by
    intro c hc
    have hne : c ≠ n := by
      intro e
      have := hr n c hc
      rw [e] at this
      omega
    simp [hw1, hne]
  have hchildren : (w1.ctrl n).Children = (w.ctrl n).Children := by
    simp only [hw1, modify_ctrl_same]
    exact hf0.calcProj Control.Children (fun _ => rfl) n
  have halign : (w1.ctrl n).hasAlignment = (w.ctrl n).hasAlignment := by
    simp only [hw1, modify_ctrl_same]
    exact hf0.calcProj Control.hasAlignment (fun _ => rfl) n
  have hshown : shownChildren n w1 = (w.ctrl n).Children.filter fun c => !(w.ctrl c).m_bHidden := by
    unfold shownChildren
    rw [hchildren]
    apply List.filter_congr
    intro c hc
    rw [hnc c hc, hf0.calcProj Control.m_bHidden (fun _ => rfl) c]
  have hmap : ∀ (b : SizeBucket),
      (bucketChildren b dim n w1).map
          (fun c => childExtent dim (w1.ctrl n).hasAlignment (w1.ctrl c)) =
        ((((w.ctrl n).Children.filter fun c => !(w.ctrl c).m_bHidden).map w0.ctrl).filter
          fun c => sizeBucket dim c.m_dock == b).map
          (childExtent dim (w.ctrl n).hasAlignment) := by
    intro b
    unfold bucketChildren
    rw [hshown, halign, List.filter_map, List.map_map]
    have hmem : ∀ c, c ∈ (w.ctrl n).Children.filter (fun c => !(w.ctrl c).m_bHidden) →
        w1.ctrl c = w0.ctrl c := fun c hc => hnc c (List.mem_of_mem_filter hc)
    have e1 : List.filter (fun c => sizeBucket dim (w1.ctrl c).m_dock == b)
          ((w.ctrl n).Children.filter fun c => !(w.ctrl c).m_bHidden) =
        List.filter ((fun c => sizeBucket dim c.m_dock == b) ∘ w0.ctrl)
          ((w.ctrl n).Children.filter fun c => !(w.ctrl c).m_bHidden) := by
      apply List.filter_congr
      intro c hc
      simp only [Function.comp, hmem c hc]
    rw [e1]
    apply List.map_congr_left
    intro c hc
    simp only [Function.comp, hmem c (List.mem_of_mem_filter hc)]
  obtain ⟨f1, f2, f3⟩ := bucket_foldl dim (w.ctrl n).hasAlignment
    (((w.ctrl n).Children.filter fun c => !(w.ctrl c).m_bHidden).map w0.ctrl) {} (le_refl _)
  have g1 : ((((w.ctrl n).Children.filter fun c => !(w.ctrl c).m_bHidden).map w0.ctrl).foldl
      (fun a c => bucket dim (w.ctrl n).hasAlignment c a) {}).maxSize = widestBucket dim n w1 := by
    rw [f1]
    unfold widestBucket
    rw [hmap]
    exact max_eq_right (maxWithZero_nonneg _)
  have g2 : ((((w.ctrl n).Children.filter fun c => !(w.ctrl c).m_bHidden).map w0.ctrl).foldl
      (fun a c => bucket dim (w.ctrl n).hasAlignment c a) {}).dockSize = dockBucket dim n w1 := by
    rw [f2]
    unfold dockBucket
    rw [hmap]
    simp
  have g3 : ((((w.ctrl n).Children.filter fun c => !(w.ctrl c).m_bHidden).map w0.ctrl).foldl
      (fun a c => bucket dim (w.ctrl n).hasAlignment c a) {}).innerSize = innerBucket dim n w1 := by
    rw [f3]
    unfold innerBucket
    rw [hmap]
    simp
  have graw : (((((w.ctrl n).Children.filter fun c => !(w.ctrl c).m_bHidden).map w0.ctrl).foldl
      (fun a c => bucket dim (w.ctrl n).hasAlignment c a) {}).raw) =
      max (widestBucket dim n w1) (dockBucket dim n w1 + innerBucket dim n w1) := by
    unfold Buckets.raw
    rw [g1, g2, g3]
  refine ⟨acc, w0, w1, h0, hcalc, by rw [h4]; exact g1, by rw [h4]; exact g2,
    by rw [h4]; exact g3, by rw [h4]; exact graw, ?_⟩
  simp only [hw1, modify_ctrl_same]
  rw [hsz2, h4, graw]

theorem SingleParent_ofList (cs : List Control)
    (h : ∀ i, i < cs.length → ∀ j, j < cs.length → ∀ c, c ∈ (cs.getD i {}).Children →
      c ∈ (cs.getD j {}).Children → i = j) :
    SingleParent (World.ofList cs) := by
  intro p q c hp hq
  have hlt : ∀ i, c ∈ ((World.ofList cs).ctrl i).Children → i < cs.length := by
    intro i hi
    by_contra hge
    have : cs.getD i {} = ({} : Control) := by
      rw [List.getD_eq_getElem?_getD, List.getElem?_eq_none (by omega)]
      rfl
    have hi' : c ∈ (cs.getD i {}).Children := hi
    rw [this] at hi'
    simp at hi'
  exact h p (hlt p hp) q (hlt q hq) c hp hq

theorem Forest_ofList (cs : List Control) (r : Nat → Nat)
    (h1 : ∀ i, i < cs.length → ∀ c, c ∈ (cs.getD i {}).Children → r c < r i)
    (h2 : ∀ i, i < cs.length → ∀ j, j < cs.length → ∀ c, c ∈ (cs.getD i {}).Children →
      c ∈ (cs.getD j {}).Children → i = j)
    (h3 : ∀ i, i < cs.length → (cs.getD i {}).Children.Nodup) :
    Forest (World.ofList cs) r :=
  ⟨ChildRank_ofList cs r h1, SingleParent_ofList cs h2,
    fun m => ofList_forall cs (fun _ c => c.Children.Nodup) (fun _ => List.nodup_nil) h3 m⟩

/-- C24 witness: in `bucketTree` the shown children give, on the horizontal axis, the
maximum bucket 25 (the Top-docked child), the dock bucket 10 (the Left-docked child) and
the inner bucket 20 (the Fill child): the content width is max(25, 10 + 20) = 30 and the
Elastic container stores 30 plus its padding 2. -/
theorem CalculateSize_raw_from_buckets_witness :
    ∃ w1, CalculateSize 2 0 Dim.X bucketTree = some w1 ∧
      widestBucket Dim.X 0 w1 = 25 ∧ dockBucket Dim.X 0 w1 = 10 ∧
      innerBucket Dim.X 0 w1 = 20 ∧ (w1.ctrl 0).m_preferredSize.width = 32 := by
  obtain ⟨_, _, w1, _, h1, _⟩ := CalculateSize_raw_from_buckets flatRank 2 0 Dim.X bucketTree
    (Forest_ofList _ _ (by decide) (by decide) (by decide)) (by decide) (by decide)
  have h2 : (CalculateSize 2 0 Dim.X bucketTree).map (fun v =>
      (widestBucket Dim.X 0 v, dockBucket Dim.X 0 v, innerBucket Dim.X 0 v,
        (v.ctrl 0).m_preferredSize.width)) = some (25, 10, 20, 32) := by decide
  rw [h1] at h2
  simp only [Option.map_some', Option.some.injEq, Prod.mk.injEq] at h2
  exact ⟨w1, h1, h2.1, h2.2.1, h2.2.2.1, h2.2.2.2⟩

/-- C24 counterexample: in `bucketTree` the three buckets are 25, 10 and 20 on the
horizontal axis and 7, 4 and 5 on the vertical axis. The content sizes computed are 30 and
9 (the Elastic container with padding 2 stores 32 and 11), not the maxima 25 and 7 of the
three buckets. -/
theorem CalculateSize_raw_from_buckets_counterexample :
    (CalculateSize 2 0 Dim.X bucketTree).map (fun v =>
        (widestBucket Dim.X 0 v, dockBucket Dim.X 0 v, innerBucket Dim.X 0 v,
          (v.ctrl 0).m_preferredSize.width - (v.ctrl 0).m_padding.along Dim.X))
      = some (25, 10, 20, 30) ∧
    (30 : Int) ≠ max 25 (max 10 20) ∧
    (CalculateSize 2 0 Dim.Y bucketTree).map (fun v =>
        (widestBucket Dim.Y 0 v, dockBucket Dim.Y 0 v, innerBucket Dim.Y 0 v,
          (v.ctrl 0).m_preferredSize.height - (v.ctrl 0).m_padding.along Dim.Y))
      = some (7, 4, 5, 9) ∧
    (9 : Int) ≠ max 7 (max 4 5) := by
  refine ⟨by decide, by decide, by decide, by decide⟩

end RawContentSize

section SingleFlagTable

@[simp] theorem hasFlag_Left_Bottom : hasFlag Position.Left Position.Bottom = false := by decide

@[simp] theorem hasFlag_Left_Right : hasFlag Position.Left Position.Right = false := by decide

@[simp] theorem hasFlag_Right_Top : hasFlag Position.Right Position.Top = false := by decide

@[simp] theorem hasFlag_Right_Bottom : hasFlag Position.Right Position.Bottom = false := by decide

@[simp] theorem hasFlag_Right_Left : hasFlag Position.Right Position.Left = false := by decide

@[simp] theorem hasFlag_Right_Right : hasFlag Position.Right Position.Right = true := by decide

@[simp] theorem hasFlag_Right_Fill : hasFlag Position.Right Position.Fill = false := by decide

@[simp] theorem hasFlag_Top_Top : hasFlag Position.Top Position.Top = true := by decide

@[simp] theorem hasFlag_Top_Bottom : hasFlag Position.Top Position.Bottom = false := by decide

@[simp] theorem hasFlag_Top_Left : hasFlag Position.Top Position.Left = false := by decide

@[simp] theorem hasFlag_Top_Right : hasFlag Position.Top Position.Right = false := by decide

@[simp] theorem hasFlag_Top_Fill : hasFlag Position.Top Position.Fill = false := by decide

@[simp] theorem hasFlag_Bottom_Top : hasFlag Position.Bottom Position.Top = false := by decide

@[simp] theorem hasFlag_Bottom_Bottom : hasFlag Position.Bottom Position.Bottom = true := by decide

@[simp] theorem hasFlag_Bottom_Left : hasFlag Position.Bottom Position.Left = false := by decide

@[simp] theorem hasFlag_Bottom_Right : hasFlag Position.Bottom Position.Right = false := by decide

@[simp] theorem hasFlag_Bottom_Fill : hasFlag Position.Bottom Position.Fill = false := by decide

@[simp] theorem hasFlag_CenterV_Top : hasFlag Position.CenterV Position.Top = false := by decide

@[simp] theorem hasFlag_CenterV_Bottom : hasFlag Position.CenterV Position.Bottom = false := by decide

@[simp] theorem hasFlag_CenterV_Left : hasFlag Position.CenterV Position.Left = false := by decide

@[simp] theorem hasFlag_CenterV_Right : hasFlag Position.CenterV Position.Right = false := by decide

@[simp] theorem hasFlag_CenterV_Fill : hasFlag Position.CenterV Position.Fill = false := by decide

@[simp] theorem hasFlag_CenterH_Top : hasFlag Position.CenterH Position.Top = false := by decide

@[simp] theorem hasFlag_CenterH_Bottom : hasFlag Position.CenterH Position.Bottom = false := by decide

@[simp] theorem hasFlag_CenterH_Left : hasFlag Position.CenterH Position.Left = false := by decide

@[simp] theorem hasFlag_CenterH_Right : hasFlag Position.CenterH Position.Right = false := by decide

@[simp] theorem hasFlag_CenterH_Fill : hasFlag Position.CenterH Position.Fill = false := by decide

@[simp] theorem dock_Left_ne_Top : Position.Left ≠ Position.Top := by decide

@[simp] theorem dock_Left_ne_Bottom : Position.Left ≠ Position.Bottom := by decide

@[simp] theorem dock_Left_ne_Right : Position.Left ≠ Position.Right := by decide

@[simp] theorem dock_Left_ne_Fill : Position.Left ≠ Position.Fill := by decide

@[simp] theorem dock_Left_ne_None : Position.Left ≠ Position.None := by decide

@[simp] theorem dock_Right_ne_Top : Position.Right ≠ Position.Top := by decide

@[simp] theorem dock_Right_ne_Bottom : Position.Right ≠ Position.Bottom := by decide

@[simp] theorem dock_Right_ne_Left : Position.Right ≠ Position.Left := by decide

@[simp] theorem dock_Right_ne_Fill : Position.Right ≠ Position.Fill := by decide

@[simp] theorem dock_Right_ne_None : Position.Right ≠ Position.None := by decide

@[simp] theorem dock_Top_ne_Bottom : Position.Top ≠ Position.Bottom := by decide

@[simp] theorem dock_Top_ne_Left : Position.Top ≠ Position.Left := by decide

@[simp] theorem dock_Top_ne_Right : Position.Top ≠ Position.Right := by decide

@[simp] theorem dock_Top_ne_Fill : Position.Top ≠ Position.Fill := by decide

@[simp] theorem dock_Top_ne_None : Position.Top ≠ Position.None := by decide

@[simp] theorem dock_Bottom_ne_Top : Position.Bottom ≠ Position.Top := by decide

@[simp] theorem dock_Bottom_ne_Left : Position.Bottom ≠ Position.Left := by decide

@[simp] theorem dock_Bottom_ne_Right : Position.Bottom ≠ Position.Right := by decide

@[simp] theorem dock_Bottom_ne_Fill : Position.Bottom ≠ Position.Fill := by decide

@[simp] theorem dock_Bottom_ne_None : Position.Bottom ≠ Position.None := by decide

@[simp] theorem dock_CenterV_ne_Top : Position.CenterV ≠ Position.Top := by decide

@[simp] theorem dock_CenterV_ne_Bottom : Position.CenterV ≠ Position.Bottom := by decide

@[simp] theorem dock_CenterV_ne_Left : Position.CenterV ≠ Position.Left := by decide

@[simp] theorem dock_CenterV_ne_Right : Position.CenterV ≠ Position.Right := by decide

@[simp] theorem dock_CenterV_ne_Fill : Position.CenterV ≠ Position.Fill := by decide

@[simp] theorem dock_CenterV_ne_None : Position.CenterV ≠ Position.None := by decide

@[simp] theorem dock_CenterH_ne_Top : Position.CenterH ≠ Position.Top := by decide

@[simp] theorem dock_CenterH_ne_Bottom : Position.CenterH ≠ Position.Bottom := by decide

@[simp] theorem dock_CenterH_ne_Left : Position.CenterH ≠ Position.Left := by decide

@[simp] theorem dock_CenterH_ne_Right : Position.CenterH ≠ Position.Right := by decide

@[simp] theorem dock_CenterH_ne_Fill : Position.CenterH ≠ Position.Fill := by decide

@[simp] theorem dock_CenterH_ne_None : Position.CenterH ≠ Position.None := by decide

@[simp] theorem dock_Fill_ne_Top : Position.Fill ≠ Position.Top := by decide

@[simp] theorem dock_Fill_ne_Bottom : Position.Fill ≠ Position.Bottom := by decide

@[simp] theorem dock_Fill_ne_Left : Position.Fill ≠ Position.Left := by decide

@[simp] theorem dock_Fill_ne_Right : Position.Fill ≠ Position.Right := by decide

@[simp] theorem dock_Fill_ne_None : Position.Fill ≠ Position.None := by decide

end SingleFlagTable
section VerticalDockLoop

theorem topHeights_nil (w : World) : topHeights w [] = 0 := by simp [topHeights]

theorem bottomHeights_nil (w : World) : bottomHeights w [] = 0 := by simp [bottomHeights]

theorem topHeights_cons (w : World) (a : Nat) (l : List Nat) :
    topHeights w (a :: l) =
      (if (w.ctrl a).m_bHidden = false ∧ (w.ctrl a).m_dock = Position.Top then (w.ctrl a).vSpan
        else 0) + topHeights w l := by
  unfold topHeights
  by_cases h : (w.ctrl a).m_bHidden = false ∧ (w.ctrl a).m_dock = Position.Top
  · rw [if_pos h, List.filter_cons_of_pos (by simp [h.1, h.2])]
    simp
  · rw [if_neg h, List.filter_cons_of_neg (by
      simp only [Bool.and_eq_true, Bool.not_eq_true', beq_iff_eq]
      exact h)]
    simp

theorem bottomHeights_cons (w : World) (a : Nat) (l : List Nat) :
    bottomHeights w (a :: l) =
      (if (w.ctrl a).m_bHidden = false ∧ (w.ctrl a).m_dock = Position.Bottom then
        (w.ctrl a).vSpan else 0) + bottomHeights w l := by
  unfold bottomHeights
  by_cases h : (w.ctrl a).m_bHidden = false ∧ (w.ctrl a).m_dock = Position.Bottom
  · rw [if_pos h, List.filter_cons_of_pos (by simp [h.1, h.2])]
    simp
  · rw [if_neg h, List.filter_cons_of_neg (by
      simp only [Bool.and_eq_true, Bool.not_eq_true', beq_iff_eq]
      exact h)]
    simp

theorem topHeights_congr (w w1 : World) (l : List Nat)
    (h : ∀ m, eraseChild (w1.ctrl m) = eraseChild (w.ctrl m)) :
    topHeights w1 l = topHeights w l := by
  have hh : ∀ m, (w1.ctrl m).m_bHidden = (w.ctrl m).m_bHidden := fun m => by
    have := congrArg Control.m_bHidden (h m); exact this
  have hd : ∀ m, (w1.ctrl m).m_dock = (w.ctrl m).m_dock := fun m => by
    have := congrArg Control.m_dock (h m); exact this
  have hv : ∀ m, (w1.ctrl m).vSpan = (w.ctrl m).vSpan := fun m => by
    have := congrArg Control.vSpan (h m); exact this
  unfold topHeights
  simp only [hh, hd, hv]

theorem bottomHeights_congr (w w1 : World) (l : List Nat)
    (h : ∀ m, eraseChild (w1.ctrl m) = eraseChild (w.ctrl m)) :
    bottomHeights w1 l = bottomHeights w l := by
  have hh : ∀ m, (w1.ctrl m).m_bHidden = (w.ctrl m).m_bHidden := fun m => by
    have := congrArg Control.m_bHidden (h m); exact this
  have hd : ∀ m, (w1.ctrl m).m_dock = (w.ctrl m).m_dock := fun m => by
    have := congrArg Control.m_dock (h m); exact this
  have hv : ∀ m, (w1.ctrl m).vSpan = (w.ctrl m).vSpan := fun m => by
    have := congrArg Control.vSpan (h m); exact this
  unfold bottomHeights
  simp only [hh, hd, hv]

theorem ArrangeFrame.eraseChild_all {S : List Nat} {w w1 : World} (h : ArrangeFrame S w w1)
    (m : Nat) : eraseChild (w1.ctrl m) = eraseChild (w.ctrl m) := by
  by_cases hm : m ∈ S
  · exact h.2.2.1 m hm
  · exact eraseChild_of_eraseInner (h.2.2.2 m hm)

/-- One turn of the vertical dock loop on a shown child with one dock flag. -/
theorem dockStepY_single (d : Nat → Nat) (rf : Nat) (hrf : ∀ x, d x < rf) (a : Nat) (ib : Rect)
    (w : World) (hd : ParentDepth w d) (hs : (w.ctrl a).m_dock ∈ singleDockFlags) :
    ∃ wa, dockStepY rf a ib w =
        some (Rect.mk ib.x
          (ib.y + (if (w.ctrl a).m_dock = Position.Top then (w.ctrl a).vSpan else 0)) ib.w
          (ib.h - ((if (w.ctrl a).m_dock = Position.Top then (w.ctrl a).vSpan else 0) +
            (if (w.ctrl a).m_dock = Position.Bottom then (w.ctrl a).vSpan else 0))), wa) ∧
      ArrangeFrame [a] w wa ∧
      (wa.ctrl a).m_bounds = dockedBoundsY (w.ctrl a) ib.y ib.h := by
  have hset := fun x y wd ht => SetBoundsXYWH_spec d rf a x y wd ht w hd (hrf a)
  simp only [singleDockFlags, List.mem_cons, List.mem_singleton, List.not_mem_nil, or_false]
    at hs
  rcases hs with h | h | h | h | h | h | h
  · -- Left
    by_cases hfx : (w.ctrl a).m_sizeFlags.vertical = SizeFlag.Fixed
    · obtain ⟨w1, h1, hb1⟩ := hset (w.ctrl a).m_bounds.x (ib.y + (w.ctrl a).m_margin.top)
        (w.ctrl a).m_bounds.w (w.ctrl a).m_bounds.h
      refine ⟨w1, ?_, hb1.toArrange (List.mem_singleton_self a), ?_⟩
      · simp [dockStepY, h, hfx, h1]
      · rw [hb1.bounds_eq]
        simp [dockedBoundsY, h, hfx]
    · obtain ⟨w1, h1, hb1⟩ := hset (w.ctrl a).m_bounds.x (ib.y + (w.ctrl a).m_margin.top)
        (w.ctrl a).m_bounds.w (ib.h - (w.ctrl a).m_margin.top - (w.ctrl a).m_margin.bottom)
      refine ⟨w1, ?_, hb1.toArrange (List.mem_singleton_self a), ?_⟩
      · simp [dockStepY, h, hfx, h1]
      · rw [hb1.bounds_eq]
        simp [dockedBoundsY, h, hfx]
  · -- Right
    by_cases hfx : (w.ctrl a).m_sizeFlags.vertical = SizeFlag.Fixed
    · obtain ⟨w1, h1, hb1⟩ := hset (w.ctrl a).m_bounds.x (ib.y + (w.ctrl a).m_margin.top)
        (w.ctrl a).m_bounds.w (w.ctrl a).m_bounds.h
      refine ⟨w1, ?_, hb1.toArrange (List.mem_singleton_self a), ?_⟩
      · simp [dockStepY, h, hfx, h1]
      · rw [hb1.bounds_eq]
        simp [dockedBoundsY, h, hfx]
    · obtain ⟨w1, h1, hb1⟩ := hset (w.ctrl a).m_bounds.x (ib.y + (w.ctrl a).m_margin.top)
        (w.ctrl a).m_bounds.w (ib.h - (w.ctrl a).m_margin.top - (w.ctrl a).m_margin.bottom)
      refine ⟨w1, ?_, hb1.toArrange (List.mem_singleton_self a), ?_⟩
      · simp [dockStepY, h, hfx, h1]
      · rw [hb1.bounds_eq]
        simp [dockedBoundsY, h, hfx]
  · -- Top
    obtain ⟨w1, h1, hb1⟩ := hset (w.ctrl a).m_bounds.x (ib.y + (w.ctrl a).m_margin.top)
      (w.ctrl a).m_bounds.w (w.ctrl a).m_preferredSize.height
    refine ⟨w1, ?_, hb1.toArrange (List.mem_singleton_self a), ?_⟩
    · simp [dockStepY, h, h1, Control.vSpan]
      ring
    · rw [hb1.bounds_eq]
      simp [dockedBoundsY, h]
  · -- Bottom
    obtain ⟨w1, h1, hb1⟩ := hset (w.ctrl a).m_bounds.x
      ((ib.y + ib.h) - (w.ctrl a).m_preferredSize.height - (w.ctrl a).m_margin.bottom)
      (w.ctrl a).m_bounds.w (w.ctrl a).m_preferredSize.height
    refine ⟨w1, ?_, hb1.toArrange (List.mem_singleton_self a), ?_⟩
    · simp [dockStepY, h, h1, Control.vSpan]
      ring
    · rw [hb1.bounds_eq]
      simp [dockedBoundsY, h]
  · -- CenterV
    refine ⟨w, ?_, ArrangeFrame_refl _ _, ?_⟩
    · simp [dockStepY, h]
    · simp [dockedBoundsY, h]
  · -- CenterH
    refine ⟨w, ?_, ArrangeFrame_refl _ _, ?_⟩
    · simp [dockStepY, h]
    · simp [dockedBoundsY, h]
  · -- Fill
    refine ⟨w, ?_, ArrangeFrame_refl _ _, ?_⟩
    · simp [dockStepY, h]
    · simp [dockedBoundsY, h]

end VerticalDockLoop
section VerticalDockSums

theorem dockedBoundsY_congr {c c1 : Control} (h : eraseInner c1 = eraseInner c) (iby ibh : Int) :
    dockedBoundsY c1 iby ibh = dockedBoundsY c iby ibh := by
  have e : ∀ x : Control, dockedBoundsY (eraseInner x) iby ibh = dockedBoundsY x iby ibh :=
    fun _ => rfl
  rw [← e c1, ← e c, h]

theorem SingleDock_congr {w w1 : World} {l : List Nat} (h : SingleDock w l)
    (he : ∀ m, eraseChild (w1.ctrl m) = eraseChild (w.ctrl m)) : SingleDock w1 l := by
  intro c hc hh
  have h1 : (w1.ctrl c).m_bHidden = (w.ctrl c).m_bHidden := by
    have := congrArg Control.m_bHidden (he c); exact this
  have h2 : (w1.ctrl c).m_dock = (w.ctrl c).m_dock := by
    have := congrArg Control.m_dock (he c); exact this
  rw [h2]
  exact h c hc (by rw [← h1]; exact hh)

/-- The vertical dock loop over shown children with one dock flag each: the remaining
rectangle loses the Top spaces at its top and the Bottom spaces at its bottom, and every
shown child gets the bounds of its turn. -/
theorem dockLoop_vertical (d : Nat → Nat) (rf : Nat) (hrf : ∀ x, d x < rf) :
    ∀ (l : List Nat) (ib : Rect) (w : World), ParentDepth w d → l.Nodup → SingleDock w l →
      ∃ ib1 w1, dockLoop (dockStepY rf) l ib w = some (ib1, w1) ∧
        ArrangeFrame l w w1 ∧
        ib1 = Rect.mk ib.x (ib.y + topHeights w l) ib.w
          (ib.h - (topHeights w l + bottomHeights w l)) ∧
        ∀ pre c post, l = pre ++ c :: post → (w.ctrl c).m_bHidden = false →
          (w1.ctrl c).m_bounds = dockedBoundsY (w.ctrl c) (ib.y + topHeights w pre)
            (ib.h - (topHeights w pre + bottomHeights w pre)) := by
  intro l
  induction l with
  | nil =>
    intro ib w _ _ _
    refine ⟨ib, w, rfl, ArrangeFrame_refl _ _, ?_, ?_⟩
    · simp [topHeights_nil, bottomHeights_nil]
    · intro pre c post h
      simp at h
  | cons a l ih =>
    intro ib w hd hnd hsd
    have hal : a ∉ l := (List.nodup_cons.mp hnd).1
    have hndl : l.Nodup := (List.nodup_cons.mp hnd).2
    have hsdl : SingleDock w l := fun c hc => hsd c (List.mem_cons_of_mem a hc)
    by_cases hh : (w.ctrl a).m_bHidden = true
    · obtain ⟨ib1, w1, h1, hf1, hib1, hb1⟩ := ih ib w hd hndl hsdl
      have ht : ∀ t, topHeights w (a :: t) = topHeights w t := by
        intro t; rw [topHeights_cons]; simp [hh]
      have hbt : ∀ t, bottomHeights w (a :: t) = bottomHeights w t := by
        intro t; rw [bottomHeights_cons]; simp [hh]
      refine ⟨ib1, w1, by simp [dockLoop, hh, h1],
        ArrangeFrame_mono hf1 (fun m hm => List.mem_cons_of_mem a hm), ?_, ?_⟩
      · rw [hib1, ht, hbt]
      · intro pre c post hl hc
        cases pre with
        | nil =>
          simp at hl
          obtain ⟨rfl, rfl⟩ := hl
          rw [hh] at hc
          cases hc
        | cons b pre =>
          simp at hl
          obtain ⟨rfl, rfl⟩ := hl
          rw [ht, hbt]
          exact hb1 pre c post rfl hc
    · have hshown : (w.ctrl a).m_bHidden = false := by simpa using hh
      obtain ⟨wa, hstep, hfa, hba⟩ := dockStepY_single d rf hrf a ib w hd
        (hsd a (List.mem_cons_self a l) hshown)
      have hea := hfa.eraseChild_all
      obtain ⟨ib1, w1, h1, hf1, hib1, hb1⟩ := ih
        (Rect.mk ib.x
          (ib.y + (if (w.ctrl a).m_dock = Position.Top then (w.ctrl a).vSpan else 0)) ib.w
          (ib.h - ((if (w.ctrl a).m_dock = Position.Top then (w.ctrl a).vSpan else 0) +
            (if (w.ctrl a).m_dock = Position.Bottom then (w.ctrl a).vSpan else 0)))) wa
        (ParentDepth_of_frame hfa.arrangeToLayout hd) hndl (SingleDock_congr hsdl hea)
      have ht : ∀ t, topHeights w (a :: t) =
          (if (w.ctrl a).m_dock = Position.Top then (w.ctrl a).vSpan else 0) + topHeights w t := by
        intro t; rw [topHeights_cons]; simp [hshown]
      have hbt : ∀ t, bottomHeights w (a :: t) =
          (if (w.ctrl a).m_dock = Position.Bottom then (w.ctrl a).vSpan else 0) +
            bottomHeights w t := by
        intro t; rw [bottomHeights_cons]; simp [hshown]
      have hfa' : ArrangeFrame (a :: l) w wa :=
        ArrangeFrame_mono hfa (fun m hm => by simp at hm; simp [hm])
      have hf1' : ArrangeFrame (a :: l) wa w1 :=
        ArrangeFrame_mono hf1 (fun m hm => List.mem_cons_of_mem a hm)
      refine ⟨ib1, w1, by simp [dockLoop, hh, hstep, h1], ArrangeFrame_trans hfa' hf1', ?_, ?_⟩
      · rw [hib1, topHeights_congr w wa l hea, bottomHeights_congr w wa l hea, ht, hbt]
        simp only [Rect.mk.injEq, true_and]
        constructor <;> ring
      · intro pre c post hl hc
        cases pre with
        | nil =>
          simp at hl
          obtain ⟨rfl, rfl⟩ := hl
          rw [hf1.bounds_notin hal, hba, topHeights_nil, bottomHeights_nil]
          simp
        | cons b pre =>
          simp at hl
          obtain ⟨rfl, rfl⟩ := hl
          have hcl : c ∈ pre ++ c :: post := by simp
          have hca : c ∉ [a] := by
            simp; intro e; subst e; exact hal hcl
          have hcw : (wa.ctrl c).m_bHidden = false := by
            have := congrArg Control.m_bHidden (hea c)
            have e : (wa.ctrl c).m_bHidden = (w.ctrl c).m_bHidden := this
            rw [e]; exact hc
          rw [hb1 pre c post rfl hcw, dockedBoundsY_congr (hfa.2.2.2 c hca),
            topHeights_congr w wa pre hea, bottomHeights_congr w wa pre hea, ht, hbt]
          congr 1 <;> ring

/-- The vertical fill loop: every child with the Fill flag is stretched over the remaining
rectangle inside its margins, every other child keeps its bounds. -/
theorem fillLoop_vertical (d : Nat → Nat) (rf : Nat) (hrf : ∀ x, d x < rf) (ib : Rect) :
    ∀ (l : List Nat) (w : World), ParentDepth w d → l.Nodup →
      ∃ w1, fillLoop (fun child => fillStepY rf child ib) l w = some w1 ∧
        ArrangeFrame l w w1 ∧
        (∀ c, c ∈ l → hasFlag (w.ctrl c).m_dock Position.Fill = false →
          (w1.ctrl c).m_bounds = (w.ctrl c).m_bounds) ∧
        (∀ c, c ∈ l → hasFlag (w.ctrl c).m_dock Position.Fill = true →
          (w1.ctrl c).m_bounds = Rect.mk (w.ctrl c).m_bounds.x (ib.y + (w.ctrl c).m_margin.top)
            (w.ctrl c).m_bounds.w
            (ib.h - (w.ctrl c).m_margin.top - (w.ctrl c).m_margin.bottom)) := by
  intro l
  induction l with
  | nil =>
    intro w _ _
    exact ⟨w, rfl, ArrangeFrame_refl _ _, fun c hc => by simp at hc, fun c hc => by simp at hc⟩
  | cons a l ih =>
    intro w hd hnd
    have hal : a ∉ l := (List.nodup_cons.mp hnd).1
    have hndl : l.Nodup := (List.nodup_cons.mp hnd).2
    obtain ⟨wa, hstep, hfa, hno, hyes⟩ : ∃ wa,
        fillStepY rf a ib w = some wa ∧ ArrangeFrame [a] w wa ∧
        (hasFlag (w.ctrl a).m_dock Position.Fill = false →
          (wa.ctrl a).m_bounds = (w.ctrl a).m_bounds) ∧
        (hasFlag (w.ctrl a).m_dock Position.Fill = true →
          (wa.ctrl a).m_bounds = Rect.mk (w.ctrl a).m_bounds.x (ib.y + (w.ctrl a).m_margin.top)
            (w.ctrl a).m_bounds.w
            (ib.h - (w.ctrl a).m_margin.top - (w.ctrl a).m_margin.bottom)) := by
      by_cases hf : hasFlag (w.ctrl a).m_dock Position.Fill = true
      · obtain ⟨w1, h1, hb1⟩ := SetBoundsXYWH_spec d rf a (w.ctrl a).m_bounds.x
          (ib.y + (w.ctrl a).m_margin.top) (w.ctrl a).m_bounds.w
          (ib.h - (w.ctrl a).m_margin.top - (w.ctrl a).m_margin.bottom) w hd (hrf a)
        refine ⟨w1, ?_, hb1.toArrange (List.mem_singleton_self a), ?_, ?_⟩
        · simp [fillStepY, hf, h1]
        · intro h; rw [hf] at h; cases h
        · intro _; rw [hb1.bounds_eq]
      · have hf0 : hasFlag (w.ctrl a).m_dock Position.Fill = false := by simpa using hf
        exact ⟨w, by simp [fillStepY, hf0], ArrangeFrame_refl _ _, fun _ => rfl,
          fun h => by rw [hf0] at h; cases h⟩
    have hdock : ∀ m, (wa.ctrl m).m_dock = (w.ctrl m).m_dock :=
      hfa.arrangeProj Control.m_dock (fun _ => rfl) (fun _ => rfl)
    have hmar : ∀ m, (wa.ctrl m).m_margin = (w.ctrl m).m_margin :=
      hfa.arrangeProj Control.m_margin (fun _ => rfl) (fun _ => rfl)
    obtain ⟨w1, h1, hf1, hn1, hy1⟩ := ih wa (ParentDepth_of_frame hfa.arrangeToLayout hd) hndl
    have hfa' : ArrangeFrame (a :: l) w wa :=
      ArrangeFrame_mono hfa (fun m hm => by simp at hm; simp [hm])
    have hf1' : ArrangeFrame (a :: l) wa w1 :=
      ArrangeFrame_mono hf1 (fun m hm => List.mem_cons_of_mem a hm)
    refine ⟨w1, by simp [fillLoop, hstep, h1], ArrangeFrame_trans hfa' hf1', ?_, ?_⟩
    · intro c hc hcf
      rcases List.mem_cons.mp hc with rfl | hcl
      · rw [hf1.bounds_notin hal, hno hcf]
      · have hca : c ∉ [a] := by
          simp; intro e; subst e; exact hal hcl
        rw [hn1 c hcl (by rw [hdock]; exact hcf), hfa.bounds_notin hca]
    · intro c hc hcf
      rcases List.mem_cons.mp hc with rfl | hcl
      · rw [hf1.bounds_notin hal, hyes hcf]
      · have hca : c ∉ [a] := by
          simp; intro e; subst e; exact hal hcl
        rw [hy1 c hcl (by rw [hdock]; exact hcf), hmar, hfa.bounds_notin hca]

end VerticalDockSums
section VerticalArrangement

/-- The vertical fill loop leaves every inner-bounds rectangle as it is. -/
theorem fillLoop_vertical_inner (d : Nat → Nat) (rf : Nat) (hrf : ∀ x, d x < rf) (ib : Rect)
    (l : List Nat) (w : World) (hd : ParentDepth w d) :
    ∃ w1, fillLoop (fun child => fillStepY rf child ib) l w = some w1 ∧
      ∀ m, (w1.ctrl m).m_innerBounds = (w.ctrl m).m_innerBounds := by
  obtain ⟨w1, h1, _, h2⟩ := fillLoop_rel (fun child => fillStepY rf child ib)
    (fun w0 => ParentDepth w0 d)
    (fun a b => ∀ m, (b.ctrl m).m_innerBounds = (a.ctrl m).m_innerBounds)
    (fun _ _ => rfl) (fun a b c h1 h2 m => (h2 m).trans (h1 m)) l
    (fun child _ w0 hw0 => by
      unfold fillStepY
      simp only []
      split_ifs
      · exact ⟨w0, rfl, hw0, fun _ => rfl⟩
      · obtain ⟨w1, h1, hb1⟩ := SetBoundsXYWH_spec d rf child (w0.ctrl child).m_bounds.x
          (ib.y + (w0.ctrl child).m_margin.top) (w0.ctrl child).m_bounds.w
          (ib.h - (w0.ctrl child).m_margin.top - (w0.ctrl child).m_margin.bottom) w0 hw0
          (hrf child)
        refine ⟨w1, h1, ParentDepth_of_frame hb1.boundsToLayout hw0, fun m => ?_⟩
        by_cases hm : m = child
        · subst hm
          have := congrArg Control.m_innerBounds hb1.self
          exact this
        · have := congrArg Control.m_innerBounds (hb1.others m hm)
          exact this) w hd
  exact ⟨w1, h1, h2⟩

/-- C29: for a container `n` (acyclic parent chains, children listed once, `n` not its own
child) whose shown children carry exactly one dock flag each, `ArrangeVertical` returns and
afterwards the inner bounds of `n` have `y = padding.top + T` and
`h = n.h - padding.top - padding.bottom - (T + B)`, where `T` and `B` are the sums of
(preferred height + margin.top + margin.bottom) over the shown Top-docked and the shown
Bottom-docked children. A shown child keeps its `x` and width; with `Tp` and `Bp` the
same sums over the children before it in the list: a Top child gets its preferred height
and `y = padding.top + Tp + margin.top`; a Bottom child gets its preferred height and its
bottom margin above the end of the span remaining at its turn; a Left or Right child keeps
its height if its vertical flag is Fixed and otherwise gets the remaining span
`n.h - padding.top - padding.bottom - (Tp + Bp)` less its vertical margins; a Fill child
gets `y = innerBounds.y + margin.top` and the height
`innerBounds.h - margin.top - margin.bottom`. -/
theorem ArrangeVertical_inner_bounds (d : Nat → Nat) (rf n : Nat) (w : World)
    (hd : ParentDepth w d) (hrf : ∀ x, d x < rf)
    (hnd : (w.ctrl n).Children.Nodup) (hself : n ∉ (w.ctrl n).Children)
    (hsd : SingleDock w (w.ctrl n).Children) :
    ∃ w1, ArrangeVertical rf n w = some w1 ∧
      (w1.ctrl n).m_innerBounds.y =
        (w.ctrl n).m_padding.top + topHeights w (w.ctrl n).Children ∧
      (w1.ctrl n).m_innerBounds.h =
        (w.ctrl n).m_bounds.h - (w.ctrl n).m_padding.top - (w.ctrl n).m_padding.bottom -
          (topHeights w (w.ctrl n).Children + bottomHeights w (w.ctrl n).Children) ∧
      ∀ pre c post, (w.ctrl n).Children = pre ++ c :: post → (w.ctrl c).m_bHidden = false →
        (w1.ctrl c).m_bounds.x = (w.ctrl c).m_bounds.x ∧
        (w1.ctrl c).m_bounds.w = (w.ctrl c).m_bounds.w ∧
        ((w.ctrl c).m_dock = Position.Top →
          (w1.ctrl c).m_bounds.h = (w.ctrl c).m_preferredSize.height ∧
          (w1.ctrl c).m_bounds.y =
            (w.ctrl n).m_padding.top + topHeights w pre + (w.ctrl c).m_margin.top) ∧
        ((w.ctrl c).m_dock = Position.Bottom →
          (w1.ctrl c).m_bounds.h = (w.ctrl c).m_preferredSize.height ∧
          (w1.ctrl c).m_bounds.y + (w1.ctrl c).m_bounds.h + (w.ctrl c).m_margin.bottom =
            (w.ctrl n).m_bounds.h - (w.ctrl n).m_padding.bottom - bottomHeights w pre) ∧
        ((w.ctrl c).m_dock = Position.Left ∨ (w.ctrl c).m_dock = Position.Right →
          ((w.ctrl c).m_sizeFlags.vertical = SizeFlag.Fixed →
            (w1.ctrl c).m_bounds.h = (w.ctrl c).m_bounds.h) ∧
          ((w.ctrl c).m_sizeFlags.vertical ≠ SizeFlag.Fixed →
            (w1.ctrl c).m_bounds.h =
              (w.ctrl n).m_bounds.h - (w.ctrl n).m_padding.top - (w.ctrl n).m_padding.bottom -
                (topHeights w pre + bottomHeights w pre) -
                (w.ctrl c).m_margin.top - (w.ctrl c).m_margin.bottom) ∧
          (w1.ctrl c).m_bounds.y =
            (w.ctrl n).m_padding.top + topHeights w pre + (w.ctrl c).m_margin.top) ∧
        ((w.ctrl c).m_dock = Position.Fill →
          (w1.ctrl c).m_bounds.y = (w1.ctrl n).m_innerBounds.y + (w.ctrl c).m_margin.top ∧
          (w1.ctrl c).m_bounds.h =
            (w1.ctrl n).m_innerBounds.h - (w.ctrl c).m_margin.top -
              (w.ctrl c).m_margin.bottom) := by
  obtain ⟨ib1, w1, h1, hf1, hib1, hb1⟩ :=
    dockLoop_vertical d rf hrf (w.ctrl n).Children
      { (w.ctrl n).m_bounds with
        y := (w.ctrl n).m_padding.top,
        h := (w.ctrl n).m_bounds.h - ((w.ctrl n).m_padding.top + (w.ctrl n).m_padding.bottom) }
      w hd hnd hsd
  simp only [] at hib1 hb1
  set w2 := w1.modify n fun c =>
      { c with m_innerBounds := { c.m_innerBounds with y := ib1.y, h := ib1.h } } with hw2
  have hf2 : ArrangeFrame (w.ctrl n).Children w1 w2 := by
    refine ⟨SameGlobals_refl _, rfl, fun m hm => ?_, fun m _ => ?_⟩
    · have hmn : m ≠ n := fun e => hself (e ▸ hm)
      simp [hw2, hmn]
    · by_cases hmn : m = n
      · subst hmn; simp [hw2, eraseInner]
      · simp [hw2, hmn]
  have hf12 := ArrangeFrame_trans hf1 hf2
  have hdock : ∀ m, (w2.ctrl m).m_dock = (w.ctrl m).m_dock :=
    hf12.arrangeProj Control.m_dock (fun _ => rfl) (fun _ => rfl)
  have hmar : ∀ m, (w2.ctrl m).m_margin = (w.ctrl m).m_margin :=
    hf12.arrangeProj Control.m_margin (fun _ => rfl) (fun _ => rfl)
  have hch : (w2.ctrl n).Children = (w.ctrl n).Children :=
    hf12.arrangeProj Control.Children (fun _ => rfl) (fun _ => rfl) n
  have hbnd : ∀ m, m ∈ (w.ctrl n).Children → (w2.ctrl m).m_bounds = (w1.ctrl m).m_bounds := by
    intro m hm
    have hmn : m ≠ n := fun e => hself (e ▸ hm)
    simp [hw2, hmn]
  have hd2 : ParentDepth w2 d := ParentDepth_of_frame hf12.arrangeToLayout hd
  obtain ⟨w3, h3, _, hn3, hy3⟩ := fillLoop_vertical d rf hrf ib1 (w.ctrl n).Children w2 hd2 hnd
  obtain ⟨w3', h3', hin3⟩ := fillLoop_vertical_inner d rf hrf ib1 (w.ctrl n).Children w2 hd2
  rw [h3] at h3'
  simp only [Option.some.injEq] at h3'
  subst h3'
  have hinner : (w3.ctrl n).m_innerBounds =
      { (w1.ctrl n).m_innerBounds with y := ib1.y, h := ib1.h } := by
    rw [hin3 n]
    simp [hw2]
  have hiy : (w3.ctrl n).m_innerBounds.y =
      (w.ctrl n).m_padding.top + topHeights w (w.ctrl n).Children := by
    rw [hinner, hib1]
  have hih : (w3.ctrl n).m_innerBounds.h =
      (w.ctrl n).m_bounds.h - (w.ctrl n).m_padding.top - (w.ctrl n).m_padding.bottom -
        (topHeights w (w.ctrl n).Children + bottomHeights w (w.ctrl n).Children) := by
    rw [hinner, hib1]
    simp only []
    ring
  refine ⟨w3, ?_, hiy, hih, ?_⟩
  · unfold ArrangeVertical
    simp only [h1]
    rw [← hw2, hch, h3]
  · intro pre c post hl hc
    have hcm : c ∈ (w.ctrl n).Children := by rw [hl]; simp
    have hturn := hb1 pre c post hl hc
    have hs := hsd c hcm hc
    simp only [singleDockFlags, List.mem_cons, List.mem_singleton, List.not_mem_nil, or_false]
      at hs
    by_cases hfill : (w.ctrl c).m_dock = Position.Fill
    · have hb3 := hy3 c hcm (by rw [hdock, hfill]; simp)
      rw [hbnd c hcm, hmar, hturn] at hb3
      have hkeep : dockedBoundsY (w.ctrl c)
          ((w.ctrl n).m_padding.top + topHeights w pre)
          ((w.ctrl n).m_bounds.h - ((w.ctrl n).m_padding.top + (w.ctrl n).m_padding.bottom) -
            (topHeights w pre + bottomHeights w pre)) = (w.ctrl c).m_bounds := by
        simp [dockedBoundsY, hfill]
      rw [hkeep] at hb3
      have hi1 : ib1.y = (w3.ctrl n).m_innerBounds.y := by rw [hinner]
      have hi2 : ib1.h = (w3.ctrl n).m_innerBounds.h := by rw [hinner]
      rw [hb3]
      refine ⟨rfl, rfl, ?_, ?_, ?_, ?_⟩
      · intro h; rw [hfill] at h; exact absurd h (by simp)
      · intro h; rw [hfill] at h; exact absurd h (by simp)
      · intro h; rw [hfill] at h; rcases h with h | h <;> exact absurd h (by simp)
      · intro _
        simp only []
        rw [hi1, hi2]
        exact ⟨rfl, rfl⟩
    · have hnf : hasFlag (w.ctrl c).m_dock Position.Fill = false := by
        rcases hs with h | h | h | h | h | h | h
        · rw [h]; simp
        · rw [h]; simp
        · rw [h]; simp
        · rw [h]; simp
        · rw [h]; decide
        · rw [h]; decide
        · exact absurd h hfill
      have hb3 := hn3 c hcm (by rw [hdock]; exact hnf)
      rw [hbnd c hcm, hturn] at hb3
      rw [hb3]
      refine ⟨?_, ?_, ?_, ?_, ?_, ?_⟩
      · unfold dockedBoundsY; split_ifs <;> rfl
      · unfold dockedBoundsY; split_ifs <;> rfl
      · intro h
        simp [dockedBoundsY, h]
      · intro h
        have hnt : (w.ctrl c).m_dock ≠ Position.Top := by rw [h]; simp
        simp only [dockedBoundsY, h, hnt, if_true, if_false]
        have e : (if Position.Bottom = Position.Top then
            Rect.mk (w.ctrl c).m_bounds.x
              ((w.ctrl n).m_padding.top + topHeights w pre + (w.ctrl c).m_margin.top)
              (w.ctrl c).m_bounds.w (w.ctrl c).m_preferredSize.height
          else Rect.mk (w.ctrl c).m_bounds.x
              ((w.ctrl n).m_padding.top + topHeights w pre +
                ((w.ctrl n).m_bounds.h - ((w.ctrl n).m_padding.top + (w.ctrl n).m_padding.bottom) -
                  (topHeights w pre + bottomHeights w pre)) -
                (w.ctrl c).m_preferredSize.height - (w.ctrl c).m_margin.bottom)
              (w.ctrl c).m_bounds.w (w.ctrl c).m_preferredSize.height) =
            Rect.mk (w.ctrl c).m_bounds.x
              ((w.ctrl n).m_padding.top + topHeights w pre +
                ((w.ctrl n).m_bounds.h - ((w.ctrl n).m_padding.top + (w.ctrl n).m_padding.bottom) -
                  (topHeights w pre + bottomHeights w pre)) -
                (w.ctrl c).m_preferredSize.height - (w.ctrl c).m_margin.bottom)
              (w.ctrl c).m_bounds.w (w.ctrl c).m_preferredSize.height := by
          rw [if_neg (by simp)]
        rw [e]
        refine ⟨rfl, ?_⟩
        simp only []
        ring
      · intro h
        have hnt : (w.ctrl c).m_dock ≠ Position.Top := by
          rcases h with h | h <;> rw [h] <;> simp
        have hnb : (w.ctrl c).m_dock ≠ Position.Bottom := by
          rcases h with h | h <;> rw [h] <;> simp
        unfold dockedBoundsY
        rw [if_neg hnt, if_neg hnb, if_pos h]
        refine ⟨?_, ?_, rfl⟩
        · intro hfx; simp [hfx]
        · intro hfx
          simp only [hfx, if_false]
          ring
      · intro h; exact absurd h hfill

/-- C29 witness: in `stackTree` (height 200, padding top 3 and bottom 7) the Top child
takes 20 + 1 + 2 and the Bottom child 30 + 4 + 5, the hidden Top child nothing: the inner
bounds end with y = 26 and h = 128. The Left child gets the span 167 remaining at its
turn, the Fixed Right child keeps its height 10, the Fill child gets y = 26 + 6 and
h = 128 - 6 - 8. -/
theorem ArrangeVertical_inner_bounds_witness :
    ∃ w1, ArrangeVertical 2 0 stackTree = some w1 ∧
      (w1.ctrl 0).m_innerBounds.y = 26 ∧ (w1.ctrl 0).m_innerBounds.h = 128 ∧
      (w1.ctrl 1).m_bounds = { x := 0, y := 4, w := 10, h := 20 } ∧
      (w1.ctrl 2).m_bounds = { x := 0, y := 26, w := 10, h := 167 } ∧
      (w1.ctrl 3).m_bounds = { x := 0, y := 158, w := 10, h := 30 } ∧
      (w1.ctrl 4).m_bounds = { x := 0, y := 26, w := 10, h := 10 } ∧
      (w1.ctrl 5).m_bounds = { x := 0, y := 32, w := 10, h := 114 } ∧
      (w1.ctrl 6).m_bounds = { x := 0, y := 0, w := 10, h := 10 } := by
  obtain ⟨w1, h1, _⟩ := ArrangeVertical_inner_bounds flatDepth 2 0 stackTree
    (ParentDepth_ofList _ _ (by decide)) (fun x => by unfold flatDepth; split <;> omega)
    (by decide) (by decide)
    (fun c hc hh => by
      have : ∀ c, c ∈ (stackTree.ctrl 0).Children → (stackTree.ctrl c).m_bHidden = false →
          (stackTree.ctrl c).m_dock ∈ singleDockFlags := by decide
      exact this c hc hh)
  have h2 : (ArrangeVertical 2 0 stackTree).map (fun v =>
      ((v.ctrl 0).m_innerBounds.y, (v.ctrl 0).m_innerBounds.h,
        [1, 2, 3, 4, 5, 6].map fun i => (v.ctrl i).m_bounds)) =
      some (26, 128, [{ x := 0, y := 4, w := 10, h := 20 }, { x := 0, y := 26, w := 10, h := 167 },
        { x := 0, y := 158, w := 10, h := 30 }, { x := 0, y := 26, w := 10, h := 10 },
        { x := 0, y := 32, w := 10, h := 114 }, { x := 0, y := 0, w := 10, h := 10 }]) := by
    decide
  rw [h1] at h2
  simp only [Option.map_some', Option.some.injEq, Prod.mk.injEq, List.map_cons, List.map_nil,
    List.cons.injEq, and_true] at h2
  obtain ⟨a1, a2, b1, b2, b3, b4, b5, b6⟩ := h2
  exact ⟨w1, h1, a1, a2, b1, b2, b3, b4, b5, b6⟩

end VerticalArrangement

section AcceleratorTheorems

theorem answers_iff (w : World) (key : String) (c : Nat) :
    answers w key c = true ↔
      ((w.KeyboardFocus = some c ∨ (!(w.ctrl c).accelOnlyFocus) = true) ∧
        key ∈ (w.ctrl c).m_accelerators) := by
  simp [answers]
  exact and_comm

/-- The child loop of `HandleAccelerator` returns the outcome of the first control that
answers in the pre-order of the list, when each child call does so for its subtree. -/
theorem acceleratorLoop_preorder (h : Nat → World → Option (Bool × World))
    (sub : Nat → Option (List Nat)) (w : World) (key : String) :
    ∀ l : List Nat,
      (∀ e, e ∈ l → ∃ le, sub e = some le ∧
        h e w = some (accelOutcome w key ((e :: le).find? (answers w key)))) →
      ∃ L, preorderList sub l = some L ∧
        acceleratorLoop h l w = some (accelOutcome w key (L.find? (answers w key))) := by
  intro l
  induction l with
  | nil => intro _; exact ⟨[], rfl, rfl⟩
  | cons a l ih =>
    intro hall
    obtain ⟨la, hsa, hha⟩ := hall a (List.mem_cons_self _ _)
    obtain ⟨L, hL, hfL⟩ := ih (fun e he => hall e (List.mem_cons_of_mem _ he))
    refine ⟨a :: la ++ L, by simp [preorderList, hsa, hL], ?_⟩
    unfold acceleratorLoop
    rw [hha]
    have happ : (a :: la ++ L).find? (answers w key) =
        ((a :: la).find? (answers w key)).or (L.find? (answers w key)) := by
      rw [← List.find?_append]
    rw [happ]
    cases hf : (a :: la).find? (answers w key) with
    | some c => simp [accelOutcome]
    | none =>
      simp only [accelOutcome, Option.none_or]
      exact hfL

/-- On acyclic child lists `HandleAccelerator` returns the outcome of the first control that
answers in the pre-order of the subtree. -/
theorem HandleAccelerator_preorder (r : Nat → Nat) (w : World) (hr : ChildRank w r)
    (key : String) :
    ∀ (fuel n : Nat), r n < fuel →
      ∃ l, preorderDescendants fuel n w = some l ∧
        HandleAccelerator fuel n key w =
          some (accelOutcome w key ((n :: l).find? (answers w key))) := by
  intro fuel
  induction fuel with
  | zero => intro n h; omega
  | succ k ih =>
    intro n hn
    obtain ⟨L, hL, hloop⟩ := acceleratorLoop_preorder
      (fun child => HandleAccelerator k child key) (fun c => preorderDescendants k c w) w key
      (w.ctrl n).Children
      (fun e he => by
        have := hr n e he
        exact ih e (by omega))
    refine ⟨L, by unfold preorderDescendants; exact hL, ?_⟩
    unfold HandleAccelerator
    by_cases ha : answers w key n = true
    · have hc := (answers_iff w key n).mp ha
      rw [if_pos hc]
      simp [List.find?_cons, ha, accelOutcome]
    · have hc : ¬ ((w.KeyboardFocus = some n ∨ (!(w.ctrl n).accelOnlyFocus) = true) ∧
          key ∈ (w.ctrl n).m_accelerators) := fun h => ha ((answers_iff w key n).mpr h)
      have ha0 : answers w key n = false := by simpa using ha
      rw [if_neg hc, hloop]
      simp [List.find?_cons, ha0]

/-- C28: on acyclic child lists `HandleAccelerator(a)` on a control `c` returns. With `l`
the depth-first pre-order of the descendants of `c` (so that `c :: l` holds exactly the
controls of the subtree, `c` first, children in list order), the value returned is true
exactly when some control of the subtree has `a` registered and holds the keyboard focus
or is not focus-restricted; then the trace is extended by exactly one handler call, that
of the first such control of `c :: l`, and nothing else changes; when the value is false
the world is unchanged (no handler is called). -/
theorem HandleAccelerator_first_in_preorder (r : Nat → Nat) (fuel c : Nat) (a : String)
    (w : World) (hr : ChildRank w r) (hfuel : r c < fuel) :
    ∃ l res, preorderDescendants fuel c w = some l ∧
      HandleAccelerator fuel c a w = some res ∧
      (∀ x, x ∈ c :: l ↔ Sub w c x) ∧
      (res.1 = true ↔ ∃ x, Sub w c x ∧ a ∈ (w.ctrl x).m_accelerators ∧
        (w.KeyboardFocus = some x ∨ (w.ctrl x).accelOnlyFocus = false)) ∧
      (∀ x, (c :: l).find? (answers w a) = some x →
        res = (true, w.emit (Hook.Accelerator x a))) ∧
      ((c :: l).find? (answers w a) = none → res = (false, w)) ∧
      (res.1 = true → ∃ x, res.2 = w.emit (Hook.Accelerator x a)) ∧
      (res.1 = false → res.2 = w) := by
  obtain ⟨l, hl, hres⟩ := HandleAccelerator_preorder r w hr a fuel c hfuel
  have hmem : ∀ x, x ∈ c :: l ↔ Sub w c x := by
    intro x
    rw [List.mem_cons, preorderDescendants_mem w fuel c l hl x, Sub_cases]
  refine ⟨l, _, hl, hres, hmem, ?_, ?_, ?_, ?_, ?_⟩
  · cases hf : (c :: l).find? (answers w a) with
    | some x =>
      simp only [accelOutcome, true_iff]
      have hx := List.find?_some hf
      have hxm := List.mem_of_find?_eq_some hf
      obtain ⟨h1, h2⟩ := (answers_iff w a x).mp hx
      refine ⟨x, (hmem x).mp hxm, h2, ?_⟩
      rcases h1 with h1 | h1
      · exact Or.inl h1
      · exact Or.inr (by simpa using h1)
    | none =>
      simp only [accelOutcome]
      constructor
      · intro h; cases h
      · rintro ⟨x, hx, h2, h1⟩
        exfalso
        have hnone := List.find?_eq_none.mp hf x ((hmem x).mpr hx)
        apply hnone
        rw [answers_iff]
        refine ⟨?_, h2⟩
        rcases h1 with h1 | h1
        · exact Or.inl h1
        · exact Or.inr (by simp [h1])
  · intro x hx
    rw [hx]
    rfl
  · intro hx
    rw [hx]
    rfl
  · cases hf : (c :: l).find? (answers w a) with
    | some x => intro _; exact ⟨x, rfl⟩
    | none => intro h; simp [accelOutcome] at h
  · cases hf : (c :: l).find? (answers w a) with
    | some x => intro h; simp [accelOutcome] at h
    | none => intro _; rfl

/-- C28 witness: in `accelTree` "Ctrl+S" is registered on the focus-restricted root, which
does not hold the focus, and further down; the first control that answers in pre-order is
the focused control 3, before its sibling 4 and the direct child 2. "Ctrl+Q" is registered
nowhere: the value is false and nothing changes. -/
theorem HandleAccelerator_first_in_preorder_witness :
    (HandleAccelerator 3 0 "Ctrl+Q" accelTree).map (fun p => (p.1, p.2.trace)) =
      some (false, []) ∧
    ∃ l res, preorderDescendants 3 0 accelTree = some l ∧
      HandleAccelerator 3 0 "Ctrl+S" accelTree = some res ∧
      l = [1, 3, 4, 2] ∧ res = (true, accelTree.emit (Hook.Accelerator 3 "Ctrl+S")) := by
  obtain ⟨l, res, h1, h2, _, _, h5, _⟩ := HandleAccelerator_first_in_preorder twoLevelRank 3 0
    "Ctrl+S" accelTree (ChildRank_ofList _ _ (by decide)) (by decide)
  have hl : preorderDescendants 3 0 accelTree = some [1, 3, 4, 2] := by decide
  rw [hl] at h1
  simp only [Option.some.injEq] at h1
  subst h1
  exact ⟨by decide, _, res, hl, h2, rfl, h5 3 (by decide)⟩

end AcceleratorTheorems

section RenderTheorems

theorem CacheFrame.cacheRefl (w : World) : CacheFrame w w :=
  ⟨⟨rfl, rfl, rfl⟩, rfl, fun _ => rfl⟩

theorem CacheFrame.cacheTrans {w w1 w2 : World} (h1 : CacheFrame w w1) (h2 : CacheFrame w1 w2) :
    CacheFrame w w2 :=
  ⟨⟨h2.1.1.trans h1.1.1, h2.1.2.1.trans h1.1.2.1, h2.1.2.2.trans h1.1.2.2⟩,
    h2.2.1.trans h1.2.1, fun m => (h2.2.2 m).trans (h1.2.2 m)⟩

/-- Any data member that `eraseDirty` leaves alone is preserved by a cache frame. -/
theorem CacheFrame.cacheProj {α : Type} {w w1 : World} (h : CacheFrame w w1) (g : Control → α)
    (hg : ∀ c, g (eraseDirty c) = g c) (m : Nat) : g (w1.ctrl m) = g (w.ctrl m) := by
  rw [← hg (w1.ctrl m), ← hg (w.ctrl m), h.2.2 m]

theorem CacheFrame.childRank {w w1 : World} {r : Nat → Nat} (h : CacheFrame w w1)
    (hr : ChildRank w r) : ChildRank w1 r := by
  intro p c hc
  rw [h.cacheProj Control.Children (fun _ => rfl)] at hc
  exact hr p c hc

theorem CacheFrame.clear (w : World) (n : Nat) :
    CacheFrame w (w.modify n fun c => { c with m_bCacheTextureDirty := false }) := by
  refine ⟨⟨rfl, rfl, rfl⟩, rfl, fun m => ?_⟩
  by_cases hm : m = n
  · subst hm
    simp [World.modify, eraseDirty]
  · simp [World.modify, Function.update_noteq hm]

theorem RenderStep.stepRefl (s : World × RenderState) : RenderStep s s :=
  ⟨CacheFrame.cacheRefl _, rfl, rfl, rfl⟩

theorem RenderStep.stepTrans {s s1 s2 : World × RenderState} (h1 : RenderStep s s1)
    (h2 : RenderStep s1 s2) : RenderStep s s2 :=
  ⟨h1.1.cacheTrans h2.1, h2.2.1.trans h1.2.1, h2.2.2.1.trans h1.2.2.1,
    h2.2.2.2.trans h1.2.2.2⟩

theorem RenderFocus_restored (n : Nat) (w : World) (st : RenderState) :
    (RenderFocus n w st).renderOffset = st.renderOffset ∧
      (RenderFocus n w st).clipRegion = st.clipRegion ∧
      (RenderFocus n w st).clipDepth = st.clipDepth := by
  unfold RenderFocus
  split
  · exact ⟨rfl, rfl, rfl⟩
  · split
    · exact ⟨rfl, rfl, rfl⟩
    · exact ⟨rfl, rfl, rfl⟩

/-- The child loop of a render path returns, and restores the renderer, when every call of
`DoRender` on a listed child does. -/
theorem renderChildren_step (r : Nat → Nat)
    (doRender : Nat → World × RenderState → Option (World × RenderState)) :
    ∀ (l : List Nat) (s : World × RenderState), ChildRank s.1 r →
      (∀ c, c ∈ l → ∀ s0 : World × RenderState, ChildRank s0.1 r →
        ∃ s1, doRender c s0 = some s1 ∧ RenderStep s0 s1) →
      ∃ s1, renderChildren doRender l s = some s1 ∧ RenderStep s s1 := by
  intro l
  induction l with
  | nil => intro s _ _; exact ⟨s, rfl, RenderStep.stepRefl s⟩
  | cons c rest ih =>
    intro s hr h
    unfold renderChildren
    by_cases hh : (s.1.ctrl c).m_bHidden = true
    · rw [if_pos hh]
      exact ih s hr (fun c1 hc1 => h c1 (List.mem_cons_of_mem _ hc1))
    · rw [if_neg hh]
      obtain ⟨s1, h1, hs1⟩ := h c (List.mem_cons_self _ _) s hr
      rw [h1]
      obtain ⟨s2, h2, hs2⟩ :=
        ih s1 (hs1.1.childRank hr) (fun c1 hc1 => h c1 (List.mem_cons_of_mem _ hc1))
      exact ⟨s2, h2, hs1.stepTrans hs2⟩

theorem renderEnter_clipDepth (ren : Renderer) (n : Nat) (cliprect : Rect) (w : World)
    (st : RenderState) : (renderEnter ren n cliprect w st).clipDepth = st.clipDepth := by
  unfold renderEnter
  dsimp only
  split <;> rfl

theorem renderLeave_restored (n : Nat) (w : World) (off : Point) (reg : Rect)
    (st : RenderState) :
    (renderLeave n w off reg st).renderOffset = off ∧
      (renderLeave n w off reg st).clipRegion = reg ∧
      (renderLeave n w off reg st).clipDepth = st.clipDepth - 1 := by
  unfold renderLeave
  dsimp only
  refine ⟨rfl, ?_, ?_⟩
  · simp only [RenderState.EndClip, (RenderFocus_restored _ _ _).2.1]
    rfl
  · simp only [RenderState.EndClip, (RenderFocus_restored _ _ _).2.2]
    simp only [RenderState.StartClip, RenderState.draw]
    omega

theorem cacheLeave_restored (n : Nat) (off : Point) (reg : Rect) (st : RenderState) :
    (cacheLeave n off reg st).renderOffset = off ∧
      (cacheLeave n off reg st).clipRegion = reg ∧
      (cacheLeave n off reg st).clipDepth = st.clipDepth := by
  unfold cacheLeave
  dsimp only
  refine ⟨rfl, rfl, ?_⟩
  simp only [RenderState.EndClip, RenderState.StartClip, RenderState.draw]
  omega

theorem cacheEnter_clipDepth (ren : Renderer) (n master : Nat) (w : World)
    (st : RenderState) : (cacheEnter ren n master w st).clipDepth = st.clipDepth := by
  unfold cacheEnter
  dsimp only
  split <;> rfl

theorem renderRecursiveBody_step (ren : Renderer) (r : Nat → Nat)
    (doRender : Nat → World × RenderState → Option (World × RenderState))
    (n : Nat) (cliprect : Rect) (s : World × RenderState) (hr : ChildRank s.1 r)
    (h : ∀ c, c ∈ (s.1.ctrl n).Children → ∀ s0 : World × RenderState, ChildRank s0.1 r →
      ∃ s1, doRender c s0 = some s1 ∧ RenderStep s0 s1) :
    ∃ s1, renderRecursiveBody ren doRender n cliprect s = some s1 ∧ RenderStep s s1 := by
  unfold renderRecursiveBody
  dsimp only
  split
  · exact ⟨_, rfl, CacheFrame.cacheRefl _, rfl, rfl, renderEnter_clipDepth _ _ _ _ _⟩
  · obtain ⟨s1, h1, hs1⟩ := renderChildren_step r doRender (s.1.ctrl n).Children
      (s.1, (renderEnter ren n cliprect s.1 s.2).StartClip.draw (Draw.Render n)) hr h
    rw [h1]
    refine ⟨_, rfl, hs1.1, (renderLeave_restored _ _ _ _ _).1, (renderLeave_restored _ _ _ _ _).2.1,
      ?_⟩
    have h3 := hs1.2.2.2
    rw [(renderLeave_restored _ _ _ _ _).2.2]
    simp only [RenderState.StartClip, RenderState.draw, renderEnter_clipDepth] at h3 ⊢
    omega

theorem updateCacheTexture_step (r : Nat → Nat)
    (doRender : Nat → World × RenderState → Option (World × RenderState))
    (n : Nat) (s : World × RenderState) (hr : ChildRank s.1 r)
    (h : ∀ c, c ∈ (s.1.ctrl n).Children → ∀ s0 : World × RenderState, ChildRank s0.1 r →
      ∃ s1, doRender c s0 = some s1 ∧ RenderStep s0 s1) :
    ∃ s1, updateCacheTexture doRender n s = some s1 ∧ RenderStep s s1 := by
  unfold updateCacheTexture
  dsimp only
  obtain ⟨s1, h1, hs1⟩ := renderChildren_step r doRender (s.1.ctrl n).Children
    (s.1, (if (s.1.ctrl n).m_bCacheToTexture = true then
        s.2.StartClip.draw (Draw.SetupCacheTexture n) else s.2.StartClip).draw (Draw.Render n))
    hr h
  rw [h1]
  have h3 := hs1.2.2.2
  have hd : s1.2.clipDepth = s.2.clipDepth + 1 := by
    rw [h3]
    split <;> rfl
  have ho : s1.2.renderOffset = s.2.renderOffset := by
    rw [hs1.2.1]
    split <;> rfl
  have hg : s1.2.clipRegion = s.2.clipRegion := by
    rw [hs1.2.2.1]
    split <;> rfl
  dsimp only
  split
  · refine ⟨_, rfl, hs1.1.cacheTrans (CacheFrame.clear _ _), ho, hg, ?_⟩
    simp only [RenderState.EndClip, RenderState.draw]
    omega
  · refine ⟨_, rfl, hs1.1, ho, hg, ?_⟩
    simp only [RenderState.EndClip]
    omega

theorem doCacheRenderBody_step (ren : Renderer) (r : Nat → Nat)
    (doRender : Nat → World × RenderState → Option (World × RenderState))
    (n master : Nat) (s : World × RenderState) (hr : ChildRank s.1 r)
    (h : ∀ c, c ∈ (s.1.ctrl n).Children → ∀ s0 : World × RenderState, ChildRank s0.1 r →
      ∃ s1, doRender c s0 = some s1 ∧ RenderStep s0 s1) :
    ∃ s1, doCacheRenderBody ren doRender n master s = some s1 ∧ RenderStep s s1 := by
  unfold doCacheRenderBody
  dsimp only
  split
  · exact ⟨s, rfl, RenderStep.stepRefl s⟩
  · have hup : ∃ s1, (if ((s.1.ctrl n).m_bCacheTextureDirty &&
          ren.ClipRegionVisible (cacheEnter ren n master s.1 s.2).clipRegion) = true then
          updateCacheTexture doRender n (s.1, cacheEnter ren n master s.1 s.2)
        else some (s.1, cacheEnter ren n master s.1 s.2)) = some s1 ∧
        CacheFrame s.1 s1.1 ∧ s1.2.clipDepth = s.2.clipDepth := by
      split
      · obtain ⟨s1, h1, hs1⟩ := updateCacheTexture_step r doRender n
          (s.1, cacheEnter ren n master s.1 s.2) hr h
        exact ⟨s1, h1, hs1.1, hs1.2.2.2.trans (cacheEnter_clipDepth _ _ _ _ _)⟩
      · exact ⟨_, rfl, CacheFrame.cacheRefl _, cacheEnter_clipDepth _ _ _ _ _⟩
    obtain ⟨s1, h1, hf, hd⟩ := hup
    rw [h1]
    exact ⟨_, rfl, hf, (cacheLeave_restored _ _ _ _).1, (cacheLeave_restored _ _ _ _).2.1,
      (cacheLeave_restored _ _ _ _).2.2.trans hd⟩

/-- Every call of `DoRender` with enough fuel returns, changes cache-dirty flags only and
leaves the renderer as it found it. -/
theorem DoRender_step (ren : Renderer) (r : Nat → Nat) :
    ∀ (fuel n : Nat) (s : World × RenderState), ChildRank s.1 r → r n < fuel →
      ∃ s1, DoRender ren fuel n s = some s1 ∧ RenderStep s s1 := by
  intro fuel
  induction fuel with
  | zero => intro n s _ h; omega
  | succ k ih =>
    intro n s hr hf
    have hch : ∀ c, c ∈ (s.1.ctrl n).Children → ∀ s0 : World × RenderState,
        ChildRank s0.1 r → ∃ s1, DoRender ren k c s0 = some s1 ∧ RenderStep s0 s1 := by
      intro c hc s0 hr0
      have := hr n c hc
      exact ih c s0 hr0 (by omega)
    unfold DoRender
    dsimp only
    split
    · obtain ⟨s1, h1, hs1⟩ := doCacheRenderBody_step ren r (DoRender ren k) n n
        (s.1, s.2.draw (Draw.Think n)) hr hch
      exact ⟨s1, h1, hs1⟩
    · obtain ⟨s1, h1, hs1⟩ := renderRecursiveBody_step ren r (DoRender ren k) n
        (s.1.ctrl n).m_bounds (s.1, s.2.draw (Draw.Think n)) hr hch
      exact ⟨s1, h1, hs1⟩

end RenderTheorems

section RenderClaims

/-- C25: with the renderer as explicit state (render offset, clip region, depth of the
clip scopes) that the think, draw and cache hooks do not touch, on every control tree with
acyclic child lists and for every renderer `DoRender` returns with the render offset and
the clip region equal to their values at entry and with as many `EndClip` as `StartClip`
calls; so do `RenderRecursive` for every clip rectangle and `DoCacheRender` for every
master, which covers the early return on an empty clip region, the dirty and the clean
cache and the renderer without a cache facility. The world changes in cache-dirty flags
only. -/
theorem DoRender_restores_renderer (ren : Renderer) (r : Nat → Nat) (fuel n : Nat)
    (w : World) (st : RenderState) (hr : ChildRank w r) (hfuel : r n < fuel) :
    (∃ w1 st1, DoRender ren fuel n (w, st) = some (w1, st1) ∧
      st1.renderOffset = st.renderOffset ∧ st1.clipRegion = st.clipRegion ∧
      st1.clipDepth = st.clipDepth ∧ CacheFrame w w1) ∧
    (∀ cliprect, ∃ w1 st1, RenderRecursive ren fuel n cliprect (w, st) = some (w1, st1) ∧
      st1.renderOffset = st.renderOffset ∧ st1.clipRegion = st.clipRegion ∧
      st1.clipDepth = st.clipDepth ∧ CacheFrame w w1) ∧
    (∀ master, ∃ w1 st1, DoCacheRender ren fuel n master (w, st) = some (w1, st1) ∧
      st1.renderOffset = st.renderOffset ∧ st1.clipRegion = st.clipRegion ∧
      st1.clipDepth = st.clipDepth ∧ CacheFrame w w1) := by
  obtain ⟨k, rfl⟩ : ∃ k, fuel = k + 1 := ⟨fuel - 1, by omega⟩
  have hch : ∀ c, c ∈ (w.ctrl n).Children → ∀ s0 : World × RenderState,
      ChildRank s0.1 r → ∃ s1, DoRender ren k c s0 = some s1 ∧ RenderStep s0 s1 := by
    intro c hc s0 hr0
    have := hr n c hc
    exact DoRender_step ren r k c s0 hr0 (by omega)
  refine ⟨?_, fun cliprect => ?_, fun master => ?_⟩
  · obtain ⟨⟨w1, st1⟩, h1, hs1⟩ := DoRender_step ren r (k + 1) n (w, st) hr hfuel
    exact ⟨w1, st1, h1, hs1.2.1, hs1.2.2.1, hs1.2.2.2, hs1.1⟩
  · obtain ⟨⟨w1, st1⟩, h1, hs1⟩ :=
      renderRecursiveBody_step ren r (DoRender ren k) n cliprect (w, st) hr hch
    exact ⟨w1, st1, h1, hs1.2.1, hs1.2.2.1, hs1.2.2.2, hs1.1⟩
  · obtain ⟨⟨w1, st1⟩, h1, hs1⟩ :=
      doCacheRenderBody_step ren r (DoRender ren k) n master (w, st) hr hch
    exact ⟨w1, st1, h1, hs1.2.1, hs1.2.2.1, hs1.2.2.2, hs1.1⟩

theorem renderTree_rank : ChildRank renderTree renderRank :=
  ChildRank_ofList _ renderRank (by decide)

/-- C25 on the sample tree: the cached root and its subtree are rendered through a renderer
that culls empty clip regions, and the renderer ends the pass as it started it. -/
theorem DoRender_restores_renderer_witness :
    ChildRank renderTree renderRank ∧ renderRank 0 < 3 ∧
      (DoRender cullingRenderer 3 0 (renderTree, frameStart)).map
          (fun s => (s.2.renderOffset, s.2.clipRegion, s.2.clipDepth)) =
        some (frameStart.renderOffset, frameStart.clipRegion, frameStart.clipDepth) ∧
      (DoRender cullingRenderer 3 0 (renderTree, frameStart)).map
          (fun s => (s.1.ctrl 0).m_bCacheTextureDirty) = some false := by
  refine ⟨renderTree_rank, by decide, ?_, by decide⟩
  obtain ⟨⟨w1, st1, h1, h2, h3, h4, _⟩, _, _⟩ :=
    DoRender_restores_renderer cullingRenderer renderRank 3 0 renderTree frameStart
      renderTree_rank (by decide)
  rw [h1]
  simp [h2, h3, h4]

end RenderClaims

section RenderOrder

theorem renderCalls_append (a b : List Draw) :
    renderCalls (a ++ b) = renderCalls a ++ renderCalls b := by
  simp [renderCalls, List.filterMap_append]

theorem RenderFocus_calls (n : Nat) (w : World) (st : RenderState) :
    renderCalls (RenderFocus n w st).drawn = renderCalls st.drawn := by
  unfold RenderFocus
  split
  · rfl
  · split
    · rfl
    · simp [RenderState.draw, renderCalls_append, renderCalls]

theorem renderEnter_calls (ren : Renderer) (n : Nat) (cliprect : Rect) (w : World)
    (st : RenderState) :
    renderCalls (renderEnter ren n cliprect w st).drawn = renderCalls st.drawn := by
  unfold renderEnter
  dsimp only
  split <;> simp [RenderState.draw, renderCalls_append, renderCalls]

theorem renderLeave_calls (n : Nat) (w : World) (off : Point) (reg : Rect)
    (st : RenderState) :
    renderCalls (renderLeave n w off reg st).drawn = renderCalls st.drawn := by
  unfold renderLeave
  dsimp only
  simp only [RenderState.EndClip, RenderFocus_calls]
  simp [RenderState.draw, RenderState.StartClip, renderCalls_append, renderCalls]

/-- The child loop on the normal path invokes `Render` on the shown children and their
shown descendants in pre-order, when every `DoRender` of a shown child does so below it. -/
theorem renderChildren_calls (w : World) (sub : Nat → Option (List Nat))
    (doRender : Nat → World × RenderState → Option (World × RenderState)) :
    ∀ (l : List Nat) (st : RenderState),
      (∀ c, c ∈ l → (w.ctrl c).m_bHidden = false → ∀ st0 : RenderState,
        ∃ lc st1, sub c = some lc ∧ doRender c (w, st0) = some (w, st1) ∧
          renderCalls st1.drawn = renderCalls st0.drawn ++ c :: lc) →
      ∃ L st1, preorderList sub (l.filter fun c => !(w.ctrl c).m_bHidden) = some L ∧
        renderChildren doRender l (w, st) = some (w, st1) ∧
        renderCalls st1.drawn = renderCalls st.drawn ++ L := by
  intro l
  induction l with
  | nil => intro st _; exact ⟨[], st, rfl, rfl, by simp⟩
  | cons c rest ih =>
    intro st h
    unfold renderChildren
    by_cases hh : (w.ctrl c).m_bHidden = true
    · rw [if_pos hh]
      obtain ⟨L, st1, h1, h2, h3⟩ := ih st (fun c1 hc1 => h c1 (List.mem_cons_of_mem _ hc1))
      refine ⟨L, st1, ?_, h2, h3⟩
      rw [List.filter_cons_of_neg (by simp [hh])]
      exact h1
    · rw [if_neg hh]
      have hs : (w.ctrl c).m_bHidden = false := by simpa using hh
      obtain ⟨lc, st1, h1, h2, h3⟩ := h c (List.mem_cons_self _ _) hs st
      obtain ⟨L, st2, h4, h5, h6⟩ := ih st1 (fun c1 hc1 => h c1 (List.mem_cons_of_mem _ hc1))
      refine ⟨c :: lc ++ L, st2, ?_, ?_, ?_⟩
      · rw [List.filter_cons_of_pos (by simp [hs])]
        simp only [preorderList, h1, h4]
      · rw [h2]
        exact h5
      · rw [h6, h3]
        simp

theorem renderRecursiveBody_calls (ren : Renderer) (w : World)
    (hvis : ∀ region, ren.ClipRegionVisible region = true)
    (sub : Nat → Option (List Nat))
    (doRender : Nat → World × RenderState → Option (World × RenderState))
    (n : Nat) (cliprect : Rect) (st : RenderState)
    (h : ∀ c, c ∈ (w.ctrl n).Children → (w.ctrl c).m_bHidden = false → ∀ st0 : RenderState,
      ∃ lc st1, sub c = some lc ∧ doRender c (w, st0) = some (w, st1) ∧
        renderCalls st1.drawn = renderCalls st0.drawn ++ c :: lc) :
    ∃ L st1, preorderList sub (shownChildren n w) = some L ∧
      renderRecursiveBody ren doRender n cliprect (w, st) = some (w, st1) ∧
      renderCalls st1.drawn = renderCalls st.drawn ++ n :: L := by
  unfold renderRecursiveBody
  dsimp only
  rw [if_neg (by simp [hvis])]
  obtain ⟨L, st1, h1, h2, h3⟩ := renderChildren_calls w sub doRender (w.ctrl n).Children
    ((renderEnter ren n cliprect w st).StartClip.draw (Draw.Render n)) h
  rw [h2]
  refine ⟨L, _, h1, rfl, ?_⟩
  rw [renderLeave_calls, h3]
  simp [RenderState.draw, RenderState.StartClip, renderCalls_append, renderEnter_calls]
  simp [renderCalls]

theorem DoRender_calls (ren : Renderer) (r : Nat → Nat) (w : World) (hr : ChildRank w r)
    (hnc : ren.GetCTT = false ∨ ∀ m, (w.ctrl m).m_bCacheToTexture = false)
    (hvis : ∀ region, ren.ClipRegionVisible region = true) :
    ∀ (fuel n : Nat) (st : RenderState), r n < fuel →
      ∃ l st1, shownDescendants fuel n w = some l ∧
        DoRender ren fuel n (w, st) = some (w, st1) ∧
        renderCalls st1.drawn = renderCalls st.drawn ++ n :: l := by
  intro fuel
  induction fuel with
  | zero => intro n st h; omega
  | succ k ih =>
    intro n st hf
    have hch : ∀ c, c ∈ (w.ctrl n).Children → (w.ctrl c).m_bHidden = false →
        ∀ st0 : RenderState, ∃ lc st1, shownDescendants k c w = some lc ∧
          DoRender ren k c (w, st0) = some (w, st1) ∧
          renderCalls st1.drawn = renderCalls st0.drawn ++ c :: lc := by
      intro c hc _ st0
      have := hr n c hc
      exact ih c st0 (by omega)
    obtain ⟨L, st1, h1, h2, h3⟩ := renderRecursiveBody_calls ren w hvis
      (fun c => shownDescendants k c w) (DoRender ren k) n (w.ctrl n).m_bounds
      (st.draw (Draw.Think n)) hch
    refine ⟨L, st1, h1, ?_, ?_⟩
    · unfold DoRender
      dsimp only
      rw [if_neg (by rcases hnc with h0 | h0 <;> simp [h0])]
      exact h2
    · rw [h3]
      simp [RenderState.draw, renderCalls_append, renderCalls]

theorem ShownPath_cases {w : World} {c x : Nat} :
    ShownPath w c x ↔ (w.ctrl c).m_bHidden = false ∧
      (x = c ∨ ∃ ch, ch ∈ (w.ctrl c).Children ∧ ShownPath w ch x) := by
  constructor
  · intro h
    cases h with
    | here hs => exact ⟨hs, Or.inl rfl⟩
    | down hs hc hp => exact ⟨hs, Or.inr ⟨_, hc, hp⟩⟩
  · rintro ⟨hs, rfl | ⟨ch, hc, hp⟩⟩
    · exact ShownPath.here hs
    · exact ShownPath.down hs hc hp

theorem shownDescendants_mem (w : World) :
    ∀ (fuel n : Nat) (l : List Nat), shownDescendants fuel n w = some l →
      ∀ x, x ∈ l ↔ ∃ ch, ch ∈ (w.ctrl n).Children ∧ ShownPath w ch x := by
  intro fuel
  induction fuel with
  | zero => intro n l h; simp [shownDescendants] at h
  | succ k ih =>
    intro n l h x
    unfold shownDescendants at h
    rw [preorderList_mem _ _ _ h x]
    constructor
    · rintro ⟨c, hc, hx⟩
      have hc2 : c ∈ (w.ctrl n).Children ∧ (w.ctrl c).m_bHidden = false := by
        simpa [shownChildren] using hc
      refine ⟨c, hc2.1, ShownPath_cases.2 ⟨hc2.2, ?_⟩⟩
      rcases hx with hx | ⟨lc, h1, h2⟩
      · exact Or.inl hx
      · exact Or.inr ((ih c lc h1 x).1 h2)
    · rintro ⟨c, hc, hp⟩
      obtain ⟨hs, hx⟩ := ShownPath_cases.1 hp
      have hc2 : c ∈ shownChildren n w := by simp [shownChildren, hc, hs]
      refine ⟨c, hc2, ?_⟩
      rcases hx with hx | hx
      · exact Or.inl hx
      · obtain ⟨lc, h1⟩ := preorderList_sub _ _ _ h c hc2
        exact Or.inr ⟨lc, h1, (ih c lc h1 x).2 hx⟩

/-- C26: on the normal render path (no control is cached to texture or the renderer has no
cache facility, and every clip region is visible) `RenderRecursive` on a control of a tree
with acyclic child lists returns, leaves the world as it is, and appends to the sequence
of `Render` hook invocations exactly the control followed by the depth-first pre-order of
its descendants over the child lists restricted to non-hidden children
(`shownDescendants`): a control comes before its descendants and siblings come in
child-list order. The controls of that sequence are those reached from a child through
non-hidden controls, and in a forest nothing in the subtree of a hidden control below the
rendered one is in it. -/
theorem RenderRecursive_draws_shown_preorder (ren : Renderer) (r : Nat → Nat)
    (fuel n : Nat) (cliprect : Rect) (w : World) (st : RenderState)
    (hr : ChildRank w r) (hfuel : r n < fuel)
    (hnc : ren.GetCTT = false ∨ ∀ m, (w.ctrl m).m_bCacheToTexture = false)
    (hvis : ∀ region, ren.ClipRegionVisible region = true) :
    ∃ l st1, shownDescendants fuel n w = some l ∧
      RenderRecursive ren fuel n cliprect (w, st) = some (w, st1) ∧
      renderCalls st1.drawn = renderCalls st.drawn ++ n :: l ∧
      (∀ x, x ∈ l ↔ ∃ c, c ∈ (w.ctrl n).Children ∧ ShownPath w c x) ∧
      (SingleParent w → ∀ h x, h ≠ n → Sub w n h → (w.ctrl h).m_bHidden = true →
        Sub w h x → x ∉ l) := by
  obtain ⟨k, rfl⟩ : ∃ k, fuel = k + 1 := ⟨fuel - 1, by omega⟩
  have hch : ∀ c, c ∈ (w.ctrl n).Children → (w.ctrl c).m_bHidden = false →
      ∀ st0 : RenderState, ∃ lc st1, shownDescendants k c w = some lc ∧
        DoRender ren k c (w, st0) = some (w, st1) ∧
        renderCalls st1.drawn = renderCalls st0.drawn ++ c :: lc := by
    intro c hc _ st0
    have := hr n c hc
    exact DoRender_calls ren r w hr hnc hvis k c st0 (by omega)
  obtain ⟨L, st1, h1, h2, h3⟩ := renderRecursiveBody_calls ren w hvis
    (fun c => shownDescendants k c w) (DoRender ren k) n cliprect st hch
  have hmem := shownDescendants_mem w (k + 1) n L h1
  refine ⟨L, st1, h1, h2, h3, hmem, ?_⟩
  intro hs h x hne hnh hhid hhx hx
  obtain ⟨c, hc, hp⟩ := (hmem x).1 hx
  rcases Sub_cases.1 hnh with he | ⟨c1, hc1, hs1⟩
  · exact hne he
  · have hcc : c = c1 :=
      siblings_disjoint hr hs hc hc1 (ShownPath_sub hp) (Sub_trans hs1 hhx)
    subst hcc
    have := ShownPath_between hr hs hp h hs1 hhx
    rw [this] at hhid
    exact Bool.noConfusion hhid

/-- C26 on the sample tree: below the root the pass draws `1` with its children `4` and
`5`, then `3`; the hidden `2` and its child `6` are not drawn. -/
theorem RenderRecursive_draws_shown_preorder_witness :
    ChildRank renderTree renderRank ∧ renderRank 0 < 3 ∧
      shownDescendants 3 0 renderTree = some [1, 4, 5, 3] ∧
      (RenderRecursive openRenderer 3 0 (renderTree.ctrl 0).m_bounds
          (renderTree, frameStart)).map (fun s => renderCalls s.2.drawn) =
        some [0, 1, 4, 5, 3] := by
  have hl : shownDescendants 3 0 renderTree = some [1, 4, 5, 3] := by decide
  refine ⟨renderTree_rank, by decide, hl, ?_⟩
  obtain ⟨l, st1, h1, h2, h3, _, _⟩ :=
    RenderRecursive_draws_shown_preorder openRenderer renderRank 3 0
      (renderTree.ctrl 0).m_bounds renderTree frameStart renderTree_rank (by decide)
      (Or.inl rfl) (fun _ => rfl)
  rw [hl] at h1
  cases h1
  rw [h2]
  simp only [Option.map_some']
  rw [h3]
  rfl

end RenderOrder

section RenderPaths

/-- C27 (evaluation): the root of the sample tree is cached to texture with a dirty cache,
is tabable and holds the keyboard focus, and its clip region is visible. Rendered through
`DoCacheRender` it gets its `Render` hook and the same child renders in the same order as
through `RenderRecursive`, but neither `RenderUnder` nor `RenderOver` nor the keyboard
highlight of `RenderFocus`, which `RenderRecursive` issues. -/
theorem DoCacheRender_omits_overlay_hooks :
    (DoCacheRender cullingRenderer 3 0 0 (renderTree, frameStart)).map (fun s => s.2.drawn) =
      some [Draw.SetupCacheTexture 0, Draw.Render 0,
        Draw.Think 1, Draw.RenderUnder 1, Draw.Render 1,
        Draw.Think 4, Draw.RenderUnder 4, Draw.Render 4, Draw.RenderOver 4,
        Draw.Think 5, Draw.RenderUnder 5, Draw.Render 5, Draw.RenderOver 5,
        Draw.RenderOver 1,
        Draw.Think 3, Draw.RenderUnder 3, Draw.Render 3, Draw.RenderOver 3,
        Draw.FinishCacheTexture 0, Draw.DrawCachedControlTexture 0] ∧
    (RenderRecursive cullingRenderer 3 0 (renderTree.ctrl 0).m_bounds
        (renderTree, frameStart)).map (fun s => s.2.drawn) =
      some [Draw.RenderUnder 0, Draw.Render 0,
        Draw.Think 1, Draw.RenderUnder 1, Draw.Render 1,
        Draw.Think 4, Draw.RenderUnder 4, Draw.Render 4, Draw.RenderOver 4,
        Draw.Think 5, Draw.RenderUnder 5, Draw.Render 5, Draw.RenderOver 5,
        Draw.RenderOver 1,
        Draw.Think 3, Draw.RenderUnder 3, Draw.Render 3, Draw.RenderOver 3,
        Draw.RenderOver 0, Draw.KeyboardHighlight 0] ∧
    (renderTree.ctrl 0).m_bCacheToTexture = true ∧
    (renderTree.ctrl 0).m_bCacheTextureDirty = true ∧
    renderTree.KeyboardFocus = some 0 ∧ (renderTree.ctrl 0).m_tabable = true ∧
    cullingRenderer.ClipRegionVisible (renderTree.ctrl 0).m_bounds = true := by
  refine ⟨by decide, by decide, by decide, by decide, by decide, by decide, by decide⟩

end RenderPaths

section SizeLimits

/-- The width reported by `GetMinimumSize` does not depend on the vertical flag. -/
theorem GetMinimumSize_width_flag (n : Nat) (w : World) (h v v1 : SizeFlag) :
    (GetMinimumSize n (w.modify n fun c =>
        { c with m_sizeFlags := { horizontal := h, vertical := v } })).width =
      (GetMinimumSize n (w.modify n fun c =>
        { c with m_sizeFlags := { horizontal := h, vertical := v1 } })).width := by
  simp only [GetMinimumSize, World.modify, Function.update_same]
  cases h <;> cases v <;> cases v1 <;> simp

/-- The height reported by `GetMinimumSize` does not depend on the horizontal flag. -/
theorem GetMinimumSize_height_flag (n : Nat) (w : World) (h h1 v : SizeFlag) :
    (GetMinimumSize n (w.modify n fun c =>
        { c with m_sizeFlags := { horizontal := h, vertical := v } })).height =
      (GetMinimumSize n (w.modify n fun c =>
        { c with m_sizeFlags := { horizontal := h1, vertical := v } })).height := by
  simp only [GetMinimumSize, World.modify, Function.update_same]
  cases h <;> cases h1 <;> cases v <;> simp

/-- The width reported by `GetMaximumSize` does not depend on the vertical flag. -/
theorem GetMaximumSize_width_flag (n : Nat) (w : World) (h v v1 : SizeFlag) :
    (GetMaximumSize n (w.modify n fun c =>
        { c with m_sizeFlags := { horizontal := h, vertical := v } })).width =
      (GetMaximumSize n (w.modify n fun c =>
        { c with m_sizeFlags := { horizontal := h, vertical := v1 } })).width := by
  simp only [GetMaximumSize, World.modify, Function.update_same]
  cases h <;> cases v <;> cases v1 <;> simp

/-- With Fixed on an axis both limits report the bound size on that axis. -/
theorem size_limits_fixed (n : Nat) (w : World) :
    ((w.ctrl n).m_sizeFlags.horizontal = SizeFlag.Fixed →
      (GetMinimumSize n w).width = (w.ctrl n).m_bounds.w ∧
      (GetMaximumSize n w).width = (w.ctrl n).m_bounds.w) ∧
    ((w.ctrl n).m_sizeFlags.vertical = SizeFlag.Fixed →
      (GetMinimumSize n w).height = (w.ctrl n).m_bounds.h ∧
      (GetMaximumSize n w).height = (w.ctrl n).m_bounds.h) := by
  constructor
  · intro hf
    simp only [GetMinimumSize, GetMaximumSize, hf, if_true]
    constructor <;> split <;> (try split) <;> rfl
  · intro hf
    simp [GetMinimumSize, GetMaximumSize, hf]

/-- C33 (evaluation): on `limitTree` (maximum height 50, preferred height 80, vertical
policy Elastic) the height reported by `GetMaximumSize` is 50 with the horizontal policy
Elastic and 80 with the horizontal policy Shrink, nothing else being changed: the height
depends on the horizontal flag. The vertical policy Shrink, on the other hand, leaves the
height at 50. The width reported does follow the horizontal flag alone (100 and 100 against
the preferred width 30; Fixed gives the bound width 40), and Fixed on the vertical axis
gives the bound height 30. -/
theorem GetMaximumSize_height_reads_horizontal_flag :
    (GetMaximumSize 0 limitTree).height = 50 ∧
    (GetMaximumSize 0 (SetSizeFlags 0
      { horizontal := SizeFlag.Shrink, vertical := SizeFlag.Elastic } limitTree)).height = 80 ∧
    (GetMaximumSize 0 (SetSizeFlags 0
      { horizontal := SizeFlag.Elastic, vertical := SizeFlag.Shrink } limitTree)).height = 50 ∧
    (GetMaximumSize 0 (SetSizeFlags 0
      { horizontal := SizeFlag.Shrink, vertical := SizeFlag.Elastic } limitTree)).width = 100 ∧
    (GetMaximumSize 0 (SetSizeFlags 0
      { horizontal := SizeFlag.Fixed, vertical := SizeFlag.Fixed } limitTree)).width = 40 ∧
    (GetMaximumSize 0 (SetSizeFlags 0
      { horizontal := SizeFlag.Fixed, vertical := SizeFlag.Fixed } limitTree)).height = 30 ∧
    (GetMinimumSize 0 (SetSizeFlags 0
      { horizontal := SizeFlag.Shrink, vertical := SizeFlag.Elastic } limitTree)).height =
      (GetMinimumSize 0 limitTree).height := by
  refine ⟨by decide, by decide, by decide, by decide, by decide, by decide, by decide⟩

end SizeLimits

section TopBottom

/-- C32 (evaluation): in `topBottomTree` the remaining rectangle starts at x = 3 and is 95
wide, and the Top-docked and the Bottom-docked child differ in nothing but the dock. After
`ArrangeHorizontal` both get the width 95 - 5 - 7 = 83 (their own width 10 with the Fixed
policy), but the Top-docked child is put at x = 3 + 5 = 8 and the Bottom-docked child at
x = 3: the Bottom branch does not add the left margin. In `ArrangeVertical` the two
corresponding branches (Left and Right) both add the top margin. -/
theorem ArrangeHorizontal_bottom_ignores_left_margin :
    (ArrangeHorizontal 2 0 topBottomTree).map (fun v =>
        ((v.ctrl 1).m_bounds.x, (v.ctrl 1).m_bounds.w, (v.ctrl 2).m_bounds.x,
          (v.ctrl 2).m_bounds.w)) = some (8, 83, 3, 83) ∧
    (ArrangeHorizontal 2 0 topBottomTree).map (fun v =>
        ((v.ctrl 3).m_bounds.x, (v.ctrl 3).m_bounds.w, (v.ctrl 4).m_bounds.x,
          (v.ctrl 4).m_bounds.w)) = some (8, 10, 3, 10) ∧
    (topBottomTree.ctrl 1).m_margin = (topBottomTree.ctrl 2).m_margin ∧
    (topBottomTree.ctrl 1).m_bounds = (topBottomTree.ctrl 2).m_bounds ∧
    (topBottomTree.ctrl 1).m_sizeFlags = (topBottomTree.ctrl 2).m_sizeFlags ∧
    { topBottomTree.ctrl 1 with m_dock := Position.Bottom } = topBottomTree.ctrl 2 := by
  refine ⟨by decide, by decide, by decide, by decide, by decide, by decide⟩

end TopBottom

section RemoveAll

/-- C35 (evaluation): after `RemoveAllChildren` on the container of `dockTree` its child
list is empty, but the former child `1` still names the container as its logical and as
its actual parent; the later `SetParent` of `1` to the container therefore returns at its
first test and the child list stays empty. Detached with `SetParent(nullptr)` instead, the
child has both pointers cleared and the later `SetParent` attaches it again. -/
theorem RemoveAllChildren_keeps_parent_pointers :
    (RemoveAllChildren 2 5 0 dockTree).map (fun v =>
        ((v.ctrl 0).Children, (v.ctrl 1).m_parent, (v.ctrl 1).m_actualParent)) =
      some ([], some 0, some 0) ∧
    ((RemoveAllChildren 2 5 0 dockTree).bind (SetParent 2 1 (some 0))).map (fun v =>
        ((v.ctrl 0).Children, (v.ctrl 1).m_parent, (v.ctrl 1).m_actualParent)) =
      some ([], some 0, some 0) ∧
    ((SetParent 2 1 none dockTree).bind (SetParent 2 1 (some 0))).map (fun v =>
        ((v.ctrl 0).Children, (v.ctrl 1).m_parent, (v.ctrl 1).m_actualParent)) =
      some ([2, 3, 4, 1], some 0, some 0) ∧
    (SetParent 2 1 none dockTree).map (fun v =>
        ((v.ctrl 0).Children, (v.ctrl 1).m_parent, (v.ctrl 1).m_actualParent)) =
      some ([2, 3, 4], none, none) := by
  refine ⟨by decide, by decide, by decide, by decide⟩

end RemoveAll

section ZOrder

theorem Invalidate_layout (n : Nat) (w : World) : LayoutFrame w (Invalidate n w) := by
  refine ⟨⟨rfl, rfl, rfl⟩, fun m => ?_⟩
  by_cases hm : m = n
  · subst hm
    simp [Invalidate, World.modify, eraseLayout]
  · simp [Invalidate, World.modify, Function.update_noteq hm]

theorem InvalidateParent_layout (n : Nat) (w : World) : LayoutFrame w (InvalidateParent n w) := by
  unfold InvalidateParent
  split
  · exact Invalidate_layout _ _
  · exact LayoutFrame_refl w

theorem modify_children_self (w : World) (a : Nat) (f : Control → List Nat)
    (h : f (w.ctrl a) = (w.ctrl a).Children) :
    (w.modify a fun c => { c with Children := f c }) = w := by
  simp [World.modify, h]

theorem filter_ne_of_count_zero (n : Nat) :
    ∀ l : List Nat, l.count n = 0 → l.filter (fun x => x != n) = l := by
  intro l h
  rw [List.filter_eq_self]
  intro x hx
  have : x ≠ n := fun e => by
    subst e
    exact absurd (List.count_pos_iff.2 hx) (by omega)
  simpa using this

theorem cons_filter_of_head (n : Nat) (l : List Nat) (hh : l.head? = some n)
    (hc : l.count n = 1) : n :: l.filter (fun x => x != n) = l := by
  cases l with
  | nil => simp at hh
  | cons x t =>
    simp only [List.head?_cons, Option.some.injEq] at hh
    subst hh
    have ht : t.count x = 0 := by
      simp only [List.count_cons_self] at hc
      omega
    simp [filter_ne_of_count_zero x t ht]

theorem filter_append_of_getLast (n : Nat) :
    ∀ l : List Nat, l.getLast? = some n → l.count n = 1 →
      l.filter (fun x => x != n) ++ [n] = l := by
  intro l
  induction l with
  | nil => intro h; simp at h
  | cons x t ih =>
    intro hl hc
    cases t with
    | nil =>
      simp only [List.getLast?_singleton, Option.some.injEq] at hl
      subst hl
      simp
    | cons y t1 =>
      have hl1 : (y :: t1).getLast? = some n := by
        simpa [List.getLast?_cons_cons] using hl
      have hmem : n ∈ y :: t1 := List.mem_of_getLast?_eq_some hl1
      have hpos : 0 < (y :: t1).count n := List.count_pos_iff.2 hmem
      have hx : x ≠ n := by
        intro e
        subst e
        simp only [List.count_cons_self] at hc
        omega
      have hc1 : (y :: t1).count n = 1 := by
        rw [List.count_cons_of_ne (Ne.symm hx)] at hc
        exact hc
      have := ih hl1 hc1
      rw [List.filter_cons_of_pos (by simpa using hx), List.cons_append, this]

/-- `SendToBack` on a control listed once by its actual parent `a`: the child list of `a`
becomes the control followed by the other children in their old order, and nothing but
that list and dirty flags changes. -/
theorem SendToBack_spec (n a : Nat) (w : World) (ha : (w.ctrl n).m_actualParent = some a)
    (hc : (w.ctrl a).Children.count n = 1) :
    ∃ w1, SendToBack n w = some w1 ∧
      LayoutFrame (w.modify a fun c =>
        { c with Children := n :: c.Children.filter fun x => x != n }) w1 := by
  unfold SendToBack
  rw [ha]
  dsimp only
  have hmem : n ∈ (w.ctrl a).Children := List.count_pos_iff.1 (by omega)
  cases hl : (w.ctrl a).Children.head? with
  | none =>
    rw [List.head?_eq_none_iff] at hl
    rw [hl] at hmem
    simp at hmem
  | some front =>
    dsimp only
    by_cases hf : front = n
    · rw [if_pos hf]
      subst hf
      refine ⟨w, rfl, ?_⟩
      have := modify_children_self w a (fun c => front :: c.Children.filter fun x => x != front)
        (cons_filter_of_head front _ hl hc)
      rw [this]
      exact LayoutFrame_refl w
    · rw [if_neg hf]
      exact ⟨_, rfl, InvalidateParent_layout _ _⟩

/-- `BringToFront` on a control listed once by its actual parent `a`: the child list of `a`
becomes the other children in their old order followed by the control, and nothing but
that list and dirty flags changes. -/
theorem BringToFront_spec (d : Nat → Nat) (fuel n a : Nat) (w : World)
    (hd : ParentDepth w d) (hfuel : d n < fuel)
    (ha : (w.ctrl n).m_actualParent = some a) (hc : (w.ctrl a).Children.count n = 1) :
    ∃ w1, BringToFront fuel n w = some w1 ∧
      LayoutFrame (w.modify a fun c =>
        { c with Children := (c.Children.filter fun x => x != n) ++ [n] }) w1 := by
  unfold BringToFront
  rw [ha]
  dsimp only
  have hmem : n ∈ (w.ctrl a).Children := List.count_pos_iff.1 (by omega)
  cases hl : (w.ctrl a).Children.getLast? with
  | none =>
    rw [List.getLast?_eq_none_iff] at hl
    rw [hl] at hmem
    simp at hmem
  | some back =>
    dsimp only
    by_cases hf : back = n
    · rw [if_pos hf]
      subst hf
      refine ⟨w, rfl, ?_⟩
      have := modify_children_self w a
        (fun c => (c.Children.filter fun x => x != back) ++ [back])
        (filter_append_of_getLast back _ hl hc)
      rw [this]
      exact LayoutFrame_refl w
    · rw [if_neg hf]
      have hd1 : ParentDepth (InvalidateParent n (w.modify a fun c =>
          { c with Children := (c.Children.filter fun x => x != n) ++ [n] })) d := by
        refine ParentDepth_of_frame (InvalidateParent_layout _ _) ?_
        intro c p hp
        refine hd c p ?_
        by_cases hca : c = a
        · subst hca
          simpa [World.modify] using hp
        · simpa [World.modify, Function.update_noteq hca] using hp
      obtain ⟨w1, h1, hf1, _⟩ := Redraw_spec d fuel n _ hd1 hfuel
      exact ⟨w1, h1, LayoutFrame_trans (InvalidateParent_layout _ _) hf1.dirtyToLayout⟩

end ZOrder

section ZOrderClaims

/-- C40: `IsOnTop` returns false on a control without logical parent; on a control with
logical parent `p` whose own child list is not empty (as it is when it holds the control or
the inner panel of `p`) it returns true exactly when the control is the first element of
that list. For a control listed once by `p`, which is its logical and its actual parent,
next to at least one sibling: after `BringToFront` the control is the last element and
`IsOnTop` returns false, after `SendToBack` it is the first element and `IsOnTop` returns
true. -/
theorem IsOnTop_iff_first_child (d : Nat → Nat) (fuel n : Nat) (w : World)
    (hd : ParentDepth w d) (hfuel : d n < fuel) :
    ((w.ctrl n).m_parent = none → IsOnTop n w = some false) ∧
    (∀ p, (w.ctrl n).m_parent = some p → (w.ctrl p).Children ≠ [] →
      IsOnTop n w = some (decide ((w.ctrl p).Children.head? = some n))) ∧
    (∀ p s, (w.ctrl n).m_parent = some p → (w.ctrl n).m_actualParent = some p →
      (w.ctrl p).Children.count n = 1 → s ∈ (w.ctrl p).Children → s ≠ n →
      (∃ w1, BringToFront fuel n w = some w1 ∧ IsOnTop n w1 = some false ∧
        (w1.ctrl p).Children.getLast? = some n) ∧
      (∃ w1, SendToBack n w = some w1 ∧ IsOnTop n w1 = some true ∧
        (w1.ctrl p).Children.head? = some n)) := by
  refine ⟨?_, ?_, ?_⟩
  · intro hp
    simp [IsOnTop, hp]
  · intro p hp hne
    unfold IsOnTop
    rw [hp]
    dsimp only
    cases hl : (w.ctrl p).Children with
    | nil => exact absurd hl hne
    | cons x t =>
      dsimp only
      by_cases hx : x = n
      · simp [hx]
      · simp [hx]
  · intro p s hp ha hc hs hsn
    have hsf : s ∈ (w.ctrl p).Children.filter (fun x => x != n) := by
      simp [List.mem_filter, hs, hsn]
    constructor
    · obtain ⟨w1, h1, hf⟩ := BringToFront_spec d fuel n p w hd hfuel ha hc
      have hch : (w1.ctrl p).Children =
          (w.ctrl p).Children.filter (fun x => x != n) ++ [n] := by
        rw [hf.layoutProj Control.Children (fun _ => rfl) p]
        simp [World.modify]
      have hpar : (w1.ctrl n).m_parent = some p := by
        rw [hf.layoutProj Control.m_parent (fun _ => rfl) n, ← hp]
        by_cases hnp : n = p
        · subst hnp
          simp [World.modify]
        · simp [World.modify, Function.update_noteq hnp]
      refine ⟨w1, h1, ?_, by rw [hch]; simp⟩
      unfold IsOnTop
      rw [hpar]
      dsimp only
      rw [hch]
      cases hfl : (w.ctrl p).Children.filter (fun x => x != n) with
      | nil => rw [hfl] at hsf; simp at hsf
      | cons x t =>
        have hx : x ∈ (w.ctrl p).Children.filter (fun x => x != n) := by
          rw [hfl]
          exact List.mem_cons_self _ _
        have hxn : x ≠ n := by simpa using (List.mem_filter.1 hx).2
        simp [hxn]
    · obtain ⟨w1, h1, hf⟩ := SendToBack_spec n p w ha hc
      have hch : (w1.ctrl p).Children =
          n :: (w.ctrl p).Children.filter (fun x => x != n) := by
        rw [hf.layoutProj Control.Children (fun _ => rfl) p]
        simp [World.modify]
      have hpar : (w1.ctrl n).m_parent = some p := by
        rw [hf.layoutProj Control.m_parent (fun _ => rfl) n, ← hp]
        by_cases hnp : n = p
        · subst hnp
          simp [World.modify]
        · simp [World.modify, Function.update_noteq hnp]
      refine ⟨w1, h1, ?_, by rw [hch]; simp⟩
      unfold IsOnTop
      rw [hpar]
      dsimp only
      rw [hch]
      simp

/-- C40 on `dockTree`: the first child `1` is on top by this test and the child `2` is not;
after `BringToFront` on `1` the test fails for it, after `SendToBack` on `2` it holds for
`2`. -/
theorem IsOnTop_iff_first_child_witness :
    ParentDepth dockTree flatDepth ∧ flatDepth 1 < 2 ∧
      IsOnTop 1 dockTree = some true ∧ IsOnTop 2 dockTree = some false ∧
      IsOnTop 0 dockTree = some false ∧
      (BringToFront 2 1 dockTree).bind (IsOnTop 1) = some false ∧
      (SendToBack 2 dockTree).bind (IsOnTop 2) = some true := by
  have hd : ParentDepth dockTree flatDepth := ParentDepth_ofList _ flatDepth (by decide)
  have h := IsOnTop_iff_first_child flatDepth 2 1 dockTree hd (by decide)
  have h2 := h.2.1 0 (by decide) (by decide)
  refine ⟨hd, by decide, ?_, by decide, by decide, by decide, by decide⟩
  rw [h2]
  decide

end ZOrderClaims

section CacheRender

theorem LogStep.logRefl (r : Nat → Nat) (k : Nat) (s : World × RenderState) :
    LogStep r k s s :=
  ⟨[], by simp, by simp⟩

theorem LogStep.logTrans {r : Nat → Nat} {k : Nat} {s s1 s2 : World × RenderState}
    (h1 : LogStep r k s s1) (h2 : LogStep r k s1 s2) : LogStep r k s s2 := by
  obtain ⟨l1, e1, b1⟩ := h1
  obtain ⟨l2, e2, b2⟩ := h2
  refine ⟨l1 ++ l2, by rw [e2, e1, List.append_assoc], ?_⟩
  intro e he
  rcases List.mem_append.1 he with h | h
  · exact b1 e h
  · exact b2 e h

theorem LogStep.logMono {r : Nat → Nat} {k k1 : Nat} {s s1 : World × RenderState}
    (h : LogStep r k s s1) (hk : k ≤ k1) : LogStep r k1 s s1 := by
  obtain ⟨l, e, b⟩ := h
  exact ⟨l, e, fun x hx => le_trans (b x hx) hk⟩

theorem LogStep.ofDrawn {r : Nat → Nat} {k : Nat} {s s1 : World × RenderState}
    (log : List Draw) (h : s1.2.drawn = s.2.drawn ++ log) (hb : ∀ e, e ∈ log → r e.target ≤ k) :
    LogStep r k s s1 :=
  ⟨log, h, hb⟩

theorem renderChildren_log (r : Nat → Nat) (k : Nat)
    (doRender : Nat → World × RenderState → Option (World × RenderState)) :
    ∀ (l : List Nat) (s s1 : World × RenderState),
      renderChildren doRender l s = some s1 → ChildRank s.1 r →
      (∀ c, c ∈ l → ∀ s0 s2 : World × RenderState, ChildRank s0.1 r →
        doRender c s0 = some s2 → LogStep r k s0 s2 ∧ ChildRank s2.1 r) →
      LogStep r k s s1 := by
  intro l
  induction l with
  | nil =>
    intro s s1 h _ _
    simp only [renderChildren, Option.some.injEq] at h
    subst h
    exact LogStep.logRefl r k s
  | cons c rest ih =>
    intro s s1 hs hr h
    unfold renderChildren at hs
    by_cases hh : (s.1.ctrl c).m_bHidden = true
    · rw [if_pos hh] at hs
      exact ih s s1 hs hr (fun c1 hc1 => h c1 (List.mem_cons_of_mem _ hc1))
    · rw [if_neg hh] at hs
      cases hd : doRender c s with
      | none => rw [hd] at hs; simp at hs
      | some s2 =>
        rw [hd] at hs
        obtain ⟨h1, h2⟩ := h c (List.mem_cons_self _ _) s s2 hr hd
        exact h1.logTrans
          (ih s2 s1 hs h2 (fun c1 hc1 => h c1 (List.mem_cons_of_mem _ hc1)))

theorem RenderFocus_drawn (n : Nat) (w : World) (st : RenderState) :
    ∃ log, (RenderFocus n w st).drawn = st.drawn ++ log ∧ ∀ e, e ∈ log → e.target = n := by
  unfold RenderFocus
  split
  · exact ⟨[], by simp, by simp⟩
  · split
    · exact ⟨[], by simp, by simp⟩
    · exact ⟨[Draw.KeyboardHighlight n], rfl, by simp [Draw.target]⟩

theorem renderEnter_drawn (ren : Renderer) (n : Nat) (cliprect : Rect) (w : World)
    (st : RenderState) :
    (renderEnter ren n cliprect w st).drawn = st.drawn ++ [Draw.RenderUnder n] := by
  unfold renderEnter
  dsimp only
  split <;> rfl

theorem cacheEnter_drawn (ren : Renderer) (n master : Nat) (w : World) (st : RenderState) :
    (cacheEnter ren n master w st).drawn = st.drawn := by
  unfold cacheEnter
  dsimp only
  split <;> rfl

theorem renderLeave_drawn (n : Nat) (w : World) (off : Point) (reg : Rect)
    (st : RenderState) :
    ∃ log, (renderLeave n w off reg st).drawn = st.drawn ++ log ∧
      ∀ e, e ∈ log → e.target = n := by
  obtain ⟨log, h1, h2⟩ := RenderFocus_drawn n w
    (RenderState.draw (RenderState.StartClip
      { st.EndClip with clipRegion := reg }) (Draw.RenderOver n))
  refine ⟨Draw.RenderOver n :: log, ?_, ?_⟩
  · unfold renderLeave
    dsimp only
    simp only [RenderState.EndClip] at h1 ⊢
    rw [h1]
    simp [RenderState.draw, RenderState.StartClip]
  · intro e he
    rcases List.mem_cons.1 he with h | h
    · rw [h]; rfl
    · exact h2 e h

theorem renderRecursiveBody_log (ren : Renderer) (r : Nat → Nat)
    (doRender : Nat → World × RenderState → Option (World × RenderState))
    (n : Nat) (cliprect : Rect) (s s1 : World × RenderState)
    (hr : ChildRank s.1 r)
    (h : ∀ c, c ∈ (s.1.ctrl n).Children → ∀ s0 s2 : World × RenderState,
      ChildRank s0.1 r → doRender c s0 = some s2 →
      LogStep r (r n) s0 s2 ∧ ChildRank s2.1 r)
    (hs : renderRecursiveBody ren doRender n cliprect s = some s1) :
    LogStep r (r n) s s1 := by
  unfold renderRecursiveBody at hs
  dsimp only at hs
  split at hs
  · simp only [Option.some.injEq] at hs
    subst hs
    exact ⟨[Draw.RenderUnder n], renderEnter_drawn _ _ _ _ _, by simp [Draw.target]⟩
  · cases hc : renderChildren doRender (s.1.ctrl n).Children
        (s.1, (renderEnter ren n cliprect s.1 s.2).StartClip.draw (Draw.Render n)) with
    | none => rw [hc] at hs; simp at hs
    | some s2 =>
      rw [hc] at hs
      simp only [Option.some.injEq] at hs
      subst hs
      have h1 : LogStep r (r n) s
          (s.1, (renderEnter ren n cliprect s.1 s.2).StartClip.draw (Draw.Render n)) :=
        ⟨[Draw.RenderUnder n, Draw.Render n], by
          simp [RenderState.draw, RenderState.StartClip, renderEnter_drawn],
          by simp [Draw.target]⟩
      have h2 := renderChildren_log r (r n) doRender _ _ _ hc hr h
      obtain ⟨log, h3, h4⟩ := renderLeave_drawn n s2.1 s.2.renderOffset s.2.clipRegion s2.2
      have h5 : LogStep r (r n) s2
          (s2.1, renderLeave n s2.1 s.2.renderOffset s.2.clipRegion s2.2) :=
        ⟨log, h3, fun e he => by rw [h4 e he]⟩
      exact (h1.logTrans h2).logTrans h5

theorem updateCacheTexture_log (r : Nat → Nat)
    (doRender : Nat → World × RenderState → Option (World × RenderState))
    (n : Nat) (s s1 : World × RenderState)
    (hr : ChildRank s.1 r)
    (h : ∀ c, c ∈ (s.1.ctrl n).Children → ∀ s0 s2 : World × RenderState,
      ChildRank s0.1 r → doRender c s0 = some s2 →
      LogStep r (r n) s0 s2 ∧ ChildRank s2.1 r)
    (hs : updateCacheTexture doRender n s = some s1) :
    LogStep r (r n) s s1 := by
  unfold updateCacheTexture at hs
  dsimp only at hs
  cases hc : renderChildren doRender (s.1.ctrl n).Children
      (s.1, (if (s.1.ctrl n).m_bCacheToTexture = true then
        s.2.StartClip.draw (Draw.SetupCacheTexture n) else s.2.StartClip).draw
          (Draw.Render n)) with
  | none => rw [hc] at hs; simp at hs
  | some s2 =>
    rw [hc] at hs
    dsimp only at hs
    have h1 : LogStep r (r n) s
        (s.1, (if (s.1.ctrl n).m_bCacheToTexture = true then
          s.2.StartClip.draw (Draw.SetupCacheTexture n) else s.2.StartClip).draw
            (Draw.Render n)) := by
      split
      · exact ⟨[Draw.SetupCacheTexture n, Draw.Render n], by
          simp [RenderState.draw, RenderState.StartClip], by simp [Draw.target]⟩
      · exact ⟨[Draw.Render n], by
          simp [RenderState.draw, RenderState.StartClip], by simp [Draw.target]⟩
    have h2 := renderChildren_log r (r n) doRender _ _ _ hc hr h
    split at hs
    · simp only [Option.some.injEq] at hs
      subst hs
      exact (h1.logTrans h2).logTrans
        ⟨[Draw.FinishCacheTexture n], by simp [RenderState.draw, RenderState.EndClip],
          by simp [Draw.target]⟩
    · simp only [Option.some.injEq] at hs
      subst hs
      exact (h1.logTrans h2).logTrans ⟨[], by simp [RenderState.EndClip], by simp⟩

theorem doCacheRenderBody_log (ren : Renderer) (r : Nat → Nat)
    (doRender : Nat → World × RenderState → Option (World × RenderState))
    (n master : Nat) (s s1 : World × RenderState)
    (hr : ChildRank s.1 r)
    (h : ∀ c, c ∈ (s.1.ctrl n).Children → ∀ s0 s2 : World × RenderState,
      ChildRank s0.1 r → doRender c s0 = some s2 →
      LogStep r (r n) s0 s2 ∧ ChildRank s2.1 r)
    (hs : doCacheRenderBody ren doRender n master s = some s1) :
    LogStep r (r n) s s1 := by
  unfold doCacheRenderBody at hs
  dsimp only at hs
  split at hs
  · simp only [Option.some.injEq] at hs
    subst hs
    exact LogStep.logRefl _ _ _
  · have hup : ∀ s2, (if ((s.1.ctrl n).m_bCacheTextureDirty &&
          ren.ClipRegionVisible (cacheEnter ren n master s.1 s.2).clipRegion) = true then
          updateCacheTexture doRender n (s.1, cacheEnter ren n master s.1 s.2)
        else some (s.1, cacheEnter ren n master s.1 s.2)) = some s2 →
        LogStep r (r n) s s2 := by
      intro s2 h2
      have h0 : LogStep r (r n) s (s.1, cacheEnter ren n master s.1 s.2) :=
        ⟨[], by simp [cacheEnter_drawn], by simp⟩
      split at h2
      · exact h0.logTrans (updateCacheTexture_log r doRender n _ s2 hr h h2)
      · simp only [Option.some.injEq] at h2
        subst h2
        exact h0
    cases hc : (if ((s.1.ctrl n).m_bCacheTextureDirty &&
          ren.ClipRegionVisible (cacheEnter ren n master s.1 s.2).clipRegion) = true then
          updateCacheTexture doRender n (s.1, cacheEnter ren n master s.1 s.2)
        else some (s.1, cacheEnter ren n master s.1 s.2)) with
    | none => rw [hc] at hs; simp at hs
    | some s2 =>
      rw [hc] at hs
      simp only [Option.some.injEq] at hs
      subst hs
      exact (hup s2 hc).logTrans
        ⟨[Draw.DrawCachedControlTexture n], by
          simp [cacheLeave, RenderState.draw, RenderState.StartClip, RenderState.EndClip],
          by simp [Draw.target]⟩

/-- The calls drawn by `DoRender` on a control are about controls of at most its rank. -/
theorem DoRender_log (ren : Renderer) (r : Nat → Nat) :
    ∀ (fuel n : Nat) (s s1 : World × RenderState), ChildRank s.1 r → r n < fuel →
      DoRender ren fuel n s = some s1 → LogStep r (r n) s s1 := by
  intro fuel
  induction fuel with
  | zero => intro n s s1 _ h; omega
  | succ k ih =>
    intro n s s1 hr hf hs
    have hch : ∀ c, c ∈ (s.1.ctrl n).Children → ∀ s0 s2 : World × RenderState,
        ChildRank s0.1 r → DoRender ren k c s0 = some s2 →
        LogStep r (r n) s0 s2 ∧ ChildRank s2.1 r := by
      intro c hc s0 s2 hr0 h
      have hlt := hr n c hc
      refine ⟨(ih c s0 s2 hr0 (by omega) h).logMono (by omega), ?_⟩
      obtain ⟨s3, h3, hs3⟩ := DoRender_step ren r k c s0 hr0 (by omega)
      rw [h] at h3
      cases h3
      exact hs3.1.childRank hr0
    have h0 : LogStep r (r n) s (s.1, s.2.draw (Draw.Think n)) :=
      ⟨[Draw.Think n], rfl, by simp [Draw.target]⟩
    unfold DoRender at hs
    dsimp only at hs
    split at hs
    · exact h0.logTrans (doCacheRenderBody_log ren r (DoRender ren k) n n _ s1 hr hch hs)
    · exact h0.logTrans (renderRecursiveBody_log ren r (DoRender ren k) n _ _ s1 hr hch hs)

/-- The calls drawn by the child loop come from the listed children: each is about a
control of at most the rank of one of them. -/
theorem renderChildren_targets (r : Nat → Nat)
    (doRender : Nat → World × RenderState → Option (World × RenderState)) :
    ∀ (l : List Nat) (s s1 : World × RenderState),
      renderChildren doRender l s = some s1 → ChildRank s.1 r →
      (∀ c, c ∈ l → ∀ s0 s2 : World × RenderState, ChildRank s0.1 r →
        doRender c s0 = some s2 → LogStep r (r c) s0 s2 ∧ ChildRank s2.1 r) →
      ∃ log, s1.2.drawn = s.2.drawn ++ log ∧ ∀ e, e ∈ log → ∃ c, c ∈ l ∧ r e.target ≤ r c := by
  intro l
  induction l with
  | nil =>
    intro s s1 h _ _
    simp only [renderChildren, Option.some.injEq] at h
    subst h
    exact ⟨[], by simp, by simp⟩
  | cons c rest ih =>
    intro s s1 hs hr h
    unfold renderChildren at hs
    by_cases hh : (s.1.ctrl c).m_bHidden = true
    · rw [if_pos hh] at hs
      obtain ⟨log, h1, h2⟩ :=
        ih s s1 hs hr (fun c1 hc1 => h c1 (List.mem_cons_of_mem _ hc1))
      refine ⟨log, h1, fun e he => ?_⟩
      obtain ⟨c1, hc1, hle⟩ := h2 e he
      exact ⟨c1, List.mem_cons_of_mem _ hc1, hle⟩
    · rw [if_neg hh] at hs
      cases hd : doRender c s with
      | none => rw [hd] at hs; simp at hs
      | some s2 =>
        rw [hd] at hs
        obtain ⟨⟨l1, e1, b1⟩, h2⟩ := h c (List.mem_cons_self _ _) s s2 hr hd
        obtain ⟨l2, e2, b2⟩ :=
          ih s2 s1 hs h2 (fun c1 hc1 => h c1 (List.mem_cons_of_mem _ hc1))
        refine ⟨l1 ++ l2, by rw [e2, e1, List.append_assoc], fun e he => ?_⟩
        rcases List.mem_append.1 he with he1 | he2
        · exact ⟨c, List.mem_cons_self _ _, b1 e he1⟩
        · obtain ⟨c1, hc1, hle⟩ := b2 e he2
          exact ⟨c1, List.mem_cons_of_mem _ hc1, hle⟩

/-- The child loop of a render path is `DoRender` folded over the shown children in list
order. -/
theorem renderChildren_foldlM (r : Nat → Nat) (w : World)
    (doRender : Nat → World × RenderState → Option (World × RenderState)) :
    ∀ (l : List Nat) (s : World × RenderState), ChildRank s.1 r → CacheFrame w s.1 →
      (∀ c, c ∈ l → ∀ s0 : World × RenderState, ChildRank s0.1 r →
        ∃ s1, doRender c s0 = some s1 ∧ RenderStep s0 s1) →
      renderChildren doRender l s =
        (l.filter fun c => !(w.ctrl c).m_bHidden).foldlM (fun s0 c => doRender c s0) s := by
  intro l
  induction l with
  | nil => intro s _ _ _; rfl
  | cons c rest ih =>
    intro s hr hf h
    have hhid : (s.1.ctrl c).m_bHidden = (w.ctrl c).m_bHidden :=
      hf.cacheProj Control.m_bHidden (fun _ => rfl) c
    unfold renderChildren
    by_cases hh : (w.ctrl c).m_bHidden = true
    · rw [if_pos (by rw [hhid]; exact hh), List.filter_cons_of_neg (by simp [hh])]
      exact ih s hr hf (fun c1 hc1 => h c1 (List.mem_cons_of_mem _ hc1))
    · rw [if_neg (by rw [hhid]; exact hh), List.filter_cons_of_pos (by simpa using hh)]
      obtain ⟨s1, h1, hs1⟩ := h c (List.mem_cons_self _ _) s hr
      rw [h1, List.foldlM_cons, h1]
      exact ih s1 (hs1.1.childRank hr) (hf.cacheTrans hs1.1)
        (fun c1 hc1 => h c1 (List.mem_cons_of_mem _ hc1))

/-- C36: let `n` be cached to texture and the renderer provide the cache facility, on
acyclic child lists. If the cache of `n` is not dirty, `DoRender` on `n` leaves the world
as it is and draws, after the `Think` hook of `n`, the cached texture of `n` and nothing
else: no `Render` hook runs. If the cache is dirty and the clip region (the bounds of `n`)
is visible, `DoRender` issues `SetupCacheTexture(n)` and the `Render` hook of `n`, runs
`DoRender` on the shown children in list order (their calls `log` are about other controls
than `n`), issues `FinishCacheTexture(n)`, clears the cache-dirty flag of `n` and issues
`DrawCachedControlTexture(n)` once. -/
theorem DoRender_cached_control (ren : Renderer) (r : Nat → Nat) (fuel n : Nat)
    (w : World) (st : RenderState) (hr : ChildRank w r) (hfuel : r n < fuel)
    (hctt : ren.GetCTT = true) (hcached : (w.ctrl n).m_bCacheToTexture = true) :
    ((w.ctrl n).m_bCacheTextureDirty = false →
      ∃ st1, DoRender ren fuel n (w, st) = some (w, st1) ∧
        st1.drawn = st.drawn ++ [Draw.Think n, Draw.DrawCachedControlTexture n]) ∧
    ((w.ctrl n).m_bCacheTextureDirty = true →
      ren.ClipRegionVisible (w.ctrl n).m_bounds = true →
      ∃ st0 wc stc log w1 st1,
        st0.drawn =
          st.drawn ++ [Draw.Think n, Draw.SetupCacheTexture n, Draw.Render n] ∧
        (shownChildren n w).foldlM (fun s c => DoRender ren (fuel - 1) c s) (w, st0) =
          some (wc, stc) ∧
        stc.drawn = st0.drawn ++ log ∧
        (∀ e, e ∈ log → e.target ≠ n) ∧
        DoRender ren fuel n (w, st) = some (w1, st1) ∧
        w1 = (wc.modify n fun c => { c with m_bCacheTextureDirty := false }) ∧
        (w1.ctrl n).m_bCacheTextureDirty = false ∧
        st1.drawn = st.drawn ++ [Draw.Think n, Draw.SetupCacheTexture n, Draw.Render n] ++
          log ++ [Draw.FinishCacheTexture n, Draw.DrawCachedControlTexture n]) := by
  obtain ⟨k, rfl⟩ : ∃ k, fuel = k + 1 := ⟨fuel - 1, by omega⟩
  constructor
  · intro hclean
    refine ⟨cacheLeave n (st.draw (Draw.Think n)).renderOffset
      (st.draw (Draw.Think n)).clipRegion
      (cacheEnter ren n n w (st.draw (Draw.Think n))), ?_, ?_⟩
    · unfold DoRender
      dsimp only
      rw [if_pos (by simp [hctt, hcached])]
      unfold doCacheRenderBody
      dsimp only
      rw [if_neg (by simp [hctt]), if_neg (by simp [hclean])]
    · simp [cacheLeave, RenderState.draw, RenderState.StartClip, RenderState.EndClip,
        cacheEnter_drawn]
  · intro hdirty hvis
    have hstep : ∀ c, c ∈ (w.ctrl n).Children → ∀ s0 : World × RenderState,
        ChildRank s0.1 r → ∃ s1, DoRender ren k c s0 = some s1 ∧ RenderStep s0 s1 := by
      intro c hc s0 hr0
      have := hr n c hc
      exact DoRender_step ren r k c s0 hr0 (by omega)
    have hlog : ∀ c, c ∈ (w.ctrl n).Children → ∀ s0 s2 : World × RenderState,
        ChildRank s0.1 r → DoRender ren k c s0 = some s2 →
        LogStep r (r c) s0 s2 ∧ ChildRank s2.1 r := by
      intro c hc s0 s2 hr0 h
      have hlt := hr n c hc
      refine ⟨DoRender_log ren r k c s0 s2 hr0 (by omega) h, ?_⟩
      obtain ⟨s3, h3, hs3⟩ := hstep c hc s0 hr0
      rw [h] at h3
      cases h3
      exact hs3.1.childRank hr0
    have hce : (cacheEnter ren n n w (st.draw (Draw.Think n))).clipRegion =
        (w.ctrl n).m_bounds := by
      simp [cacheEnter]
    obtain ⟨⟨wc, stc⟩, hloop, hrs⟩ := renderChildren_step r (DoRender ren k)
      (w.ctrl n).Children
      (w, ((cacheEnter ren n n w (st.draw (Draw.Think n))).StartClip.draw
        (Draw.SetupCacheTexture n)).draw (Draw.Render n)) hr hstep
    obtain ⟨log, hl1, hl2⟩ := renderChildren_targets r (DoRender ren k) _ _ _ hloop hr hlog
    have hfold := renderChildren_foldlM r w (DoRender ren k) (w.ctrl n).Children
      (w, ((cacheEnter ren n n w (st.draw (Draw.Think n))).StartClip.draw
        (Draw.SetupCacheTexture n)).draw (Draw.Render n)) hr (CacheFrame.cacheRefl w) hstep
    have hcc : (wc.ctrl n).m_bCacheToTexture = true := by
      rw [hrs.1.cacheProj Control.m_bCacheToTexture (fun _ => rfl) n]
      exact hcached
    refine ⟨((cacheEnter ren n n w (st.draw (Draw.Think n))).StartClip.draw
        (Draw.SetupCacheTexture n)).draw (Draw.Render n), wc, stc, log,
      (wc.modify n fun c => { c with m_bCacheTextureDirty := false }),
      cacheLeave n (st.draw (Draw.Think n)).renderOffset (st.draw (Draw.Think n)).clipRegion
        ((stc.draw (Draw.FinishCacheTexture n)).EndClip), ?_, ?_, hl1, ?_, ?_, rfl, ?_, ?_⟩
    · simp [RenderState.draw, RenderState.StartClip, cacheEnter_drawn]
    · rw [Nat.add_sub_cancel, ← hloop, hfold]
      rfl
    · intro e he
      obtain ⟨c, hc, hle⟩ := hl2 e he
      have := hr n c hc
      intro heq
      rw [heq] at hle
      omega
    · unfold DoRender
      dsimp only
      rw [if_pos (by simp [hctt, hcached])]
      unfold doCacheRenderBody
      dsimp only
      rw [if_neg (by simp [hctt]), if_pos (by rw [hce]; simp [hdirty, hvis])]
      unfold updateCacheTexture
      dsimp only
      rw [if_pos hcached, hloop]
      dsimp only
      rw [if_pos hcc]
    · simp [World.modify]
    · simp only [cacheLeave, RenderState.draw, RenderState.StartClip, RenderState.EndClip]
      simp only [RenderState.draw, RenderState.StartClip, cacheEnter_drawn] at hl1
      rw [hl1]
      simp

/-- C36 on the sample tree: the dirty cached root is rendered into its texture, its flag
is cleared and the texture is drawn; rendered again with the clean cache, only the texture
is drawn. -/
theorem DoRender_cached_control_witness :
    ChildRank renderTree renderRank ∧ renderRank 0 < 3 ∧ cullingRenderer.GetCTT = true ∧
      (renderTree.ctrl 0).m_bCacheToTexture = true ∧
      (DoRender cullingRenderer 3 0 (renderTree, frameStart)).map
          (fun s => (s.1.ctrl 0).m_bCacheTextureDirty) = some false ∧
      (DoRender cullingRenderer 3 0
          (renderTree.modify 0 fun c => { c with m_bCacheTextureDirty := false },
            frameStart)).map (fun s => s.2.drawn) =
        some [Draw.Think 0, Draw.DrawCachedControlTexture 0] := by
  refine ⟨renderTree_rank, by decide, rfl, by decide, ?_, ?_⟩
  · obtain ⟨_, wc, _, _, w1, st1, _, _, _, _, h5, _, h7, _⟩ :=
      (DoRender_cached_control cullingRenderer renderRank 3 0 renderTree frameStart
        renderTree_rank (by decide) rfl (by decide)).2 (by decide) (by decide)
    rw [h5]
    simp [h7]
  · obtain ⟨st1, h1, h2⟩ :=
      (DoRender_cached_control cullingRenderer renderRank 3 0
        (renderTree.modify 0 fun c => { c with m_bCacheTextureDirty := false }) frameStart
        ((CacheFrame.clear renderTree 0).childRank renderTree_rank) (by decide) rfl
        (by decide)).1 (by decide)
    rw [h1]
    simp only [Option.map_some', h2]
    rfl

end CacheRender

section AxisFrames

theorem AxisFrame.axisRefl (g : Control → Control) (n : Nat) (S : List Nat) (w : World) :
    AxisFrame g n S w w :=
  ⟨SameGlobals_refl w, rfl, fun _ => ⟨rfl, fun _ => rfl, fun _ => rfl⟩⟩

theorem AxisFrame.axisTrans {g : Control → Control} {n : Nat} {S : List Nat}
    {w w1 w2 : World} (h1 : AxisFrame g n S w w1) (h2 : AxisFrame g n S w1 w2) :
    AxisFrame g n S w w2 :=
  ⟨SameGlobals_trans h1.1 h2.1, h2.2.1.trans h1.2.1, fun m =>
    ⟨(h2.2.2 m).1.trans (h1.2.2 m).1,
      fun hm => ((h2.2.2 m).2.1 hm).trans ((h1.2.2 m).2.1 hm),
      fun hm => ((h2.2.2 m).2.2 hm).trans ((h1.2.2 m).2.2 hm)⟩⟩

theorem AxisFrame.parentDepth {g : Control → Control} {n : Nat} {S : List Nat}
    {w w1 : World} {d : Nat → Nat} (h : AxisFrame g n S w w1)
    (hg : ∀ c, (g c).m_parent = c.m_parent) (hd : ParentDepth w d) : ParentDepth w1 d := by
  intro c p hp
  rw [← hg (w1.ctrl c), (h.2.2 c).1, hg] at hp
  exact hd c p hp

theorem AxisFrame.children {g : Control → Control} {n : Nat} {S : List Nat}
    {w w1 : World} (h : AxisFrame g n S w w1)
    (hg : ∀ c, (g c).Children = c.Children) (m : Nat) :
    (w1.ctrl m).Children = (w.ctrl m).Children := by
  rw [← hg (w1.ctrl m), (h.2.2 m).1, hg]

theorem BoundsSet.toHorizontal {n c : Nat} {S : List Nat} {b : Rect} {w w1 : World}
    (h : BoundsSet c b w w1) (hy : b.y = (w.ctrl c).m_bounds.y)
    (hh : b.h = (w.ctrl c).m_bounds.h) (hc : c ∈ S) :
    AxisFrame eraseHorizontal n S w w1 := by
  refine ⟨h.globals, h.trace, fun m => ?_⟩
  by_cases hm : m = c
  · subst hm
    have hinner : (w1.ctrl m).m_innerBounds = (w.ctrl m).m_innerBounds := by
      have := congrArg Control.m_innerBounds h.self
      exact this
    refine ⟨?_, fun _ => hinner, fun hS => absurd hc hS⟩
    have key : ∀ x : Control, eraseHorizontal x =
        { eraseGeom x with
          m_bounds := Rect.mk 0 x.m_bounds.y 0 x.m_bounds.h,
          m_innerBounds := Rect.mk 0 x.m_innerBounds.y 0 x.m_innerBounds.h } :=
      fun _ => rfl
    rw [key, key, h.self, hinner, h.bounds_eq, hy, hh]
  · have he := h.others m hm
    refine ⟨?_, fun _ => ?_, fun _ => ?_⟩
    · have := congrArg eraseHorizontal he
      exact this
    · have := congrArg Control.m_innerBounds he
      exact this
    · have := congrArg Control.m_bounds he
      exact this

theorem BoundsSet.toVertical {n c : Nat} {S : List Nat} {b : Rect} {w w1 : World}
    (h : BoundsSet c b w w1) (hx : b.x = (w.ctrl c).m_bounds.x)
    (hw : b.w = (w.ctrl c).m_bounds.w) (hc : c ∈ S) :
    AxisFrame eraseVertical n S w w1 := by
  refine ⟨h.globals, h.trace, fun m => ?_⟩
  by_cases hm : m = c
  · subst hm
    have hinner : (w1.ctrl m).m_innerBounds = (w.ctrl m).m_innerBounds := by
      have := congrArg Control.m_innerBounds h.self
      exact this
    refine ⟨?_, fun _ => hinner, fun hS => absurd hc hS⟩
    have key : ∀ x : Control, eraseVertical x =
        { eraseGeom x with
          m_bounds := Rect.mk x.m_bounds.x 0 x.m_bounds.w 0,
          m_innerBounds := Rect.mk x.m_innerBounds.x 0 x.m_innerBounds.w 0 } :=
      fun _ => rfl
    rw [key, key, h.self, hinner, h.bounds_eq, hx, hw]
  · have he := h.others m hm
    refine ⟨?_, fun _ => ?_, fun _ => ?_⟩
    · have := congrArg eraseVertical he
      exact this
    · have := congrArg Control.m_innerBounds he
      exact this
    · have := congrArg Control.m_bounds he
      exact this

theorem dockStepX_axis (d : Nat → Nat) (rf n : Nat) (S : List Nat) (child : Nat)
    (innerBounds : Rect) (w : World) (hd : ParentDepth w d) (hrf : ∀ x, d x < rf)
    (hc : child ∈ S) :
    ∃ ib1 w1, dockStepX rf child innerBounds w = some (ib1, w1) ∧
      AxisFrame eraseHorizontal n S w w1 := by
  unfold dockStepX
  simp only []
  split_ifs
  all_goals first
    | exact ⟨_, _, rfl, AxisFrame.axisRefl _ _ S w⟩
    | (obtain ⟨w1, h1, h2⟩ := SetBoundsXYWH_spec d rf child _ _ _ _ w hd (hrf child)
       refine ⟨_, w1, by rw [h1]; rfl, ?_⟩
       exact h2.toHorizontal rfl rfl hc)

theorem dockStepY_axis (d : Nat → Nat) (rf n : Nat) (S : List Nat) (child : Nat)
    (innerBounds : Rect) (w : World) (hd : ParentDepth w d) (hrf : ∀ x, d x < rf)
    (hc : child ∈ S) :
    ∃ ib1 w1, dockStepY rf child innerBounds w = some (ib1, w1) ∧
      AxisFrame eraseVertical n S w w1 := by
  unfold dockStepY
  simp only []
  split_ifs
  all_goals first
    | exact ⟨_, _, rfl, AxisFrame.axisRefl _ _ S w⟩
    | (obtain ⟨w1, h1, h2⟩ := SetBoundsXYWH_spec d rf child _ _ _ _ w hd (hrf child)
       refine ⟨_, w1, by rw [h1]; rfl, ?_⟩
       exact h2.toVertical rfl rfl hc)

theorem fillStepX_axis (d : Nat → Nat) (rf n : Nat) (S : List Nat) (child : Nat)
    (innerBounds : Rect) (w : World) (hd : ParentDepth w d) (hrf : ∀ x, d x < rf)
    (hc : child ∈ S) :
    ∃ w1, fillStepX rf child innerBounds w = some w1 ∧ AxisFrame eraseHorizontal n S w w1 := by
  unfold fillStepX
  simp only []
  split_ifs
  · exact ⟨_, rfl, AxisFrame.axisRefl _ _ S w⟩
  · obtain ⟨w1, h1, h2⟩ := SetBoundsXYWH_spec d rf child _ _ _ _ w hd (hrf child)
    refine ⟨w1, h1, ?_⟩
    exact h2.toHorizontal rfl rfl hc

theorem fillStepY_axis (d : Nat → Nat) (rf n : Nat) (S : List Nat) (child : Nat)
    (innerBounds : Rect) (w : World) (hd : ParentDepth w d) (hrf : ∀ x, d x < rf)
    (hc : child ∈ S) :
    ∃ w1, fillStepY rf child innerBounds w = some w1 ∧ AxisFrame eraseVertical n S w w1 := by
  unfold fillStepY
  simp only []
  split_ifs
  · exact ⟨_, rfl, AxisFrame.axisRefl _ _ S w⟩
  · obtain ⟨w1, h1, h2⟩ := SetBoundsXYWH_spec d rf child _ _ _ _ w hd (hrf child)
    refine ⟨w1, h1, ?_⟩
    exact h2.toVertical rfl rfl hc

/-- The two loops of an axis arrangement keep the axis frame when their bodies do. -/
theorem arrangeAxis_keeps (g : Control → Control) (hgp : ∀ c, (g c).m_parent = c.m_parent)
    (hgc : ∀ c, (g c).Children = c.Children)
    (d : Nat → Nat) (n : Nat) (w : World)
    (dstep : Nat → Rect → World → Option (Rect × World))
    (fstep : Rect → Nat → World → Option World)
    (setInner : Rect → Control → Control)
    (hset : ∀ ib c, g (setInner ib c) = g c ∧ (setInner ib c).m_bounds = c.m_bounds)
    (hdstep : ∀ child, child ∈ (w.ctrl n).Children → ∀ ib w0, ParentDepth w0 d →
      ∃ ib1 w1, dstep child ib w0 = some (ib1, w1) ∧ AxisFrame g n (w.ctrl n).Children w0 w1)
    (hfstep : ∀ ib0 child, child ∈ (w.ctrl n).Children → ∀ w0, ParentDepth w0 d →
      ∃ w1, fstep ib0 child w0 = some w1 ∧ AxisFrame g n (w.ctrl n).Children w0 w1)
    (hd : ParentDepth w d) (ib : Rect) :
    ∃ w3, (match dockLoop dstep (w.ctrl n).Children ib w with
      | none => none
      | some (ib1, w1) =>
        fillLoop (fstep ib1) ((w1.modify n (setInner ib1)).ctrl n).Children
          (w1.modify n (setInner ib1))) = some w3 ∧
      AxisFrame g n (w.ctrl n).Children w w3 := by
  obtain ⟨ib1, w1, h1, hp1, hr1⟩ :=
    dockLoop_rel dstep (fun w0 => ParentDepth w0 d) (AxisFrame g n (w.ctrl n).Children)
      (AxisFrame.axisRefl g n _) (fun _ _ _ => AxisFrame.axisTrans) (w.ctrl n).Children
      (fun child hc ib0 w0 hw0 => by
        obtain ⟨ib1, w1, h1, h2⟩ := hdstep child hc ib0 w0 hw0
        exact ⟨ib1, w1, h1, h2.parentDepth hgp hw0, h2⟩) ib w hd
  have hr2 : AxisFrame g n (w.ctrl n).Children w1 (w1.modify n (setInner ib1)) := by
    refine ⟨SameGlobals_refl _, rfl, fun m => ?_⟩
    by_cases hmn : m = n
    · subst hmn
      refine ⟨by simp [(hset ib1 _).1], fun h => absurd rfl h, fun _ => by simp [(hset ib1 _).2]⟩
    · exact ⟨by simp [hmn], fun _ => by simp [hmn], fun _ => by simp [hmn]⟩
  have hr12 := hr1.axisTrans hr2
  have hch : ((w1.modify n (setInner ib1)).ctrl n).Children = (w.ctrl n).Children :=
    hr12.children hgc n
  obtain ⟨w3, h3, _, hr3⟩ :=
    fillLoop_rel (fstep ib1) (fun w0 => ParentDepth w0 d) (AxisFrame g n (w.ctrl n).Children)
      (AxisFrame.axisRefl g n _) (fun _ _ _ => AxisFrame.axisTrans) (w.ctrl n).Children
      (fun child hc w0 hw0 => by
        obtain ⟨w1, h1, h2⟩ := hfstep ib1 child hc w0 hw0
        exact ⟨w1, h1, h2.parentDepth hgp hw0, h2⟩)
      (w1.modify n (setInner ib1)) (hr12.parentDepth hgp hd)
  refine ⟨w3, ?_, hr12.axisTrans hr3⟩
  rw [h1]
  simp only []
  rw [hch, h3]

theorem ArrangeHorizontal_axis (d : Nat → Nat) (rf n : Nat) (w : World)
    (hd : ParentDepth w d) (hrf : ∀ x, d x < rf) :
    ∃ w1, ArrangeHorizontal rf n w = some w1 ∧
      AxisFrame eraseHorizontal n (w.ctrl n).Children w w1 := by
  exact arrangeAxis_keeps eraseHorizontal (fun _ => rfl) (fun _ => rfl) d n w (dockStepX rf)
    (fun ib child => fillStepX rf child ib)
    (fun ib c => { c with m_innerBounds := { c.m_innerBounds with x := ib.x, w := ib.w } })
    (fun _ _ => ⟨rfl, rfl⟩)
    (fun child hc ib w0 hw0 => dockStepX_axis d rf n _ child ib w0 hw0 hrf hc)
    (fun ib child hc w0 hw0 => fillStepX_axis d rf n _ child ib w0 hw0 hrf hc)
    hd _

theorem ArrangeVertical_axis (d : Nat → Nat) (rf n : Nat) (w : World)
    (hd : ParentDepth w d) (hrf : ∀ x, d x < rf) :
    ∃ w1, ArrangeVertical rf n w = some w1 ∧
      AxisFrame eraseVertical n (w.ctrl n).Children w w1 := by
  exact arrangeAxis_keeps eraseVertical (fun _ => rfl) (fun _ => rfl) d n w (dockStepY rf)
    (fun ib child => fillStepY rf child ib)
    (fun ib c => { c with m_innerBounds := { c.m_innerBounds with y := ib.y, h := ib.h } })
    (fun _ _ => ⟨rfl, rfl⟩)
    (fun child hc ib w0 hw0 => dockStepY_axis d rf n _ child ib w0 hw0 hrf hc)
    (fun ib child hc w0 hw0 => fillStepY_axis d rf n _ child ib w0 hw0 hrf hc)
    hd _

end AxisFrames

section AxisIndependence

/-- C37: on acyclic child lists and parent chains, for a container `n` without layout
item: `CalculateSize(Dim::X)` returns and leaves the preferred height of `n` as it is,
`CalculateSize(Dim::Y)` leaves its preferred width as it is. `ArrangeHorizontal` returns
and leaves on every control the `y` and the height of the bounds and of the inner bounds
and the preferred size as they are; up to the `x` and the width of bounds and inner bounds,
the render bounds and the dirty flags every control is unchanged (`eraseHorizontal`),
inner bounds change on `n` only and bounds on the children of `n` only. `ArrangeVertical`
does the same with `x` and width kept and `y` and height written. -/
theorem layout_passes_are_axis_independent (r d : Nat → Nat) (fuel rf n : Nat) (w : World)
    (hr : ChildRank w r) (hfuel : r n < fuel) (hd : ParentDepth w d) (hrf : ∀ x, d x < rf)
    (hli : (w.ctrl n).m_layoutItem = none) :
    (∃ w1, CalculateSize fuel n Dim.X w = some w1 ∧
      (w1.ctrl n).m_preferredSize.height = (w.ctrl n).m_preferredSize.height) ∧
    (∃ w1, CalculateSize fuel n Dim.Y w = some w1 ∧
      (w1.ctrl n).m_preferredSize.width = (w.ctrl n).m_preferredSize.width) ∧
    (∃ w1, ArrangeHorizontal rf n w = some w1 ∧ ∀ m,
      (w1.ctrl m).m_bounds.y = (w.ctrl m).m_bounds.y ∧
      (w1.ctrl m).m_bounds.h = (w.ctrl m).m_bounds.h ∧
      (w1.ctrl m).m_innerBounds.y = (w.ctrl m).m_innerBounds.y ∧
      (w1.ctrl m).m_innerBounds.h = (w.ctrl m).m_innerBounds.h ∧
      (w1.ctrl m).m_preferredSize = (w.ctrl m).m_preferredSize ∧
      eraseHorizontal (w1.ctrl m) = eraseHorizontal (w.ctrl m) ∧
      (m ≠ n → (w1.ctrl m).m_innerBounds = (w.ctrl m).m_innerBounds) ∧
      (m ∉ (w.ctrl n).Children → (w1.ctrl m).m_bounds = (w.ctrl m).m_bounds)) ∧
    (∃ w1, ArrangeVertical rf n w = some w1 ∧ ∀ m,
      (w1.ctrl m).m_bounds.x = (w.ctrl m).m_bounds.x ∧
      (w1.ctrl m).m_bounds.w = (w.ctrl m).m_bounds.w ∧
      (w1.ctrl m).m_innerBounds.x = (w.ctrl m).m_innerBounds.x ∧
      (w1.ctrl m).m_innerBounds.w = (w.ctrl m).m_innerBounds.w ∧
      (w1.ctrl m).m_preferredSize = (w.ctrl m).m_preferredSize ∧
      eraseVertical (w1.ctrl m) = eraseVertical (w.ctrl m) ∧
      (m ≠ n → (w1.ctrl m).m_innerBounds = (w.ctrl m).m_innerBounds) ∧
      (m ∉ (w.ctrl n).Children → (w1.ctrl m).m_bounds = (w.ctrl m).m_bounds)) := by
  obtain ⟨k, rfl⟩ : ∃ k, fuel = k + 1 := ⟨fuel - 1, by omega⟩
  refine ⟨?_, ?_, ?_, ?_⟩
  · obtain ⟨_, w0, sz, _, _, h3, _, h5⟩ := CalculateSize_result r k n Dim.X w hr hfuel hli
    refine ⟨_, h3, ?_⟩
    simp only [World.modify, Function.update_same]
    exact h5
  · obtain ⟨_, w0, sz, _, _, h3, _, h5⟩ := CalculateSize_result r k n Dim.Y w hr hfuel hli
    refine ⟨_, h3, ?_⟩
    simp only [World.modify, Function.update_same]
    exact h5
  · obtain ⟨w1, h1, hf⟩ := ArrangeHorizontal_axis d rf n w hd hrf
    refine ⟨w1, h1, fun m => ?_⟩
    obtain ⟨he, hi, hb⟩ := hf.2.2 m
    have e1 := congrArg (fun c : Control => c.m_bounds.y) he
    have e2 := congrArg (fun c : Control => c.m_bounds.h) he
    have e3 := congrArg (fun c : Control => c.m_innerBounds.y) he
    have e4 := congrArg (fun c : Control => c.m_innerBounds.h) he
    have e5 := congrArg (fun c : Control => c.m_preferredSize) he
    exact ⟨e1, e2, e3, e4, e5, he, hi, hb⟩
  · obtain ⟨w1, h1, hf⟩ := ArrangeVertical_axis d rf n w hd hrf
    refine ⟨w1, h1, fun m => ?_⟩
    obtain ⟨he, hi, hb⟩ := hf.2.2 m
    have e1 := congrArg (fun c : Control => c.m_bounds.x) he
    have e2 := congrArg (fun c : Control => c.m_bounds.w) he
    have e3 := congrArg (fun c : Control => c.m_innerBounds.x) he
    have e4 := congrArg (fun c : Control => c.m_innerBounds.w) he
    have e5 := congrArg (fun c : Control => c.m_preferredSize) he
    exact ⟨e1, e2, e3, e4, e5, he, hi, hb⟩

/-- C37 on `dockTree`: the horizontal arrangement of the container moves and resizes the
Left and Fill children along `x` only; their `y` and height stay 0 and 10. -/
theorem layout_passes_are_axis_independent_witness :
    ChildRank dockTree flatRank ∧ flatRank 0 < 2 ∧ ParentDepth dockTree flatDepth ∧
      (dockTree.ctrl 0).m_layoutItem = none ∧
      (ArrangeHorizontal 2 0 dockTree).map (fun v =>
          ((v.ctrl 2).m_bounds.y, (v.ctrl 2).m_bounds.h, (v.ctrl 0).m_innerBounds.y,
            (v.ctrl 0).m_innerBounds.h)) = some (0, 10, 0, 0) ∧
      (ArrangeHorizontal 2 0 dockTree).map (fun v => (v.ctrl 2).m_bounds) =
        some { x := 60, y := 0, w := 140, h := 10 } := by
  have hr : ChildRank dockTree flatRank := ChildRank_ofList _ flatRank (by decide)
  have hd : ParentDepth dockTree flatDepth := ParentDepth_ofList _ flatDepth (by decide)
  refine ⟨hr, by decide, hd, by decide, ?_, by decide⟩
  obtain ⟨_, _, ⟨w1, h1, h2⟩, _⟩ :=
    layout_passes_are_axis_independent flatRank flatDepth 2 2 0 dockTree hr (by decide) hd
      (fun x => by unfold flatDepth; split <;> omega) (by decide)
  rw [h1]
  obtain ⟨a1, a2, _⟩ := h2 2
  obtain ⟨_, _, a3, a4, _⟩ := h2 0
  simp only [Option.map_some', a1, a2, a3, a4]
  decide

end AxisIndependence

section HorizontalDockLoop

theorem leftTaken_nil (w : World) : leftTaken w [] = 0 := by simp [leftTaken]

theorem rightTaken_nil (w : World) : rightTaken w [] = 0 := by simp [rightTaken]

theorem leftTaken_cons (w : World) (a : Nat) (l : List Nat) :
    leftTaken w (a :: l) =
      (if takesLeft (w.ctrl a) = true then (w.ctrl a).hSpan else 0) + leftTaken w l := by
  unfold leftTaken
  by_cases h : takesLeft (w.ctrl a) = true
  · simp [List.filter_cons, h]
  · simp [List.filter_cons, h]

theorem rightTaken_cons (w : World) (a : Nat) (l : List Nat) :
    rightTaken w (a :: l) =
      (if takesRight (w.ctrl a) = true then (w.ctrl a).hSpan else 0) + rightTaken w l := by
  unfold rightTaken
  by_cases h : takesRight (w.ctrl a) = true
  · simp [List.filter_cons, h]
  · simp [List.filter_cons, h]

theorem leftTaken_append (w : World) (l1 l2 : List Nat) :
    leftTaken w (l1 ++ l2) = leftTaken w l1 + leftTaken w l2 := by
  simp [leftTaken, List.filter_append]

theorem rightTaken_append (w : World) (l1 l2 : List Nat) :
    rightTaken w (l1 ++ l2) = rightTaken w l1 + rightTaken w l2 := by
  simp [rightTaken, List.filter_append]

theorem leftTaken_congr (w w1 : World) (l : List Nat)
    (h : ∀ m, eraseChild (w1.ctrl m) = eraseChild (w.ctrl m)) :
    leftTaken w1 l = leftTaken w l := by
  have ht : ∀ m, takesLeft (w1.ctrl m) = takesLeft (w.ctrl m) := fun m => by
    have := congrArg takesLeft (h m); exact this
  have hv : ∀ m, (w1.ctrl m).hSpan = (w.ctrl m).hSpan := fun m => by
    have := congrArg Control.hSpan (h m); exact this
  unfold leftTaken
  simp only [ht, hv]

theorem rightTaken_congr (w w1 : World) (l : List Nat)
    (h : ∀ m, eraseChild (w1.ctrl m) = eraseChild (w.ctrl m)) :
    rightTaken w1 l = rightTaken w l := by
  have ht : ∀ m, takesRight (w1.ctrl m) = takesRight (w.ctrl m) := fun m => by
    have := congrArg takesRight (h m); exact this
  have hv : ∀ m, (w1.ctrl m).hSpan = (w.ctrl m).hSpan := fun m => by
    have := congrArg Control.hSpan (h m); exact this
  unfold rightTaken
  simp only [ht, hv]

theorem dockedBoundsX_congr {c c1 : Control} (h : eraseInner c1 = eraseInner c) (ibx ibw : Int) :
    dockedBoundsX c1 ibx ibw = dockedBoundsX c ibx ibw := by
  have e : ∀ x : Control, dockedBoundsX (eraseInner x) ibx ibw = dockedBoundsX x ibx ibw :=
    fun _ => rfl
  rw [← e c1, ← e c, h]

/-- One turn of the horizontal dock loop on a shown child. -/
theorem dockStepX_turn (d : Nat → Nat) (rf : Nat) (hrf : ∀ x, d x < rf) (a : Nat) (ib : Rect)
    (w : World) (hd : ParentDepth w d) (hshown : (w.ctrl a).m_bHidden = false) :
    ∃ wa, dockStepX rf a ib w =
        some (Rect.mk
          (ib.x + (if takesLeft (w.ctrl a) = true then (w.ctrl a).hSpan else 0)) ib.y
          (ib.w - ((if takesLeft (w.ctrl a) = true then (w.ctrl a).hSpan else 0) +
            (if takesRight (w.ctrl a) = true then (w.ctrl a).hSpan else 0))) ib.h, wa) ∧
      ArrangeFrame [a] w wa ∧
      (wa.ctrl a).m_bounds = dockedBoundsX (w.ctrl a) ib.x ib.w := by
  have hset := fun x y wd ht => SetBoundsXYWH_spec d rf a x y wd ht w hd (hrf a)
  by_cases hT : hasFlag (w.ctrl a).m_dock Position.Top = true
  · by_cases hfx : (w.ctrl a).m_sizeFlags.horizontal = SizeFlag.Fixed
    · obtain ⟨w1, h1, hb1⟩ := hset (ib.x + (w.ctrl a).m_margin.left) (w.ctrl a).m_bounds.y
        (w.ctrl a).m_bounds.w (w.ctrl a).m_bounds.h
      refine ⟨w1, ?_, hb1.toArrange (List.mem_singleton_self a), ?_⟩
      · simp [dockStepX, hT, hfx, h1, takesLeft, takesRight]
      · rw [hb1.bounds_eq]
        simp [dockedBoundsX, hT, hfx]
    · obtain ⟨w1, h1, hb1⟩ := hset (ib.x + (w.ctrl a).m_margin.left) (w.ctrl a).m_bounds.y
        (ib.w - (w.ctrl a).m_margin.left - (w.ctrl a).m_margin.right) (w.ctrl a).m_bounds.h
      refine ⟨w1, ?_, hb1.toArrange (List.mem_singleton_self a), ?_⟩
      · simp [dockStepX, hT, hfx, h1, takesLeft, takesRight]
      · rw [hb1.bounds_eq]
        simp [dockedBoundsX, hT, hfx]
  · have hT0 : hasFlag (w.ctrl a).m_dock Position.Top = false := by simpa using hT
    by_cases hL : hasFlag (w.ctrl a).m_dock Position.Left = true
    · obtain ⟨w1, h1, hb1⟩ := hset (ib.x + (w.ctrl a).m_margin.left) (w.ctrl a).m_bounds.y
        (w.ctrl a).m_preferredSize.width (w.ctrl a).m_bounds.h
      refine ⟨w1, ?_, hb1.toArrange (List.mem_singleton_self a), ?_⟩
      · simp [dockStepX, hT0, hL, h1, takesLeft, takesRight, hshown, Control.hSpan]
        ring
      · rw [hb1.bounds_eq]
        simp [dockedBoundsX, hT0, hL]
    · have hL0 : hasFlag (w.ctrl a).m_dock Position.Left = false := by simpa using hL
      by_cases hR : hasFlag (w.ctrl a).m_dock Position.Right = true
      · obtain ⟨w1, h1, hb1⟩ := hset
          ((ib.x + ib.w) - (w.ctrl a).m_preferredSize.width - (w.ctrl a).m_margin.right)
          (w.ctrl a).m_bounds.y (w.ctrl a).m_preferredSize.width (w.ctrl a).m_bounds.h
        refine ⟨w1, ?_, hb1.toArrange (List.mem_singleton_self a), ?_⟩
        · simp [dockStepX, hT0, hL0, hR, h1, takesLeft, takesRight, hshown, Control.hSpan]
          ring
        · rw [hb1.bounds_eq]
          simp [dockedBoundsX, hT0, hL0, hR]
      · have hR0 : hasFlag (w.ctrl a).m_dock Position.Right = false := by simpa using hR
        by_cases hB : hasFlag (w.ctrl a).m_dock Position.Bottom = true
        · by_cases hfx : (w.ctrl a).m_sizeFlags.horizontal = SizeFlag.Fixed
          · obtain ⟨w1, h1, hb1⟩ := hset ib.x (w.ctrl a).m_bounds.y
              (w.ctrl a).m_bounds.w (w.ctrl a).m_bounds.h
            refine ⟨w1, ?_, hb1.toArrange (List.mem_singleton_self a), ?_⟩
            · simp [dockStepX, hT0, hL0, hR0, hB, hfx, h1, takesLeft, takesRight]
            · rw [hb1.bounds_eq]
              simp [dockedBoundsX, hT0, hL0, hR0, hB, hfx]
          · obtain ⟨w1, h1, hb1⟩ := hset ib.x (w.ctrl a).m_bounds.y
              (ib.w - (w.ctrl a).m_margin.left - (w.ctrl a).m_margin.right)
              (w.ctrl a).m_bounds.h
            refine ⟨w1, ?_, hb1.toArrange (List.mem_singleton_self a), ?_⟩
            · simp [dockStepX, hT0, hL0, hR0, hB, hfx, h1, takesLeft, takesRight]
            · rw [hb1.bounds_eq]
              simp [dockedBoundsX, hT0, hL0, hR0, hB, hfx]
        · have hB0 : hasFlag (w.ctrl a).m_dock Position.Bottom = false := by simpa using hB
          by_cases hN : (w.ctrl a).m_dock = Position.None
          · obtain ⟨w1, h1, hb1⟩ := hset (w.ctrl a).m_bounds.x (w.ctrl a).m_bounds.y
              (w.ctrl a).m_bounds.w (w.ctrl a).m_bounds.h
            refine ⟨w1, ?_, hb1.toArrange (List.mem_singleton_self a), ?_⟩
            · simp only [dockStepX, hT0, hL0, hR0, hB0, Bool.false_eq_true, if_false, if_pos hN,
                h1]
              simp [takesLeft, takesRight, hT0, hL0, hR0]
            · rw [hb1.bounds_eq]
              simp [dockedBoundsX, hT0, hL0, hR0, hB0]
          · refine ⟨w, ?_, ArrangeFrame_refl _ _, ?_⟩
            · simp only [dockStepX, hT0, hL0, hR0, hB0, Bool.false_eq_true, if_false, if_neg hN]
              simp [takesLeft, takesRight, hT0, hL0, hR0]
            · simp [dockedBoundsX, hT0, hL0, hR0, hB0]

/-- The horizontal dock loop: the remaining rectangle loses at its left the spaces of the
children that take from the left edge and at its right the spaces of those that take from
the right edge, and every shown child gets the bounds of its turn. -/
theorem dockLoop_horizontal (d : Nat → Nat) (rf : Nat) (hrf : ∀ x, d x < rf) :
    ∀ (l : List Nat) (ib : Rect) (w : World), ParentDepth w d → l.Nodup →
      ∃ ib1 w1, dockLoop (dockStepX rf) l ib w = some (ib1, w1) ∧
        ArrangeFrame l w w1 ∧
        ib1 = Rect.mk (ib.x + leftTaken w l) ib.y
          (ib.w - (leftTaken w l + rightTaken w l)) ib.h ∧
        ∀ pre c post, l = pre ++ c :: post → (w.ctrl c).m_bHidden = false →
          (w1.ctrl c).m_bounds = dockedBoundsX (w.ctrl c) (ib.x + leftTaken w pre)
            (ib.w - (leftTaken w pre + rightTaken w pre)) := by
  intro l
  induction l with
  | nil =>
    intro ib w _ _
    refine ⟨ib, w, rfl, ArrangeFrame_refl _ _, ?_, ?_⟩
    · simp [leftTaken_nil, rightTaken_nil]
    · intro pre c post h
      simp at h
  | cons a l ih =>
    intro ib w hd hnd
    have hal : a ∉ l := (List.nodup_cons.mp hnd).1
    have hndl : l.Nodup := (List.nodup_cons.mp hnd).2
    by_cases hh : (w.ctrl a).m_bHidden = true
    · obtain ⟨ib1, w1, h1, hf1, hib1, hb1⟩ := ih ib w hd hndl
      have ht : ∀ t, leftTaken w (a :: t) = leftTaken w t := by
        intro t; rw [leftTaken_cons]; simp [takesLeft, hh]
      have hbt : ∀ t, rightTaken w (a :: t) = rightTaken w t := by
        intro t; rw [rightTaken_cons]; simp [takesRight, hh]
      refine ⟨ib1, w1, by simp [dockLoop, hh, h1],
        ArrangeFrame_mono hf1 (fun m hm => List.mem_cons_of_mem a hm), ?_, ?_⟩
      · rw [hib1, ht, hbt]
      · intro pre c post hl hc
        cases pre with
        | nil =>
          simp at hl
          obtain ⟨rfl, rfl⟩ := hl
          rw [hh] at hc
          cases hc
        | cons b pre =>
          simp at hl
          obtain ⟨rfl, rfl⟩ := hl
          rw [ht, hbt]
          exact hb1 pre c post rfl hc
    · have hshown : (w.ctrl a).m_bHidden = false := by simpa using hh
      obtain ⟨wa, hstep, hfa, hba⟩ := dockStepX_turn d rf hrf a ib w hd hshown
      have hea := hfa.eraseChild_all
      obtain ⟨ib1, w1, h1, hf1, hib1, hb1⟩ := ih
        (Rect.mk
          (ib.x + (if takesLeft (w.ctrl a) = true then (w.ctrl a).hSpan else 0)) ib.y
          (ib.w - ((if takesLeft (w.ctrl a) = true then (w.ctrl a).hSpan else 0) +
            (if takesRight (w.ctrl a) = true then (w.ctrl a).hSpan else 0))) ib.h) wa
        (ParentDepth_of_frame hfa.arrangeToLayout hd) hndl
      have hfa' : ArrangeFrame (a :: l) w wa :=
        ArrangeFrame_mono hfa (fun m hm => by simp at hm; simp [hm])
      have hf1' : ArrangeFrame (a :: l) wa w1 :=
        ArrangeFrame_mono hf1 (fun m hm => List.mem_cons_of_mem a hm)
      refine ⟨ib1, w1, by simp [dockLoop, hh, hstep, h1], ArrangeFrame_trans hfa' hf1', ?_, ?_⟩
      · rw [hib1, leftTaken_congr w wa l hea, rightTaken_congr w wa l hea, leftTaken_cons,
          rightTaken_cons]
        simp only [Rect.mk.injEq, and_true, true_and]
        constructor <;> ring
      · intro pre c post hl hc
        cases pre with
        | nil =>
          simp at hl
          obtain ⟨rfl, rfl⟩ := hl
          rw [hf1.bounds_notin hal, hba, leftTaken_nil, rightTaken_nil]
          simp
        | cons b pre =>
          simp at hl
          obtain ⟨rfl, rfl⟩ := hl
          have hcl : c ∈ pre ++ c :: post := by simp
          have hca : c ∉ [a] := by
            simp; intro e; subst e; exact hal hcl
          have hcw : (wa.ctrl c).m_bHidden = false := by
            have := congrArg Control.m_bHidden (hea c)
            have e : (wa.ctrl c).m_bHidden = (w.ctrl c).m_bHidden := this
            rw [e]; exact hc
          rw [hb1 pre c post rfl hcw, dockedBoundsX_congr (hfa.2.2.2 c hca),
            leftTaken_congr w wa pre hea, rightTaken_congr w wa pre hea, leftTaken_cons,
            rightTaken_cons]
          congr 1 <;> ring

/-- The horizontal fill loop: every child with the Fill flag is stretched over the remaining
rectangle inside its margins, every other child keeps its bounds. -/
theorem fillLoop_horizontal (d : Nat → Nat) (rf : Nat) (hrf : ∀ x, d x < rf) (ib : Rect) :
    ∀ (l : List Nat) (w : World), ParentDepth w d → l.Nodup →
      ∃ w1, fillLoop (fun child => fillStepX rf child ib) l w = some w1 ∧
        ArrangeFrame l w w1 ∧
        (∀ c, c ∈ l → hasFlag (w.ctrl c).m_dock Position.Fill = false →
          (w1.ctrl c).m_bounds = (w.ctrl c).m_bounds) ∧
        (∀ c, c ∈ l → hasFlag (w.ctrl c).m_dock Position.Fill = true →
          (w1.ctrl c).m_bounds = Rect.mk (ib.x + (w.ctrl c).m_margin.left)
            (w.ctrl c).m_bounds.y
            (ib.w - (w.ctrl c).m_margin.left - (w.ctrl c).m_margin.right)
            (w.ctrl c).m_bounds.h) := by
  intro l
  induction l with
  | nil =>
    intro w _ _
    exact ⟨w, rfl, ArrangeFrame_refl _ _, fun c hc => by simp at hc, fun c hc => by simp at hc⟩
  | cons a l ih =>
    intro w hd hnd
    have hal : a ∉ l := (List.nodup_cons.mp hnd).1
    have hndl : l.Nodup := (List.nodup_cons.mp hnd).2
    obtain ⟨wa, hstep, hfa, hno, hyes⟩ : ∃ wa,
        fillStepX rf a ib w = some wa ∧ ArrangeFrame [a] w wa ∧
        (hasFlag (w.ctrl a).m_dock Position.Fill = false →
          (wa.ctrl a).m_bounds = (w.ctrl a).m_bounds) ∧
        (hasFlag (w.ctrl a).m_dock Position.Fill = true →
          (wa.ctrl a).m_bounds = Rect.mk (ib.x + (w.ctrl a).m_margin.left)
            (w.ctrl a).m_bounds.y
            (ib.w - (w.ctrl a).m_margin.left - (w.ctrl a).m_margin.right)
            (w.ctrl a).m_bounds.h) := by
      by_cases hf : hasFlag (w.ctrl a).m_dock Position.Fill = true
      · obtain ⟨w1, h1, hb1⟩ := SetBoundsXYWH_spec d rf a (ib.x + (w.ctrl a).m_margin.left)
          (w.ctrl a).m_bounds.y
          (ib.w - (w.ctrl a).m_margin.left - (w.ctrl a).m_margin.right)
          (w.ctrl a).m_bounds.h w hd (hrf a)
        refine ⟨w1, ?_, hb1.toArrange (List.mem_singleton_self a), ?_, ?_⟩
        · simp [fillStepX, hf, h1]
        · intro h; rw [hf] at h; cases h
        · intro _; rw [hb1.bounds_eq]
      · have hf0 : hasFlag (w.ctrl a).m_dock Position.Fill = false := by simpa using hf
        exact ⟨w, by simp [fillStepX, hf0], ArrangeFrame_refl _ _, fun _ => rfl,
          fun h => by rw [hf0] at h; cases h⟩
    have hdock : ∀ m, (wa.ctrl m).m_dock = (w.ctrl m).m_dock :=
      hfa.arrangeProj Control.m_dock (fun _ => rfl) (fun _ => rfl)
    have hmar : ∀ m, (wa.ctrl m).m_margin = (w.ctrl m).m_margin :=
      hfa.arrangeProj Control.m_margin (fun _ => rfl) (fun _ => rfl)
    obtain ⟨w1, h1, hf1, hn1, hy1⟩ := ih wa (ParentDepth_of_frame hfa.arrangeToLayout hd) hndl
    have hfa' : ArrangeFrame (a :: l) w wa :=
      ArrangeFrame_mono hfa (fun m hm => by simp at hm; simp [hm])
    have hf1' : ArrangeFrame (a :: l) wa w1 :=
      ArrangeFrame_mono hf1 (fun m hm => List.mem_cons_of_mem a hm)
    refine ⟨w1, by simp [fillLoop, hstep, h1], ArrangeFrame_trans hfa' hf1', ?_, ?_⟩
    · intro c hc hcf
      rcases List.mem_cons.mp hc with rfl | hcl
      · rw [hf1.bounds_notin hal, hno hcf]
      · have hca : c ∉ [a] := by
          simp; intro e; subst e; exact hal hcl
        rw [hn1 c hcl (by rw [hdock]; exact hcf), hfa.bounds_notin hca]
    · intro c hc hcf
      rcases List.mem_cons.mp hc with rfl | hcl
      · rw [hf1.bounds_notin hal, hyes hcf]
      · have hca : c ∉ [a] := by
          simp; intro e; subst e; exact hal hcl
        rw [hy1 c hcl (by rw [hdock]; exact hcf), hmar, hfa.bounds_notin hca]

/-- The horizontal fill loop leaves every inner-bounds rectangle as it is. -/
theorem fillLoop_horizontal_inner (d : Nat → Nat) (rf : Nat) (hrf : ∀ x, d x < rf) (ib : Rect)
    (l : List Nat) (w : World) (hd : ParentDepth w d) :
    ∃ w1, fillLoop (fun child => fillStepX rf child ib) l w = some w1 ∧
      ∀ m, (w1.ctrl m).m_innerBounds = (w.ctrl m).m_innerBounds := by
  obtain ⟨w1, h1, _, h2⟩ := fillLoop_rel (fun child => fillStepX rf child ib)
    (fun w0 => ParentDepth w0 d)
    (fun a b => ∀ m, (b.ctrl m).m_innerBounds = (a.ctrl m).m_innerBounds)
    (fun _ _ => rfl) (fun a b c h1 h2 m => (h2 m).trans (h1 m)) l
    (fun child _ w0 hw0 => by
      unfold fillStepX
      simp only []
      split_ifs
      · exact ⟨w0, rfl, hw0, fun _ => rfl⟩
      · obtain ⟨w1, h1, hb1⟩ := SetBoundsXYWH_spec d rf child
          (ib.x + (w0.ctrl child).m_margin.left) (w0.ctrl child).m_bounds.y
          (ib.w - (w0.ctrl child).m_margin.left - (w0.ctrl child).m_margin.right)
          (w0.ctrl child).m_bounds.h w0 hw0 (hrf child)
        refine ⟨w1, h1, ParentDepth_of_frame hb1.boundsToLayout hw0, fun m => ?_⟩
        by_cases hm : m = child
        · subst hm
          have := congrArg Control.m_innerBounds hb1.self
          exact this
        · have := congrArg Control.m_innerBounds (hb1.others m hm)
          exact this) w hd
  exact ⟨w1, h1, h2⟩

/-- The closed form of a horizontal arrangement: the inner bounds of the container are
what the docked children leave of the padded interior, a shown child without the Fill
flag has the bounds of its turn in the dock loop and a child with the Fill flag is
stretched over the inner bounds inside its margins. -/
theorem ArrangeHorizontal_closed (d : Nat → Nat) (rf n : Nat) (w : World)
    (hd : ParentDepth w d) (hrf : ∀ x, d x < rf)
    (hnd : (w.ctrl n).Children.Nodup) (hself : n ∉ (w.ctrl n).Children) :
    ∃ w1, ArrangeHorizontal rf n w = some w1 ∧
      ArrangeFrame (w.ctrl n).Children w w1 ∧
      (w1.ctrl n).m_innerBounds.x =
        (w.ctrl n).m_padding.left + leftTaken w (w.ctrl n).Children ∧
      (w1.ctrl n).m_innerBounds.w =
        (w.ctrl n).m_bounds.w - (w.ctrl n).m_padding.left - (w.ctrl n).m_padding.right -
          (leftTaken w (w.ctrl n).Children + rightTaken w (w.ctrl n).Children) ∧
      (∀ pre c post, (w.ctrl n).Children = pre ++ c :: post → (w.ctrl c).m_bHidden = false →
        hasFlag (w.ctrl c).m_dock Position.Fill = false →
        (w1.ctrl c).m_bounds = dockedBoundsX (w.ctrl c)
          ((w.ctrl n).m_padding.left + leftTaken w pre)
          ((w.ctrl n).m_bounds.w - ((w.ctrl n).m_padding.left + (w.ctrl n).m_padding.right) -
            (leftTaken w pre + rightTaken w pre))) ∧
      (∀ c, c ∈ (w.ctrl n).Children → hasFlag (w.ctrl c).m_dock Position.Fill = true →
        (w1.ctrl c).m_bounds.x = (w1.ctrl n).m_innerBounds.x + (w.ctrl c).m_margin.left ∧
        (w1.ctrl c).m_bounds.w =
          (w1.ctrl n).m_innerBounds.w - (w.ctrl c).m_margin.left -
            (w.ctrl c).m_margin.right) := by
  obtain ⟨ib1, w1, h1, hf1, hib1, hb1⟩ :=
    dockLoop_horizontal d rf hrf (w.ctrl n).Children
      { (w.ctrl n).m_bounds with
        x := (w.ctrl n).m_padding.left,
        w := (w.ctrl n).m_bounds.w - ((w.ctrl n).m_padding.left + (w.ctrl n).m_padding.right) }
      w hd hnd
  simp only [] at hib1 hb1
  set w2 := w1.modify n fun c =>
      { c with m_innerBounds := { c.m_innerBounds with x := ib1.x, w := ib1.w } } with hw2
  have hf2 : ArrangeFrame (w.ctrl n).Children w1 w2 := by
    refine ⟨SameGlobals_refl _, rfl, fun m hm => ?_, fun m _ => ?_⟩
    · have hmn : m ≠ n := fun e => hself (e ▸ hm)
      simp [hw2, hmn]
    · by_cases hmn : m = n
      · subst hmn; simp [hw2, eraseInner]
      · simp [hw2, hmn]
  have hf12 := ArrangeFrame_trans hf1 hf2
  have hdock : ∀ m, (w2.ctrl m).m_dock = (w.ctrl m).m_dock :=
    hf12.arrangeProj Control.m_dock (fun _ => rfl) (fun _ => rfl)
  have hmar : ∀ m, (w2.ctrl m).m_margin = (w.ctrl m).m_margin :=
    hf12.arrangeProj Control.m_margin (fun _ => rfl) (fun _ => rfl)
  have hch : (w2.ctrl n).Children = (w.ctrl n).Children :=
    hf12.arrangeProj Control.Children (fun _ => rfl) (fun _ => rfl) n
  have hbnd : ∀ m, m ∈ (w.ctrl n).Children → (w2.ctrl m).m_bounds = (w1.ctrl m).m_bounds := by
    intro m hm
    have hmn : m ≠ n := fun e => hself (e ▸ hm)
    simp [hw2, hmn]
  have hd2 : ParentDepth w2 d := ParentDepth_of_frame hf12.arrangeToLayout hd
  obtain ⟨w3, h3, hf3, hn3, hy3⟩ :=
    fillLoop_horizontal d rf hrf ib1 (w.ctrl n).Children w2 hd2 hnd
  obtain ⟨w3', h3', hin3'⟩ :=
    fillLoop_horizontal_inner d rf hrf ib1 (w.ctrl n).Children w2 hd2
  rw [h3] at h3'
  simp only [Option.some.injEq] at h3'
  subst h3'
  have hin3 : (w3.ctrl n).m_innerBounds = (w2.ctrl n).m_innerBounds := hin3' n
  have hinner : (w3.ctrl n).m_innerBounds =
      { (w1.ctrl n).m_innerBounds with x := ib1.x, w := ib1.w } := by
    rw [hin3]
    simp [hw2]
  have hix : (w3.ctrl n).m_innerBounds.x =
      (w.ctrl n).m_padding.left + leftTaken w (w.ctrl n).Children := by
    rw [hinner, hib1]
  have hiw : (w3.ctrl n).m_innerBounds.w =
      (w.ctrl n).m_bounds.w - (w.ctrl n).m_padding.left - (w.ctrl n).m_padding.right -
        (leftTaken w (w.ctrl n).Children + rightTaken w (w.ctrl n).Children) := by
    rw [hinner, hib1]
    simp only []
    ring
  refine ⟨w3, ?_, ArrangeFrame_trans hf12 hf3, hix, hiw, ?_, ?_⟩
  · unfold ArrangeHorizontal
    simp only [h1]
    rw [← hw2, hch, h3]
  · intro pre c post hl hc hnf
    have hcm : c ∈ (w.ctrl n).Children := by rw [hl]; simp
    rw [hn3 c hcm (by rw [hdock]; exact hnf), hbnd c hcm, hb1 pre c post hl hc]
  · intro c hcm hfl
    have hb := hy3 c hcm (by rw [hdock]; exact hfl)
    rw [hb, hmar, hinner]
    exact ⟨rfl, rfl⟩

end HorizontalDockLoop

section SideDocks

theorem takes_of_left {c : Control} (hs : c.m_bHidden = false) (h : c.m_dock = Position.Left) :
    takesLeft c = true ∧ takesRight c = false ∧ hasFlag c.m_dock Position.Fill = false := by
  rw [h]
  refine ⟨?_, ?_, by decide⟩
  · simp only [takesLeft, hs, h]; decide
  · simp only [takesRight, hs, h]; decide

theorem takes_of_right {c : Control} (hs : c.m_bHidden = false) (h : c.m_dock = Position.Right) :
    takesLeft c = false ∧ takesRight c = true ∧ hasFlag c.m_dock Position.Fill = false := by
  rw [h]
  refine ⟨?_, ?_, by decide⟩
  · simp only [takesLeft, hs, h]; decide
  · simp only [takesRight, hs, h]; decide

theorem takesLeft_not_right {c : Control} (h : takesLeft c = true) : takesRight c = false := by
  simp only [takesLeft, Bool.and_eq_true, Bool.not_eq_true'] at h
  simp [takesRight, h.2]

theorem leftTaken_nonneg (w : World) :
    ∀ l : List Nat, (∀ c, c ∈ l → takesLeft (w.ctrl c) = true → 0 ≤ (w.ctrl c).hSpan) →
      0 ≤ leftTaken w l := by
  intro l
  induction l with
  | nil => intro _; simp [leftTaken_nil]
  | cons a l ih =>
    intro h
    rw [leftTaken_cons]
    have h1 := ih (fun c hc => h c (List.mem_cons_of_mem a hc))
    by_cases ha : takesLeft (w.ctrl a) = true
    · rw [if_pos ha]
      have := h a (List.mem_cons_self a l) ha
      omega
    · rw [if_neg ha]
      omega

theorem rightTaken_nonneg (w : World) :
    ∀ l : List Nat, (∀ c, c ∈ l → takesRight (w.ctrl c) = true → 0 ≤ (w.ctrl c).hSpan) →
      0 ≤ rightTaken w l := by
  intro l
  induction l with
  | nil => intro _; simp [rightTaken_nil]
  | cons a l ih =>
    intro h
    rw [rightTaken_cons]
    have h1 := ih (fun c hc => h c (List.mem_cons_of_mem a hc))
    by_cases ha : takesRight (w.ctrl a) = true
    · rw [if_pos ha]
      have := h a (List.mem_cons_self a l) ha
      omega
    · rw [if_neg ha]
      omega

theorem sideSpans_eq (w : World) :
    ∀ l : List Nat,
      (∀ c, c ∈ l → (takesLeft (w.ctrl c) = true ∨ takesRight (w.ctrl c) = true) →
        (w.ctrl c).m_dock = Position.Left ∨ (w.ctrl c).m_dock = Position.Right) →
      sideSpans w l = leftTaken w l + rightTaken w l := by
  intro l
  induction l with
  | nil => intro _; simp [sideSpans, leftTaken_nil, rightTaken_nil]
  | cons a l ih =>
    intro h
    have h1 := ih (fun c hc => h c (List.mem_cons_of_mem a hc))
    have hcons : sideSpans w (a :: l) =
        (if sideDocked (w.ctrl a) = true then (w.ctrl a).hSpan else 0) + sideSpans w l := by
      unfold sideSpans
      by_cases hs : sideDocked (w.ctrl a) = true
      · simp [List.filter_cons, hs]
      · simp [List.filter_cons, hs]
    rw [hcons, leftTaken_cons, rightTaken_cons, h1]
    by_cases hs : sideDocked (w.ctrl a) = true
    · have hs' : (w.ctrl a).m_bHidden = false ∧
          ((w.ctrl a).m_dock = Position.Left ∨ (w.ctrl a).m_dock = Position.Right) := by
        simpa [sideDocked] using hs
      rcases hs'.2 with hl | hr
      · obtain ⟨e1, e2, _⟩ := takes_of_left hs'.1 hl
        simp [hs, e1, e2]
        ring
      · obtain ⟨e1, e2, _⟩ := takes_of_right hs'.1 hr
        simp [hs, e1, e2]
        ring
    · have hn : ¬ (takesLeft (w.ctrl a) = true ∨ takesRight (w.ctrl a) = true) := by
        intro ht
        have hd := h a (List.mem_cons_self a l) ht
        have hsh : (w.ctrl a).m_bHidden = false := by
          rcases ht with ht | ht
          · simp only [takesLeft, Bool.and_eq_true, Bool.not_eq_true'] at ht
            exact ht.1.1
          · simp only [takesRight, Bool.and_eq_true, Bool.not_eq_true'] at ht
            exact ht.1.1.1
        apply hs
        simp only [sideDocked, hsh, Bool.not_false, Bool.true_and, Bool.or_eq_true, beq_iff_eq]
        exact hd
      have e1 : takesLeft (w.ctrl a) = false := by
        by_contra hc
        exact hn (Or.inl (by simpa using hc))
      have e2 : takesRight (w.ctrl a) = false := by
        by_contra hc
        exact hn (Or.inr (by simpa using hc))
      simp [hs, e1, e2]

theorem leftTaken_split (w : World) (pre post : List Nat) (c : Nat)
    (h : ∀ x, x ∈ pre ++ c :: post → takesLeft (w.ctrl x) = true → 0 ≤ (w.ctrl x).hSpan) :
    leftTaken w (pre ++ c :: post) =
        leftTaken w pre + (if takesLeft (w.ctrl c) = true then (w.ctrl c).hSpan else 0) +
          leftTaken w post ∧
      0 ≤ leftTaken w pre ∧ 0 ≤ leftTaken w post := by
  refine ⟨?_, ?_, ?_⟩
  · rw [leftTaken_append, leftTaken_cons]
    ring
  · exact leftTaken_nonneg w pre (fun x hx => h x (by simp [hx]))
  · exact leftTaken_nonneg w post (fun x hx => h x (by simp [hx]))

theorem rightTaken_split (w : World) (pre post : List Nat) (c : Nat)
    (h : ∀ x, x ∈ pre ++ c :: post → takesRight (w.ctrl x) = true → 0 ≤ (w.ctrl x).hSpan) :
    rightTaken w (pre ++ c :: post) =
        rightTaken w pre + (if takesRight (w.ctrl c) = true then (w.ctrl c).hSpan else 0) +
          rightTaken w post ∧
      0 ≤ rightTaken w pre ∧ 0 ≤ rightTaken w post := by
  refine ⟨?_, ?_, ?_⟩
  · rw [rightTaken_append, rightTaken_cons]
    ring
  · exact rightTaken_nonneg w pre (fun x hx => h x (by simp [hx]))
  · exact rightTaken_nonneg w post (fun x hx => h x (by simp [hx]))

/-- The margin boxes of the side-docked children after a horizontal arrangement: a Left
child starts where the Left children before it end, a Right child ends where the Right
children before it start. -/
theorem ArrangeHorizontal_boxes (d : Nat → Nat) (rf n : Nat) (w : World)
    (hd : ParentDepth w d) (hrf : ∀ x, d x < rf)
    (hnd : (w.ctrl n).Children.Nodup) (hself : n ∉ (w.ctrl n).Children) :
    ∃ w1, ArrangeHorizontal rf n w = some w1 ∧
      ArrangeFrame (w.ctrl n).Children w w1 ∧
      (w1.ctrl n).m_innerBounds.x =
        (w.ctrl n).m_padding.left + leftTaken w (w.ctrl n).Children ∧
      (w1.ctrl n).m_innerBounds.w =
        (w.ctrl n).m_bounds.w - (w.ctrl n).m_padding.left - (w.ctrl n).m_padding.right -
          (leftTaken w (w.ctrl n).Children + rightTaken w (w.ctrl n).Children) ∧
      ∀ pre c post, (w.ctrl n).Children = pre ++ c :: post → (w.ctrl c).m_bHidden = false →
        ((w.ctrl c).m_dock = Position.Left →
          (w1.ctrl c).boxLo = (w.ctrl n).m_padding.left + leftTaken w pre ∧
          (w1.ctrl c).boxHi =
            (w.ctrl n).m_padding.left + leftTaken w pre + (w.ctrl c).hSpan) ∧
        ((w.ctrl c).m_dock = Position.Right →
          (w1.ctrl c).boxHi =
            (w.ctrl n).m_bounds.w - (w.ctrl n).m_padding.right - rightTaken w pre ∧
          (w1.ctrl c).boxLo =
            (w.ctrl n).m_bounds.w - (w.ctrl n).m_padding.right - rightTaken w pre -
              (w.ctrl c).hSpan) := by
  obtain ⟨w1, h1, hf, hix, hiw, hdk, _⟩ := ArrangeHorizontal_closed d rf n w hd hrf hnd hself
  refine ⟨w1, h1, hf, hix, hiw, ?_⟩
  intro pre c post hl hs
  have hmar : (w1.ctrl c).m_margin = (w.ctrl c).m_margin :=
    hf.arrangeProj Control.m_margin (fun _ => rfl) (fun _ => rfl) c
  constructor
  · intro hdl
    have hb := hdk pre c post hl hs (takes_of_left hs hdl).2.2
    have hb2 : (w1.ctrl c).m_bounds =
        Rect.mk ((w.ctrl n).m_padding.left + leftTaken w pre + (w.ctrl c).m_margin.left)
          (w.ctrl c).m_bounds.y (w.ctrl c).m_preferredSize.width (w.ctrl c).m_bounds.h := by
      rw [hb]
      simp only [dockedBoundsX, hdl]
      rfl
    simp only [Control.boxLo, Control.boxHi, Control.hSpan, hb2, hmar]
    constructor <;> ring
  · intro hdr
    have hb := hdk pre c post hl hs (takes_of_right hs hdr).2.2
    have hb2 : (w1.ctrl c).m_bounds =
        Rect.mk (((w.ctrl n).m_padding.left + leftTaken w pre +
            ((w.ctrl n).m_bounds.w - ((w.ctrl n).m_padding.left + (w.ctrl n).m_padding.right) -
              (leftTaken w pre + rightTaken w pre))) -
            (w.ctrl c).m_preferredSize.width - (w.ctrl c).m_margin.right)
          (w.ctrl c).m_bounds.y (w.ctrl c).m_preferredSize.width (w.ctrl c).m_bounds.h := by
      rw [hb]
      simp only [dockedBoundsX, hdr]
      rfl
    simp only [Control.boxLo, Control.boxHi, Control.hSpan, hb2, hmar]
    constructor <;> ring

end SideDocks

section SideDockTiling

/-- C31: let `n` be a container (acyclic parent chains, children listed once, `n` not its
own child) in which every shown child that takes width in the horizontal dock loop (Left or
Right flag without the Top flag) is docked exactly Left or exactly Right, these children
have non-negative preferred widths and margins, and the sum `S` of their preferred widths
with margins is at most the padded interior `n.w - padding.left - padding.right`. Then
`ArrangeHorizontal` returns and `S + innerBounds.w` is the padded interior; the margin box
`[x - margin.left, x + w + margin.right)` of each of these children lies inside
`[padding.left, n.w - padding.right)` and is disjoint from the inner span
`[innerBounds.x, innerBounds.x + innerBounds.w)`, and the margin boxes of two of them are
disjoint. -/
theorem ArrangeHorizontal_side_docks_tile (d : Nat → Nat) (rf n : Nat) (w : World)
    (hd : ParentDepth w d) (hrf : ∀ x, d x < rf)
    (hnd : (w.ctrl n).Children.Nodup) (hself : n ∉ (w.ctrl n).Children)
    (hexact : ∀ c, c ∈ (w.ctrl n).Children →
      (takesLeft (w.ctrl c) = true ∨ takesRight (w.ctrl c) = true) →
      (w.ctrl c).m_dock = Position.Left ∨ (w.ctrl c).m_dock = Position.Right)
    (hpos : ∀ c, c ∈ (w.ctrl n).Children → sideDocked (w.ctrl c) = true →
      0 ≤ (w.ctrl c).m_preferredSize.width ∧ 0 ≤ (w.ctrl c).m_margin.left ∧
        0 ≤ (w.ctrl c).m_margin.right)
    (hroom : sideSpans w (w.ctrl n).Children ≤
      (w.ctrl n).m_bounds.w - (w.ctrl n).m_padding.left - (w.ctrl n).m_padding.right) :
    ∃ w1, ArrangeHorizontal rf n w = some w1 ∧
      (w1.ctrl n).m_bounds = (w.ctrl n).m_bounds ∧
      (w1.ctrl n).m_padding = (w.ctrl n).m_padding ∧
      (∀ m, (w1.ctrl m).m_margin = (w.ctrl m).m_margin) ∧
      sideSpans w (w.ctrl n).Children + (w1.ctrl n).m_innerBounds.w =
        (w.ctrl n).m_bounds.w - (w.ctrl n).m_padding.left - (w.ctrl n).m_padding.right ∧
      (∀ c, c ∈ (w.ctrl n).Children → sideDocked (w.ctrl c) = true →
        (w.ctrl n).m_padding.left ≤ (w1.ctrl c).boxLo ∧
        (w1.ctrl c).boxLo ≤ (w1.ctrl c).boxHi ∧
        (w1.ctrl c).boxHi ≤ (w.ctrl n).m_bounds.w - (w.ctrl n).m_padding.right ∧
        ((w1.ctrl c).boxHi ≤ (w1.ctrl n).m_innerBounds.x ∨
          (w1.ctrl n).m_innerBounds.x + (w1.ctrl n).m_innerBounds.w ≤ (w1.ctrl c).boxLo)) ∧
      (∀ pre c1 mid c2 post, (w.ctrl n).Children = pre ++ c1 :: (mid ++ c2 :: post) →
        sideDocked (w.ctrl c1) = true → sideDocked (w.ctrl c2) = true →
        (w1.ctrl c1).boxHi ≤ (w1.ctrl c2).boxLo ∨ (w1.ctrl c2).boxHi ≤ (w1.ctrl c1).boxLo) := by
  obtain ⟨w1, h1, hf, hix, hiw, hbox⟩ := ArrangeHorizontal_boxes d rf n w hd hrf hnd hself
  have hsum := sideSpans_eq w (w.ctrl n).Children hexact
  have hside : ∀ c, sideDocked (w.ctrl c) = true → (w.ctrl c).m_bHidden = false ∧
      ((w.ctrl c).m_dock = Position.Left ∨ (w.ctrl c).m_dock = Position.Right) := by
    intro c hc
    simpa [sideDocked] using hc
  have hshownL : ∀ c, takesLeft (w.ctrl c) = true → (w.ctrl c).m_bHidden = false := by
    intro c ht
    simp only [takesLeft, Bool.and_eq_true, Bool.not_eq_true'] at ht
    exact ht.1.1
  have hshownR : ∀ c, takesRight (w.ctrl c) = true → (w.ctrl c).m_bHidden = false := by
    intro c ht
    simp only [takesRight, Bool.and_eq_true, Bool.not_eq_true'] at ht
    exact ht.1.1.1
  have hspan : ∀ c, c ∈ (w.ctrl n).Children →
      (takesLeft (w.ctrl c) = true ∨ takesRight (w.ctrl c) = true) → 0 ≤ (w.ctrl c).hSpan := by
    intro c hc ht
    have hdk := hexact c hc ht
    have hsh : (w.ctrl c).m_bHidden = false := by
      rcases ht with ht | ht
      · exact hshownL c ht
      · exact hshownR c ht
    have hsd : sideDocked (w.ctrl c) = true := by
      simp only [sideDocked, hsh, Bool.not_false, Bool.true_and, Bool.or_eq_true, beq_iff_eq]
      exact hdk
    obtain ⟨a1, a2, a3⟩ := hpos c hc hsd
    simp only [Control.hSpan]
    omega
  have hLn : ∀ x, x ∈ (w.ctrl n).Children → takesLeft (w.ctrl x) = true →
      0 ≤ (w.ctrl x).hSpan := fun x hx ht => hspan x hx (Or.inl ht)
  have hRn : ∀ x, x ∈ (w.ctrl n).Children → takesRight (w.ctrl x) = true →
      0 ≤ (w.ctrl x).hSpan := fun x hx ht => hspan x hx (Or.inr ht)
  have hL0 := leftTaken_nonneg w (w.ctrl n).Children hLn
  have hR0 := rightTaken_nonneg w (w.ctrl n).Children hRn
  have hone : ∀ pre c post, (w.ctrl n).Children = pre ++ c :: post →
      sideDocked (w.ctrl c) = true →
      0 ≤ (w.ctrl c).hSpan ∧ 0 ≤ leftTaken w pre ∧ 0 ≤ rightTaken w pre ∧
      (((w.ctrl c).m_dock = Position.Left ∧
          (w1.ctrl c).boxLo = (w.ctrl n).m_padding.left + leftTaken w pre ∧
          (w1.ctrl c).boxHi =
            (w.ctrl n).m_padding.left + leftTaken w pre + (w.ctrl c).hSpan ∧
          leftTaken w pre + (w.ctrl c).hSpan ≤ leftTaken w (w.ctrl n).Children) ∨
        ((w.ctrl c).m_dock = Position.Right ∧
          (w1.ctrl c).boxHi =
            (w.ctrl n).m_bounds.w - (w.ctrl n).m_padding.right - rightTaken w pre ∧
          (w1.ctrl c).boxLo =
            (w.ctrl n).m_bounds.w - (w.ctrl n).m_padding.right - rightTaken w pre -
              (w.ctrl c).hSpan ∧
          rightTaken w pre + (w.ctrl c).hSpan ≤ rightTaken w (w.ctrl n).Children)) := by
    intro pre c post hl hsd
    obtain ⟨hsh, hdk⟩ := hside c hsd
    have hcm : c ∈ (w.ctrl n).Children := by rw [hl]; simp
    obtain ⟨l1, l2, l3⟩ := leftTaken_split w pre post c (fun x hx => hLn x (by rw [hl]; exact hx))
    obtain ⟨r1, r2, r3⟩ := rightTaken_split w pre post c (fun x hx => hRn x (by rw [hl]; exact hx))
    rw [← hl] at l1 r1
    obtain ⟨bl, br⟩ := hbox pre c post hl hsh
    rcases hdk with hdl | hdr
    · obtain ⟨e1, _, _⟩ := takes_of_left hsh hdl
      have hsp := hLn c hcm e1
      rw [if_pos e1] at l1
      obtain ⟨b1, b2⟩ := bl hdl
      exact ⟨hsp, l2, r2, Or.inl ⟨hdl, b1, b2, by omega⟩⟩
    · obtain ⟨_, e2, _⟩ := takes_of_right hsh hdr
      have hsp := hRn c hcm e2
      rw [if_pos e2] at r1
      obtain ⟨b1, b2⟩ := br hdr
      exact ⟨hsp, l2, r2, Or.inr ⟨hdr, b1, b2, by omega⟩⟩
  refine ⟨w1, h1, hf.bounds_notin hself,
    hf.arrangeProj Control.m_padding (fun _ => rfl) (fun _ => rfl) n,
    hf.arrangeProj Control.m_margin (fun _ => rfl) (fun _ => rfl), ?_, ?_, ?_⟩
  · rw [hiw, hsum]
    ring
  · intro c hc hsd
    obtain ⟨pre, post, hl⟩ := List.append_of_mem hc
    obtain ⟨hsp, l2, r2, hcase⟩ := hone pre c post hl hsd
    rw [hix, hiw]
    rcases hcase with ⟨_, b1, b2, b3⟩ | ⟨_, b1, b2, b3⟩
    · rw [b1, b2]
      refine ⟨by omega, by omega, by omega, Or.inl (by omega)⟩
    · rw [b1, b2]
      refine ⟨by omega, by omega, by omega, Or.inr (by omega)⟩
  · intro pre c1 mid c2 post hl hs1 hs2
    have hl2 : (w.ctrl n).Children = (pre ++ c1 :: mid) ++ c2 :: post := by
      rw [hl, List.append_assoc, List.cons_append]
    obtain ⟨hsp1, l21, r21, hcase1⟩ := hone pre c1 (mid ++ c2 :: post) hl hs1
    obtain ⟨hsp2, l22, r22, hcase2⟩ := hone (pre ++ c1 :: mid) c2 post hl2 hs2
    have hmidL : ∀ x, x ∈ pre ++ c1 :: mid → takesLeft (w.ctrl x) = true →
        0 ≤ (w.ctrl x).hSpan := fun x hx =>
      hLn x (by rw [hl2]; exact List.mem_append_left _ hx)
    have hmidR : ∀ x, x ∈ pre ++ c1 :: mid → takesRight (w.ctrl x) = true →
        0 ≤ (w.ctrl x).hSpan := fun x hx =>
      hRn x (by rw [hl2]; exact List.mem_append_left _ hx)
    obtain ⟨m1, _, m3⟩ := leftTaken_split w pre mid c1 hmidL
    obtain ⟨n1, _, n3⟩ := rightTaken_split w pre mid c1 hmidR
    rcases hcase1 with ⟨d1, b1, b2, b3⟩ | ⟨d1, b1, b2, b3⟩
    · rcases hcase2 with ⟨d2, c1', c2', c3'⟩ | ⟨d2, c1', c2', c3'⟩
      · left
        rw [if_pos (takes_of_left (hside c1 hs1).1 d1).1] at m1
        rw [b2, c1']
        omega
      · left
        rw [b2, c2']
        omega
    · rcases hcase2 with ⟨d2, c1', c2', c3'⟩ | ⟨d2, c1', c2', c3'⟩
      · right
        rw [c2', b2]
        omega
      · right
        rw [if_pos (takes_of_right (hside c1 hs1).1 d1).2.1] at n1
        rw [c1', b2]
        omega

end SideDockTiling

section SideDockSamples

/-- C31 on `sideTree`: the space taken is 23 + 33 + 10 = 66, the inner span is
`[36, 65)` and 66 + 29 is the padded interior 95; the margin boxes are `[3, 26)`,
`[65, 98)` and `[26, 36)`. -/
theorem ArrangeHorizontal_side_docks_tile_witness :
    ∃ w1, ArrangeHorizontal 2 0 sideTree = some w1 ∧
      sideSpans sideTree (sideTree.ctrl 0).Children = 66 ∧
      (w1.ctrl 0).m_innerBounds.x = 36 ∧ (w1.ctrl 0).m_innerBounds.w = 29 ∧
      ((w1.ctrl 1).boxLo, (w1.ctrl 1).boxHi) = (3, 26) ∧
      ((w1.ctrl 2).boxLo, (w1.ctrl 2).boxHi) = (65, 98) ∧
      ((w1.ctrl 4).boxLo, (w1.ctrl 4).boxHi) = (26, 36) := by
  obtain ⟨w1, h1, _⟩ := ArrangeHorizontal_side_docks_tile flatDepth 2 0 sideTree
    (ParentDepth_ofList _ _ (by decide)) (fun x => by unfold flatDepth; split <;> omega)
    (by decide) (by decide)
    (fun c hc ht => by
      have : ∀ c, c ∈ (sideTree.ctrl 0).Children →
          (takesLeft (sideTree.ctrl c) = true ∨ takesRight (sideTree.ctrl c) = true) →
          (sideTree.ctrl c).m_dock = Position.Left ∨
            (sideTree.ctrl c).m_dock = Position.Right := by decide
      exact this c hc ht)
    (fun c hc hs => by
      have : ∀ c, c ∈ (sideTree.ctrl 0).Children → sideDocked (sideTree.ctrl c) = true →
          0 ≤ (sideTree.ctrl c).m_preferredSize.width ∧ 0 ≤ (sideTree.ctrl c).m_margin.left ∧
            0 ≤ (sideTree.ctrl c).m_margin.right := by decide
      exact this c hc hs)
    (by decide)
  have h2 : (ArrangeHorizontal 2 0 sideTree).map (fun v =>
      ((v.ctrl 0).m_innerBounds.x, (v.ctrl 0).m_innerBounds.w,
        ((v.ctrl 1).boxLo, (v.ctrl 1).boxHi), ((v.ctrl 2).boxLo, (v.ctrl 2).boxHi),
        ((v.ctrl 4).boxLo, (v.ctrl 4).boxHi))) =
      some (36, 29, (3, 26), (65, 98), (26, 36)) := by decide
  rw [h1] at h2
  simp only [Option.map_some', Option.some.injEq, Prod.mk.injEq] at h2
  obtain ⟨a1, a2, ⟨b1, b2⟩, ⟨b3, b4⟩, b5, b6⟩ := h2
  exact ⟨w1, h1, by decide, a1, a2, by rw [b1, b2], by rw [b3, b4], by rw [b5, b6]⟩

/-- C31 counterexample: in `mixedDockTree` the only child docked exactly Left or exactly
Right is `2`, with the non-negative preferred width 20 and margins 0, so `S = 20`, which is
at most the padded interior 100. The child `1` carries the Left flag next to the CenterV
flag and takes 30 in the dock loop as well: the inner bounds are 50 wide and
`S + innerBounds.w = 70`, not 100. -/
theorem ArrangeHorizontal_side_docks_tile_counterexample :
    sideSpans mixedDockTree (mixedDockTree.ctrl 0).Children = 20 ∧
    (mixedDockTree.ctrl 0).m_bounds.w - (mixedDockTree.ctrl 0).m_padding.left -
      (mixedDockTree.ctrl 0).m_padding.right = 100 ∧
    (∀ c, c ∈ (mixedDockTree.ctrl 0).Children → sideDocked (mixedDockTree.ctrl c) = true →
      0 ≤ (mixedDockTree.ctrl c).m_preferredSize.width ∧
        0 ≤ (mixedDockTree.ctrl c).m_margin.left ∧
        0 ≤ (mixedDockTree.ctrl c).m_margin.right) ∧
    sideDocked (mixedDockTree.ctrl 1) = false ∧ takesLeft (mixedDockTree.ctrl 1) = true ∧
    (ArrangeHorizontal 2 0 mixedDockTree).map (fun v =>
        sideSpans mixedDockTree (mixedDockTree.ctrl 0).Children +
          (v.ctrl 0).m_innerBounds.w) = some 70 ∧
    (ArrangeHorizontal 2 0 mixedDockTree).map (fun v =>
        ((v.ctrl 0).m_innerBounds.x, (v.ctrl 2).boxLo, (v.ctrl 2).boxHi)) =
      some (50, 30, 50) := by
  refine ⟨by decide, by decide, by decide, by decide, by decide, by decide, by decide⟩

end SideDockSamples

section FillRoom

/-- The totals of the child loop of `CalculateSize` are the three buckets of the shown
children, read in the world the calculation returns. -/
theorem CalculateSize_buckets (r : Nat → Nat) (fuel n : Nat) (dim : Dim) (w : World)
    (hf : Forest w r) (hfuel : r n < fuel) (hli : (w.ctrl n).m_layoutItem = none) :
    ∃ acc w0 w1,
      sizeLoop (fun child => CalculateSize (fuel - 1) child dim) dim (w.ctrl n).hasAlignment
        (w.ctrl n).Children {} w = some (acc, w0) ∧
      CalculateSize fuel n dim w = some w1 ∧
      acc.maxSize = widestBucket dim n w1 ∧
      acc.dockSize = dockBucket dim n w1 ∧
      acc.innerSize = innerBucket dim n w1 ∧
      acc.raw = max (widestBucket dim n w1) (dockBucket dim n w1 + innerBucket dim n w1) ∧
      (w1.ctrl n).m_preferredSize.along dim =
        applySizeFlag ((w.ctrl n).m_sizeFlags.along dim) ((w.ctrl n).m_bounds.extent dim)
          (max (widestBucket dim n w1) (dockBucket dim n w1 + innerBucket dim n w1) +
            (w.ctrl n).m_padding.along dim)
          ((w.ctrl n).m_minimumSize.along dim) ((w.ctrl n).m_maximumSize.along dim) := by
  obtain ⟨hr, hs, hnd⟩ := hf
  obtain ⟨k, rfl⟩ := Nat.exists_eq_succ_of_ne_zero (show fuel ≠ 0 by omega)
  simp only [Nat.add_one_sub_one]
  obtain ⟨acc, w0, sz, h0, hf0, hcalc, hsz2, _⟩ := CalculateSize_result r k n dim w hr hfuel hli
  obtain ⟨acc1, wb, h1, _, _, h4⟩ := sizeLoop_final r k dim (w.ctrl n).hasAlignment w hr
    (w.ctrl n).Children (hnd n) (fun a ha => by have := hr n a ha; omega)
    (fun a ha c hc hsub => siblings_disjoint hr hs hc ha hsub (Sub.refl a)) {} w
    (CalcFrame_refl w)
  rw [h0] at h1
  simp only [Option.some.injEq, Prod.mk.injEq] at h1
  obtain ⟨hacc, hwb⟩ := h1
  subst hwb
  subst hacc
  set w1 := w0.modify n fun c => { c with m_preferredSize := sz } with hw1
  have hnc : ∀ c, c ∈ (w.ctrl n).Children → w1.ctrl c = w0.ctrl c := by
    intro c hc
    have hne : c ≠ n := by
      intro e
      have := hr n c hc
      rw [e] at this
      omega
    simp [hw1, hne]
  have hchildren : (w1.ctrl n).Children = (w.ctrl n).Children := by
    simp only [hw1, modify_ctrl_same]
    exact hf0.calcProj Control.Children (fun _ => rfl) n
  have halign : (w1.ctrl n).hasAlignment = (w.ctrl n).hasAlignment := by
    simp only [hw1, modify_ctrl_same]
    exact hf0.calcProj Control.hasAlignment (fun _ => rfl) n
  have hshown : shownChildren n w1 = (w.ctrl n).Children.filter fun c => !(w.ctrl c).m_bHidden := by
    unfold shownChildren
    rw [hchildren]
    apply List.filter_congr
    intro c hc
    rw [hnc c hc, hf0.calcProj Control.m_bHidden (fun _ => rfl) c]
  have hmap : ∀ (b : SizeBucket),
      (bucketChildren b dim n w1).map
          (fun c => childExtent dim (w1.ctrl n).hasAlignment (w1.ctrl c)) =
        ((((w.ctrl n).Children.filter fun c => !(w.ctrl c).m_bHidden).map w0.ctrl).filter
          fun c => sizeBucket dim c.m_dock == b).map
          (childExtent dim (w.ctrl n).hasAlignment) := by
    intro b
    unfold bucketChildren
    rw [hshown, halign, List.filter_map, List.map_map]
    have hmem : ∀ c, c ∈ (w.ctrl n).Children.filter (fun c => !(w.ctrl c).m_bHidden) →
        w1.ctrl c = w0.ctrl c := fun c hc => hnc c (List.mem_of_mem_filter hc)
    have e1 : List.filter (fun c => sizeBucket dim (w1.ctrl c).m_dock == b)
          ((w.ctrl n).Children.filter fun c => !(w.ctrl c).m_bHidden) =
        List.filter ((fun c => sizeBucket dim c.m_dock == b) ∘ w0.ctrl)
          ((w.ctrl n).Children.filter fun c => !(w.ctrl c).m_bHidden) := by
      apply List.filter_congr
      intro c hc
      simp only [Function.comp, hmem c hc]
    rw [e1]
    apply List.map_congr_left
    intro c hc
    simp only [Function.comp, hmem c (List.mem_of_mem_filter hc)]
  obtain ⟨f1, f2, f3⟩ := bucket_foldl dim (w.ctrl n).hasAlignment
    (((w.ctrl n).Children.filter fun c => !(w.ctrl c).m_bHidden).map w0.ctrl) {} (le_refl _)
  have g1 : ((((w.ctrl n).Children.filter fun c => !(w.ctrl c).m_bHidden).map w0.ctrl).foldl
      (fun a c => bucket dim (w.ctrl n).hasAlignment c a) {}).maxSize = widestBucket dim n w1 := by
    rw [f1]
    unfold widestBucket
    rw [hmap]
    exact max_eq_right (maxWithZero_nonneg _)
  have g2 : ((((w.ctrl n).Children.filter fun c => !(w.ctrl c).m_bHidden).map w0.ctrl).foldl
      (fun a c => bucket dim (w.ctrl n).hasAlignment c a) {}).dockSize = dockBucket dim n w1 := by
    rw [f2]
    unfold dockBucket
    rw [hmap]
    simp
  have g3 : ((((w.ctrl n).Children.filter fun c => !(w.ctrl c).m_bHidden).map w0.ctrl).foldl
      (fun a c => bucket dim (w.ctrl n).hasAlignment c a) {}).innerSize = innerBucket dim n w1 := by
    rw [f3]
    unfold innerBucket
    rw [hmap]
    simp
  have graw : (((((w.ctrl n).Children.filter fun c => !(w.ctrl c).m_bHidden).map w0.ctrl).foldl
      (fun a c => bucket dim (w.ctrl n).hasAlignment c a) {}).raw) =
      max (widestBucket dim n w1) (dockBucket dim n w1 + innerBucket dim n w1) := by
    unfold Buckets.raw
    rw [g1, g2, g3]
  refine ⟨acc, w0, w1, h0, hcalc, by rw [h4]; exact g1, by rw [h4]; exact g2,
    by rw [h4]; exact g3, by rw [h4]; exact graw, ?_⟩
  simp only [hw1, modify_ctrl_same]
  rw [hsz2, h4, graw]

theorem sum_filter_ge (p : Nat → Bool) (g : Nat → Int) :
    ∀ (l : List Nat) (f : Nat), (∀ c, c ∈ l → p c = true → 0 ≤ g c) → f ∈ l → p f = true →
      g f ≤ ((l.filter p).map g).sum := by
  intro l
  induction l with
  | nil => intro f _ hf; simp at hf
  | cons a l ih =>
    intro f h hf hp
    have hrest : 0 ≤ ((l.filter p).map g).sum := by
      apply List.sum_nonneg
      intro x hx
      obtain ⟨c, hc, rfl⟩ := List.mem_map.1 hx
      exact h c (List.mem_cons_of_mem a (List.mem_of_mem_filter hc)) (List.mem_filter.1 hc).2
    rcases List.mem_cons.1 hf with rfl | hfl
    · simp only [List.filter_cons, hp, if_true, List.map_cons, List.sum_cons]
      omega
    · have := ih f (fun c hc => h c (List.mem_cons_of_mem a hc)) hfl hp
      by_cases ha : p a = true
      · have h0 := h a (List.mem_cons_self a l) ha
        simp only [List.filter_cons, ha, if_true, List.map_cons, List.sum_cons]
        omega
      · simp only [List.filter_cons, ha]
        exact this

/-- The horizontal space of a shown child with one dock flag counts in the additive dock
bucket exactly when the dock loop of `ArrangeHorizontal` takes it from an edge. -/
theorem docked_extent_single (al : Bool) (c : Control) (hs : c.m_bHidden = false)
    (hd : c.m_dock ∈ singleDockFlags) :
    (if (sizeBucket Dim.X c.m_dock == SizeBucket.docked) = true then childExtent Dim.X al c
      else 0) =
      (if takesLeft c = true then c.hSpan else 0) +
        (if takesRight c = true then c.hSpan else 0) := by
  simp only [singleDockFlags, List.mem_cons, List.mem_singleton, List.not_mem_nil, or_false]
    at hd
  have e1 : sizeBucket Dim.X Position.Left = SizeBucket.docked := by decide
  have e2 : sizeBucket Dim.X Position.Right = SizeBucket.docked := by decide
  have e3 : sizeBucket Dim.X Position.Top = SizeBucket.widest := by decide
  have e4 : sizeBucket Dim.X Position.Bottom = SizeBucket.widest := by decide
  have e5 : sizeBucket Dim.X Position.CenterV = SizeBucket.widest := by decide
  have e6 : sizeBucket Dim.X Position.CenterH = SizeBucket.widest := by decide
  have e7 : sizeBucket Dim.X Position.Fill = SizeBucket.inner := by decide
  have u1 : undocked Position.Left = false := by decide
  have u2 : undocked Position.Right = false := by decide
  rcases hd with h | h | h | h | h | h | h
  · obtain ⟨t1, t2, _⟩ := takes_of_left hs h
    simp [h, e1, t1, t2, childExtent, u1, Control.hSpan, Size.along, Margin.along]
    ring
  · obtain ⟨t1, t2, _⟩ := takes_of_right hs h
    simp [h, e2, t1, t2, childExtent, u2, Control.hSpan, Size.along, Margin.along]
    ring
  · have t1 : takesLeft c = false := by simp only [takesLeft, hs, h]; decide
    have t2 : takesRight c = false := by simp only [takesRight, hs, h]; decide
    simp [h, e3, t1, t2]
  · have t1 : takesLeft c = false := by simp only [takesLeft, hs, h]; decide
    have t2 : takesRight c = false := by simp only [takesRight, hs, h]; decide
    simp [h, e4, t1, t2]
  · have t1 : takesLeft c = false := by simp only [takesLeft, hs, h]; decide
    have t2 : takesRight c = false := by simp only [takesRight, hs, h]; decide
    simp [h, e5, t1, t2]
  · have t1 : takesLeft c = false := by simp only [takesLeft, hs, h]; decide
    have t2 : takesRight c = false := by simp only [takesRight, hs, h]; decide
    simp [h, e6, t1, t2]
  · have t1 : takesLeft c = false := by simp only [takesLeft, hs, h]; decide
    have t2 : takesRight c = false := by simp only [takesRight, hs, h]; decide
    simp [h, e7, t1, t2]

/-- With one dock flag on each shown child the additive dock bucket of the horizontal size
calculation is the space the dock loop of `ArrangeHorizontal` takes from the two edges. -/
theorem dockBucket_single (v : World) (al : Bool) :
    ∀ l : List Nat, SingleDock v l →
      (((l.filter fun c => !(v.ctrl c).m_bHidden).filter
          fun c => sizeBucket Dim.X (v.ctrl c).m_dock == SizeBucket.docked).map
          fun c => childExtent Dim.X al (v.ctrl c)).sum =
        leftTaken v l + rightTaken v l := by
  intro l
  induction l with
  | nil => intro _; simp [leftTaken_nil, rightTaken_nil]
  | cons a l ih =>
    intro hsd
    have h1 := ih (fun c hc => hsd c (List.mem_cons_of_mem a hc))
    rw [leftTaken_cons, rightTaken_cons]
    by_cases hh : (v.ctrl a).m_bHidden = true
    · have t1 : takesLeft (v.ctrl a) = false := by simp [takesLeft, hh]
      have t2 : takesRight (v.ctrl a) = false := by simp [takesRight, hh]
      simp only [List.filter_cons, hh, Bool.not_true, Bool.false_eq_true, if_false, t1, t2]
      rw [h1]
      ring
    · have hs : (v.ctrl a).m_bHidden = false := by simpa using hh
      have he := docked_extent_single al (v.ctrl a) hs (hsd a (List.mem_cons_self a l) hs)
      have hgoal : (if takesLeft (v.ctrl a) = true then (v.ctrl a).hSpan else 0) +
            leftTaken v l +
            ((if takesRight (v.ctrl a) = true then (v.ctrl a).hSpan else 0) + rightTaken v l) =
          (if (sizeBucket Dim.X (v.ctrl a).m_dock == SizeBucket.docked) = true then
              childExtent Dim.X al (v.ctrl a) else 0) + (leftTaken v l + rightTaken v l) := by
        rw [he]
        ring
      rw [hgoal, ← h1]
      by_cases hb : (sizeBucket Dim.X (v.ctrl a).m_dock == SizeBucket.docked) = true
      · simp [List.filter_cons, hs, hb]
      · simp [List.filter_cons, hs, hb]

theorem inner_extent (al : Bool) (c : Control)
    (h : sizeBucket Dim.X c.m_dock = SizeBucket.inner) : childExtent Dim.X al c = c.hSpan := by
  have hu : undocked c.m_dock = false := by
    revert h
    unfold sizeBucket undocked
    cases hasFlag c.m_dock Position.Top <;> cases hasFlag c.m_dock Position.Bottom <;>
      cases hasFlag c.m_dock Position.Left <;> cases hasFlag c.m_dock Position.Right <;>
      cases hasFlag c.m_dock Position.Fill <;> simp
  simp only [childExtent, hu, Bool.false_and, Bool.false_eq_true, if_false, Control.hSpan,
    Size.along, Margin.along]
  ring

/-- C38: in a forest, for a container `n` without layout item whose shown children carry
one dock flag each and have non-negative horizontal margins, `CalculateSize(Dim::X)`
returns; the width it computes for `n` under the Elastic policy is the content width `raw`
of the child loop plus the horizontal padding. If the shown children have non-negative
preferred widths after the calculation and the bound width of `n` is at least that
width, `ArrangeHorizontal` returns and every shown Fill-docked child is at least as wide as
its preferred width. -/
theorem ArrangeHorizontal_fill_keeps_preferred_width (r d : Nat → Nat) (fuel rf n : Nat)
    (w : World) (hf : Forest w r) (hfuel : r n < fuel) (hd : ParentDepth w d)
    (hrf : ∀ x, d x < rf) (hli : (w.ctrl n).m_layoutItem = none)
    (hsd : SingleDock w (w.ctrl n).Children)
    (hmar : ∀ c, c ∈ (w.ctrl n).Children → (w.ctrl c).m_bHidden = false →
      0 ≤ (w.ctrl c).m_margin.left ∧ 0 ≤ (w.ctrl c).m_margin.right) :
    ∃ acc w0 w1,
      sizeLoop (fun child => CalculateSize (fuel - 1) child Dim.X) Dim.X
        (w.ctrl n).hasAlignment (w.ctrl n).Children {} w = some (acc, w0) ∧
      CalculateSize fuel n Dim.X w = some w1 ∧
      ((w.ctrl n).m_sizeFlags.horizontal = SizeFlag.Elastic →
        (w1.ctrl n).m_preferredSize.width =
          acc.raw + ((w.ctrl n).m_padding.left + (w.ctrl n).m_padding.right)) ∧
      ((∀ c, c ∈ (w.ctrl n).Children → (w.ctrl c).m_bHidden = false →
          0 ≤ (w1.ctrl c).m_preferredSize.width) →
        applySizeFlag SizeFlag.Elastic (w.ctrl n).m_bounds.w
            (acc.raw + ((w.ctrl n).m_padding.left + (w.ctrl n).m_padding.right))
            (w.ctrl n).m_minimumSize.width (w.ctrl n).m_maximumSize.width ≤
          (w.ctrl n).m_bounds.w →
        ∃ w2, ArrangeHorizontal rf n w1 = some w2 ∧
          ∀ f, f ∈ (w.ctrl n).Children → (w.ctrl f).m_bHidden = false →
            (w.ctrl f).m_dock = Position.Fill →
            (w1.ctrl f).m_preferredSize.width ≤ (w2.ctrl f).m_bounds.w) := by
  obtain ⟨acc, w0, w1, h0, hcalc, _, hdk, hin, hraw, hpref⟩ :=
    CalculateSize_buckets r fuel n Dim.X w hf hfuel hli
  obtain ⟨hr, hsp, hndall⟩ := hf
  obtain ⟨w1', hc1, hcf, _⟩ := CalculateSize_local r fuel n Dim.X w hr hfuel
  rw [hcalc] at hc1
  simp only [Option.some.injEq] at hc1
  subst hc1
  have hch : (w1.ctrl n).Children = (w.ctrl n).Children :=
    hcf.calcProj Control.Children (fun _ => rfl) n
  have hhid : ∀ m, (w1.ctrl m).m_bHidden = (w.ctrl m).m_bHidden :=
    hcf.calcProj Control.m_bHidden (fun _ => rfl)
  have hdock : ∀ m, (w1.ctrl m).m_dock = (w.ctrl m).m_dock :=
    hcf.calcProj Control.m_dock (fun _ => rfl)
  have hmg : ∀ m, (w1.ctrl m).m_margin = (w.ctrl m).m_margin :=
    hcf.calcProj Control.m_margin (fun _ => rfl)
  have hbd : (w1.ctrl n).m_bounds = (w.ctrl n).m_bounds :=
    hcf.calcProj Control.m_bounds (fun _ => rfl) n
  have hpd : (w1.ctrl n).m_padding = (w.ctrl n).m_padding :=
    hcf.calcProj Control.m_padding (fun _ => rfl) n
  refine ⟨acc, w0, w1, h0, hcalc, ?_, ?_⟩
  · intro hfl
    have := hpref
    simp only [Size.along, SizeFlags.along, hfl, applySizeFlag, Margin.along] at this
    rw [this, ← hraw]
  · intro hpw hroom
    have hsd1 : SingleDock w1 (w1.ctrl n).Children := by
      intro c hc hs
      rw [hdock]
      rw [hch] at hc
      rw [hhid] at hs
      exact hsd c hc hs
    have hself : n ∉ (w1.ctrl n).Children := by
      intro hn
      rw [hch] at hn
      have := hr n n hn
      omega
    have hd1 : ParentDepth w1 d := ParentDepth_of_frame hcf.calcToLayout hd
    have hnd1 : (w1.ctrl n).Children.Nodup := by rw [hch]; exact hndall n
    obtain ⟨w2, h2, _, _, hiw, _, hfill⟩ := ArrangeHorizontal_closed d rf n w1 hd1 hrf hnd1 hself
    refine ⟨w2, h2, ?_⟩
    intro f hfm hfs hfd
    have hfm1 : f ∈ (w1.ctrl n).Children := by rw [hch]; exact hfm
    have hfd1 : (w1.ctrl f).m_dock = Position.Fill := by rw [hdock]; exact hfd
    have hfs1 : (w1.ctrl f).m_bHidden = false := by rw [hhid]; exact hfs
    obtain ⟨_, hw⟩ := hfill f hfm1 (by rw [hfd1]; decide)
    have hdb : dockBucket Dim.X n w1 =
        leftTaken w1 (w1.ctrl n).Children + rightTaken w1 (w1.ctrl n).Children := by
      unfold dockBucket bucketChildren shownChildren
      exact dockBucket_single w1 (w1.ctrl n).hasAlignment (w1.ctrl n).Children hsd1
    have hib : (w1.ctrl f).hSpan ≤ innerBucket Dim.X n w1 := by
      unfold innerBucket bucketChildren shownChildren
      have hext : childExtent Dim.X (w1.ctrl n).hasAlignment (w1.ctrl f) = (w1.ctrl f).hSpan :=
        inner_extent _ _ (by rw [hfd1]; decide)
      rw [← hext]
      refine sum_filter_ge
        (fun c => sizeBucket Dim.X (w1.ctrl c).m_dock == SizeBucket.inner)
        (fun c => childExtent Dim.X (w1.ctrl n).hasAlignment (w1.ctrl c))
        ((w1.ctrl n).Children.filter fun c => !(w1.ctrl c).m_bHidden) f ?_ ?_ ?_
      · intro c hc hb
        have hcm := List.mem_of_mem_filter hc
        have hcs : (w1.ctrl c).m_bHidden = false := by
          simpa using (List.mem_filter.1 hc).2
        have hb' : sizeBucket Dim.X (w1.ctrl c).m_dock = SizeBucket.inner := by
          simpa using hb
        show 0 ≤ childExtent Dim.X (w1.ctrl n).hasAlignment (w1.ctrl c)
        rw [inner_extent _ _ hb']
        rw [hch] at hcm
        rw [hhid] at hcs
        have h1 := hpw c hcm hcs
        obtain ⟨h2, h3⟩ := hmar c hcm hcs
        simp only [Control.hSpan, hmg]
        omega
      · exact List.mem_filter.2 ⟨hfm1, by simp [hfs1]⟩
      · simp only [hfd1]
        decide
    have hrawle : dockBucket Dim.X n w1 + innerBucket Dim.X n w1 ≤ acc.raw := by
      rw [hraw]
      exact le_max_right _ _
    simp only [applySizeFlag] at hroom
    rw [hw, hiw, ← hdb, hbd, hpd, hmg]
    simp only [Control.hSpan, hmg] at hib
    omega

/-- C38 on `bucketTree`: the Elastic width computed is 32, the container is 200 wide, and
after the arrangement the Fill child, whose preferred width is 20, is 188 wide. -/
theorem ArrangeHorizontal_fill_keeps_preferred_width_witness :
    ∃ w1 w2, CalculateSize 2 0 Dim.X bucketTree = some w1 ∧
      ArrangeHorizontal 2 0 w1 = some w2 ∧
      (w1.ctrl 0).m_preferredSize.width = 32 ∧ (w1.ctrl 2).m_preferredSize.width = 20 ∧
      (w1.ctrl 2).m_preferredSize.width ≤ (w2.ctrl 2).m_bounds.w ∧
      (w2.ctrl 2).m_bounds.w = 188 := by
  obtain ⟨acc, w0, w1, hloop, hcalc, hel, harr⟩ :=
    ArrangeHorizontal_fill_keeps_preferred_width flatRank flatDepth 2 2 0 bucketTree
      (Forest_ofList _ _ (by decide) (by decide) (by decide)) (by decide)
      (ParentDepth_ofList _ _ (by decide)) (fun x => by unfold flatDepth; split <;> omega)
      (by decide)
      (fun c hc hh => by
        have : ∀ c, c ∈ (bucketTree.ctrl 0).Children → (bucketTree.ctrl c).m_bHidden = false →
            (bucketTree.ctrl c).m_dock ∈ singleDockFlags := by decide
        exact this c hc hh)
      (fun c hc hh => by
        have : ∀ c, c ∈ (bucketTree.ctrl 0).Children → (bucketTree.ctrl c).m_bHidden = false →
            0 ≤ (bucketTree.ctrl c).m_margin.left ∧ 0 ≤ (bucketTree.ctrl c).m_margin.right := by
          decide
        exact this c hc hh)
  have hv : (CalculateSize 2 0 Dim.X bucketTree).map (fun v =>
      ((v.ctrl 0).m_preferredSize.width,
        [1, 2, 3, 4].map fun c => (v.ctrl c).m_preferredSize.width)) =
      some (32, [10, 20, 25, 0]) := by decide
  rw [hcalc] at hv
  simp only [Option.map_some', Option.some.injEq, Prod.mk.injEq, List.map_cons, List.map_nil,
    List.cons.injEq, and_true] at hv
  obtain ⟨p0, p1, p2, p3, p4⟩ := hv
  have ha : (sizeLoop (fun child => CalculateSize (2 - 1) child Dim.X) Dim.X
      (bucketTree.ctrl 0).hasAlignment (bucketTree.ctrl 0).Children {} bucketTree).map
      (fun p => p.1.raw) = some 30 := by decide
  rw [hloop] at ha
  simp only [Option.map_some', Option.some.injEq] at ha
  obtain ⟨w2, h2, hfill⟩ := harr
    (fun c hc _ => by
      have hc' : c = 1 ∨ c = 2 ∨ c = 3 ∨ c = 4 := by
        have : (bucketTree.ctrl 0).Children = [1, 2, 3, 4] := by decide
        rw [this] at hc
        simpa using hc
      rcases hc' with rfl | rfl | rfl | rfl
      · omega
      · omega
      · omega
      · omega)
    (by
      simp only [applySizeFlag, ha]
      decide)
  have hw : ((CalculateSize 2 0 Dim.X bucketTree).bind (ArrangeHorizontal 2 0)).map
      (fun v => (v.ctrl 2).m_bounds.w) = some 188 := by decide
  rw [hcalc] at hw
  simp only [Option.some_bind, h2, Option.map_some', Option.some.injEq] at hw
  refine ⟨w1, w2, hcalc, h2, p0, p2, hfill 2 (by decide) (by decide) (by decide), hw⟩

end FillRoom

section HitTransform

theorem CanvasPosToLocal_mono (w : World) :
    ∀ (k n : Nat) (p q : Point), CanvasPosToLocal k n p w = some q →
      CanvasPosToLocal (k + 1) n p w = some q := by
  intro k
  induction k with
  | zero => intro n p q h; simp [CanvasPosToLocal] at h
  | succ j ih =>
    intro n p q h
    rw [CanvasPosToLocal] at h ⊢
    cases hp : (w.ctrl n).m_parent with
    | none => rw [hp] at h; exact h
    | some parent =>
      rw [hp] at h
      exact ih parent _ q h

/-- In a tree without inner panels the transform of a child is the transform of its
parent moved by the position of the child. -/
theorem CanvasPosToLocal_child (d : Nat → Nat) (w : World) (hd : ParentDepth w d)
    (cf : Nat) (hcf : ∀ x, d x < cf) (c ch : Nat) (hp : (w.ctrl ch).m_parent = some c)
    (hni : (w.ctrl c).m_innerPanel = none) (p q : Point)
    (h : CanvasPosToLocal cf c p w = some q) :
    CanvasPosToLocal cf ch p w =
      some { x := q.x - (w.ctrl ch).m_bounds.x, y := q.y - (w.ctrl ch).m_bounds.y } := by
  obtain ⟨j, rfl⟩ : ∃ j, cf = j + 1 := ⟨cf - 1, by have := hcf ch; omega⟩
  have hlt : d c < j := by
    have h1 := hd ch c hp
    have h2 := hcf ch
    omega
  obtain ⟨off, hoff⟩ := transforms_offset d w hd j c hlt
  have h1 := CanvasPosToLocal_mono w j c p _ (hoff p).2
  rw [h] at h1
  simp only [Option.some.injEq] at h1
  subst h1
  rw [CanvasPosToLocal, hp]
  simp only [innerPanelOffset, hni]
  rw [(hoff _).2]
  simp only [Option.some.injEq, Point.mk.injEq]
  constructor <;> ring

/-- A hit of `GetControlAt`, called on `c` at the local image of the canvas point `p`, lies
below controls whose local image of `p` is inside their bounds. -/
theorem GetControlAt_local (r d : Nat → Nat) (f : Bool) (w : World) (hr : ChildRank w r)
    (hd : ParentDepth w d) (cf : Nat) (hcf : ∀ x, d x < cf)
    (hlink : ∀ p c, c ∈ (w.ctrl p).Children → (w.ctrl c).m_parent = some p)
    (hni : ∀ m, (w.ctrl m).m_innerPanel = none) (n : Nat) (p : Point) :
    ∀ (fuel c : Nat) (lx ly : Int),
      GetControlAt fuel c lx ly f w = some (some n) →
      CanvasPosToLocal cf c p w = some { x := lx, y := ly } →
      ∀ m, Sub w c m → Sub w m n →
        ∃ q, CanvasPosToLocal cf m p w = some q ∧
          0 ≤ q.x ∧ q.x < (w.ctrl m).m_bounds.w ∧ 0 ≤ q.y ∧ q.y < (w.ctrl m).m_bounds.h := by
  have hsingle : SingleParent w := by
    intro a b c ha hb
    have h1 := hlink a c ha
    have h2 := hlink b c hb
    rw [h1] at h2
    exact Option.some.inj h2
  intro fuel
  induction fuel with
  | zero => intro c lx ly h; simp [GetControlAt] at h
  | succ k ih =>
    intro c lx ly hhit hloc m hcm hmn
    by_cases hh : (w.ctrl c).m_bHidden = true
    · simp [GetControlAt, hh] at hhit
    have hshown : (w.ctrl c).m_bHidden = false := by simpa using hh
    by_cases hout : lx < 0 ∨ ly < 0 ∨ lx ≥ (w.ctrl c).m_bounds.w ∨ ly ≥ (w.ctrl c).m_bounds.h
    · simp [GetControlAt, hshown, hout] at hhit
    have hin : 0 ≤ lx ∧ 0 ≤ ly ∧ lx < (w.ctrl c).m_bounds.w ∧ ly < (w.ctrl c).m_bounds.h := by
      refine ⟨?_, ?_, ?_, ?_⟩ <;> by_contra hc <;> exact hout (by omega)
    have hself : ∃ q, CanvasPosToLocal cf c p w = some q ∧
        0 ≤ q.x ∧ q.x < (w.ctrl c).m_bounds.w ∧ 0 ≤ q.y ∧ q.y < (w.ctrl c).m_bounds.h :=
      ⟨_, hloc, hin.1, hin.2.2.1, hin.2.1, hin.2.2.2⟩
    rw [GetControlAt_inside k c lx ly f w hshown hin.1 hin.2.1 hin.2.2.1 hin.2.2.2] at hhit
    cases hl : hitLoop (fun child cx cy => GetControlAt k child cx cy f w) w lx ly
        (w.ctrl c).Children.reverse with
    | none => rw [hl] at hhit; simp at hhit
    | some res =>
      cases res with
      | some found =>
        rw [hl] at hhit
        simp only [Option.some.injEq] at hhit
        subst hhit
        obtain ⟨ch, hchm, hch⟩ := hitLoop_found _ w lx ly _ found hl
        have hchc : ch ∈ (w.ctrl c).Children := List.mem_reverse.1 hchm
        have hlocch := CanvasPosToLocal_child d w hd cf hcf c ch (hlink c ch hchc) (hni c) p _
          hloc
        have hsubn : Sub w ch found := ShownPath_sub (GetControlAt_found f w k ch _ _ found hch).1
        rcases Sub_cases.1 hcm with rfl | ⟨c1, hc1, hc1m⟩
        · exact hself
        · have hc1n : Sub w c1 found := Sub_trans hc1m hmn
          have heq : c1 = ch := siblings_disjoint hr hsingle hc1 hchc hc1n hsubn
          subst heq
          exact ih c1 _ _ hch hlocch m hc1m hmn
      | none =>
        rw [hl] at hhit
        simp only at hhit
        split at hhit
        · simp at hhit
        · simp only [Option.some.injEq] at hhit
          subst hhit
          have : c = m := Sub_antisymm hr hcm hmn
          subst this
          exact hself

/-- C39: in a tree without inner panels in which every listed control has its lister as
logical parent (acyclic child lists and parent chains), with a root `root` that has no
parent: if `root.GetControlAt(x, y, f)` returns the control `n`, then for every control `m`
on the path from `root` to `n`, `n` included, `m.CanvasPosToLocal((x, y))` returns a point
`(x', y')` with `0 <= x' < m.width` and `0 <= y' < m.height`. -/
theorem GetControlAt_agrees_with_CanvasPosToLocal (r d : Nat → Nat) (f : Bool) (w : World)
    (fuel cf root n : Nat) (x y : Int)
    (hr : ChildRank w r) (hd : ParentDepth w d) (hcf : ∀ m, d m < cf)
    (hlink : ∀ p c, c ∈ (w.ctrl p).Children → (w.ctrl c).m_parent = some p)
    (hni : ∀ m, (w.ctrl m).m_innerPanel = none)
    (hroot : (w.ctrl root).m_parent = none)
    (hhit : GetControlAt fuel root x y f w = some (some n)) :
    Sub w root n ∧
    ∀ m, Sub w root m → Sub w m n →
      ∃ q, CanvasPosToLocal cf m { x := x, y := y } w = some q ∧
        0 ≤ q.x ∧ q.x < (w.ctrl m).m_bounds.w ∧ 0 ≤ q.y ∧ q.y < (w.ctrl m).m_bounds.h := by
  have hloc : CanvasPosToLocal cf root { x := x, y := y } w = some { x := x, y := y } := by
    obtain ⟨j, rfl⟩ : ∃ j, cf = j + 1 := ⟨cf - 1, by have := hcf root; omega⟩
    simp [CanvasPosToLocal, hroot]
  exact ⟨ShownPath_sub (GetControlAt_found f w fuel root x y n hhit).1,
    GetControlAt_local r d f w hr hd cf hcf hlink hni n { x := x, y := y } fuel root x y hhit
      hloc⟩

end HitTransform
section HitTransformWitness

theorem GetControlAt_agrees_with_CanvasPosToLocal_witness :
    GetControlAt 3 0 50 20 false hitTree = some (some 4) ∧
    (hitTree.ctrl 0).m_parent = none ∧
    CanvasPosToLocal 3 4 { x := 50, y := 20 } hitTree = some { x := 20, y := 10 } ∧
    (Sub hitTree 0 4 ∧
    ∀ m, Sub hitTree 0 m → Sub hitTree m 4 →
      ∃ q, CanvasPosToLocal 3 m { x := 50, y := 20 } hitTree = some q ∧
        0 ≤ q.x ∧ q.x < (hitTree.ctrl m).m_bounds.w ∧
        0 ≤ q.y ∧ q.y < (hitTree.ctrl m).m_bounds.h) :=
  ⟨by decide, by decide, by decide,
    GetControlAt_agrees_with_CanvasPosToLocal twoLevelRank hitDepth false hitTree 3 3 0 4 50 20
      (ChildRank_ofList _ _ (by decide)) (ParentDepth_ofList _ _ (by decide))
      (fun m => by unfold hitDepth; split_ifs <;> omega)
      (ofList_forall _ (fun p k => ∀ c, c ∈ k.Children → (hitTree.ctrl c).m_parent = some p)
        (fun _ c hc => by simp at hc) (by decide))
      (ofList_forall _ (fun _ k => k.m_innerPanel = none) (fun _ => rfl) (by decide))
      (by decide) (by decide)⟩

end HitTransformWitness

section ZOrderMoves

end ZOrderMoves

section ZOrderPermutation

end ZOrderPermutation
section ZOrderPermutationWitness

end ZOrderPermutationWitness

end Gwk
